import Mathlib

/-!
# NDNph: VAR-NUMBER codec and backward TLV encoder

A shallow embedding of `src/ndnph/tlv/varnum.hpp` and `src/ndnph/tlv/encoder.hpp`.

* Memory is a total map from addresses to bytes; a pointer is an address, `nullptr` is 0.
* `uint32_t` values are natural numbers below `2 ^ 32`; `size_t` and pointers are 64-bit
  words (the host build), `ssize_t` is the two's complement reading of a 64-bit word.
* A function that writes through a pointer takes the memory and returns the new memory.
-/

namespace ndnph

/-- One octet. -/
abbrev Byte := Fin 256

/-- Memory: address to octet. -/
abbrev Mem := Nat → Byte

/-- Conversion to `uint8_t` (keeps the low 8 bits). -/
def toByte (n : Nat) : Byte := ⟨n % 256, Nat.mod_lt n (by decide)⟩

/-- The assignment `p[0] = v` on memory. -/
def Mem.set (mem : Mem) (p : Nat) (v : Byte) : Mem :=
  fun a => if a = p then v else mem a

/-- The `len` octets found at `p`, `p + 1`, ... -/
def Mem.read (mem : Mem) (p : Nat) (len : Nat) : List Byte :=
  (List.range len).map (fun i => mem (p + i))

/-- Memory holding the octets `bs` from address `p` on, zero elsewhere (for examples). -/
def Mem.ofList (p : Nat) (bs : List Byte) : Mem :=
  fun a => if p ≤ a then bs.getD (a - p) 0 else 0

namespace tlv

/-- Compute size of VAR-NUMBER (`sizeofVarNum`). -/
def sizeofVarNum (n : Nat) : Nat :=
  if n < 0xFD then 1 else if n ≤ 0xFFFF then 3 else 5

/-- Write VAR-NUMBER (`writeVarNum`): stores through `room` and returns the memory. -/
def writeVarNum (mem : Mem) (room : Nat) (n : Nat) : Mem :=
  if n < 0xFD then
    mem.set room (toByte n)
  else if n ≤ 0xFFFF then
    ((mem.set room 0xFD).set (room + 1) (toByte (n >>> 8))).set (room + 2) (toByte (n >>> 0))
  else
    ((((mem.set room 0xFE).set (room + 1) (toByte (n >>> 24))).set (room + 2)
      (toByte (n >>> 16))).set (room + 3) (toByte (n >>> 8))).set (room + 4) (toByte (n >>> 0))

/-- Read VAR-NUMBER (`readVarNum`): returns the consumed bytes (0 upon error) and the
content of the out-parameter `n`, which keeps its old value `n0` when nothing is read. -/
def readVarNum (mem : Mem) (input : Nat) (size : Nat) (n0 : Nat) : Nat × Nat :=
  if size ≥ 1 ∧ (mem input).val < 0xFD then
    (1, (mem input).val)
  else if size ≥ 3 ∧ (mem input).val = 0xFD then
    (3, (((mem (input + 1)).val <<< 8) ||| (mem (input + 2)).val) % 2 ^ 32)
  else if size ≥ 5 ∧ (mem input).val = 0xFE then
    (5, (((mem (input + 1)).val <<< 24) ||| ((mem (input + 2)).val <<< 16) |||
          ((mem (input + 3)).val <<< 8) ||| (mem (input + 4)).val) % 2 ^ 32)
  else
    (0, n0)

/-- The VAR-NUMBER encoding as the specification words it: the value itself in one octet
below 0xFD, else the marker 0xFD and two big-endian octets up to 0xFFFF, else the marker
0xFE and four big-endian octets. -/
def varNumBytes (n : Nat) : List Byte :=
  if n < 0xFD then [toByte n]
  else if n ≤ 0xFFFF then [0xFD, toByte (n / 256), toByte n]
  else [0xFE, toByte (n / 16777216), toByte (n / 65536), toByte (n / 256), toByte n]

/-- The number a sequence of octets denotes when read big-endian (most significant
octet first), as the specification words the VAR-NUMBER payload. -/
def beValue (bs : List Byte) : Nat :=
  bs.foldl (fun acc b => acc * 256 + b.val) 0

end tlv

/-! ## Backward encoder (`tlv/encoder.hpp`) -/

/-- The `std::copy_n(value, length, room)` of `bs` to `room`, octet by octet. -/
def Mem.copy (mem : Mem) (room : Nat) : List Byte → Mem
  | [] => mem
  | b :: bs => (mem.set room b).copy (room + 1) bs

/-- Conversion of a pointer difference or offset to `size_t` or to a pointer: the residue
modulo `2 ^ 64`. -/
def toSize (i : Int) : Nat := (i % 2 ^ 64).toNat

/-- The cast `static_cast<ssize_t>(size)`: the two's complement reading of a 64-bit
word. -/
def toSsize (size : Nat) : Int :=
  if size % 2 ^ 64 < 2 ^ 63 then ((size % 2 ^ 64 : Nat) : Int)
  else ((size % 2 ^ 64 : Nat) : Int) - 2 ^ 64

/-- Modelled from the spec: `core/region.hpp` is not among the sources. A bump allocator
over a fixed buffer `[m_begin, m_end)`: the front end is taken up to `m_left`, the back end
from `m_right` on, and `available` is the gap between them. -/
structure Region where
  m_begin : Nat
  m_left : Nat
  m_right : Nat
  m_end : Nat
deriving DecidableEq, Repr

/-- Modelled from the spec: the live gap of the region. -/
def Region.available (r : Region) : Nat := r.m_right - r.m_left

/-- Modelled from the spec: `free(ptr, size)` is a hint honoured only for the most recent
allocation on the relevant end, that is when `[ptr, ptr + size)` starts the back end or
finishes the front end; otherwise the region is left as it is. No octet is written. -/
def Region.free (r : Region) (ptr size : Nat) : Region :=
  if ptr = r.m_right ∧ r.m_right + size ≤ r.m_end then { r with m_right := r.m_right + size }
  else if ptr + size = r.m_left ∧ r.m_begin ≤ ptr then { r with m_left := ptr }
  else r

/-- TLV encoder that accepts items in reverse order (`class Encoder`). The field `m_region`
holds the state of the pointed-to Region, `none` for a null pointer; `mem` is the address
space into which the encoder writes. -/
structure Encoder where
  m_region : Option Region := none
  m_buf : Nat := 0
  m_pos : Nat := 0
  m_end : Nat := 0
  mem : Mem

namespace Encoder

/-- The private `init(buf, capacity)` behind the constructor `Encoder(buf, capacity)`. -/
def init (mem : Mem) (buf capacity : Nat) : Encoder :=
  { m_region := none, m_buf := buf, m_pos := buf + capacity, m_end := buf + capacity,
    mem := mem }

/-- Whether an error has occurred (`operator!`). -/
def operatorNot (e : Encoder) : Bool := e.m_pos == 0

/-- Get output begin (`begin()`). -/
def begin_ (e : Encoder) : Nat := e.m_pos

/-- Get output end (`end()`). -/
def end_ (e : Encoder) : Nat := if e.m_pos = 0 then 0 else e.m_end

/-- Get output size (`size()`). -/
def size (e : Encoder) : Nat :=
  if e.m_pos = 0 then 0 else toSize ((e.m_end : Int) - (e.m_pos : Int))

/-- The octets of the output range `[begin(), end())`. -/
def output (e : Encoder) : List Byte := e.mem.read e.begin_ e.size

/-- Release unused space to the Region (`trim()`). -/
def trim (e : Encoder) : Encoder :=
  match e.m_region with
  | none => e
  | some r =>
    { e with
      m_region := some (r.free e.m_buf
        (toSize (((if e.m_pos = 0 then e.m_end else e.m_pos : Nat) : Int) - (e.m_buf : Int)))),
      m_buf := e.m_pos }

/-- Release all space to the Region (`discard()`). -/
def discard (e : Encoder) : Encoder :=
  match e.m_region with
  | none => e
  | some r =>
    if e.m_buf = 0 then e
    else
      { e with
        m_region := some (r.free e.m_buf (toSize ((e.m_end : Int) - (e.m_buf : Int)))),
        m_buf := 0, m_pos := 0, m_end := 0 }

/-- Make room to prepend an object (`prependRoom`): returns the room, or 0 for `nullptr`,
and the encoder afterwards. -/
def prependRoom (e : Encoder) (size : Nat) : Nat × Encoder :=
  if e.m_pos = 0 ∨ (e.m_pos : Int) - (e.m_buf : Int) < toSsize size then
    (0, { e with m_pos := 0 })
  else
    (toSize ((e.m_pos : Int) - (size : Int)),
      { e with m_pos := toSize ((e.m_pos : Int) - (size : Int)) })

/-- Prepend TLV-TYPE and TLV-LENGTH (`prependTypeLength`); `length` is a `size_t` that the
VAR-NUMBER functions receive converted to `uint32_t`. -/
def prependTypeLength (e : Encoder) (type length : Nat) : Bool × Encoder :=
  let sizeT := tlv.sizeofVarNum type
  let sizeL := tlv.sizeofVarNum (length % 2 ^ 32)
  let r := e.prependRoom (sizeT + sizeL)
  if r.1 = 0 then
    (false, r.2)
  else
    (true, { r.2 with
      mem := tlv.writeVarNum (tlv.writeVarNum r.2.mem r.1 type) (r.1 + sizeT) (length % 2 ^ 32) })

end Encoder

/-- An argument of `prepend`: either a closure `[] (Encoder&) -> void` or an object of a
class with a method `void encodeTo(Encoder&) const`. -/
inductive Item where
  | func (encodeFunc : Encoder → Encoder)
  | encodable (encodeTo : Encoder → Encoder)

/-- Raw buffer to prepend (`Encoder::Value`): `bytes` are the `m_length` octets viewed at
`m_value`, which lie outside the room of the encoder. -/
structure Value where
  bytes : List Byte
deriving DecidableEq, Repr

/-- The field `m_length` of a Value. -/
def Value.m_length (v : Value) : Nat := v.bytes.length

/-- The method `Value::encodeTo`. -/
def Value.encodeTo (v : Value) (encoder : Encoder) : Encoder :=
  let r := encoder.prependRoom v.m_length
  if r.1 ≠ 0 then { r.2 with mem := r.2.mem.copy r.1 v.bytes } else r.2

/-- A Value as an argument of `prepend`. -/
def Value.item (v : Value) : Item := Item.encodable v.encodeTo

/-- The tag `OmitEmptyTag`. -/
inductive OmitEmptyTag where
  | NoOmitEmpty
  | OmitEmpty
deriving DecidableEq, Repr

namespace Encoder

/-- The two overloads of `prependOne`: call the closure, or call `encodeTo`. -/
def prependOne (e : Encoder) : Item → Encoder
  | Item.func encodeFunc => encodeFunc e
  | Item.encodable encodeTo => encodeTo e

/-- Prepend a sequence of values (`prepend`): the remaining arguments first, then the first
one; the result is `!!*this`, and `true` for no argument at all. -/
def prepend (e : Encoder) : List Item → Bool × Encoder
  | [] => (true, e)
  | first :: arg =>
    let e1 := (e.prepend arg).2
    let e2 := e1.prependOne first
    (!e2.operatorNot, e2)

/-- Prepend TLV, measuring TLV-LENGTH automatically (`prependTlv`). -/
def prependTlv (e : Encoder) (type : Nat) (omitEmpty : OmitEmptyTag) (arg : List Item) :
    Bool × Encoder :=
  let after := e.m_pos
  let r := e.prepend arg
  let length := toSize ((after : Int) - (r.2.m_pos : Int))
  if length = 0 ∧ omitEmpty = OmitEmptyTag.OmitEmpty then
    (r.1, r.2)
  else if r.1 then
    r.2.prependTypeLength type length
  else
    (false, r.2)

/-- A live encoder over a real buffer: not in error, `m_buf ≤ m_pos ≤ m_end`, and the
buffer is an object of the address space (non-null, shorter than `2 ^ 63`, below
`2 ^ 64`). -/
def Valid (e : Encoder) : Prop :=
  e.m_buf ≠ 0 ∧ e.m_buf ≤ e.m_pos ∧ e.m_pos ≤ e.m_end ∧ e.m_end - e.m_buf < 2 ^ 63 ∧
    e.m_end < 2 ^ 64

instance (e : Encoder) : Decidable e.Valid := by
  unfold Valid
  infer_instance

/-- The encoder after `bs` has been prepended: `m_pos` moved down by the length of `bs`,
the room holding `bs`, nothing else changed. -/
def prepended (e : Encoder) (bs : List Byte) : Encoder :=
  { e with m_pos := e.m_pos - bs.length, mem := e.mem.copy (e.m_pos - bs.length) bs }

end Encoder

/-- The contract of an item that encodes to `bs`: on every live encoder with at least
`bs.length` octets of headroom it prepends exactly `bs`. -/
def Item.Writes (it : Item) (bs : List Byte) : Prop :=
  ∀ e : Encoder, e.Valid → bs.length ≤ e.m_pos - e.m_buf → e.prependOne it = e.prepended bs

/-- An item keeps the error state: on an encoder in error it leaves `m_pos` null and
writes no octet. -/
def Item.Sticky (it : Item) : Prop :=
  ∀ e : Encoder, e.m_pos = 0 → (e.prependOne it).m_pos = 0 ∧ (e.prependOne it).mem = e.mem

/-- A call of the public interface of the encoder. -/
inductive Op where
  | prependRoom (size : Nat)
  | prependTypeLength (type length : Nat)
  | prepend (arg : List Item)
  | prependTlv (type : Nat) (omitEmpty : OmitEmptyTag) (arg : List Item)
  | trim

/-- The items handed to the encoder by a call. -/
def Op.items : Op → List Item
  | Op.prepend arg => arg
  | Op.prependTlv _ _ arg => arg
  | _ => []

/-- The encoder after one call (return values dropped). -/
def Encoder.step (e : Encoder) : Op → Encoder
  | Op.prependRoom size => (e.prependRoom size).2
  | Op.prependTypeLength type length => (e.prependTypeLength type length).2
  | Op.prepend arg => (e.prepend arg).2
  | Op.prependTlv type omitEmpty arg => (e.prependTlv type omitEmpty arg).2
  | Op.trim => e.trim

/-- The encoder after a sequence of calls, first call first. -/
def Encoder.run (e : Encoder) (ops : List Op) : Encoder := ops.foldl Encoder.step e

/-! ## Packet layer (`packet/interest.hpp`)

The headers that `interest.hpp` includes but that are not among the sources (TLV-TYPE
numbers, NNI, Name, SigInfo, the decoder, the keys and the crypto port) are modelled from the
specification or taken as parameters; each such definition says so. -/

namespace Encoder

/-- Modelled from the spec: `setError()`, called by `packet/interest.hpp` and absent from the
`encoder.hpp` among the sources, puts the encoder into the sticky error state. -/
def setError (e : Encoder) : Encoder := { e with m_pos := 0 }

/-- Modelled from the spec: `resetFront(pos)`, called by `packet/interest.hpp` and absent
from the `encoder.hpp` among the sources, moves the front of the output to `pos`. -/
def resetFront (e : Encoder) (pos : Nat) : Encoder := { e with m_pos := pos }

end Encoder

/-- An item leaves the field `m_end` of the encoder alone. -/
def Item.KeepsEnd (it : Item) : Prop :=
  ∀ e : Encoder, (e.prependOne it).m_end = e.m_end

/-- The `std::copy_backward(first, last, d_last)`: octets are moved one by one, the last
one first, so that `[first, last)` ends at `d_last`. -/
def Mem.copy_backward (mem : Mem) (first : Nat) : Nat → Nat → Mem
  | 0, _ => mem
  | n + 1, d_last => (mem.set (d_last - 1) (mem (first + n))).copy_backward first n (d_last - 1)

namespace TT

/-- Modelled from the spec: TLV-TYPE number of Name (§6). -/
def Name : Nat := 0x07

/-- Modelled from the spec: TLV-TYPE number of GenericNameComponent (§6). -/
def GenericNameComponent : Nat := 0x08

/-- Modelled from the spec: TLV-TYPE number of ImplicitSha256DigestComponent (§6). -/
def ImplicitSha256DigestComponent : Nat := 0x01

/-- Modelled from the spec: TLV-TYPE number of ParametersSha256DigestComponent (§6). -/
def ParametersSha256DigestComponent : Nat := 0x02

/-- Modelled from the spec: TLV-TYPE number of Interest (§6). -/
def Interest : Nat := 0x05

/-- Modelled from the spec: TLV-TYPE number of CanBePrefix (§6). -/
def CanBePrefix : Nat := 0x21

/-- Modelled from the spec: TLV-TYPE number of MustBeFresh (§6). -/
def MustBeFresh : Nat := 0x12

/-- Modelled from the spec: TLV-TYPE number of Nonce (§6). -/
def Nonce : Nat := 0x0A

/-- Modelled from the spec: TLV-TYPE number of InterestLifetime (§6). -/
def InterestLifetime : Nat := 0x0C

/-- Modelled from the spec: TLV-TYPE number of HopLimit (§6). -/
def HopLimit : Nat := 0x22

/-- Modelled from the spec: TLV-TYPE number of AppParameters (§6). -/
def AppParameters : Nat := 0x24

/-- Modelled from the spec: TLV-TYPE number of ISigInfo (§6). -/
def ISigInfo : Nat := 0x2C

/-- Modelled from the spec: TLV-TYPE number of ISigValue (§6). -/
def ISigValue : Nat := 0x2E

end TT

/-- The value `NDNPH_SHA256_LEN` of `core/common.hpp`. -/
def NDNPH_SHA256_LEN : Nat := 32

/-- The octets of one TLV element: TLV-TYPE and TLV-LENGTH as VAR-NUMBERs, then the
TLV-VALUE, as the specification words the wire format. -/
def tlvBytes (type : Nat) (value : List Byte) : List Byte :=
  tlv.varNumBytes type ++ tlv.varNumBytes value.length ++ value

namespace tlv

/-- Modelled from the spec: `tlv/nni.hpp` is not among the sources. `NNI1(n)` encodes a
non-negative integer in the fixed width of one octet. -/
def NNI1 (n : Nat) : Value := ⟨[toByte n]⟩

/-- Modelled from the spec: `tlv/nni.hpp` is not among the sources. `NNI4(n)` encodes a
non-negative integer in the fixed width of four octets, big-endian. -/
def NNI4 (n : Nat) : Value :=
  ⟨[toByte (n / 16777216), toByte (n / 65536), toByte (n / 256), toByte n]⟩

end tlv

/-- Modelled from the spec: `packet/component.hpp` is not among the sources. A name
component is its TLV-TYPE and its TLV-VALUE. -/
structure Component where
  type : Nat
  value : List Byte
deriving DecidableEq, Repr

namespace Component

/-- Modelled from the spec: the TLV-LENGTH of the component (`length()`). -/
def length (c : Component) : Nat := c.value.length

/-- Modelled from the spec: the raw `(type, length, value)` octets of the component
(`tlv()`). -/
def tlv (c : Component) : List Byte := tlvBytes c.type c.value

/-- Modelled from the spec: the number of raw octets of the component (`size()`). -/
def size (c : Component) : Nat := c.tlv.length

/-- Modelled from the spec: the falsy component returned by an out-of-range access. -/
def falsy : Component := ⟨0, []⟩

/-- Modelled from the spec: the order of two components, the lexicographic comparison of
`(type, value)`. -/
def lt (a b : Component) : Bool :=
  decide (a.type < b.type) || (decide (a.type = b.type) &&
    decide ((a.value.map Fin.val) < (b.value.map Fin.val)))

end Component

/-- Modelled from the spec: `packet/name.hpp` is not among the sources. A name is the
sequence of its components; its TLV-VALUE is the concatenation of their octets. -/
structure Name where
  comps : List Component
deriving DecidableEq, Repr

namespace Name

/-- Modelled from the spec: the result of `compare`. -/
inductive CompareResult where
  | CMP_LT
  | CMP_LPREFIX
  | CMP_EQUAL
  | CMP_RPREFIX
  | CMP_GT
deriving DecidableEq, Repr

/-- Modelled from the spec: the component count (`size()`). -/
def size (n : Name) : Nat := n.comps.length

/-- Modelled from the spec: the TLV-VALUE of the name (`value()`, `length()` octets). -/
def value (n : Name) : List Byte := (n.comps.map Component.tlv).flatten

/-- Modelled from the spec: the length of the TLV-VALUE (`length()`). -/
def length (n : Name) : Nat := n.value.length

/-- Modelled from the spec: indexed access (`operator[]`); a negative index `i` is
`size() + i`, out of range gives a falsy component. -/
def get (n : Name) (i : Int) : Component :=
  if 0 ≤ (if i < 0 then i + n.size else i) ∧ (if i < 0 then i + n.size else i) < n.size then
    n.comps.getD (if i < 0 then i + n.size else i).toNat Component.falsy
  else Component.falsy

/-- Modelled from the spec: `slice(first, last)`, the components with index in
`[first, last)`; a negative index counts from the end, and `last` left out (`none`) is the
end of the name. -/
def slice (n : Name) (first : Int) (last : Option Int := none) : Name :=
  ⟨(n.comps.take
      (match last with
        | none => n.size
        | some l => (if l < 0 then l + n.size else l).toNat)).drop
    (if first < 0 then first + n.size else first).toNat⟩

/-- Modelled from the spec: `getPrefix(n)` is `slice(0, n)`. -/
def getPrefix (n : Name) (k : Int) : Name := n.slice 0 (some k)

/-- Modelled from the spec: `compare` walks component by component; equal components
continue, the first difference yields LT or GT, reaching the end of one side yields LPREFIX
(self is a prefix of other) or RPREFIX (other is a prefix of self). -/
def compareComps : List Component → List Component → CompareResult
  | [], [] => CompareResult.CMP_EQUAL
  | [], _ :: _ => CompareResult.CMP_LPREFIX
  | _ :: _, [] => CompareResult.CMP_RPREFIX
  | a :: as, b :: bs =>
    if a = b then compareComps as bs
    else if a.lt b then CompareResult.CMP_LT else CompareResult.CMP_GT

/-- Modelled from the spec: `compare(other)`. -/
def compare (n other : Name) : CompareResult := compareComps n.comps other.comps

/-- Modelled from the spec: a Name is an encodable; it prepends the Name TLV around its
TLV-VALUE. -/
def encodeTo (n : Name) (encoder : Encoder) : Encoder :=
  (encoder.prependTlv TT.Name OmitEmptyTag.NoOmitEmpty [(Value.mk n.value).item]).2

end Name

/-- Modelled from the spec: `packet/convention.hpp` is not among the sources.
`comp.is<convention::ImplicitDigest>()` holds for an ImplicitSha256DigestComponent, type
0x01 with a value of 32 octets. -/
def convention.ImplicitDigest.match_ (comp : Component) : Bool :=
  comp.type == TT.ImplicitSha256DigestComponent && comp.length == NDNPH_SHA256_LEN

/-- Modelled from the spec: `port::TimingSafeEqual()(a, aLen, b, bLen)` compares two slices
in constant time; slices of unequal length are unequal. -/
def TimingSafeEqual (a b : List Byte) : Bool := decide (a = b)

/-- Modelled from the spec: signature information (`packet/sig-info.hpp` is not among the
sources): signature type, key name, and the opaque octets of the other fields. -/
structure SigInfo where
  sigType : Nat := 0
  name : Name := ⟨[]⟩
  extensions : List Byte := []
deriving DecidableEq, Repr

/-- Modelled from the spec: the platform ports (§6) and the codec helpers whose headers are
not among the sources, taken as parameters.
* `sha256 m` is `port::Sha256` fed with `m`: the digest, or `none` when `final` fails;
* `nni n` are the octets that `tlv::NNI(n)` prepends, `nniDecode` what `defNni` reads back;
* `sigInfoValue s` is the TLV-VALUE of the ISigInfo element that `s` encodes to, and
  `sigInfoDecode` is `ISigInfo::decodeFrom` on such a TLV-VALUE. -/
structure Port where
  sha256 : List Byte → Option (List Byte)
  nni : Nat → List Byte
  nniDecode : List Byte → Option Nat
  sigInfoValue : SigInfo → List Byte
  sigInfoDecode : List Byte → Option SigInfo

/-- A view `(begin, size)` of octets in memory: a `tlv::Value` taken of the buffer that is
being encoded or decoded. -/
structure Slice where
  begin_ : Nat := 0
  size : Nat := 0
deriving DecidableEq, Repr

/-- The octets a view covers in memory `mem`. -/
def Slice.bytes (s : Slice) (mem : Mem) : List Byte := mem.read s.begin_ s.size

/-- Modelled from the spec: a private key is the set of operations `updateSigInfo`,
`getMaxSigLen` and `sign` (`keychain/private-key.hpp` is not among the sources); `sign`
takes the chunks and gives the signature it writes, `none` for a negative return. -/
structure PrivateKey where
  updateSigInfo : SigInfo → SigInfo
  getMaxSigLen : Nat
  sign : List (List Byte) → Option (List Byte)

/-- Modelled from the spec: a public key is the operation `verify(chunks, sig)`
(`keychain/public-key.hpp` is not among the sources). -/
structure PublicKey where
  verify : List (List Byte) → List Byte → Bool

/-- Modelled from the spec: an ISigInfo is an encodable; it prepends the ISigInfo TLV around
the TLV-VALUE given by the port. -/
def SigInfo.encodeTo (P : Port) (s : SigInfo) (encoder : Encoder) : Encoder :=
  (encoder.prependTlv TT.ISigInfo OmitEmptyTag.NoOmitEmpty
    [(Value.mk (P.sigInfoValue s)).item]).2

namespace detail

/-- Fields in parameterized/signed Interest (`InterestParams`). -/
structure InterestParams where
  appParameters : Slice := {}
  sigInfo : SigInfo := {}
  sigValue : Slice := {}
  signedParams : Slice := {}
  allParams : Slice := {}
deriving DecidableEq, Repr

/-- Fields in Interest or Nack (`InterestObj`); `params` is `none` for a null pointer. The
nonce, which the constructor draws at random, is a field like the others. -/
structure InterestObj where
  params : Option InterestParams := none
  name : Name := ⟨[]⟩
  nonce : Nat := 0
  lifetime : Nat := 4000
  hopLimit : Nat := 0xFF
  canBePrefix : Bool := false
  mustBeFresh : Bool := false
  nackReason : Nat := 0
deriving DecidableEq, Repr

/-- The enumerator `InterestObj::DefaultLifetime`. -/
def InterestObj.DefaultLifetime : Nat := 4000

/-- The enumerator `InterestObj::MaxHopLimit`. -/
def InterestObj.MaxHopLimit : Nat := 0xFF

namespace InterestRefBase

/-- The method `encodeMiddle`: CanBePrefix, MustBeFresh, Nonce, InterestLifetime and
HopLimit, each behind its condition. -/
def encodeMiddle (P : Port) (obj : InterestObj) (encoder : Encoder) : Encoder :=
  (encoder.prepend
    [Item.func (fun encoder =>
        if obj.canBePrefix then
          (encoder.prependTlv TT.CanBePrefix OmitEmptyTag.NoOmitEmpty []).2
        else encoder),
      Item.func (fun encoder =>
        if obj.mustBeFresh then
          (encoder.prependTlv TT.MustBeFresh OmitEmptyTag.NoOmitEmpty []).2
        else encoder),
      Item.func (fun encoder =>
        (encoder.prependTlv TT.Nonce OmitEmptyTag.NoOmitEmpty [(tlv.NNI4 obj.nonce).item]).2),
      Item.func (fun encoder =>
        if obj.lifetime ≠ InterestObj.DefaultLifetime then
          (encoder.prependTlv TT.InterestLifetime OmitEmptyTag.NoOmitEmpty
            [(Value.mk (P.nni obj.lifetime)).item]).2
        else encoder),
      Item.func (fun encoder =>
        if obj.hopLimit ≠ InterestObj.MaxHopLimit then
          (encoder.prependTlv TT.HopLimit OmitEmptyTag.NoOmitEmpty
            [(tlv.NNI1 obj.hopLimit).item]).2
        else encoder)]).2

/-- The loop of `findParamsDigest`: `pos` counts the components seen so far, minus one. -/
def findParamsDigestLoop : List Component → Int → Int
  | [], _ => -1
  | comp :: rest, pos =>
    if comp.type = TT.ParametersSha256DigestComponent then pos + 1
    else findParamsDigestLoop rest (pos + 1)

/-- The method `findParamsDigest`: the index of the first component of type
ParametersSha256DigestComponent, or -1. -/
def findParamsDigest (name : Name) : Int := findParamsDigestLoop name.comps (-1)

end InterestRefBase

namespace ParameterizedInterestRef

/-- The method `encodeName`: the Name with the digest of `params` substituted for the
ParametersSha256DigestComponent, or appended when there is none. The view `params` is read
in the memory of the encoder. -/
def encodeName (P : Port) (obj : InterestObj) (encoder : Encoder) (params : Slice) : Encoder :=
  match P.sha256 (params.bytes encoder.mem) with
  | none => encoder.setError
  | some digest =>
    if InterestRefBase.findParamsDigest obj.name ≥ 0 then
      (encoder.prependTlv TT.Name OmitEmptyTag.NoOmitEmpty
        [(Value.mk (obj.name.slice 0
            (some (InterestRefBase.findParamsDigest obj.name))).value).item,
          (Value.mk ([toByte TT.ParametersSha256DigestComponent, toByte NDNPH_SHA256_LEN]
            ++ digest)).item,
          (Value.mk (obj.name.slice
            (InterestRefBase.findParamsDigest obj.name + 1)).value).item]).2
    else
      (encoder.prependTlv TT.Name OmitEmptyTag.NoOmitEmpty
        [(Value.mk obj.name.value).item,
          (Value.mk ([toByte TT.ParametersSha256DigestComponent, toByte NDNPH_SHA256_LEN]
            ++ digest)).item,
          (Value.mk []).item]).2

/-- The method `encodeAppParameters`. -/
def encodeAppParameters (appParameters : Value) (encoder : Encoder) : Encoder :=
  (encoder.prependTlv TT.AppParameters OmitEmptyTag.NoOmitEmpty [appParameters.item]).2

/-- The third closure of `encodeImpl`: it runs `encodeParams` and, unless the encoder is
in error, sets the captured `params` to the octets just written; `params0` is the value
`params` had before. -/
def encodeImplParams (encodeParams : Encoder → Encoder) (params0 : Slice) (encoder : Encoder) :
    Encoder × Slice :=
  if (encodeParams encoder).operatorNot then (encodeParams encoder, params0)
  else (encodeParams encoder,
    ⟨(encodeParams encoder).begin_,
      toSize ((encoder.begin_ : Int) - ((encodeParams encoder).begin_ : Int))⟩)

/-- The method `encodeImpl`. The local `params` is shared by the closures: the third one,
which `prepend` invokes first and on the encoder as it stands when `prependTlv` is entered,
assigns it, and the first one, invoked last, reads it. -/
def encodeImpl (P : Port) (obj : InterestObj) (encodeParams : Encoder → Encoder)
    (encoder : Encoder) : Encoder :=
  (encoder.prependTlv TT.Interest OmitEmptyTag.NoOmitEmpty
    [Item.func (fun enc => encodeName P obj enc (encodeImplParams encodeParams {} encoder).2),
      Item.func (fun enc => InterestRefBase.encodeMiddle P obj enc),
      Item.func (fun enc => (encodeImplParams encodeParams {} enc).1)]).2

/-- The method `ParameterizedInterestRef::encodeTo`. -/
def encodeTo (P : Port) (obj : InterestObj) (appParameters : Value) (encoder : Encoder) :
    Encoder :=
  encodeImpl P obj (fun enc => encodeAppParameters appParameters enc) encoder

end ParameterizedInterestRef

namespace SignedInterestRef

/-- The choice of `signedName` in `SignedInterestRef::encodeTo`: the whole name when it has
no ParametersSha256DigestComponent, the name without its last component when that one is
the first such component, and none (the error branch) otherwise. -/
def signedName (obj : InterestObj) : Option (List Byte) :=
  if InterestRefBase.findParamsDigest obj.name < 0 then some obj.name.value
  else if toSize (InterestRefBase.findParamsDigest obj.name) = toSize ((obj.name.size : Int) - 1)
  then some (obj.name.getPrefix (-1)).value
  else none

/-- The closure that `SignedInterestRef::encodeTo` hands to `encodeImpl`: AppParameters,
ISigInfo, and the ISigValue header in front of the room that holds the signature. -/
def encodeSignedParams (P : Port) (appParameters : Value) (sigInfo : SigInfo) (sigLen : Nat)
    (encoder : Encoder) : Encoder :=
  (encoder.prepend
    [Item.func (fun enc => ParameterizedInterestRef.encodeAppParameters appParameters enc),
      Item.encodable (fun enc => sigInfo.encodeTo P enc),
      Item.func (fun enc =>
        ((enc.prependRoom sigLen).2.prependTypeLength TT.ISigValue sigLen).2)]).2

/-- The method `SignedInterestRef::encodeTo`. The key writes its signature through
`sigBuf`; `m_sigInfo` is `sigInfo` before `updateSigInfo`. -/
def encodeTo (P : Port) (obj : InterestObj) (appParameters : Value) (key : PrivateKey)
    (sigInfo : SigInfo) (encoder : Encoder) : Encoder :=
  match signedName obj with
  | none => encoder.setError
  | some signedName =>
    let m_sigInfo := key.updateSigInfo sigInfo
    let after := encoder.begin_
    let sigBuf := (encoder.prependRoom key.getMaxSigLen).1
    let e1 := ((encoder.prependRoom key.getMaxSigLen).2.prepend
      [Item.func (fun enc => ParameterizedInterestRef.encodeAppParameters appParameters enc),
        Item.encodable (fun enc => m_sigInfo.encodeTo P enc)]).2
    if e1.operatorNot then e1
    else
      let signedPortion := e1.begin_
      let sizeofSignedPortion := toSize ((sigBuf : Int) - (signedPortion : Int))
      match key.sign [signedName, e1.mem.read signedPortion sizeofSignedPortion] with
      | none => e1.setError
      | some sig =>
        let mem1 := e1.mem.copy sigBuf sig
        let mem2 :=
          if sig.length ≠ key.getMaxSigLen then mem1.copy_backward sigBuf sig.length after
          else mem1
        ParameterizedInterestRef.encodeImpl P obj
          (fun enc => encodeSignedParams P appParameters m_sigInfo sig.length enc)
          (({ e1 with mem := mem2 } : Encoder).resetFront after)

end SignedInterestRef

end detail

/-- The template parameter `DataT` of `Interest::match`: what `match` asks of a Data, its
freshness period, its name, and its implicit digest (`none` when it cannot be computed). -/
structure DataT where
  getFreshnessPeriod : Nat
  getName : Name
  computeImplicitDigest : Option (List Byte)

namespace Interest

/-- Encode the Interest without AppParameters (`Interest::encodeTo`). -/
def encodeTo (P : Port) (obj : detail.InterestObj) (encoder : Encoder) : Encoder :=
  (encoder.prependTlv TT.Interest OmitEmptyTag.NoOmitEmpty
    [Item.encodable (fun enc => obj.name.encodeTo enc),
      Item.func (fun enc => detail.InterestRefBase.encodeMiddle P obj enc)]).2

/-- Determine whether Data can satisfy Interest (`Interest::match`). -/
def match_ (obj : detail.InterestObj) (data : DataT) : Bool :=
  if obj.mustBeFresh ∧ data.getFreshnessPeriod = 0 then false
  else
    match obj.name.compare data.getName with
    | Name.CompareResult.CMP_EQUAL => true
    | Name.CompareResult.CMP_LPREFIX => obj.canBePrefix
    | Name.CompareResult.CMP_RPREFIX =>
      decide (obj.name.size = data.getName.size + 1) &&
        convention.ImplicitDigest.match_ (obj.name.get (-1)) &&
        (match data.computeImplicitDigest with
          | none => false
          | some digest => TimingSafeEqual digest (obj.name.get (-1)).value)
    | _ => false

end Interest

namespace Interest

/-- The octets of the fields between Name and AppParameters as the specification lists
them: CanBePrefix (21 00) iff canBePrefix, MustBeFresh (12 00) iff mustBeFresh, Nonce
(0A 04 and four octets) always, InterestLifetime iff lifetime is not 4000, HopLimit
(22 01 and one octet) iff hopLimit is not 255. -/
def middleBytes (P : Port) (obj : detail.InterestObj) : List Byte :=
  (if obj.canBePrefix then tlvBytes TT.CanBePrefix [] else []) ++
  (if obj.mustBeFresh then tlvBytes TT.MustBeFresh [] else []) ++
  tlvBytes TT.Nonce (tlv.NNI4 obj.nonce).bytes ++
  (if obj.lifetime ≠ 4000 then tlvBytes TT.InterestLifetime (P.nni obj.lifetime) else []) ++
  (if obj.hopLimit ≠ 255 then tlvBytes TT.HopLimit (tlv.NNI1 obj.hopLimit).bytes else [])

/-- The wire of an Interest without AppParameters as the specification words it: one
Interest TLV around the Name TLV and the middle fields. -/
def wire (P : Port) (obj : detail.InterestObj) : List Byte :=
  tlvBytes TT.Interest (tlvBytes TT.Name obj.name.value ++ middleBytes P obj)

end Interest

/-- The `width` low-order octets of `n`, most significant first. -/
def beBytes : Nat → Nat → List Byte
  | 0, _ => []
  | width + 1, n => beBytes width (n / 256) ++ [toByte n]

/-- A port for the examples. Its `sha256` is a stand-in, not SHA-256: 32 octets that all
hold the sum of the octets of the message plus its length. Its NNI is the shortest of 1, 2,
4 or 8 big-endian octets. Its SigInfo codec writes the signature type and the extensions
and reads a default SigInfo. -/
def examplePort : Port where
  sha256 := fun m => some (List.replicate 32 (toByte ((m.map Fin.val).sum + m.length)))
  nni := fun n =>
    if n < 2 ^ 8 then beBytes 1 n else if n < 2 ^ 16 then beBytes 2 n
    else if n < 2 ^ 32 then beBytes 4 n else beBytes 8 n
  nniDecode := fun bs =>
    if bs.length = 1 ∨ bs.length = 2 ∨ bs.length = 4 ∨ bs.length = 8 then some (tlv.beValue bs)
    else none
  sigInfoValue := fun s => [0x1B, 0x01, toByte s.sigType] ++ s.extensions
  sigInfoDecode := fun _ => some {}

namespace detail.ParameterizedInterestRef

/-- The components of the Name of a parameterized Interest as the specification words
them: the digest component substituted for the first ParametersSha256DigestComponent, or
appended when there is none. -/
def substDigest (digest : List Byte) : List Component → List Component
  | [] => [⟨TT.ParametersSha256DigestComponent, digest⟩]
  | c :: cs =>
    if c.type = TT.ParametersSha256DigestComponent then
      ⟨TT.ParametersSha256DigestComponent, digest⟩ :: cs
    else c :: substDigest digest cs

/-- The wire of a parameterized or signed Interest as the specification words it: one
Interest TLV around the Name with the digest of `params`, the middle fields, and `params`
(AppParameters and any signature elements). -/
def wire (P : Port) (obj : InterestObj) (digest params : List Byte) : List Byte :=
  tlvBytes TT.Interest
    (tlvBytes TT.Name (Name.mk (substDigest digest obj.name.comps)).value ++
      Interest.middleBytes P obj ++ params)

end detail.ParameterizedInterestRef

namespace detail.SignedInterestRef

/-- The signed portion of a signed Interest as the specification words it: the
AppParameters TLV followed by the ISigInfo TLV. -/
def signedPortion (P : Port) (appParameters : Value) (sigInfo : SigInfo) : List Byte :=
  tlvBytes TT.AppParameters appParameters.bytes ++ tlvBytes TT.ISigInfo (P.sigInfoValue sigInfo)

/-- The parameters of a signed Interest as the specification words them: the signed
portion followed by the ISigValue TLV that carries the signature. -/
def paramsBytes (P : Port) (appParameters : Value) (sigInfo : SigInfo) (sig : List Byte) :
    List Byte :=
  signedPortion P appParameters sigInfo ++ tlvBytes TT.ISigValue sig

end detail.SignedInterestRef

/-- Modelled from the spec: the signature type DigestSha256 (`SigType::Sha256`, §6). -/
def SigType.Sha256 : Nat := 0

/-- Modelled from the spec: `detail::computeDigest<Sha256Port>(chunks, digest)` of
`keychain/common.hpp`, which is not among the sources: the chunks are concatenated in order
for hashing. -/
def detail.computeDigest (P : Port) (chunks : List (List Byte)) : Option (List Byte) :=
  P.sha256 chunks.flatten

namespace BasicDigestKey

/-- The method `BasicDigestKey::updateSigInfo`. -/
def updateSigInfo (sigInfo : SigInfo) : SigInfo :=
  { sigInfo with sigType := SigType.Sha256, name := ⟨[]⟩ }

/-- The constant `BasicDigestKey::MaxSigLen`. -/
def MaxSigLen : Nat := NDNPH_SHA256_LEN

/-- The method `BasicDigestKey::sign`: the digest written to `sig`, whose length
`NDNPH_SHA256_LEN` is returned, or `none` for the return value -1. -/
def sign (P : Port) (chunks : List (List Byte)) : Option (List Byte) :=
  detail.computeDigest P chunks

/-- The method `BasicDigestKey::verify`. -/
def verify (P : Port) (chunks : List (List Byte)) (sig : List Byte) : Bool :=
  match detail.computeDigest P chunks with
  | none => false
  | some digest => TimingSafeEqual digest sig

/-- The digest key as a private key. -/
def privateKey (P : Port) : PrivateKey where
  updateSigInfo := updateSigInfo
  getMaxSigLen := MaxSigLen
  sign := sign P

/-- The digest key as a public key. -/
def publicKey (P : Port) : PublicKey where
  verify := verify P

end BasicDigestKey

/-! ## Decoding (`tlv/decoder.hpp`, `tlv/ev-decoder.hpp`, `Interest::decodeFrom`) -/

namespace Decoder

/-- Modelled from the spec: `Decoder::Tlv` is `(type, length, value-ptr, size, tlv-ptr)`
covering one TLV (`tlv/decoder.hpp` is not among the sources). -/
structure Tlv where
  type : Nat := 0
  length : Nat := 0
  value : Nat := 0
  tlv : Nat := 0
  size : Nat := 0
deriving DecidableEq, Repr

/-- Modelled from the spec: `readTlv(d, input, end)` fills `d` with the TLV that starts at
`input`, or fails when a VAR-NUMBER cannot be read or the TLV-VALUE runs past `end`. -/
def readTlv (mem : Mem) (input end_ : Nat) : Option Tlv :=
  match tlv.readVarNum mem input (end_ - input) 0 with
  | (sizeofT, type) =>
    if sizeofT = 0 then none
    else
      match tlv.readVarNum mem (input + sizeofT) (end_ - (input + sizeofT)) 0 with
      | (sizeofL, length) =>
        if sizeofL = 0 then none
        else if end_ - (input + sizeofT + sizeofL) < length then none
        else
          some { type := type, length := length, value := input + sizeofT + sizeofL,
                 tlv := input, size := sizeofT + sizeofL + length }

/-- Modelled from the spec: the TLV elements found one after the other in `[pos, end)`,
`none` when one of them cannot be read; at most `fuel` elements are read. -/
def children (mem : Mem) : Nat → Nat → Nat → Option (List Tlv)
  | 0, _, _ => none
  | fuel + 1, pos, end_ =>
    if pos ≥ end_ then some []
    else
      match readTlv mem pos end_ with
      | none => none
      | some d =>
        match children mem fuel (pos + d.size) end_ with
        | none => none
        | some ds => some (d :: ds)

end Decoder

namespace EvDecoder

/-- Modelled from the spec: a TLV-TYPE is critical when it is odd or at most 31. -/
def isCritical (type : Nat) : Bool := decide (type ≤ 31) || decide (type % 2 = 1)

/-- Modelled from the spec: a rule of `EvDecoder::decode` (`def<type>(handler)`): the
TLV-TYPE it matches and its handler, which gives the decoded object afterwards, or `none`
when it returns false. -/
structure Def (σ : Type) where
  type : Nat
  handler : Mem → Decoder.Tlv → σ → Option σ

/-- Modelled from the spec: one child is handed to the rule that matches its TLV-TYPE; with
no such rule, an unrecognized critical type fails the decode and any other is skipped. -/
def decodeElement {σ : Type} (defs : List (Def σ)) (mem : Mem) (d : Decoder.Tlv) (s : σ) :
    Option σ :=
  match defs.find? (fun df => df.type == d.type) with
  | some df => df.handler mem d s
  | none => if isCritical d.type then none else some s

/-- Modelled from the spec: the children found in `[pos, end)` are decoded one after the
other, left to right; at most `fuel` children are read. -/
def decodeChildren {σ : Type} (defs : List (Def σ)) (mem : Mem) : Nat → Nat → Nat → σ → Option σ
  | 0, _, _, _ => none
  | fuel + 1, pos, end_, s =>
    if pos ≥ end_ then some s
    else
      match Decoder.readTlv mem pos end_ with
      | none => none
      | some d =>
        match decodeElement defs mem d s with
        | none => none
        | some s2 => decodeChildren defs mem fuel (pos + d.size) end_ s2

/-- Modelled from the spec: `EvDecoder::decode(input, topTypes, defs...)` checks the type of
the outer TLV against `topTypes` (when there are any) and decodes its children. Every child
takes at least two octets, so `input.length + 1` steps are enough. -/
def decode {σ : Type} (mem : Mem) (input : Decoder.Tlv) (topTypes : List Nat)
    (defs : List (Def σ)) (s : σ) : Option σ :=
  if topTypes ≠ [] ∧ input.type ∉ topTypes then none
  else decodeChildren defs mem (input.length + 1) input.value (input.value + input.length) s

end EvDecoder

/-- Modelled from the spec: `Name::decodeFrom(d)` takes the TLV-VALUE of a Name element as
the concatenation of its components and fails when it is not one. -/
def Name.decodeFrom (mem : Mem) (d : Decoder.Tlv) : Option Name :=
  match Decoder.children mem (d.length + 1) d.value (d.value + d.length) with
  | none => none
  | some cs => some ⟨cs.map (fun c => ⟨c.type, mem.read c.value c.length⟩)⟩

namespace tlv

/-- Modelled from the spec: `defNni<T, NNI4>` reads a non-negative integer of the fixed
width of four octets, or fails. -/
def NNI4.decode (value : List Byte) : Option Nat :=
  if value.length = 4 then some (beValue value) else none

/-- Modelled from the spec: `defNni<T, NNI1>` reads a non-negative integer of the fixed
width of one octet, or fails. -/
def NNI1.decode (value : List Byte) : Option Nat :=
  if value.length = 1 then some (beValue value) else none

end tlv

namespace Interest

/-- The rules that `Interest::decodeFrom` hands to `EvDecoder::decode`. The parameter
`makeParams` tells whether the region has room for an `InterestParams` record. -/
def decodeDefs (P : Port) (makeParams : Bool) (input : Decoder.Tlv) :
    List (EvDecoder.Def detail.InterestObj) :=
  [ { type := TT.Name,
      handler := fun mem d obj =>
        match Name.decodeFrom mem d with
        | none => none
        | some n => some { obj with name := n } },
    { type := TT.CanBePrefix, handler := fun _ _ obj => some { obj with canBePrefix := true } },
    { type := TT.MustBeFresh, handler := fun _ _ obj => some { obj with mustBeFresh := true } },
    { type := TT.Nonce,
      handler := fun mem d obj =>
        match tlv.NNI4.decode (mem.read d.value d.length) with
        | none => none
        | some n => some { obj with nonce := n } },
    { type := TT.InterestLifetime,
      handler := fun mem d obj =>
        match P.nniDecode (mem.read d.value d.length) with
        | none => none
        | some n => if n < 2 ^ 16 then some { obj with lifetime := n } else none },
    { type := TT.HopLimit,
      handler := fun mem d obj =>
        match tlv.NNI1.decode (mem.read d.value d.length) with
        | none => none
        | some n => some { obj with hopLimit := n } },
    { type := TT.AppParameters,
      handler := fun _ d obj =>
        if makeParams then
          some { obj with params := some (
            { allParams := ⟨d.tlv,
                toSize (((input.tlv + input.size : Nat) : Int) - (d.tlv : Int))⟩,
              appParameters := ⟨d.value, d.length⟩ } : detail.InterestParams) }
        else none },
    { type := TT.ISigInfo,
      handler := fun mem d obj =>
        match obj.params with
        | none => none
        | some p =>
          match P.sigInfoDecode (mem.read d.value d.length) with
          | none => none
          | some si => some { obj with params := some { p with sigInfo := si } } },
    { type := TT.ISigValue,
      handler := fun _ d obj =>
        match obj.params with
        | none => none
        | some p =>
          some { obj with params := some (
            { p with
              signedParams := ⟨p.allParams.begin_,
                toSize ((d.tlv : Int) - (p.allParams.begin_ : Int))⟩,
              sigValue := ⟨d.value, d.length⟩ } : detail.InterestParams) } } ]

/-- Decode packet (`Interest::decodeFrom`): the Interest afterwards, or `none` for the
return value false. -/
def decodeFrom (P : Port) (makeParams : Bool) (mem : Mem) (obj : detail.InterestObj)
    (input : Decoder.Tlv) : Option detail.InterestObj :=
  EvDecoder.decode mem input [TT.Interest] (decodeDefs P makeParams input) obj

/-- Check ParametersSha256DigestComponent (`Interest::checkDigest`). -/
def checkDigest (P : Port) (mem : Mem) (obj : detail.InterestObj) : Bool :=
  match obj.params with
  | none => false
  | some params =>
    if detail.InterestRefBase.findParamsDigest obj.name < 0 then false
    else
      match P.sha256 (params.allParams.bytes mem) with
      | none => false
      | some digest =>
        TimingSafeEqual digest
          (obj.name.get (detail.InterestRefBase.findParamsDigest obj.name)).value

/-- Verify the packet with a public key (`Interest::verify`). -/
def verify (P : Port) (mem : Mem) (obj : detail.InterestObj) (key : PublicKey) : Bool :=
  if !checkDigest P mem obj then false
  else if toSize (detail.InterestRefBase.findParamsDigest obj.name)
      ≠ toSize ((obj.name.size : Int) - 1) then false
  else
    match obj.params with
    | none => false
    | some params =>
      key.verify [(obj.name.getPrefix (-1)).value, params.signedParams.bytes mem]
        (params.sigValue.bytes mem)

end Interest


namespace Interest

end Interest

/-- The octets of a sequence of TLV elements `(type, value)` written one after another. -/
def tlvSeq (items : List (Nat × List Byte)) : List Byte :=
  (items.map (fun x => tlvBytes x.1 x.2)).flatten

/-- The records that `Decoder` yields over the octets `tlvSeq items` found from address `pos`
on: each element starts where the one before it ends. -/
def Decoder.layout : Nat → List (Nat × List Byte) → List Decoder.Tlv
  | _, [] => []
  | pos, x :: rest =>
    { type := x.1, length := x.2.length,
      value := pos + tlv.sizeofVarNum x.1 + tlv.sizeofVarNum x.2.length, tlv := pos,
      size := tlv.sizeofVarNum x.1 + tlv.sizeofVarNum x.2.length + x.2.length } ::
    Decoder.layout (pos + (tlv.sizeofVarNum x.1 + tlv.sizeofVarNum x.2.length + x.2.length))
      rest

/-- The elements between Name and AppParameters, in the order `encodeMiddle` emits them
(the elements of `Interest.middleBytes`). -/
def Interest.middleItems (P : Port) (obj : detail.InterestObj) : List (Nat × List Byte) :=
  (if obj.canBePrefix then [(TT.CanBePrefix, [])] else []) ++
  (if obj.mustBeFresh then [(TT.MustBeFresh, [])] else []) ++
  [(TT.Nonce, (tlv.NNI4 obj.nonce).bytes)] ++
  (if obj.lifetime ≠ 4000 then [(TT.InterestLifetime, P.nni obj.lifetime)] else []) ++
  (if obj.hopLimit ≠ 255 then [(TT.HopLimit, (tlv.NNI1 obj.hopLimit).bytes)] else [])

/-! ## AES-GCM initialization vectors (`port/mbed-common.hpp`) -/

namespace tlv

/-- Modelled from the spec: `NNI8::writeValue(room, n)` of `tlv/nni.hpp`, which is not among
the sources, stores `n` in eight octets, most significant first. -/
def NNI8.writeValue (mem : Mem) (room : Nat) (n : Nat) : Mem := mem.copy room (beBytes 8 n)

/-- Modelled from the spec: `NNI4::writeValue(room, n)` stores `n` in four octets, most
significant first. -/
def NNI4.writeValue (mem : Mem) (room : Nat) (n : Nat) : Mem := mem.copy room (beBytes 4 n)

/-- Modelled from the spec: `NNI8::readValue(input)` is the number held big-endian by the
eight octets at `input`. -/
def NNI8.readValue (mem : Mem) (input : Nat) : Nat := beValue (mem.read input 8)

/-- Modelled from the spec: `NNI4::readValue(input)` is the number held big-endian by the
four octets at `input`. -/
def NNI4.readValue (mem : Mem) (input : Nat) : Nat := beValue (mem.read input 4)

end tlv

namespace detail

/-- The class `detail::IvHelper`: `random` is a `uint64_t`, `counter` a `uint32_t`. -/
structure IvHelper where
  random : Nat := 0
  counter : Nat := 0
  m_ok : Bool := true
deriving DecidableEq, Repr

namespace IvHelper

/-- The constant `IvHelper::BlockSize`. -/
def BlockSize : Nat := 16

/-- The method `write(room)`: the return value and the memory afterwards. -/
def write (h : IvHelper) (mem : Mem) (room : Nat) : Bool × Mem :=
  (true, tlv.NNI4.writeValue (tlv.NNI8.writeValue mem room h.random) (room + 8) h.counter)

/-- The method `advance(size)`: the return value and the helper afterwards. `nBlocks` and
`cnt` are `uint64_t`; the comparison reads `counter`, a `uint32_t`. -/
def advance (h : IvHelper) (size : Nat) : Bool × IvHelper :=
  let nBlocks := (size / BlockSize + (if size % BlockSize ≠ 0 then 1 else 0)) % 2 ^ 64
  let cnt := (h.counter + nBlocks) % 2 ^ 64
  let m_ok := if h.counter > 0xFFFFFFFF then false else h.m_ok
  (m_ok, { h with counter := cnt % 2 ^ 32, m_ok := m_ok })

/-- The method `check(iv, size)`: the return value and the helper afterwards. -/
def check (h : IvHelper) (mem : Mem) (iv : Nat) (size : Nat) : Bool × IvHelper :=
  let rand := tlv.NNI8.readValue mem iv
  let cnt := tlv.NNI4.readValue mem (iv + 8)
  if h.counter ≠ 0 ∧ h.random ≠ rand then (false, h)
  else
    let h1 : IvHelper := if h.counter = 0 then { h with random := rand } else h
    if cnt < h1.counter then (false, h1)
    else advance { h1 with counter := cnt } size

/-- The number of blocks of a message of `n` octets, `n / 16` rounded up. -/
def blocks (n : Nat) : Nat := (n + 15) / 16

/-- The twelve octets that `write` stores into a room. -/
def ivBytes (h : IvHelper) : List Byte :=
  ((h.write (fun _ => 0) 0).2).read 0 12

/-- The encrypt side: for each message size, the IV that `write` gives and then
`advance(size)`; the result lists each IV with its message size. -/
def produce : IvHelper → List Nat → List (List Byte × Nat)
  | _, [] => []
  | h, n :: ns => (h.ivBytes, n) :: produce (h.advance n).2 ns

/-- The helper after `advance(size)` for each message size in turn. -/
def advances (h : IvHelper) (sizes : List Nat) : IvHelper :=
  sizes.foldl (fun h n => (h.advance n).2) h

/-- The decrypt side: `check(iv, size)` on each message in turn, each IV held by a buffer
of its own; the results and the helper afterwards. -/
def consume : IvHelper → List (List Byte × Nat) → List Bool × IvHelper
  | h, [] => ([], h)
  | h, m :: ms =>
    ((h.check (Mem.ofList 1 m.1) 1 m.2).1 :: (consume (h.check (Mem.ofList 1 m.1) 1 m.2).2 ms).1,
      (consume (h.check (Mem.ofList 1 m.1) 1 m.2).2 ms).2)

/-- The helper after `check(iv, size)` on each `(iv, size)` of a list in turn, the IVs
read from `mem`. -/
def checks (h : IvHelper) (mem : Mem) (msgs : List (Nat × Nat)) : IvHelper :=
  msgs.foldl (fun h m => (h.check mem m.1 m.2).2) h

end IvHelper

end detail

namespace mbedtls

/-- The class `AesGcm` as far as the IV helpers go: the mbedTLS context is left out. -/
structure AesGcm where
  m_ivEncrypt : detail.IvHelper := {}
  m_ivDecrypt : detail.IvHelper := {}
  m_ok : Bool := false
deriving DecidableEq, Repr

namespace AesGcm

/-- The method `decrypt` as far as success goes: whether a plaintext is returned, and the
key afterwards. `allocated` tells whether `region.alloc` gave room for the plaintext and
`authentic` whether `mbedtls_gcm_auth_decrypt` returns 0; the conjunction is evaluated left
to right, so the IV is not checked when the key is not ok. -/
def decrypt (g : AesGcm) (mem : Mem) (iv : Nat) (ciphertextSize : Nat)
    (allocated authentic : Bool) : Bool × AesGcm :=
  if !g.m_ok then (false, g)
  else
    match g.m_ivDecrypt.check mem iv ciphertextSize with
    | (false, d) => (false, { g with m_ivDecrypt := d })
    | (true, d) => (allocated && authentic, { g with m_ivDecrypt := d })

/-- The method `clearDecryptIvChecker`. -/
def clearDecryptIvChecker (g : AesGcm) : AesGcm := { g with m_ivDecrypt := {} }

end AesGcm

end mbedtls

namespace detail.IvHelper

/-- A buffer for examples: at address 1 the IV with random 1 and counter 5, at address 13
the IV with random 1 and counter 7. -/
def exampleIvMem : Mem :=
  Mem.ofList 1 [0, 0, 0, 0, 0, 0, 0, 1, 0, 0, 0, 5, 0, 0, 0, 0, 0, 0, 0, 1, 0, 0, 0, 7]

end detail.IvHelper

namespace Interest

/-- A decoded Interest for examples: name /A/<digest> whose `allParams` are the two octets
24 00 at address 16 of `Mem.ofList 16 [0x24, 0x00]`; the digest is the one the example port
gives for these octets. -/
def exampleDigestInterest : detail.InterestObj :=
  { name := ⟨[⟨8, [0x41]⟩, ⟨2, List.replicate 32 0x26⟩]⟩,
    params := some
      ({ allParams := ⟨16, 2⟩, signedParams := ⟨16, 2⟩, sigValue := ⟨18, 0⟩ } :
        detail.InterestParams) }

end Interest

/-- The return value of `BasicDigestKey::sign`: `NDNPH_SHA256_LEN` when `computeDigest`
succeeded, else -1. -/
def BasicDigestKey.signReturn (P : Port) (chunks : List (List Byte)) : Int :=
  if (detail.computeDigest P chunks).isSome then (NDNPH_SHA256_LEN : Int) else -1

/-- What the rules of `Interest::decodeFrom` make of one of the elements between Name and
AppParameters, given as `(type, value)`: the Interest after its rule has run. -/
def Interest.applyItem (P : Port) (s : detail.InterestObj) (x : Nat × List Byte) :
    detail.InterestObj :=
  if x.1 = TT.CanBePrefix then { s with canBePrefix := true }
  else if x.1 = TT.MustBeFresh then { s with mustBeFresh := true }
  else if x.1 = TT.Nonce then { s with nonce := tlv.beValue x.2 }
  else if x.1 = TT.InterestLifetime then { s with lifetime := (P.nniDecode x.2).getD s.lifetime }
  else if x.1 = TT.HopLimit then { s with hopLimit := tlv.beValue x.2 }
  else s

/-- Retrieve SignatureInfo (`Interest::getSigInfo`): none for the null pointer. -/
def Interest.getSigInfo (obj : detail.InterestObj) : Option SigInfo :=
  match obj.params with
  | none => none
  | some p => some p.sigInfo

/-- A second port for the examples: as `examplePort`, but its SigInfo decoder reads back the
signature type and the extensions that the SigInfo codec of `examplePort` writes (the key
name is not written and is read as the empty name). -/
def exampleCodecPort : Port :=
  { examplePort with
    sigInfoDecode := fun bs =>
      match bs with
      | 0x1B :: 0x01 :: t :: ext => some { sigType := t.val, name := ⟨[]⟩, extensions := ext }
      | _ => none }

/-! ## Data packet (`packet/data.hpp`) -/

/-- Modelled from the spec: the TLV-TYPE numbers of a Data packet (`an.hpp` is not among the
sources). -/
def TT.Data : Nat := 0x06

/-- Modelled from the spec: TLV-TYPE MetaInfo. -/
def TT.MetaInfo : Nat := 0x14

/-- Modelled from the spec: TLV-TYPE ContentType. -/
def TT.ContentType : Nat := 0x18

/-- Modelled from the spec: TLV-TYPE FreshnessPeriod. -/
def TT.FreshnessPeriod : Nat := 0x19

/-- Modelled from the spec: TLV-TYPE FinalBlockId. -/
def TT.FinalBlockId : Nat := 0x1A

/-- Modelled from the spec: TLV-TYPE Content. -/
def TT.Content : Nat := 0x15

namespace detail

/-- The class `detail::DataObj`. `content` is a `tlv::Value`, taken as the octets it views;
`freshnessPeriod` is a `uint32_t`, `contentType` a `uint8_t`. -/
structure DataObj where
  name : Name := ⟨[]⟩
  content : Value := ⟨[]⟩
  freshnessPeriod : Nat := 0
  contentType : Nat := 0
  isFinalBlock : Bool := false
deriving DecidableEq, Repr

/-- The constant `DataObj::DefaultContentType`. -/
def DataObj.DefaultContentType : Nat := 0x00

/-- The constant `DataObj::DefaultFreshnessPeriod`. -/
def DataObj.DefaultFreshnessPeriod : Nat := 0

end detail

namespace Data

/-- Encode the Data (`Data::encodeTo`). -/
def encodeTo (P : Port) (obj : detail.DataObj) (encoder : Encoder) : Encoder :=
  (encoder.prependTlv TT.Data OmitEmptyTag.NoOmitEmpty
    [Item.encodable (fun enc => obj.name.encodeTo enc),
      Item.func (fun encoder =>
        (encoder.prependTlv TT.MetaInfo OmitEmptyTag.OmitEmpty
          [Item.func (fun encoder =>
              if obj.contentType ≠ detail.DataObj.DefaultContentType then
                (encoder.prependTlv TT.ContentType OmitEmptyTag.NoOmitEmpty
                  [(Value.mk (P.nni obj.contentType)).item]).2
              else encoder),
            Item.func (fun encoder =>
              if obj.freshnessPeriod ≠ detail.DataObj.DefaultFreshnessPeriod then
                (encoder.prependTlv TT.FreshnessPeriod OmitEmptyTag.NoOmitEmpty
                  [(Value.mk (P.nni obj.freshnessPeriod)).item]).2
              else encoder),
            Item.func (fun encoder =>
              if obj.isFinalBlock then
                (encoder.prependTlv TT.FinalBlockId OmitEmptyTag.NoOmitEmpty
                  [(Value.mk (obj.name.get (-1)).tlv).item]).2
              else encoder)]).2),
      Item.func (fun encoder =>
        (encoder.prependTlv TT.Content OmitEmptyTag.OmitEmpty [obj.content.item]).2)]).2

/-- The rules of the inner `EvDecoder::decode` of `Data::decodeFrom`, on the MetaInfo
element. -/
def metaDefs (P : Port) : List (EvDecoder.Def detail.DataObj) :=
  [ { type := TT.ContentType,
      handler := fun mem d obj =>
        match P.nniDecode (mem.read d.value d.length) with
        | none => none
        | some n => if n < 2 ^ 8 then some { obj with contentType := n } else none },
    { type := TT.FreshnessPeriod,
      handler := fun mem d obj =>
        match P.nniDecode (mem.read d.value d.length) with
        | none => none
        | some n => if n < 2 ^ 32 then some { obj with freshnessPeriod := n } else none },
    { type := TT.FinalBlockId,
      handler := fun mem d obj =>
        some { obj with
          isFinalBlock := decide (d.length = (obj.name.get (-1)).size) &&
            decide (mem.read d.value d.length = (obj.name.get (-1)).tlv) } } ]

/-- The rules that `Data::decodeFrom` hands to `EvDecoder::decode`. -/
def decodeDefs (P : Port) : List (EvDecoder.Def detail.DataObj) :=
  [ { type := TT.Name,
      handler := fun mem d obj =>
        match Name.decodeFrom mem d with
        | none => none
        | some n => some { obj with name := n } },
    { type := TT.MetaInfo,
      handler := fun mem d obj => EvDecoder.decode mem d [] (metaDefs P) obj },
    { type := TT.Content,
      handler := fun mem d obj => some { obj with content := ⟨mem.read d.value d.length⟩ } } ]

/-- Decode the Data (`Data::decodeFrom`): the Data afterwards, or `none` for the return value
false. -/
def decodeFrom (P : Port) (mem : Mem) (obj : detail.DataObj) (input : Decoder.Tlv) :
    Option detail.DataObj :=
  EvDecoder.decode mem input [TT.Data] (decodeDefs P) obj

/-- The elements of MetaInfo as the specification words them: ContentType and
FreshnessPeriod when they are not the default, FinalBlockId with the last name component
when the Data is the final block. -/
def metaItems (P : Port) (obj : detail.DataObj) : List (Nat × List Byte) :=
  (if obj.contentType ≠ 0 then [(TT.ContentType, P.nni obj.contentType)] else []) ++
  (if obj.freshnessPeriod ≠ 0 then [(TT.FreshnessPeriod, P.nni obj.freshnessPeriod)] else []) ++
  (if obj.isFinalBlock then [(TT.FinalBlockId, (obj.name.get (-1)).tlv)] else [])

/-- The elements of a Data as the specification words them: Name, MetaInfo unless it has no
element, Content unless it is empty. -/
def dataItems (P : Port) (obj : detail.DataObj) : List (Nat × List Byte) :=
  [(TT.Name, obj.name.value)] ++
  (if metaItems P obj = [] then [] else [(TT.MetaInfo, tlvSeq (metaItems P obj))]) ++
  (if obj.content.bytes = [] then [] else [(TT.Content, obj.content.bytes)])

/-- The wire of a Data as the specification words it: one Data TLV around its elements. -/
def wire (P : Port) (obj : detail.DataObj) : List Byte :=
  tlvBytes TT.Data (tlvSeq (dataItems P obj))

/-- What the inner rules of `Data::decodeFrom` make of one element of MetaInfo, given as
`(type, value)`. -/
def applyMeta (P : Port) (s : detail.DataObj) (x : Nat × List Byte) : detail.DataObj :=
  if x.1 = TT.ContentType then { s with contentType := (P.nniDecode x.2).getD s.contentType }
  else if x.1 = TT.FreshnessPeriod then
    { s with freshnessPeriod := (P.nniDecode x.2).getD s.freshnessPeriod }
  else if x.1 = TT.FinalBlockId then
    { s with
      isFinalBlock := decide (x.2.length = (s.name.get (-1)).size) &&
        decide (x.2 = (s.name.get (-1)).tlv) }
  else s

end Data

/-! ## The command line programs (`programs/cli-common.hpp`, `programs/keychain.cpp`) -/

namespace cli_common

/-- The library function `std::islower` on a `char`, in the C locale, which the programs
never change: the letters `a` (0x61) to `z` (0x7A). A `std::string` is the list of its
octets. -/
def islower (ch : Byte) : Bool := decide (0x61 ≤ ch.val ∧ ch.val ≤ 0x7A)

/-- The library function `std::isdigit`: the digits `0` (0x30) to `9` (0x39). -/
def isdigit (ch : Byte) : Bool := decide (0x30 ≤ ch.val ∧ ch.val ≤ 0x39)

/-- Check KeyChain object ID has the proper format (`checkKeyChainId`): `Except.ok` holds
the string returned, `Except.error 1` stands for `exit(1)` after the message on stderr. -/
def checkKeyChainId (id : List Byte) : Except Nat (List Byte) :=
  let ok := id.all (fun ch => islower ch || isdigit ch)
  if id.isEmpty || !ok then Except.error 1
  else Except.ok id

/-- An ID as the specification words it: it matches `[a-z0-9]+`, that is, it is non-empty
and each of its characters is a lower-case letter or a digit. -/
def MatchesId (id : List Byte) : Prop :=
  id ≠ [] ∧ ∀ ch ∈ id, (0x61 ≤ ch.val ∧ ch.val ≤ 0x7A) ∨ (0x30 ≤ ch.val ∧ ch.val ≤ 0x39)

instance MatchesId.decidable (id : List Byte) : Decidable (MatchesId id) :=
  decidable_of_iff (id ≠ [] ∧ id.all (fun ch => islower ch || isdigit ch) = true)
    (by simp [MatchesId, islower, isdigit])

/-- A call on the KeyChain that names a slot: the store (keys or certificates), whether the
call writes or reads, and the slot id passed. -/
inductive Access where
  | keyWrite (id : List Byte)
  | keyRead (id : List Byte)
  | certWrite (id : List Byte)
  | certRead (id : List Byte)
deriving DecidableEq, Repr

/-- What the programs get from the library and the system, whose code is not among the
sources: whether `openKeyChain` opens the KeyChain, whether `ec::generate` and `ec::load`
succeed on a key slot, whether `certs.set` and `certs.get` succeed on a certificate slot,
whether `inputCertificate` decodes a certificate from stdin (its argument tells whether
`pub` is null), and whether `output` encodes. -/
structure Env where
  keyChainOpen : Bool
  generate : List Byte → Bool
  load : List Byte → Bool
  certsSet : List Byte → Bool
  certsGet : List Byte → Bool
  inputCertificate : Bool → Bool
  output : Bool

/-- A run of a function of the programs: the calls on the KeyChain that name a slot, in
order, and either the status passed to `exit` (`Except.error`) or the value returned. -/
structure Run (α : Type) where
  accesses : List Access
  result : Except Nat α

/-- An environment for the examples: the KeyChain opens, every call on it succeeds, stdin
holds a certificate that decodes, and encoding succeeds. -/
def exampleEnv : Env where
  keyChainOpen := true
  generate := fun _ => true
  load := fun _ => true
  certsSet := fun _ => true
  certsGet := fun _ => true
  inputCertificate := fun _ => true
  output := true

end cli_common

namespace keychain

open cli_common

/-- The string `"_key"`. -/
def keySuffix : List Byte := [0x5F, 0x6B, 0x65, 0x79]

/-- The string `"_cert"`. -/
def certSuffix : List Byte := [0x5F, 0x63, 0x65, 0x72, 0x74]

/-- The subcommand `keygen(argc, argv)`; `argc` is the length of `argv`. -/
def keygen (env : Env) (argv : List (List Byte)) : Run Bool :=
  if argv.length ≠ 4 then ⟨[], Except.ok false⟩
  else
    match checkKeyChainId (argv.getD 2 []) with
    | Except.error n => ⟨[], Except.error n⟩
    | Except.ok id =>
      if !env.generate (id ++ keySuffix) then
        ⟨[Access.keyWrite (id ++ keySuffix)], Except.error 4⟩
      else if !env.certsSet (id ++ certSuffix) then
        ⟨[Access.keyWrite (id ++ keySuffix), Access.certWrite (id ++ certSuffix)],
          Except.error 4⟩
      else if !env.output then
        ⟨[Access.keyWrite (id ++ keySuffix), Access.certWrite (id ++ certSuffix)],
          Except.error 1⟩
      else
        ⟨[Access.keyWrite (id ++ keySuffix), Access.certWrite (id ++ certSuffix)],
          Except.ok true⟩

/-- The subcommand `certinfo(argc, argv)`; `loadCertificate` exits with 1 when the
certificate is not found. -/
def certinfo (env : Env) (argv : List (List Byte)) : Run Bool :=
  if argv.length ≠ 3 then ⟨[], Except.ok false⟩
  else
    match checkKeyChainId (argv.getD 2 []) with
    | Except.error n => ⟨[], Except.error n⟩
    | Except.ok id =>
      if !env.certsGet (id ++ certSuffix) then
        ⟨[Access.certRead (id ++ certSuffix)], Except.error 1⟩
      else ⟨[Access.certRead (id ++ certSuffix)], Except.ok true⟩

/-- The subcommand `certexport(argc, argv)`; `output` exits with 1 on an encode error. -/
def certexport (env : Env) (argv : List (List Byte)) : Run Bool :=
  if argv.length ≠ 3 then ⟨[], Except.ok false⟩
  else
    match checkKeyChainId (argv.getD 2 []) with
    | Except.error n => ⟨[], Except.error n⟩
    | Except.ok id =>
      if !env.certsGet (id ++ certSuffix) then
        ⟨[Access.certRead (id ++ certSuffix)], Except.error 1⟩
      else if !env.output then ⟨[Access.certRead (id ++ certSuffix)], Except.error 1⟩
      else ⟨[Access.certRead (id ++ certSuffix)], Except.ok true⟩

/-- The subcommand `certsign(argc, argv)`; `inputCertificate` exits with 1 on a decode
error. -/
def certsign (env : Env) (argv : List (List Byte)) : Run Bool :=
  if argv.length ≠ 3 then ⟨[], Except.ok false⟩
  else
    match checkKeyChainId (argv.getD 2 []) with
    | Except.error n => ⟨[], Except.error n⟩
    | Except.ok id =>
      if !env.load (id ++ keySuffix) then ⟨[Access.keyRead (id ++ keySuffix)], Except.error 4⟩
      else if !env.inputCertificate false then
        ⟨[Access.keyRead (id ++ keySuffix)], Except.error 1⟩
      else if !env.output then ⟨[Access.keyRead (id ++ keySuffix)], Except.error 1⟩
      else ⟨[Access.keyRead (id ++ keySuffix)], Except.ok true⟩

/-- The subcommand `certimport(argc, argv)`: `id` is constructed from `argv[2]` as it
stands. -/
def certimport (env : Env) (argv : List (List Byte)) : Run Bool :=
  if argv.length ≠ 3 then ⟨[], Except.ok false⟩
  else
    let id := argv.getD 2 []
    if !env.inputCertificate true then ⟨[], Except.error 1⟩
    else if !env.certsSet (id ++ certSuffix) then
      ⟨[Access.certWrite (id ++ certSuffix)], Except.error 4⟩
    else ⟨[Access.certWrite (id ++ certSuffix)], Except.ok true⟩

/-- The function `execute(argc, argv)`: the subcommand that `argv[1]` names, compared by
`strcmp` with `keygen`, `certinfo`, `certexport`, `certsign` and `certimport` in turn. -/
def execute (env : Env) (argv : List (List Byte)) : Run Bool :=
  if argv.length ≤ 1 then ⟨[], Except.ok false⟩
  else if argv.getD 1 [] = [0x6B, 0x65, 0x79, 0x67, 0x65, 0x6E] then keygen env argv
  else if argv.getD 1 [] = [0x63, 0x65, 0x72, 0x74, 0x69, 0x6E, 0x66, 0x6F] then
    certinfo env argv
  else if argv.getD 1 [] = [0x63, 0x65, 0x72, 0x74, 0x65, 0x78, 0x70, 0x6F, 0x72, 0x74] then
    certexport env argv
  else if argv.getD 1 [] = [0x63, 0x65, 0x72, 0x74, 0x73, 0x69, 0x67, 0x6E] then
    certsign env argv
  else if argv.getD 1 [] = [0x63, 0x65, 0x72, 0x74, 0x69, 0x6D, 0x70, 0x6F, 0x72, 0x74] then
    certimport env argv
  else ⟨[], Except.ok false⟩

/-- The program `ndnph-keychain`: the calls on the KeyChain that name a slot, and the exit
status. The KeyChain is opened before `main` runs (`openKeyChain` exits with 1 when it
cannot), and `main` returns 2 after the usage text when `execute` returns false. -/
def main (env : Env) (argv : List (List Byte)) : List Access × Nat :=
  if !env.keyChainOpen then ([], 1)
  else
    match (execute env argv).result with
    | Except.error n => ((execute env argv).accesses, n)
    | Except.ok true => ((execute env argv).accesses, 0)
    | Except.ok false => ((execute env argv).accesses, 2)

end keychain

/-! ## The bridge transport (`face/bridge-transport.hpp`) -/

namespace BasicBridgeTransport

/-- The bridge transports in memory: the member `m_peer` of the transport at each address,
0 for `nullptr`. No transport lives at address 0. -/
abbrev Peers := Nat → Nat

/-- Every transport as constructed: `m_peer = nullptr`. -/
def Peers.init : Peers := fun _ => 0

/-- The assignment of `value` to the `m_peer` of the transport at `addr`. -/
def Peers.set (s : Peers) (addr value : Nat) : Peers :=
  fun a => if a = addr then value else s a

/-- Connect to peer transport (`begin`), called on the transport at `this` with the
transport at `peer`: the value returned and the members after the call. -/
def begin (s : Peers) (this peer : Nat) : Bool × Peers :=
  if s this ≠ 0 ∨ s peer ≠ 0 then (false, s)
  else (true, (s.set this peer).set peer this)

/-- Disconnect from peer transport (`end`), called on the transport at `this`. -/
def end_ (s : Peers) (this : Nat) : Bool × Peers :=
  if s this = 0 ∨ s (s this) ≠ this then (false, s)
  else (true, (s.set (s this) 0).set this 0)

/-- A call of `begin` or `end` on a transport. -/
inductive Call where
  | begin (this peer : Nat)
  | end_ (this : Nat)
deriving DecidableEq, Repr

/-- The transports a call names exist: their addresses are not null. -/
def Call.Valid : Call → Prop
  | Call.begin this peer => this ≠ 0 ∧ peer ≠ 0
  | Call.end_ this => this ≠ 0

/-- The members after a call. -/
def Call.run (s : Peers) : Call → Peers
  | Call.begin this peer => (BasicBridgeTransport.begin s this peer).2
  | Call.end_ this => (BasicBridgeTransport.end_ s this).2

/-- The members after a sequence of calls. -/
def runCalls (s : Peers) (calls : List Call) : Peers := calls.foldl Call.run s

/-- Peering is symmetric, as the specification words it: one transport's peer is another
if and only if that one's peer is the first. -/
def Symmetric (s : Peers) : Prop :=
  ∀ a b, a ≠ 0 → b ≠ 0 → (s a = b ↔ s b = a)

end BasicBridgeTransport

namespace Interest

/-- Sign the packet with a private key (`Interest::sign`): the encodable
`SignedInterestRef(obj, tlv::Value(), key, sigInfo)`, given as the function that encodes
it. The AppParameters it holds is the empty `tlv::Value()`. -/
def sign (P : Port) (obj : detail.InterestObj) (key : PrivateKey) (sigInfo : SigInfo)
    (encoder : Encoder) : Encoder :=
  detail.SignedInterestRef.encodeTo P obj ⟨[]⟩ key sigInfo encoder

end Interest

/-! ## Memory lemmas -/

theorem Mem.set_same (mem : Mem) (p : Nat) (v : Byte) : mem.set p v p = v := by
  simp [Mem.set]

theorem Mem.set_other (mem : Mem) (p a : Nat) (v : Byte) (h : a ≠ p) :
    mem.set p v a = mem a := by
  simp [Mem.set, h]

theorem toByte_val (n : Nat) : (toByte n).val = n % 256 := rfl

theorem toByte_of_val (b : Byte) : toByte b.val = b := by
  apply Fin.ext
  simp [toByte_val, Nat.mod_eq_of_lt b.isLt]

theorem Mem.read_length (mem : Mem) (p len : Nat) : (mem.read p len).length = len := by
  simp [Mem.read]

theorem Mem.read_zero (mem : Mem) (p : Nat) : mem.read p 0 = [] := by
  simp [Mem.read]

theorem Mem.read_succ (mem : Mem) (p len : Nat) :
    mem.read p (len + 1) = mem p :: mem.read (p + 1) len := by
  simp only [Mem.read, List.range_succ_eq_map, List.map_cons, List.map_map, Nat.add_zero]
  congr 1
  apply List.map_congr_left
  intro i _
  simp only [Function.comp_apply]
  congr 1
  omega

theorem Mem.read_add (mem : Mem) (p m n : Nat) :
    mem.read p (m + n) = mem.read p m ++ mem.read (p + m) n := by
  induction m generalizing p with
  | zero => simp [Mem.read_zero]
  | succ k ih =>
    have h : k + 1 + n = (k + n) + 1 := by omega
    rw [h, Mem.read_succ, Mem.read_succ, ih (p + 1)]
    have h2 : p + 1 + k = p + (k + 1) := by omega
    rw [h2]
    rfl

/-! ## VAR-NUMBER lemmas -/

namespace tlv

theorem be16_or (a b : Nat) (hb : b < 256) : (a <<< 8) ||| b = a * 256 + b := by
  rw [Nat.shiftLeft_eq]
  have h := Nat.mul_add_lt_is_or (i := 8) hb a
  rw [Nat.mul_comm] at h
  exact h.symm

theorem be32_or (a b c d : Nat) (hb : b < 256) (hc : c < 256) (hd : d < 256) :
    (a <<< 24) ||| (b <<< 16) ||| (c <<< 8) ||| d
      = a * 16777216 + b * 65536 + c * 256 + d := by
  have h1 : (a <<< 24) ||| (b <<< 16) = (a * 256 + b) * 65536 := by
    rw [Nat.shiftLeft_eq, Nat.shiftLeft_eq]
    have hlt : b * 2 ^ 16 < 2 ^ 24 := by omega
    have h := Nat.mul_add_lt_is_or (i := 24) hlt a
    rw [Nat.mul_comm (2 ^ 24) a] at h
    rw [← h]
    omega
  have h2 : (a * 256 + b) * 65536 ||| (c <<< 8) = ((a * 256 + b) * 256 + c) * 256 := by
    rw [Nat.shiftLeft_eq]
    have hlt : c * 2 ^ 8 < 2 ^ 16 := by omega
    have h := Nat.mul_add_lt_is_or (i := 16) hlt (a * 256 + b)
    rw [Nat.mul_comm (2 ^ 16) (a * 256 + b)] at h
    have e : (a * 256 + b) * 65536 = (a * 256 + b) * 2 ^ 16 := by norm_num
    rw [e, ← h]
    omega
  rw [h1, h2]
  have h3 := Nat.mul_add_lt_is_or (i := 8) hd ((a * 256 + b) * 256 + c)
  rw [Nat.mul_comm (2 ^ 8) _] at h3
  have e : ((a * 256 + b) * 256 + c) * 256 = ((a * 256 + b) * 256 + c) * 2 ^ 8 := by norm_num
  rw [e, ← h3]
  omega

theorem sizeofVarNum_pos (n : Nat) : 1 ≤ sizeofVarNum n := by
  unfold sizeofVarNum
  split_ifs <;> omega

theorem sizeofVarNum_le (n : Nat) : sizeofVarNum n ≤ 5 := by
  unfold sizeofVarNum
  split_ifs <;> omega

theorem varNumBytes_length (n : Nat) : (varNumBytes n).length = sizeofVarNum n := by
  unfold varNumBytes sizeofVarNum
  split_ifs <;> rfl

/-- Bytes outside the room of the VAR-NUMBER are not written. -/
theorem writeVarNum_frame (mem : Mem) (room n a : Nat)
    (h : a < room ∨ room + sizeofVarNum n ≤ a) : writeVarNum mem room n a = mem a := by
  unfold sizeofVarNum at h
  unfold writeVarNum
  split_ifs at h ⊢
  · rw [Mem.set_other]; omega
  · rw [Mem.set_other, Mem.set_other, Mem.set_other] <;> omega
  · rw [Mem.set_other, Mem.set_other, Mem.set_other, Mem.set_other, Mem.set_other] <;> omega

/-- The room of the VAR-NUMBER holds its encoding. -/
theorem writeVarNum_read (mem : Mem) (room n : Nat) :
    (writeVarNum mem room n).read room (sizeofVarNum n) = varNumBytes n := by
  unfold sizeofVarNum writeVarNum varNumBytes
  split_ifs
  · simp [Mem.read, Mem.set, List.range_succ]
  · simp [Mem.read, Mem.set, List.range_succ, Nat.shiftRight_eq_div_pow]
  · simp [Mem.read, Mem.set, List.range_succ, Nat.shiftRight_eq_div_pow]

/-- Claim C1. VarNum round trip: for every 32-bit unsigned `x`, writing `x` with `writeVarNum`
into a room of `sizeofVarNum x` bytes and reading that room back with `readVarNum`
(size = `sizeofVarNum x`) returns consumed = `sizeofVarNum x` and value = `x`. -/
theorem readVarNum_writeVarNum (mem : Mem) (room x n0 : Nat) (hx : x < 2 ^ 32) :
    readVarNum (writeVarNum mem room x) room (sizeofVarNum x) n0 = (sizeofVarNum x, x) := by
  have vFD : ((253 : Byte) : Nat) = 253 := rfl
  have vFE : ((254 : Byte) : Nat) = 254 := rfl
  unfold sizeofVarNum writeVarNum readVarNum
  by_cases h1 : x < 0xFD
  · have hm : x % 256 = x := Nat.mod_eq_of_lt (by omega)
    simp [h1, Mem.set, toByte_val, hm]
  · by_cases h2 : x ≤ 0xFFFF
    · have e : ((((x >>> 8) % 256) <<< 8) ||| (x % 256)) % 2 ^ 32 = x := by
        rw [be16_or _ _ (Nat.mod_lt _ (by decide)), Nat.shiftRight_eq_div_pow]
        omega
      simp [h1, h2, Mem.set, toByte_val, vFD]
      exact e
    · have e : ((((x >>> 24) % 256) <<< 24) ||| (((x >>> 16) % 256) <<< 16) |||
          (((x >>> 8) % 256) <<< 8) ||| (x % 256)) % 2 ^ 32 = x := by
        rw [be32_or _ _ _ _ (Nat.mod_lt _ (by decide)) (Nat.mod_lt _ (by decide))
          (Nat.mod_lt _ (by decide))]
        simp only [Nat.shiftRight_eq_div_pow]
        omega
      simp [h1, h2, Mem.set, toByte_val, vFE]
      exact e

/-- Witness of C1 at the 5-byte boundary value `0x10000`. -/
theorem readVarNum_writeVarNum_witness :
    (0x10000 : Nat) < 2 ^ 32 ∧
    readVarNum (writeVarNum (fun _ => 0) 16 0x10000) 16 (sizeofVarNum 0x10000) 7
      = (sizeofVarNum 0x10000, 0x10000) :=
  ⟨by decide, readVarNum_writeVarNum (fun _ => 0) 16 0x10000 7 (by decide)⟩

/-- Claim C2. `sizeofVarNum n` is 1 when `n < 0xFD`, 3 when `0xFD ≤ n ≤ 0xFFFF` and 5 when
`n > 0xFFFF`; the inputs 0, 0xFC, 0xFD, 0xFFFF, 0x10000, 0xFFFFFFFF give 1, 1, 3, 3, 5, 5. -/
theorem sizeofVarNum_spec :
    (∀ n : Nat, n < 2 ^ 32 →
      (n < 0xFD → sizeofVarNum n = 1) ∧
      (0xFD ≤ n ∧ n ≤ 0xFFFF → sizeofVarNum n = 3) ∧
      (0xFFFF < n → sizeofVarNum n = 5)) ∧
    [0, 0xFC, 0xFD, 0xFFFF, 0x10000, 0xFFFFFFFF].map sizeofVarNum = [1, 1, 3, 3, 5, 5] := by
  refine ⟨?_, by decide⟩
  intro n _
  unfold sizeofVarNum
  refine ⟨?_, ?_, ?_⟩ <;> intro h <;> split_ifs <;> omega

/-- Witness of C2 at the last 1-byte value `0xFC`. -/
theorem sizeofVarNum_spec_witness : (0xFC : Nat) < 2 ^ 32 ∧ sizeofVarNum 0xFC = 1 :=
  ⟨by decide, (sizeofVarNum_spec.1 0xFC (by decide)).1 (by decide)⟩

/-- Claim C3. For every 32-bit unsigned `n`, `writeVarNum` writes exactly `sizeofVarNum n`
bytes and no others: the single byte `n` when `n < 0xFD`; the marker 0xFD followed by `n`
as 2 big-endian bytes when `n ≤ 0xFFFF`; otherwise the marker 0xFE followed by `n` as 4
big-endian bytes. -/
theorem writeVarNum_spec (mem : Mem) (room n : Nat) (hn : n < 2 ^ 32) :
    (∀ a, a < room ∨ room + sizeofVarNum n ≤ a → writeVarNum mem room n a = mem a) ∧
    (n < 0xFD → sizeofVarNum n = 1 ∧ ((writeVarNum mem room n) room).val = n) ∧
    (0xFD ≤ n ∧ n ≤ 0xFFFF → sizeofVarNum n = 3 ∧
      (writeVarNum mem room n) room = 0xFD ∧
      beValue ((writeVarNum mem room n).read (room + 1) 2) = n) ∧
    (0xFFFF < n → sizeofVarNum n = 5 ∧
      (writeVarNum mem room n) room = 0xFE ∧
      beValue ((writeVarNum mem room n).read (room + 1) 4) = n) := by
  refine ⟨fun a h => writeVarNum_frame mem room n a h, ?_, ?_, ?_⟩
  · intro h
    have hm : n % 256 = n := Nat.mod_eq_of_lt (by omega)
    simp [sizeofVarNum, writeVarNum, h, Mem.set, toByte_val, hm]
  · intro h
    have h1 : ¬ n < 253 := by omega
    have h2 : n ≤ 65535 := h.2
    simp [sizeofVarNum, writeVarNum, h1, h2, Mem.set, Mem.read, beValue, List.range_succ,
      toByte_val, Nat.shiftRight_eq_div_pow]
    omega
  · intro h
    have h1 : ¬ n < 253 := by omega
    have h2 : ¬ n ≤ 65535 := by omega
    simp [sizeofVarNum, writeVarNum, h1, h2, Mem.set, Mem.read, beValue, List.range_succ,
      toByte_val, Nat.shiftRight_eq_div_pow]
    omega

/-- Witness of C3 at `n = 0x1234` (3-byte form). -/
theorem writeVarNum_spec_witness :
    (0x1234 : Nat) < 2 ^ 32 ∧
    (0xFD ≤ 0x1234 ∧ 0x1234 ≤ 0xFFFF → sizeofVarNum 0x1234 = 3 ∧
      (writeVarNum (fun _ => 0) 8 0x1234) 8 = 0xFD ∧
      beValue ((writeVarNum (fun _ => 0) 8 0x1234).read (8 + 1) 2) = 0x1234) :=
  ⟨by decide, (writeVarNum_spec (fun _ => 0) 8 0x1234 (by decide)).2.2.1⟩

/-- Claim C4. For every input of length `size`, `readVarNum` fails (0 consumed bytes) if and
only if the input is empty, or its first byte is 0xFD and `size < 3`, or its first byte is
0xFE and `size < 5`, or its first byte is 0xFF; in every other case it succeeds with
consumed = 1, 3 or 5 according to the first byte, consumed ≤ size, and the value is the
big-endian number in the bytes after the marker (the first byte itself in the 1-byte
form). -/
theorem readVarNum_spec (mem : Mem) (input size n0 : Nat) :
    ((readVarNum mem input size n0).1 = 0 ↔
      (size = 0 ∨ ((mem input).val = 0xFD ∧ size < 3) ∨
        ((mem input).val = 0xFE ∧ size < 5) ∨ (mem input).val = 0xFF)) ∧
    ((readVarNum mem input size n0).1 = 0 → (readVarNum mem input size n0).2 = n0) ∧
    ((readVarNum mem input size n0).1 ≠ 0 →
      (readVarNum mem input size n0).1 ≤ size ∧
      (((mem input).val < 0xFD ∧ readVarNum mem input size n0 = (1, (mem input).val)) ∨
       ((mem input).val = 0xFD ∧
          readVarNum mem input size n0 = (3, beValue (mem.read (input + 1) 2))) ∨
       ((mem input).val = 0xFE ∧
          readVarNum mem input size n0 = (5, beValue (mem.read (input + 1) 4))))) := by
  have hb0 := (mem input).isLt
  have hb1 := (mem (input + 1)).isLt
  have hb2 := (mem (input + 2)).isLt
  have hb3 := (mem (input + 3)).isLt
  have hb4 := (mem (input + 4)).isLt
  have e16 : (((mem (input + 1)).val <<< 8) ||| (mem (input + 2)).val) % 2 ^ 32
      = beValue (mem.read (input + 1) 2) := by
    rw [be16_or _ _ hb2]
    simp [Mem.read, beValue, List.range_succ, Nat.add_assoc]
    omega
  have e32 : (((mem (input + 1)).val <<< 24) ||| ((mem (input + 2)).val <<< 16) |||
      ((mem (input + 3)).val <<< 8) ||| (mem (input + 4)).val) % 2 ^ 32
      = beValue (mem.read (input + 1) 4) := by
    rw [be32_or _ _ _ _ hb2 hb3 hb4]
    simp [Mem.read, beValue, List.range_succ, Nat.add_assoc]
    omega
  unfold readVarNum
  rw [e16, e32]
  by_cases c1 : size ≥ 1 ∧ (mem input).val < 0xFD
  · rw [if_pos c1]
    refine ⟨?_, ?_, ?_⟩
    · simp only [Nat.one_ne_zero, false_iff]; omega
    · intro h; simp at h
    · intro _; exact ⟨c1.1, Or.inl ⟨c1.2, rfl⟩⟩
  · rw [if_neg c1]
    by_cases c2 : size ≥ 3 ∧ (mem input).val = 0xFD
    · rw [if_pos c2]
      refine ⟨?_, ?_, ?_⟩
      · simp only [OfNat.ofNat_ne_zero, false_iff]; omega
      · intro h; simp at h
      · intro _; exact ⟨c2.1, Or.inr (Or.inl ⟨c2.2, rfl⟩)⟩
    · rw [if_neg c2]
      by_cases c3 : size ≥ 5 ∧ (mem input).val = 0xFE
      · rw [if_pos c3]
        refine ⟨?_, ?_, ?_⟩
        · simp only [OfNat.ofNat_ne_zero, false_iff]; omega
        · intro h; simp at h
        · intro _; exact ⟨c3.1, Or.inr (Or.inr ⟨c3.2, rfl⟩)⟩
      · rw [if_neg c3]
        refine ⟨?_, ?_, ?_⟩
        · simp only [true_iff]; omega
        · intro _; rfl
        · intro h; exact absurd rfl h

/-- Witness of C4: the 3-byte form `FD 12 34` read with all three bytes present. -/
theorem readVarNum_spec_witness :
    (readVarNum (Mem.ofList 16 [0xFD, 0x12, 0x34]) 16 3 0).1 ≠ 0 ∧
    readVarNum (Mem.ofList 16 [0xFD, 0x12, 0x34]) 16 3 0 = (3, 0x1234) := by
  have h := (readVarNum_spec (Mem.ofList 16 [0xFD, 0x12, 0x34]) 16 3 0).2.2 (by decide)
  refine ⟨by decide, ?_⟩
  rcases h.2 with h1 | h1 | h1
  · exact absurd h1.1 (by decide)
  · exact h1.2.trans (by decide)
  · exact absurd h1.1 (by decide)

/-- Counterexample to C5 as stated: a 9-byte input led by the marker 0xFF and an input
truncated after the marker 0xFD give the very same result, 0 consumed bytes and the value
untouched; no error kind tells them apart. -/
theorem readVarNum_unsupported_indistinguishable :
    readVarNum (Mem.ofList 16 [0xFF, 0, 0, 0, 0, 0, 0, 0, 1]) 16 9 7 = (0, 7) ∧
    readVarNum (Mem.ofList 16 [0xFD, 1]) 16 2 7 = (0, 7) ∧
    readVarNum (Mem.ofList 16 [0xFF, 0, 0, 0, 0, 0, 0, 0, 1]) 16 9 7
      = readVarNum (Mem.ofList 16 [0xFD, 1]) 16 2 7 := by
  decide

/-- Claim C5, amended. Reading a VAR-NUMBER whose first byte is the 9-byte marker 0xFF fails
by returning 0 consumed bytes with the value left unchanged, whatever the size; this is
exactly the result returned for an input that is too short for its marker, so the two
failures are not told apart. -/
theorem readVarNum_marker_FF (mem : Mem) (input size n0 : Nat) (mem2 : Mem) (input2 size2 : Nat)
    (hFF : (mem input).val = 0xFF)
    (htrunc : size2 = 0 ∨ ((mem2 input2).val = 0xFD ∧ size2 < 3) ∨
      ((mem2 input2).val = 0xFE ∧ size2 < 5)) :
    readVarNum mem input size n0 = (0, n0) ∧
    readVarNum mem2 input2 size2 n0 = readVarNum mem input size n0 := by
  have h1 : readVarNum mem input size n0 = (0, n0) := by
    unfold readVarNum
    rw [if_neg (by omega), if_neg (by omega), if_neg (by omega)]
  have h2 : readVarNum mem2 input2 size2 n0 = (0, n0) := by
    unfold readVarNum
    rw [if_neg (by omega), if_neg (by omega), if_neg (by omega)]
  exact ⟨h1, h2.trans h1.symm⟩

/-- Witness of C5 (amended): marker 0xFF with all nine bytes present against a lone
marker 0xFE. -/
theorem readVarNum_marker_FF_witness :
    readVarNum (Mem.ofList 16 [0xFF, 0, 0, 0, 0, 0, 0, 0, 1]) 16 9 7 = (0, 7) ∧
    readVarNum (Mem.ofList 32 [0xFE]) 32 1 7
      = readVarNum (Mem.ofList 16 [0xFF, 0, 0, 0, 0, 0, 0, 0, 1]) 16 9 7 :=
  readVarNum_marker_FF (Mem.ofList 16 [0xFF, 0, 0, 0, 0, 0, 0, 0, 1]) 16 9 7
    (Mem.ofList 32 [0xFE]) 32 1 (by decide) (Or.inr (Or.inr ⟨by decide, by decide⟩))

end tlv


/-! ## Copy lemmas -/

theorem Mem.copy_apply (mem : Mem) (p : Nat) (bs : List Byte) (a : Nat) :
    mem.copy p bs a = if p ≤ a then bs.getD (a - p) (mem a) else mem a := by
  induction bs generalizing mem p with
  | nil => simp [Mem.copy]
  | cons b bs ih =>
    rw [Mem.copy, ih]
    by_cases h1 : p + 1 ≤ a
    · have h2 : p ≤ a := by omega
      have h3 : a ≠ p := by omega
      have h4 : a - p = (a - (p + 1)) + 1 := by omega
      rw [if_pos h1, if_pos h2, h4, List.getD_cons_succ, Mem.set_other _ _ _ _ h3]
    · rw [if_neg h1]
      by_cases h2 : p ≤ a
      · have h3 : a = p := by omega
        subst h3
        simp [Mem.set]
      · have h3 : a ≠ p := by omega
        rw [if_neg h2, Mem.set_other _ _ _ _ h3]

theorem Mem.copy_outside (mem : Mem) (p : Nat) (bs : List Byte) (a : Nat)
    (h : a < p ∨ p + bs.length ≤ a) : mem.copy p bs a = mem a := by
  rw [Mem.copy_apply]
  split_ifs with h1
  · have h2 : bs.length ≤ a - p := by omega
    simp [List.getD_eq_getElem?_getD, List.getElem?_eq_none h2]
  · rfl

theorem Mem.copy_inside (mem : Mem) (p : Nat) (bs : List Byte) (i : Nat) (h : i < bs.length) :
    mem.copy p bs (p + i) = bs.getD i 0 := by
  rw [Mem.copy_apply, if_pos (by omega)]
  have h2 : p + i - p = i := by omega
  rw [h2, List.getD_eq_getElem _ _ h, List.getD_eq_getElem _ _ h]

theorem Mem.copy_append (mem : Mem) (p : Nat) (xs ys : List Byte) :
    mem.copy p (xs ++ ys) = (mem.copy p xs).copy (p + xs.length) ys := by
  induction xs generalizing mem p with
  | nil => simp [Mem.copy]
  | cons x xs ih =>
    have h : p + 1 + xs.length = p + (xs.length + 1) := by omega
    rw [List.cons_append, Mem.copy, Mem.copy, ih, List.length_cons, h]

theorem Mem.copy_comm (mem : Mem) (p q : Nat) (xs ys : List Byte) (h : p + xs.length ≤ q) :
    (mem.copy q ys).copy p xs = (mem.copy p xs).copy q ys := by
  funext a
  by_cases h1 : a < p ∨ p + xs.length ≤ a
  · rw [Mem.copy_outside _ _ _ _ h1]
    by_cases h2 : a < q ∨ q + ys.length ≤ a
    · rw [Mem.copy_outside _ _ _ _ h2, Mem.copy_outside _ _ _ _ h2, Mem.copy_outside _ _ _ _ h1]
    · have h3 : a = q + (a - q) := by omega
      rw [h3, Mem.copy_inside _ _ _ _ (by omega), Mem.copy_inside _ _ _ _ (by omega)]
  · have h2 : a < q ∨ q + ys.length ≤ a := by omega
    rw [Mem.copy_outside (mem.copy p xs) _ _ _ h2]
    have h3 : a = p + (a - p) := by omega
    rw [h3, Mem.copy_inside _ _ _ _ (by omega), Mem.copy_inside _ _ _ _ (by omega)]

theorem Mem.read_congr (m1 m2 : Mem) (p len : Nat)
    (h : ∀ a, p ≤ a → a < p + len → m1 a = m2 a) : m1.read p len = m2.read p len := by
  unfold Mem.read
  apply List.map_congr_left
  intro i hi
  rw [List.mem_range] at hi
  exact h (p + i) (by omega) (by omega)

theorem Mem.read_copy_same (mem : Mem) (p : Nat) (bs : List Byte) :
    (mem.copy p bs).read p bs.length = bs := by
  apply List.ext_getElem
  · simp [Mem.read]
  · intro i h1 h2
    simp only [Mem.read, List.getElem_map, List.getElem_range]
    rw [Mem.copy_inside _ _ _ _ h2, List.getD_eq_getElem _ _ h2]

theorem Mem.read_copy_after (mem : Mem) (p : Nat) (bs : List Byte) (q len : Nat)
    (h : p + bs.length ≤ q) : (mem.copy p bs).read q len = mem.read q len := by
  apply Mem.read_congr
  intro a h1 _
  exact Mem.copy_outside _ _ _ _ (by omega)

namespace tlv

theorem writeVarNum_eq_copy (mem : Mem) (room n : Nat) :
    writeVarNum mem room n = mem.copy room (varNumBytes n) := by
  unfold writeVarNum varNumBytes
  split_ifs
  · rfl
  · simp [Mem.copy, Nat.shiftRight_eq_div_pow, Nat.add_assoc]
  · simp [Mem.copy, Nat.shiftRight_eq_div_pow, Nat.add_assoc]

end tlv

/-! ## Word arithmetic -/

theorem toSize_sub (a b : Nat) (hb : b ≤ a) (ha : a < 2 ^ 64) :
    toSize ((a : Int) - (b : Int)) = a - b := by
  unfold toSize
  have h1 : (0 : Int) ≤ (a : Int) - (b : Int) := by omega
  have h2 : (a : Int) - (b : Int) < 2 ^ 64 := by omega
  rw [Int.emod_eq_of_lt h1 h2]
  omega

theorem toSsize_of_lt (n : Nat) (h : n < 2 ^ 63) : toSsize n = (n : Int) := by
  unfold toSsize
  have h1 : n % 2 ^ 64 = n := Nat.mod_eq_of_lt (by omega)
  rw [h1, if_pos h]


namespace Encoder

/-! ## Encoder lemmas -/

theorem prepended_nil (e : Encoder) : e.prepended [] = e := by
  simp [prepended, Mem.copy]

theorem prepended_valid (e : Encoder) (bs : List Byte) (hv : e.Valid)
    (hroom : bs.length ≤ e.m_pos - e.m_buf) : (e.prepended bs).Valid := by
  unfold Valid at hv ⊢
  simp only [prepended]
  omega

theorem prepended_headroom (e : Encoder) (bs : List Byte) :
    (e.prepended bs).m_pos - (e.prepended bs).m_buf = e.m_pos - e.m_buf - bs.length := by
  simp only [prepended]
  omega

theorem prepended_append (e : Encoder) (xs ys : List Byte)
    (hroom : xs.length + ys.length ≤ e.m_pos) :
    (e.prepended ys).prepended xs = e.prepended (xs ++ ys) := by
  simp only [prepended, List.length_append]
  have h1 : e.m_pos - ys.length - xs.length = e.m_pos - (xs.length + ys.length) := by omega
  have h2 : e.m_pos - (xs.length + ys.length) + xs.length = e.m_pos - ys.length := by omega
  rw [h1, Mem.copy_append, h2, Mem.copy_comm _ _ _ _ _ (by omega)]

theorem size_valid (e : Encoder) (hv : e.Valid) : e.size = e.m_end - e.m_pos := by
  unfold Valid at hv
  unfold size
  rw [if_neg (by omega), toSize_sub _ _ (by omega) (by omega)]

theorem output_prepended (e : Encoder) (bs : List Byte) (hv : e.Valid)
    (hroom : bs.length ≤ e.m_pos - e.m_buf) : (e.prepended bs).output = bs ++ e.output := by
  have hv2 := prepended_valid e bs hv hroom
  unfold output begin_
  rw [size_valid _ hv2, size_valid _ hv]
  unfold Valid at hv
  simp only [prepended]
  have h1 : e.m_end - (e.m_pos - bs.length) = bs.length + (e.m_end - e.m_pos) := by omega
  have h2 : e.m_pos - bs.length + bs.length = e.m_pos := by omega
  rw [h1, Mem.read_add, Mem.read_copy_same, h2, Mem.read_copy_after _ _ _ _ _ (by omega)]

theorem prependRoom_ok (e : Encoder) (n : Nat) (hv : e.Valid) (hroom : n ≤ e.m_pos - e.m_buf) :
    e.prependRoom n = (e.m_pos - n, { e with m_pos := e.m_pos - n }) := by
  unfold Valid at hv
  unfold prependRoom
  have h1 : toSsize n = (n : Int) := toSsize_of_lt n (by omega)
  have h2 : toSize ((e.m_pos : Int) - (n : Int)) = e.m_pos - n :=
    toSize_sub _ _ (by omega) (by omega)
  rw [h1, h2, if_neg (by omega)]

theorem prependRoom_short (e : Encoder) (n : Nat) (hv : e.Valid) (hroom : e.m_pos - e.m_buf < n)
    (hn : n < 2 ^ 63) : e.prependRoom n = (0, { e with m_pos := 0 }) := by
  unfold Valid at hv
  unfold prependRoom
  rw [toSsize_of_lt n hn, if_pos (by omega)]

theorem prependRoom_error (e : Encoder) (n : Nat) (he : e.m_pos = 0) :
    e.prependRoom n = (0, e) := by
  unfold prependRoom
  rw [if_pos (Or.inl he)]
  cases e
  simp only at he
  subst he
  rfl

theorem prependTypeLength_error (e : Encoder) (t l : Nat) (he : e.m_pos = 0) :
    e.prependTypeLength t l = (false, e) := by
  unfold prependTypeLength
  simp [prependRoom_error e _ he]

theorem trim_pos (e : Encoder) : e.trim.m_pos = e.m_pos ∧ e.trim.mem = e.mem ∧
    e.trim.m_end = e.m_end := by
  unfold trim
  cases e.m_region <;> simp

theorem prependTypeLength_writes (e : Encoder) (t l : Nat) (hv : e.Valid)
    (hroom : tlv.sizeofVarNum t + tlv.sizeofVarNum (l % 2 ^ 32) ≤ e.m_pos - e.m_buf) :
    e.prependTypeLength t l
      = (true, e.prepended (tlv.varNumBytes t ++ tlv.varNumBytes (l % 2 ^ 32))) := by
  have hpos := tlv.sizeofVarNum_pos t
  unfold prependTypeLength
  simp only [prependRoom_ok e _ hv hroom]
  unfold Valid at hv
  rw [if_neg (by omega)]
  simp only [prepended, List.length_append, tlv.varNumBytes_length, tlv.writeVarNum_eq_copy,
    Mem.copy_append]

end Encoder

theorem Value.item_writes (v : Value) : v.item.Writes v.bytes := by
  intro e hv hroom
  simp only [Value.item, Encoder.prependOne, Value.encodeTo, Value.m_length,
    Encoder.prependRoom_ok e _ hv hroom]
  unfold Encoder.Valid at hv
  rw [if_pos (by omega)]
  rfl

theorem Value.item_sticky (v : Value) : v.item.Sticky := by
  intro e he
  simp [Value.item, Encoder.prependOne, Value.encodeTo, Encoder.prependRoom_error e _ he, he]

namespace Encoder

/-- The items of `prepend` are invoked from last to first. -/
theorem prepend_eq_foldr (e : Encoder) (arg : List Item) :
    (e.prepend arg).2 = arg.foldr (fun it acc => acc.prependOne it) e := by
  induction arg with
  | nil => rfl
  | cons first arg ih => simp only [prepend, List.foldr_cons, ih]

theorem prepend_writes (e : Encoder) (arg : List Item) (bss : List (List Byte))
    (hitems : List.Forall₂ Item.Writes arg bss) (hv : e.Valid)
    (hroom : bss.flatten.length ≤ e.m_pos - e.m_buf) :
    e.prepend arg = (true, e.prepended bss.flatten) := by
  induction hitems with
  | nil => simp [prepend, prepended_nil]
  | @cons first bs arg bss h _ ih =>
    rw [List.flatten_cons, List.length_append] at hroom
    have ih2 := ih (by omega)
    have hv1 := prepended_valid e bss.flatten hv (by omega)
    have hw := h (e.prepended bss.flatten) hv1 (by rw [prepended_headroom]; omega)
    have hv0 := hv
    unfold Valid at hv
    rw [prepended_append _ _ _ (by omega)] at hw
    have hv2 := prepended_valid e (bs ++ bss.flatten) hv0
      (by rw [List.length_append]; omega)
    simp only [prepend, ih2, hw, List.flatten_cons]
    unfold Valid at hv2
    simp only [operatorNot, Prod.mk.injEq, and_true, Bool.not_eq_eq_eq_not, Bool.not_true,
      beq_eq_false_iff_ne, ne_eq]
    omega

end Encoder


namespace Encoder

theorem measured_length (e : Encoder) (bs : List Byte) (hv : e.Valid)
    (hroom : bs.length ≤ e.m_pos - e.m_buf) :
    toSize ((e.m_pos : Int) - ((e.prepended bs).m_pos : Int)) = bs.length := by
  unfold Valid at hv
  simp only [prepended]
  rw [toSize_sub _ _ (by omega) (by omega)]
  omega

/-- A TLV whose header is written: the output gains TLV-TYPE, TLV-LENGTH (converted to
`uint32_t`) and the octets of the children. -/
theorem prependTlv_writes (e : Encoder) (t : Nat) (omitEmpty : OmitEmptyTag) (arg : List Item)
    (bss : List (List Byte)) (hitems : List.Forall₂ Item.Writes arg bss) (hv : e.Valid)
    (hne : omitEmpty = OmitEmptyTag.NoOmitEmpty ∨ bss.flatten ≠ [])
    (hroom : tlv.sizeofVarNum t + tlv.sizeofVarNum (bss.flatten.length % 2 ^ 32)
      + bss.flatten.length ≤ e.m_pos - e.m_buf) :
    e.prependTlv t omitEmpty arg = (true, e.prepended
      (tlv.varNumBytes t ++ tlv.varNumBytes (bss.flatten.length % 2 ^ 32) ++ bss.flatten)) := by
  have hr1 : bss.flatten.length ≤ e.m_pos - e.m_buf := by omega
  have hv1 := prepended_valid e bss.flatten hv hr1
  unfold prependTlv
  simp only [prepend_writes e arg bss hitems hv hr1, measured_length e _ hv hr1]
  have hc : ¬ (bss.flatten.length = 0 ∧ omitEmpty = OmitEmptyTag.OmitEmpty) := by
    rintro ⟨h1, h2⟩
    rcases hne with h | h
    · rw [h] at h2; cases h2
    · exact h (List.length_eq_zero.mp h1)
  rw [if_neg hc]
  simp only [if_true]
  rw [prependTypeLength_writes _ _ _ hv1 (by rw [prepended_headroom]; omega)]
  unfold Valid at hv
  rw [prepended_append _ _ _ (by
    rw [List.length_append, tlv.varNumBytes_length, tlv.varNumBytes_length]; omega)]

/-- A TLV with OmitEmpty whose children write nothing leaves the encoder as it was. -/
theorem prependTlv_omitted (e : Encoder) (t : Nat) (arg : List Item)
    (bss : List (List Byte)) (hitems : List.Forall₂ Item.Writes arg bss) (hv : e.Valid)
    (hempty : bss.flatten = []) :
    e.prependTlv t OmitEmptyTag.OmitEmpty arg = (true, e) := by
  have hr1 : bss.flatten.length ≤ e.m_pos - e.m_buf := by rw [hempty]; simp
  unfold prependTlv
  simp only [prepend_writes e arg bss hitems hv hr1, measured_length e _ hv hr1]
  rw [hempty]
  simp [prepended_nil]

/-- A closure that prepends one TLV meets the contract of an item. -/
theorem tlv_closure_writes (t : Nat) (omitEmpty : OmitEmptyTag) (arg : List Item)
    (bss : List (List Byte)) (hitems : List.Forall₂ Item.Writes arg bss)
    (hne : omitEmpty = OmitEmptyTag.NoOmitEmpty ∨ bss.flatten ≠ []) :
    (Item.func (fun encoder => (encoder.prependTlv t omitEmpty arg).2)).Writes
      (tlv.varNumBytes t ++ tlv.varNumBytes (bss.flatten.length % 2 ^ 32) ++ bss.flatten) := by
  intro e hv hroom
  simp only [List.length_append, tlv.varNumBytes_length] at hroom
  simp only [prependOne, prependTlv_writes e t omitEmpty arg bss hitems hv hne hroom]

/-! ### Error state -/

theorem prepend_error (e : Encoder) (arg : List Item) (he : e.m_pos = 0)
    (hitems : ∀ it ∈ arg, it.Sticky) :
    (e.prepend arg).2.m_pos = 0 ∧ (e.prepend arg).2.mem = e.mem := by
  induction arg with
  | nil => exact ⟨he, rfl⟩
  | cons first arg ih =>
    have ih2 := ih (fun it h => hitems it (List.mem_cons_of_mem _ h))
    have h1 := hitems first (List.mem_cons_self _ _) (e.prepend arg).2 ih2.1
    simp only [prepend]
    exact ⟨h1.1, h1.2.trans ih2.2⟩

theorem prependTlv_error (e : Encoder) (t : Nat) (omitEmpty : OmitEmptyTag) (arg : List Item)
    (he : e.m_pos = 0) (hitems : ∀ it ∈ arg, it.Sticky) :
    (e.prependTlv t omitEmpty arg).2.m_pos = 0 ∧ (e.prependTlv t omitEmpty arg).2.mem = e.mem := by
  have h := prepend_error e arg he hitems
  unfold prependTlv
  simp only
  split_ifs
  · exact h
  · rw [prependTypeLength_error _ _ _ h.1]
    exact h
  · exact h

theorem step_error (e : Encoder) (op : Op) (he : e.m_pos = 0)
    (hitems : ∀ it ∈ op.items, it.Sticky) :
    (e.step op).m_pos = 0 ∧ (e.step op).mem = e.mem := by
  cases op with
  | prependRoom size =>
    show (e.prependRoom size).2.m_pos = 0 ∧ (e.prependRoom size).2.mem = e.mem
    rw [prependRoom_error e _ he]
    exact ⟨he, rfl⟩
  | prependTypeLength t l =>
    show (e.prependTypeLength t l).2.m_pos = 0 ∧ (e.prependTypeLength t l).2.mem = e.mem
    rw [prependTypeLength_error e _ _ he]
    exact ⟨he, rfl⟩
  | prepend arg => exact prepend_error e arg he hitems
  | prependTlv t o arg => exact prependTlv_error e t o arg he hitems
  | trim =>
    have h := trim_pos e
    exact ⟨h.1.trans he, h.2.1⟩

theorem run_error (e : Encoder) (ops : List Op) (he : e.m_pos = 0)
    (hitems : ∀ op ∈ ops, ∀ it ∈ op.items, it.Sticky) :
    (e.run ops).m_pos = 0 ∧ (e.run ops).mem = e.mem := by
  induction ops generalizing e with
  | nil => exact ⟨he, rfl⟩
  | cons op ops ih =>
    have h1 := step_error e op he (hitems op (List.mem_cons_self _ _))
    have h2 := ih (e.step op) h1.1 (fun o ho => hitems o (List.mem_cons_of_mem _ ho))
    simp only [run, List.foldl_cons] at h2 ⊢
    exact ⟨h2.1, h2.2.trans h1.2⟩

/-- A closure whose body is a sequence of encoder calls keeps the error state. -/
theorem run_closure_sticky (ops : List Op) (hitems : ∀ op ∈ ops, ∀ it ∈ op.items, it.Sticky) :
    (Item.func (fun encoder => encoder.run ops)).Sticky := by
  intro e he
  exact run_error e ops he hitems

end Encoder


namespace Encoder

/-- Claim C6. `prepend` composes in natural argument order: for every list of items (raw
Values or closures, each encoding to its octets) and a live encoder with enough headroom,
`prepend(a, b, c)` invokes the items from last to first, afterwards the output
`[begin(), end())` is bytes(a) ++ bytes(b) ++ bytes(c) ++ the previous output, and it
returns true. -/
theorem prepend_natural_order (e : Encoder) (arg : List Item) (bss : List (List Byte))
    (hitems : List.Forall₂ Item.Writes arg bss) (hv : e.Valid)
    (hroom : bss.flatten.length ≤ e.m_pos - e.m_buf) :
    (e.prepend arg).2 = arg.reverse.foldl (fun acc it => acc.prependOne it) e ∧
    (e.prepend arg).2.output = bss.flatten ++ e.output ∧
    (e.prepend arg).1 = true := by
  refine ⟨?_, ?_, ?_⟩
  · rw [prepend_eq_foldr, List.foldl_reverse]
  · rw [prepend_writes e arg bss hitems hv hroom]
    exact output_prepended e _ hv hroom
  · rw [prepend_writes e arg bss hitems hv hroom]

/-- Witness of C6: a Value, a closure that prepends a TLV, and a Value, on a 16-byte
buffer. -/
theorem prepend_natural_order_witness :
    ((Encoder.init (fun _ => 0) 0x1000 16).prepend
        [(Value.mk [1, 2]).item,
          Item.func (fun encoder =>
            (encoder.prependTlv 8 OmitEmptyTag.NoOmitEmpty [(Value.mk [0x41]).item]).2),
          (Value.mk [3]).item]).2.output = [1, 2, 8, 1, 0x41, 3] ∧
    ((Encoder.init (fun _ => 0) 0x1000 16).prepend
        [(Value.mk [1, 2]).item,
          Item.func (fun encoder =>
            (encoder.prependTlv 8 OmitEmptyTag.NoOmitEmpty [(Value.mk [0x41]).item]).2),
          (Value.mk [3]).item]).1 = true :=
  (prepend_natural_order (Encoder.init (fun _ => 0) 0x1000 16)
    [(Value.mk [1, 2]).item,
      Item.func (fun encoder =>
        (encoder.prependTlv 8 OmitEmptyTag.NoOmitEmpty [(Value.mk [0x41]).item]).2),
      (Value.mk [3]).item]
    [[1, 2], [8, 1, 0x41], [3]]
    (List.Forall₂.cons (Value.item_writes _)
      (List.Forall₂.cons
        (tlv_closure_writes 8 OmitEmptyTag.NoOmitEmpty [(Value.mk [0x41]).item] [[0x41]]
          (List.Forall₂.cons (Value.item_writes _) List.Forall₂.nil) (Or.inl rfl))
        (List.Forall₂.cons (Value.item_writes _) List.Forall₂.nil)))
    (by decide) (by decide)).2

/-- Claim C7. For every TLV-TYPE `t` and children whose encoding `V` fits in the headroom
together with the header, `prependTlv(t, children...)` without OmitEmpty leaves the output
equal to VarNum(t) ++ VarNum(|V|) ++ V ++ the previous output, where |V| is the number of
bytes the children wrote (position before minus position after), and returns true. Both
VAR-NUMBERs are 32-bit: `t < 2 ^ 32` and `|V| < 2 ^ 32`. -/
theorem prependTlv_layout (e : Encoder) (t : Nat) (arg : List Item) (bss : List (List Byte))
    (hitems : List.Forall₂ Item.Writes arg bss) (hv : e.Valid)
    (ht : t < 2 ^ 32) (hlen : bss.flatten.length < 2 ^ 32)
    (hroom : tlv.sizeofVarNum t + tlv.sizeofVarNum bss.flatten.length + bss.flatten.length
      ≤ e.m_pos - e.m_buf) :
    (e.prependTlv t OmitEmptyTag.NoOmitEmpty arg).2.output
      = tlv.varNumBytes t ++ tlv.varNumBytes bss.flatten.length ++ bss.flatten ++ e.output ∧
    bss.flatten.length = e.m_pos - (e.prepend arg).2.m_pos ∧
    (e.prependTlv t OmitEmptyTag.NoOmitEmpty arg).1 = true := by
  have _ := ht
  have hm : bss.flatten.length % 2 ^ 32 = bss.flatten.length := Nat.mod_eq_of_lt hlen
  have hw := prependTlv_writes e t OmitEmptyTag.NoOmitEmpty arg bss hitems hv (Or.inl rfl)
    (by rw [hm]; exact hroom)
  rw [hm] at hw
  have hr1 : bss.flatten.length ≤ e.m_pos - e.m_buf := by omega
  refine ⟨?_, ?_, ?_⟩
  · rw [hw]
    exact output_prepended e _ hv (by
      simp only [List.length_append, tlv.varNumBytes_length]; omega)
  · rw [prepend_writes e arg bss hitems hv hr1]
    unfold Valid at hv
    simp only [prepended]
    omega
  · rw [hw]

/-- Witness of C7: a Name TLV (type 7) around one component `08 01 41`. -/
theorem prependTlv_layout_witness :
    ((Encoder.init (fun _ => 0) 0x1000 16).prependTlv 7 OmitEmptyTag.NoOmitEmpty
        [(Value.mk [8, 1, 0x41]).item]).2.output = [7, 3, 8, 1, 0x41] ∧
    ((Encoder.init (fun _ => 0) 0x1000 16).prependTlv 7 OmitEmptyTag.NoOmitEmpty
        [(Value.mk [8, 1, 0x41]).item]).1 = true :=
  have h := prependTlv_layout (Encoder.init (fun _ => 0) 0x1000 16) 7
    [(Value.mk [8, 1, 0x41]).item] [[8, 1, 0x41]]
    (List.Forall₂.cons (Value.item_writes _) List.Forall₂.nil)
    (by decide) (by decide) (by decide) (by decide)
  ⟨h.1, h.2.2⟩

/-- Claim C8. For every live encoder and every TLV-TYPE `t`, `prependTlv(t, OmitEmpty,
children...)` whose children write zero bytes writes nothing at all: the encoder, hence
`begin()`, `end()` and `size()`, is unchanged and it returns true; whereas with NoOmitEmpty
(and room for the header) the same call prepends the 2-or-more byte header
VarNum(t) ++ 00. -/
theorem prependTlv_omitEmpty (e : Encoder) (t : Nat) (arg : List Item) (bss : List (List Byte))
    (hitems : List.Forall₂ Item.Writes arg bss) (hempty : bss.flatten = []) (hv : e.Valid)
    (ht : t < 2 ^ 32) :
    ((e.prependTlv t OmitEmptyTag.OmitEmpty arg).1 = true ∧
      (e.prependTlv t OmitEmptyTag.OmitEmpty arg).2 = e ∧
      (e.prependTlv t OmitEmptyTag.OmitEmpty arg).2.begin_ = e.begin_ ∧
      (e.prependTlv t OmitEmptyTag.OmitEmpty arg).2.end_ = e.end_ ∧
      (e.prependTlv t OmitEmptyTag.OmitEmpty arg).2.size = e.size) ∧
    (tlv.sizeofVarNum t + 1 ≤ e.m_pos - e.m_buf →
      (e.prependTlv t OmitEmptyTag.NoOmitEmpty arg).1 = true ∧
      (e.prependTlv t OmitEmptyTag.NoOmitEmpty arg).2.output
        = tlv.varNumBytes t ++ [0] ++ e.output ∧
      (e.prependTlv t OmitEmptyTag.NoOmitEmpty arg).2.size = e.size + (tlv.sizeofVarNum t + 1) ∧
      2 ≤ (tlv.varNumBytes t ++ [0]).length) := by
  have _ := ht
  refine ⟨?_, ?_⟩
  · rw [prependTlv_omitted e t arg bss hitems hv hempty]
    exact ⟨rfl, rfl, rfl, rfl, rfl⟩
  · intro hroom
    have hz : tlv.varNumBytes (bss.flatten.length % 2 ^ 32) = [0] := by
      rw [hempty]; decide
    have hs : tlv.sizeofVarNum (bss.flatten.length % 2 ^ 32) = 1 := by
      rw [hempty]; decide
    have hw := prependTlv_writes e t OmitEmptyTag.NoOmitEmpty arg bss hitems hv (Or.inl rfl)
      (by rw [hs, hempty]; simpa using hroom)
    rw [hz, hempty, List.append_nil] at hw
    have hl : (tlv.varNumBytes t ++ [0]).length = tlv.sizeofVarNum t + 1 := by
      rw [List.length_append, tlv.varNumBytes_length]; rfl
    have hr2 : (tlv.varNumBytes t ++ [0]).length ≤ e.m_pos - e.m_buf := by rw [hl]; exact hroom
    have hpos := tlv.sizeofVarNum_pos t
    refine ⟨by rw [hw], ?_, ?_, by omega⟩
    · rw [hw]
      exact output_prepended e _ hv hr2
    · rw [hw, size_valid _ (prepended_valid e _ hv hr2), size_valid _ hv]
      unfold Valid at hv
      simp only [prepended, hl]
      omega

/-- Witness of C8: a MetaInfo TLV (type 0x14) around one empty Value. -/
theorem prependTlv_omitEmpty_witness :
    ((Encoder.init (fun _ => 0) 0x1000 16).prependTlv 0x14 OmitEmptyTag.OmitEmpty
        [(Value.mk []).item]).2.size = 0 ∧
    ((Encoder.init (fun _ => 0) 0x1000 16).prependTlv 0x14 OmitEmptyTag.NoOmitEmpty
        [(Value.mk []).item]).2.output = [0x14, 0] :=
  have h := prependTlv_omitEmpty (Encoder.init (fun _ => 0) 0x1000 16) 0x14
    [(Value.mk []).item] [[]]
    (List.Forall₂.cons (Value.item_writes _) List.Forall₂.nil) rfl (by decide) (by decide)
  ⟨h.1.2.2.2.2, (h.2 (by decide)).2.1⟩

/-- Claim C9, failing input. On a live encoder over 16 bytes at 0x1000, `prependRoom` asked
for `2 ^ 63` bytes, more than the headroom `pos - buf = 16`, does not return null and does
not enter the error state: the cast to `ssize_t` makes the size negative, the room check
passes, and `m_pos` is moved to `0x1010 + 2 ^ 63`, outside `[m_buf, m_end)`. -/
theorem prependRoom_huge_size :
    (Encoder.init (fun _ => 0) 0x1000 16).Valid ∧
    (Encoder.init (fun _ => 0) 0x1000 16).operatorNot = false ∧
    (Encoder.init (fun _ => 0) 0x1000 16).m_pos - (Encoder.init (fun _ => 0) 0x1000 16).m_buf
      < 2 ^ 63 ∧
    (2 : Nat) ^ 63 < 2 ^ 64 ∧
    ((Encoder.init (fun _ => 0) 0x1000 16).prependRoom (2 ^ 63)).1 = 0x1010 + 2 ^ 63 ∧
    ((Encoder.init (fun _ => 0) 0x1000 16).prependRoom (2 ^ 63)).1 ≠ 0 ∧
    ((Encoder.init (fun _ => 0) 0x1000 16).prependRoom (2 ^ 63)).2.operatorNot = false ∧
    ((Encoder.init (fun _ => 0) 0x1000 16).prependRoom (2 ^ 63)).2.m_end
      < ((Encoder.init (fun _ => 0) 0x1000 16).prependRoom (2 ^ 63)).2.m_pos := by
  decide

/-- Claim C10. The error state is sticky: once `operator!` is true (`m_pos` is null), after
any further sequence of `prependRoom`, `prependTypeLength`, `prepend`, `prependTlv` and
`trim` calls, whose items keep the error state themselves, `operator!` is still true,
`size()` is 0, `begin()` is null, and no byte of memory has been written. -/
theorem error_sticky (e : Encoder) (ops : List Op) (he : e.operatorNot = true)
    (hitems : ∀ op ∈ ops, ∀ it ∈ op.items, it.Sticky) :
    (e.run ops).operatorNot = true ∧ (e.run ops).size = 0 ∧ (e.run ops).begin_ = 0 ∧
    (e.run ops).end_ = 0 ∧ (e.run ops).mem = e.mem := by
  have he0 : e.m_pos = 0 := by simpa [operatorNot] using he
  have h := run_error e ops he0 hitems
  refine ⟨?_, ?_, ?_, ?_, h.2⟩
  · simp [operatorNot, h.1]
  · simp [size, h.1]
  · exact h.1
  · simp [end_, h.1]

end Encoder


namespace Encoder

/-- Witness of C10: an encoder created from a Region and already in error, driven
through every kind of call, one of them with a closure that calls the encoder again. -/
theorem error_sticky_witness :
    (({ m_region := some ⟨0x1000, 0x1000, 0x1000, 0x1010⟩, m_buf := 0x1000, m_pos := 0,
        m_end := 0x1010, mem := fun _ => 0 } : Encoder).run
      [Op.prependRoom 1, Op.prependTypeLength 7 3, Op.prepend [(Value.mk [1, 2]).item],
        Op.prependTlv 7 OmitEmptyTag.NoOmitEmpty
          [Item.func (fun encoder => encoder.run [Op.prependRoom 1, Op.trim])],
        Op.trim]).operatorNot = true ∧
    (({ m_region := some ⟨0x1000, 0x1000, 0x1000, 0x1010⟩, m_buf := 0x1000, m_pos := 0,
        m_end := 0x1010, mem := fun _ => 0 } : Encoder).run
      [Op.prependRoom 1, Op.prependTypeLength 7 3, Op.prepend [(Value.mk [1, 2]).item],
        Op.prependTlv 7 OmitEmptyTag.NoOmitEmpty
          [Item.func (fun encoder => encoder.run [Op.prependRoom 1, Op.trim])],
        Op.trim]).size = 0 :=
  have h := error_sticky
    ({ m_region := some ⟨0x1000, 0x1000, 0x1000, 0x1010⟩, m_buf := 0x1000, m_pos := 0,
        m_end := 0x1010, mem := fun _ => 0 } : Encoder)
    [Op.prependRoom 1, Op.prependTypeLength 7 3, Op.prepend [(Value.mk [1, 2]).item],
      Op.prependTlv 7 OmitEmptyTag.NoOmitEmpty
        [Item.func (fun encoder => encoder.run [Op.prependRoom 1, Op.trim])],
      Op.trim]
    rfl
    (by
      intro op hop it hit
      simp only [List.mem_cons, List.mem_singleton, List.not_mem_nil, or_false] at hop
      rcases hop with rfl | rfl | rfl | rfl | rfl
      · simp [Op.items] at hit
      · simp [Op.items] at hit
      · simp only [Op.items, List.mem_singleton] at hit
        rw [hit]
        exact Value.item_sticky _
      · simp only [Op.items, List.mem_singleton] at hit
        rw [hit]
        apply run_closure_sticky
        intro op2 hop2 it2 hit2
        simp only [List.mem_cons, List.mem_singleton, List.not_mem_nil, or_false] at hop2
        rcases hop2 with rfl | rfl <;> simp [Op.items] at hit2
      · simp [Op.items] at hit)
  ⟨h.1, h.2.1⟩

end Encoder


/-! ## The end of the output -/

theorem Value.item_keepsEnd (v : Value) : v.item.KeepsEnd := by
  intro e
  simp only [Value.item, Encoder.prependOne, Value.encodeTo, Encoder.prependRoom]
  split_ifs <;> rfl

namespace Encoder

theorem prependRoom_end (e : Encoder) (n : Nat) : (e.prependRoom n).2.m_end = e.m_end := by
  unfold prependRoom
  split_ifs <;> rfl

theorem prependTypeLength_end (e : Encoder) (t l : Nat) :
    (e.prependTypeLength t l).2.m_end = e.m_end := by
  unfold prependTypeLength
  simp only
  split_ifs
  · exact prependRoom_end e _
  · exact prependRoom_end e _

theorem prepend_end (e : Encoder) (arg : List Item) (hitems : ∀ it ∈ arg, it.KeepsEnd) :
    (e.prepend arg).2.m_end = e.m_end := by
  induction arg with
  | nil => rfl
  | cons first arg ih =>
    have ih2 := ih (fun it h => hitems it (List.mem_cons_of_mem _ h))
    have h1 := hitems first (List.mem_cons_self _ _) (e.prepend arg).2
    simp only [prepend]
    exact h1.trans ih2

theorem prependTlv_end (e : Encoder) (t : Nat) (o : OmitEmptyTag) (arg : List Item)
    (hitems : ∀ it ∈ arg, it.KeepsEnd) : (e.prependTlv t o arg).2.m_end = e.m_end := by
  have h := prepend_end e arg hitems
  unfold prependTlv
  simp only
  split_ifs
  · exact h
  · exact (prependTypeLength_end _ _ _).trans h
  · exact h

theorem step_m_end (e : Encoder) (op : Op) (hitems : ∀ it ∈ op.items, it.KeepsEnd) :
    (e.step op).m_end = e.m_end := by
  cases op with
  | prependRoom size => exact prependRoom_end e size
  | prependTypeLength t l => exact prependTypeLength_end e t l
  | prepend arg => exact prepend_end e arg hitems
  | prependTlv t o arg => exact prependTlv_end e t o arg hitems
  | trim => exact (trim_pos e).2.2

/-- Counterexample to C11 as stated: on a 16-byte buffer, `prependRoom(17)` fails, and
`end()`, which was `0x1010` before the call, is null after it. -/
theorem end_changes_on_error :
    (Encoder.init (fun _ => 0) 0x1000 16).end_ = 0x1010 ∧
    ((Encoder.init (fun _ => 0) 0x1000 16).step (Op.prependRoom 17)).end_ = 0 ∧
    ((Encoder.init (fun _ => 0) 0x1000 16).step (Op.prependRoom 17)).end_
      ≠ (Encoder.init (fun _ => 0) 0x1000 16).end_ := by
  decide

/-- Claim C11, amended. For every encoder state and every operation (`prependRoom`,
`prependTypeLength`, `prepend`, `prependTlv`, `trim`, with items that leave `m_end` alone),
the field `m_end` after the operation is the one before it; hence `end()` is identical
before and after whenever the operation does not change the error status, and `end()` is
null once the encoder is in error. -/
theorem end_never_grows (e : Encoder) (op : Op) (hitems : ∀ it ∈ op.items, it.KeepsEnd) :
    (e.step op).m_end = e.m_end ∧
    ((e.step op).operatorNot = e.operatorNot → (e.step op).end_ = e.end_) ∧
    ((e.step op).operatorNot = true → (e.step op).end_ = 0) := by
  have h := step_m_end e op hitems
  refine ⟨h, ?_, ?_⟩
  · intro hs
    simp only [operatorNot] at hs
    unfold end_
    rw [h]
    by_cases h0 : e.m_pos = 0
    · have h1 : (e.step op).m_pos = 0 := by simpa [h0] using hs
      rw [if_pos h0, if_pos h1]
    · have h1 : ¬ (e.step op).m_pos = 0 := by
        intro h2
        rw [h2] at hs
        simp at hs
        exact h0 hs
      rw [if_neg h0, if_neg h1]
  · intro hs
    have h1 : (e.step op).m_pos = 0 := by simpa [operatorNot] using hs
    simp [end_, h1]

/-- Witness of C11 (amended): prepending a two-octet Value on a 16-byte buffer. -/
theorem end_never_grows_witness :
    ((Encoder.init (fun _ => 0) 0x1000 16).step (Op.prepend [(Value.mk [1, 2]).item])).end_
      = (Encoder.init (fun _ => 0) 0x1000 16).end_ :=
  (end_never_grows (Encoder.init (fun _ => 0) 0x1000 16) (Op.prepend [(Value.mk [1, 2]).item])
    (by
      intro it hit
      simp only [Op.items, List.mem_singleton] at hit
      rw [hit]
      exact Value.item_keepsEnd _)).2.1 (by decide)

end Encoder

/-! ## Name comparison and `Interest::match` -/

namespace Name

theorem compareComps_equal (a b : List Component) :
    compareComps a b = CompareResult.CMP_EQUAL ↔ a = b := by
  induction a generalizing b with
  | nil => cases b <;> simp [compareComps]
  | cons x xs ih =>
    cases b with
    | nil => simp [compareComps]
    | cons y ys =>
      simp only [compareComps]
      by_cases hxy : x = y
      · rw [if_pos hxy, ih]
        simp [hxy]
      · rw [if_neg hxy]
        split_ifs <;> simp [hxy]

theorem compareComps_lprefix (a b : List Component) :
    compareComps a b = CompareResult.CMP_LPREFIX ↔ ∃ c cs, b = a ++ c :: cs := by
  induction a generalizing b with
  | nil => cases b <;> simp [compareComps]
  | cons x xs ih =>
    cases b with
    | nil => simp [compareComps]
    | cons y ys =>
      simp only [compareComps]
      by_cases hxy : x = y
      · rw [if_pos hxy, ih]
        simp [hxy]
      · rw [if_neg hxy]
        have hyx : ¬ y = x := fun h => hxy h.symm
        split_ifs <;> simp [hyx]

theorem compareComps_rprefix (a b : List Component) :
    compareComps a b = CompareResult.CMP_RPREFIX ↔ ∃ c cs, a = b ++ c :: cs := by
  induction a generalizing b with
  | nil => cases b <;> simp [compareComps]
  | cons x xs ih =>
    cases b with
    | nil => simp [compareComps]
    | cons y ys =>
      simp only [compareComps]
      by_cases hxy : x = y
      · rw [if_pos hxy, ih]
        simp [hxy]
      · rw [if_neg hxy]
        split_ifs <;> simp [hxy]

theorem get_last (n : Name) (c : Component) (pre : List Component) (h : n.comps = pre ++ [c]) :
    n.get (-1) = c := by
  have hs : n.size = pre.length + 1 := by simp [size, h]
  unfold get
  have h1 : ((-1 : Int) < 0) := by decide
  simp only [h1, if_true, hs]
  have h2 : (-1 + ((pre.length + 1 : Nat) : Int)) = (pre.length : Int) := by omega
  rw [h2]
  have h3 : (0 : Int) ≤ (pre.length : Int) ∧ (pre.length : Int) < ((pre.length + 1 : Nat) : Int) := by
    omega
  rw [if_pos h3, h]
  simp [List.getD_eq_getElem?_getD]

end Name

namespace Interest

/-- Claim C19. `Interest::match` returns false whenever mustBeFresh is set and the Data's
freshness period is 0, whatever the names; otherwise it returns true when the names compare
EQUAL (the names are the same), returns canBePrefix when the comparison is LPREFIX (the
Interest name is a strict prefix of the Data name), and returns false when the comparison is
LT or GT. Interest /A against Data /A/1 matches with canBePrefix = true and does not match
with canBePrefix = false. -/
theorem match_decision (obj : detail.InterestObj) (data : DataT) :
    (obj.mustBeFresh = true ∧ data.getFreshnessPeriod = 0 → match_ obj data = false) ∧
    (¬ (obj.mustBeFresh = true ∧ data.getFreshnessPeriod = 0) →
      (obj.name = data.getName → match_ obj data = true) ∧
      (obj.name.compare data.getName = Name.CompareResult.CMP_EQUAL → match_ obj data = true) ∧
      ((∃ c cs, data.getName.comps = obj.name.comps ++ c :: cs) →
        match_ obj data = obj.canBePrefix) ∧
      (obj.name.compare data.getName = Name.CompareResult.CMP_LPREFIX →
        match_ obj data = obj.canBePrefix) ∧
      (obj.name.compare data.getName = Name.CompareResult.CMP_LT ∨
        obj.name.compare data.getName = Name.CompareResult.CMP_GT → match_ obj data = false)) ∧
    match_ { name := ⟨[⟨8, [0x41]⟩]⟩, canBePrefix := true }
      { getFreshnessPeriod := 0, getName := ⟨[⟨8, [0x41]⟩, ⟨8, [0x31]⟩]⟩,
        computeImplicitDigest := none } = true ∧
    match_ { name := ⟨[⟨8, [0x41]⟩]⟩, canBePrefix := false }
      { getFreshnessPeriod := 0, getName := ⟨[⟨8, [0x41]⟩, ⟨8, [0x31]⟩]⟩,
        computeImplicitDigest := none } = false := by
  refine ⟨?_, ?_, by decide, by decide⟩
  · intro h
    unfold match_
    rw [if_pos h]
  · intro h
    have heq : obj.name.compare data.getName = Name.CompareResult.CMP_EQUAL →
        match_ obj data = true := by
      intro hc
      unfold match_
      rw [if_neg h, hc]
    have hlp : obj.name.compare data.getName = Name.CompareResult.CMP_LPREFIX →
        match_ obj data = obj.canBePrefix := by
      intro hc
      unfold match_
      rw [if_neg h, hc]
    refine ⟨?_, heq, ?_, hlp, ?_⟩
    · intro hn
      apply heq
      unfold Name.compare
      rw [Name.compareComps_equal, hn]
    · intro hp
      apply hlp
      unfold Name.compare
      rw [Name.compareComps_lprefix]
      exact hp
    · intro hc
      unfold match_
      rw [if_neg h]
      rcases hc with hc | hc <;> rw [hc]

/-- Witness of C19: Interest /A with mustBeFresh against a Data /A that has no freshness
period does not match, although the names are equal. -/
theorem match_decision_witness :
    match_ { name := ⟨[⟨8, [0x41]⟩]⟩, mustBeFresh := true }
      { getFreshnessPeriod := 0, getName := ⟨[⟨8, [0x41]⟩]⟩,
        computeImplicitDigest := none } = false :=
  (match_decision { name := ⟨[⟨8, [0x41]⟩]⟩, mustBeFresh := true }
    { getFreshnessPeriod := 0, getName := ⟨[⟨8, [0x41]⟩]⟩,
      computeImplicitDigest := none }).1 ⟨rfl, rfl⟩

/-- Claim C20. Implicit-digest matching: when mustBeFresh does not block and the Data name
is a strict prefix of the Interest name (the comparison is RPREFIX), `match` returns true if
and only if the Interest name has exactly one more component than the Data name, that last
component is an ImplicitSha256DigestComponent (type 0x01), the Data's implicit digest can be
computed, and the value of the component equals that 32-octet digest; an Interest that
extends the Data name by two or more components, or by a component of another type, never
matches. -/
theorem match_implicit_digest (obj : detail.InterestObj) (data : DataT)
    (hfresh : ¬ (obj.mustBeFresh = true ∧ data.getFreshnessPeriod = 0))
    (hpre : ∃ c cs, obj.name.comps = data.getName.comps ++ c :: cs)
    (hlen : ∀ d, data.computeImplicitDigest = some d → d.length = NDNPH_SHA256_LEN) :
    obj.name.compare data.getName = Name.CompareResult.CMP_RPREFIX ∧
    (match_ obj data = true ↔
      (obj.name.size = data.getName.size + 1 ∧
        (obj.name.get (-1)).type = TT.ImplicitSha256DigestComponent ∧
        ∃ d, data.computeImplicitDigest = some d ∧ (obj.name.get (-1)).value = d)) ∧
    (obj.name.size ≥ data.getName.size + 2 → match_ obj data = false) ∧
    ((obj.name.get (-1)).type ≠ TT.ImplicitSha256DigestComponent → match_ obj data = false) := by
  have hc : obj.name.compare data.getName = Name.CompareResult.CMP_RPREFIX := by
    unfold Name.compare
    rw [Name.compareComps_rprefix]
    exact hpre
  have hiff : match_ obj data = true ↔
      (obj.name.size = data.getName.size + 1 ∧
        (obj.name.get (-1)).type = TT.ImplicitSha256DigestComponent ∧
        ∃ d, data.computeImplicitDigest = some d ∧ (obj.name.get (-1)).value = d) := by
    unfold match_
    rw [if_neg hfresh, hc]
    simp only [convention.ImplicitDigest.match_, TimingSafeEqual, Component.length,
      Bool.and_eq_true, decide_eq_true_eq, beq_iff_eq]
    constructor
    · rintro ⟨⟨h1, h2, _⟩, h4⟩
      refine ⟨h1, h2, ?_⟩
      cases hd : data.computeImplicitDigest with
      | none => rw [hd] at h4; simp at h4
      | some d =>
        rw [hd] at h4
        simp only [decide_eq_true_eq] at h4
        exact ⟨d, rfl, h4.symm⟩
    · rintro ⟨h1, h2, d, hd, hv⟩
      refine ⟨⟨h1, h2, ?_⟩, ?_⟩
      · rw [hv]
        exact hlen d hd
      · rw [hd]
        simp only [decide_eq_true_eq]
        exact hv.symm
  refine ⟨hc, hiff, ?_, ?_⟩
  · intro h2
    cases hm : match_ obj data with
    | false => rfl
    | true =>
      have := (hiff.mp hm).1
      omega
  · intro h2
    cases hm : match_ obj data with
    | false => rfl
    | true => exact absurd (hiff.mp hm).2.1 h2

/-- Witness of C20: Interest /A/<implicit digest> against a Data /A whose implicit digest
is that value. -/
theorem match_implicit_digest_witness :
    match_ { name := ⟨[⟨8, [0x41]⟩, ⟨1, List.replicate 32 7⟩]⟩ }
      { getFreshnessPeriod := 0, getName := ⟨[⟨8, [0x41]⟩]⟩,
        computeImplicitDigest := some (List.replicate 32 7) } = true :=
  (match_implicit_digest { name := ⟨[⟨8, [0x41]⟩, ⟨1, List.replicate 32 7⟩]⟩ }
    { getFreshnessPeriod := 0, getName := ⟨[⟨8, [0x41]⟩]⟩,
      computeImplicitDigest := some (List.replicate 32 7) }
    (by decide) ⟨⟨1, List.replicate 32 7⟩, [], rfl⟩
    (by intro d hd; cases hd; rfl)).2.1.mpr
    ⟨rfl, by decide, List.replicate 32 7, rfl, by decide⟩

end Interest

/-! ## Encoding a plain Interest -/

theorem tlvBytes_length (t : Nat) (v : List Byte) :
    (tlvBytes t v).length = tlv.sizeofVarNum t + tlv.sizeofVarNum v.length + v.length := by
  simp [tlvBytes, tlv.varNumBytes_length, Nat.add_assoc]

theorem Item.writes_nil_of_id (f : Encoder → Encoder) (h : ∀ e, f e = e) :
    (Item.func f).Writes [] := by
  intro e _ _
  simp only [Encoder.prependOne, h, Encoder.prepended_nil]

namespace Encoder

/-- A closure that prepends one TLV with a value shorter than `2 ^ 32` octets. -/
theorem tlv_closure_writes_exact (t : Nat) (arg : List Item) (bss : List (List Byte))
    (hitems : List.Forall₂ Item.Writes arg bss) (hlen : bss.flatten.length < 2 ^ 32) :
    (Item.func (fun encoder => (encoder.prependTlv t OmitEmptyTag.NoOmitEmpty arg).2)).Writes
      (tlvBytes t bss.flatten) := by
  have h := tlv_closure_writes t OmitEmptyTag.NoOmitEmpty arg bss hitems (Or.inl rfl)
  rw [Nat.mod_eq_of_lt hlen] at h
  exact h

/-- A closure that prepends one TLV around one Value. -/
theorem tlv_value_writes (t : Nat) (v : List Byte) (hlen : v.length < 2 ^ 32) :
    (Item.func (fun encoder =>
      (encoder.prependTlv t OmitEmptyTag.NoOmitEmpty [(Value.mk v).item]).2)).Writes
      (tlvBytes t v) := by
  have h := tlv_closure_writes_exact t [(Value.mk v).item] [v]
    (List.Forall₂.cons (Value.item_writes _) List.Forall₂.nil) (by simpa using hlen)
  simpa using h

/-- A closure that prepends one TLV without a value. -/
theorem tlv_empty_writes (t : Nat) :
    (Item.func (fun encoder =>
      (encoder.prependTlv t OmitEmptyTag.NoOmitEmpty []).2)).Writes (tlvBytes t []) := by
  have h := tlv_closure_writes_exact t [] [] List.Forall₂.nil (by simp)
  simpa using h

/-- A closure that runs another one behind a condition. -/
theorem cond_closure_writes (c : Prop) [Decidable c] (f : Encoder → Encoder) (bs : List Byte)
    (h : (Item.func f).Writes bs) :
    (Item.func (fun encoder => if c then f encoder else encoder)).Writes
      (if c then bs else []) := by
  by_cases hc : c
  · simp only [hc, if_true]
    exact h
  · simp only [hc, if_false]
    exact Item.writes_nil_of_id _ (fun _ => rfl)

end Encoder

theorem Name.name_encodeTo_writes (n : Name) (hlen : n.value.length < 2 ^ 32) :
    (Item.encodable (fun enc => n.encodeTo enc)).Writes (tlvBytes TT.Name n.value) := by
  have h := Encoder.tlv_value_writes TT.Name n.value hlen
  intro e hv hroom
  exact h e hv hroom

namespace detail.InterestRefBase

theorem encodeMiddle_writes (P : Port) (obj : InterestObj)
    (hnni : (P.nni obj.lifetime).length < 2 ^ 32) :
    (Item.func (fun enc => encodeMiddle P obj enc)).Writes (Interest.middleBytes P obj) := by
  intro e hv hroom
  have hitems : List.Forall₂ Item.Writes
      [Item.func (fun encoder =>
          if obj.canBePrefix then
            (encoder.prependTlv TT.CanBePrefix OmitEmptyTag.NoOmitEmpty []).2
          else encoder),
        Item.func (fun encoder =>
          if obj.mustBeFresh then
            (encoder.prependTlv TT.MustBeFresh OmitEmptyTag.NoOmitEmpty []).2
          else encoder),
        Item.func (fun encoder =>
          (encoder.prependTlv TT.Nonce OmitEmptyTag.NoOmitEmpty [(tlv.NNI4 obj.nonce).item]).2),
        Item.func (fun encoder =>
          if obj.lifetime ≠ InterestObj.DefaultLifetime then
            (encoder.prependTlv TT.InterestLifetime OmitEmptyTag.NoOmitEmpty
              [(Value.mk (P.nni obj.lifetime)).item]).2
          else encoder),
        Item.func (fun encoder =>
          if obj.hopLimit ≠ InterestObj.MaxHopLimit then
            (encoder.prependTlv TT.HopLimit OmitEmptyTag.NoOmitEmpty
              [(tlv.NNI1 obj.hopLimit).item]).2
          else encoder)]
      [(if obj.canBePrefix then tlvBytes TT.CanBePrefix [] else []),
        (if obj.mustBeFresh then tlvBytes TT.MustBeFresh [] else []),
        tlvBytes TT.Nonce (tlv.NNI4 obj.nonce).bytes,
        (if obj.lifetime ≠ 4000 then tlvBytes TT.InterestLifetime (P.nni obj.lifetime) else []),
        (if obj.hopLimit ≠ 255 then tlvBytes TT.HopLimit (tlv.NNI1 obj.hopLimit).bytes
          else [])] := by
    refine List.Forall₂.cons ?_ (List.Forall₂.cons ?_ (List.Forall₂.cons ?_
      (List.Forall₂.cons ?_ (List.Forall₂.cons ?_ List.Forall₂.nil))))
    · exact Encoder.cond_closure_writes _ _ _ (Encoder.tlv_empty_writes _)
    · exact Encoder.cond_closure_writes _ _ _ (Encoder.tlv_empty_writes _)
    · exact Encoder.tlv_value_writes _ _ (by simp [tlv.NNI4])
    · exact Encoder.cond_closure_writes _ _ _ (Encoder.tlv_value_writes _ _ hnni)
    · exact Encoder.cond_closure_writes _ _ _ (Encoder.tlv_value_writes _ _ (by simp [tlv.NNI1]))
  have hflat : Interest.middleBytes P obj = List.flatten
      [(if obj.canBePrefix then tlvBytes TT.CanBePrefix [] else []),
        (if obj.mustBeFresh then tlvBytes TT.MustBeFresh [] else []),
        tlvBytes TT.Nonce (tlv.NNI4 obj.nonce).bytes,
        (if obj.lifetime ≠ 4000 then tlvBytes TT.InterestLifetime (P.nni obj.lifetime) else []),
        (if obj.hopLimit ≠ 255 then tlvBytes TT.HopLimit (tlv.NNI1 obj.hopLimit).bytes
          else [])] := by
    simp [Interest.middleBytes, List.append_assoc]
  rw [hflat] at hroom ⊢
  have h := Encoder.prepend_writes e _ _ hitems hv hroom
  simp only [Encoder.prependOne, encodeMiddle]
  rw [h]

end detail.InterestRefBase

theorem tlvBytes_short (t : Nat) (v : List Byte) (ht : t < 0xFD) (hv : v.length < 0xFD) :
    tlvBytes t v = [toByte t, toByte v.length] ++ v := by
  simp [tlvBytes, tlv.varNumBytes, ht, hv]

namespace Interest

theorem plain_encodeTo_prepended (P : Port) (obj : detail.InterestObj) (e : Encoder) (hv : e.Valid)
    (hnni : (P.nni obj.lifetime).length < 2 ^ 32)
    (hval : (tlvBytes TT.Name obj.name.value ++ middleBytes P obj).length < 2 ^ 32)
    (hroom : (wire P obj).length ≤ e.m_pos - e.m_buf) :
    encodeTo P obj e = e.prepended (wire P obj) := by
  have hname : obj.name.value.length < 2 ^ 32 := by
    rw [List.length_append, tlvBytes_length] at hval
    omega
  have hitems : List.Forall₂ Item.Writes
      [Item.encodable (fun enc => obj.name.encodeTo enc),
        Item.func (fun enc => detail.InterestRefBase.encodeMiddle P obj enc)]
      [tlvBytes TT.Name obj.name.value, middleBytes P obj] :=
    List.Forall₂.cons (Name.name_encodeTo_writes _ hname)
      (List.Forall₂.cons (detail.InterestRefBase.encodeMiddle_writes P obj hnni)
        List.Forall₂.nil)
  have h := Encoder.tlv_closure_writes_exact TT.Interest _ _ hitems (by simpa using hval)
  have h2 := h e hv (by simpa [wire] using hroom)
  simp only [Encoder.prependOne] at h2
  unfold encodeTo
  rw [h2]
  simp [wire]

/-- Claim C12. For every Interest and sufficient room, `Interest::encodeTo` emits one
Interest TLV (type 0x05) whose children are, in this order: Name; CanBePrefix (21 00) iff
canBePrefix; MustBeFresh (12 00) iff mustBeFresh; Nonce (0A 04 and 4 big-endian octets)
always; InterestLifetime iff lifetime is not 4000; HopLimit (22 01 xx) iff hopLimit is not
255. For name /A and nonce 0x11223344 with defaults the wire is exactly
05 0B 07 03 08 01 41 0A 04 11 22 33 44. -/
theorem encodeTo_wire (P : Port) (obj : detail.InterestObj) (e : Encoder) (hv : e.Valid)
    (hnonce : obj.nonce < 2 ^ 32)
    (hnni : (P.nni obj.lifetime).length < 2 ^ 32)
    (hval : (tlvBytes TT.Name obj.name.value ++ middleBytes P obj).length < 2 ^ 32)
    (hroom : (wire P obj).length ≤ e.m_pos - e.m_buf) :
    (encodeTo P obj e).output = wire P obj ++ e.output ∧
    (encodeTo P obj e).operatorNot = false ∧
    wire P obj = tlvBytes 0x05
      (tlvBytes 0x07 obj.name.value ++
        (if obj.canBePrefix then [0x21, 0x00] else []) ++
        (if obj.mustBeFresh then [0x12, 0x00] else []) ++
        ([0x0A, 0x04] ++ (tlv.NNI4 obj.nonce).bytes) ++
        (if obj.lifetime ≠ 4000 then tlvBytes 0x0C (P.nni obj.lifetime) else []) ++
        (if obj.hopLimit ≠ 255 then [0x22, 0x01, toByte obj.hopLimit] else [])) ∧
    (tlv.NNI4 obj.nonce).bytes.length = 4 ∧
    tlv.beValue (tlv.NNI4 obj.nonce).bytes = obj.nonce ∧
    wire P { name := ⟨[⟨8, [0x41]⟩]⟩, nonce := 0x11223344 }
      = [0x05, 0x0B, 0x07, 0x03, 0x08, 0x01, 0x41, 0x0A, 0x04, 0x11, 0x22, 0x33, 0x44] := by
  have hp := plain_encodeTo_prepended P obj e hv hnni hval hroom
  have hv2 := Encoder.prepended_valid e _ hv hroom
  refine ⟨?_, ?_, ?_, rfl, ?_, ?_⟩
  · rw [hp]
    exact Encoder.output_prepended e _ hv hroom
  · rw [hp]
    unfold Encoder.Valid at hv2
    simp only [Encoder.operatorNot, beq_eq_false_iff_ne, ne_eq]
    omega
  · have h1 : tlvBytes TT.CanBePrefix [] = [0x21, 0x00] := by decide
    have h2 : tlvBytes TT.MustBeFresh [] = [0x12, 0x00] := by decide
    have h3 : tlvBytes TT.Nonce (tlv.NNI4 obj.nonce).bytes
        = [0x0A, 0x04] ++ (tlv.NNI4 obj.nonce).bytes :=
      tlvBytes_short _ _ (by decide) (by simp [tlv.NNI4])
    have h4 : tlvBytes TT.HopLimit (tlv.NNI1 obj.hopLimit).bytes
        = [0x22, 0x01, toByte obj.hopLimit] :=
      tlvBytes_short _ _ (by decide) (by simp [tlv.NNI1])
    have h5 : TT.Interest = 0x05 := rfl
    have h6 : TT.Name = 0x07 := rfl
    have h7 : TT.InterestLifetime = 0x0C := rfl
    simp only [wire, middleBytes, h1, h2, h3, h4, h5, h6, h7, List.append_assoc]
  · simp [tlv.NNI4, tlv.beValue, toByte_val]
    omega
  · have h : (4000 : Nat) ≠ 4000 ↔ False := by decide
    simp only [wire, middleBytes, h, if_false, List.append_nil]
    decide

/-- Witness of C12: the Interest /A with nonce 0x11223344 and defaults, encoded into a
64-byte buffer. -/
theorem encodeTo_wire_witness :
    (encodeTo examplePort { name := ⟨[⟨8, [0x41]⟩]⟩, nonce := 0x11223344 }
      (Encoder.init (fun _ => 0) 0x1000 64)).output
      = [0x05, 0x0B, 0x07, 0x03, 0x08, 0x01, 0x41, 0x0A, 0x04, 0x11, 0x22, 0x33, 0x44] :=
  (encodeTo_wire examplePort { name := ⟨[⟨8, [0x41]⟩]⟩, nonce := 0x11223344 }
    (Encoder.init (fun _ => 0) 0x1000 64) (by decide) (by decide) (by decide) (by decide)
    (by decide)).1

end Interest

/-! ## Encoding a parameterized Interest -/

namespace Encoder

/-- One more item in front of items that have prepended `V`. -/
theorem prepend_cons_at (e : Encoder) (first : Item) (arg : List Item) (V bs : List Byte)
    (hv : e.Valid) (hrest : (e.prepend arg).2 = e.prepended V)
    (hfirst : (e.prepended V).prependOne first = (e.prepended V).prepended bs)
    (hroom : bs.length + V.length ≤ e.m_pos - e.m_buf) :
    e.prepend (first :: arg) = (true, e.prepended (bs ++ V)) := by
  have hv0 := hv
  unfold Valid at hv
  have hv2 := prepended_valid e (bs ++ V) hv0 (by rw [List.length_append]; omega)
  simp only [prepend, hrest, hfirst]
  rw [prepended_append _ _ _ (by omega)]
  unfold Valid at hv2
  simp only [operatorNot, Prod.mk.injEq, and_true, Bool.not_eq_eq_eq_not, Bool.not_true,
    beq_eq_false_iff_ne, ne_eq]
  omega

/-- A TLV around items that have prepended `V`. -/
theorem prependTlv_of_prepend (e : Encoder) (t : Nat) (arg : List Item) (V : List Byte)
    (hv : e.Valid) (hrest : e.prepend arg = (true, e.prepended V))
    (hlen : V.length < 2 ^ 32)
    (hroom : (tlvBytes t V).length ≤ e.m_pos - e.m_buf) :
    e.prependTlv t OmitEmptyTag.NoOmitEmpty arg = (true, e.prepended (tlvBytes t V)) := by
  rw [tlvBytes_length] at hroom
  have hr1 : V.length ≤ e.m_pos - e.m_buf := by omega
  have hv1 := prepended_valid e V hv hr1
  unfold prependTlv
  simp only [hrest, measured_length e _ hv hr1]
  have hc : ¬ (V.length = 0 ∧ OmitEmptyTag.NoOmitEmpty = OmitEmptyTag.OmitEmpty) := by
    rintro ⟨_, h2⟩
    cases h2
  rw [if_neg hc]
  simp only [if_true]
  have hm : V.length % 2 ^ 32 = V.length := Nat.mod_eq_of_lt hlen
  rw [prependTypeLength_writes _ _ _ hv1 (by rw [prepended_headroom, hm]; omega), hm]
  unfold Valid at hv
  rw [prepended_append _ _ _ (by
    rw [List.length_append, tlv.varNumBytes_length, tlv.varNumBytes_length]; omega)]
  simp [tlvBytes, List.append_assoc]

/-- The octets an item has prepended can be read back in the room. -/
theorem read_prepended (e : Encoder) (bs : List Byte) :
    (e.prepended bs).mem.read (e.prepended bs).m_pos bs.length = bs := by
  simp only [prepended]
  exact Mem.read_copy_same _ _ _

/-- Octets prepended earlier stay where they are when more are prepended. -/
theorem read_prepended_append (e : Encoder) (xs ys : List Byte)
    (hroom : xs.length + ys.length ≤ e.m_pos) :
    (e.prepended (xs ++ ys)).mem.read (e.m_pos - ys.length) ys.length = ys := by
  simp only [prepended, List.length_append]
  rw [Mem.copy_append]
  have h : e.m_pos - (xs.length + ys.length) + xs.length = e.m_pos - ys.length := by omega
  rw [h]
  exact Mem.read_copy_same _ _ _

end Encoder

namespace detail.InterestRefBase

theorem findParamsDigestLoop_none (cs : List Component) (pos : Int)
    (h : ∀ c ∈ cs, c.type ≠ TT.ParametersSha256DigestComponent) :
    findParamsDigestLoop cs pos = -1 := by
  induction cs generalizing pos with
  | nil => rfl
  | cons c cs ih =>
    have hc := h c (List.mem_cons_self _ _)
    unfold findParamsDigestLoop
    rw [if_neg hc]
    exact ih _ (fun x hx => h x (List.mem_cons_of_mem _ hx))

theorem findParamsDigestLoop_some (pre : List Component) (ph : Component)
    (post : List Component) (pos : Int)
    (hpre : ∀ c ∈ pre, c.type ≠ TT.ParametersSha256DigestComponent)
    (hph : ph.type = TT.ParametersSha256DigestComponent) :
    findParamsDigestLoop (pre ++ ph :: post) pos = pos + 1 + pre.length := by
  induction pre generalizing pos with
  | nil =>
    simp only [List.nil_append, findParamsDigestLoop, hph, if_true, List.length_nil]
    omega
  | cons c cs ih =>
    have hc := hpre c (List.mem_cons_self _ _)
    rw [List.cons_append, findParamsDigestLoop, if_neg hc,
      ih _ (fun x hx => hpre x (List.mem_cons_of_mem _ hx))]
    simp only [List.length_cons]
    push_cast
    omega

/-- Every list of components either has no ParametersSha256DigestComponent or splits at
the first one. -/
theorem split_first_digest (cs : List Component) :
    (∀ c ∈ cs, c.type ≠ TT.ParametersSha256DigestComponent) ∨
    ∃ pre ph post, cs = pre ++ ph :: post ∧
      (∀ c ∈ pre, c.type ≠ TT.ParametersSha256DigestComponent) ∧
      ph.type = TT.ParametersSha256DigestComponent := by
  induction cs with
  | nil => left; simp
  | cons c cs ih =>
    by_cases hc : c.type = TT.ParametersSha256DigestComponent
    · right
      exact ⟨[], c, cs, rfl, by simp, hc⟩
    · rcases ih with h | ⟨pre, ph, post, h1, h2, h3⟩
      · left
        intro x hx
        rcases List.mem_cons.mp hx with rfl | hx
        · exact hc
        · exact h x hx
      · right
        refine ⟨c :: pre, ph, post, by simp [h1], ?_, h3⟩
        intro x hx
        rcases List.mem_cons.mp hx with rfl | hx
        · exact hc
        · exact h2 x hx

theorem findParamsDigest_none (name : Name)
    (h : ∀ c ∈ name.comps, c.type ≠ TT.ParametersSha256DigestComponent) :
    findParamsDigest name = -1 :=
  findParamsDigestLoop_none _ _ h

theorem findParamsDigest_some (name : Name) (pre : List Component) (ph : Component)
    (post : List Component) (hname : name.comps = pre ++ ph :: post)
    (hpre : ∀ c ∈ pre, c.type ≠ TT.ParametersSha256DigestComponent)
    (hph : ph.type = TT.ParametersSha256DigestComponent) :
    findParamsDigest name = pre.length := by
  unfold findParamsDigest
  rw [hname, findParamsDigestLoop_some pre ph post _ hpre hph]
  omega

end detail.InterestRefBase

namespace detail.ParameterizedInterestRef

theorem substDigest_none (digest : List Byte) (cs : List Component)
    (h : ∀ c ∈ cs, c.type ≠ TT.ParametersSha256DigestComponent) :
    substDigest digest cs = cs ++ [⟨TT.ParametersSha256DigestComponent, digest⟩] := by
  induction cs with
  | nil => rfl
  | cons c cs ih =>
    have hc := h c (List.mem_cons_self _ _)
    simp only [substDigest, if_neg hc, List.cons_append]
    rw [ih (fun x hx => h x (List.mem_cons_of_mem _ hx))]

theorem substDigest_some (digest : List Byte) (pre : List Component) (ph : Component)
    (post : List Component)
    (hpre : ∀ c ∈ pre, c.type ≠ TT.ParametersSha256DigestComponent)
    (hph : ph.type = TT.ParametersSha256DigestComponent) :
    substDigest digest (pre ++ ph :: post)
      = pre ++ ⟨TT.ParametersSha256DigestComponent, digest⟩ :: post := by
  induction pre with
  | nil => simp [substDigest, hph]
  | cons c cs ih =>
    have hc := hpre c (List.mem_cons_self _ _)
    rw [List.cons_append, substDigest, if_neg hc,
      ih (fun x hx => hpre x (List.mem_cons_of_mem _ hx)), List.cons_append]

end detail.ParameterizedInterestRef

theorem Name.value_append (a b : List Component) :
    (Name.mk (a ++ b)).value = (Name.mk a).value ++ (Name.mk b).value := by
  simp [Name.value]

theorem Name.value_cons (c : Component) (cs : List Component) :
    (Name.mk (c :: cs)).value = c.tlv ++ (Name.mk cs).value := by
  simp [Name.value]

theorem Name.value_nil : (Name.mk []).value = [] := rfl

/-- The digest component `02 20 digest` is the TLV of a component of type
ParametersSha256DigestComponent whose value is a 32-octet digest. -/
theorem digestComp_tlv (digest : List Byte) (hd : digest.length = NDNPH_SHA256_LEN) :
    [toByte TT.ParametersSha256DigestComponent, toByte NDNPH_SHA256_LEN] ++ digest
      = (Component.mk TT.ParametersSha256DigestComponent digest).tlv := by
  have h := tlvBytes_short TT.ParametersSha256DigestComponent digest (by decide)
    (by rw [hd]; decide)
  simp only [Component.tlv]
  rw [h, hd]

namespace detail.ParameterizedInterestRef

theorem slice_parts (name : Name) (pre : List Component) (ph : Component)
    (post : List Component) (hname : name.comps = pre ++ ph :: post) :
    name.slice 0 (some (pre.length : Int)) = ⟨pre⟩ ∧
    name.slice ((pre.length : Int) + 1) = ⟨post⟩ := by
  constructor
  · simp only [Name.slice, Name.size, hname]
    have h1 : ¬ ((pre.length : Int) < 0) := by omega
    have h2 : ¬ ((0 : Int) < 0) := by omega
    simp [h1, h2]
  · simp only [Name.slice, Name.size, hname]
    have h1 : ¬ ((pre.length : Int) + 1 < 0) := by omega
    have h3 : ((pre.length : Int) + 1).toNat = pre.length + 1 := by omega
    simp only [h1, if_false, h3, List.take_length]
    simp

/-- The method `encodeName` on a live encoder with room: the Name TLV with the digest of
the octets that `params` views. -/
theorem encodeName_at (P : Port) (obj : InterestObj) (enc : Encoder) (params : Slice)
    (digest : List Byte) (hv : enc.Valid)
    (hsha : P.sha256 (params.bytes enc.mem) = some digest)
    (hd : digest.length = NDNPH_SHA256_LEN)
    (hlen : (Name.mk (substDigest digest obj.name.comps)).value.length < 2 ^ 32)
    (hroom : (tlvBytes TT.Name (Name.mk (substDigest digest obj.name.comps)).value).length
      ≤ enc.m_pos - enc.m_buf) :
    encodeName P obj enc params
      = enc.prepended (tlvBytes TT.Name (Name.mk (substDigest digest obj.name.comps)).value) := by
  unfold encodeName
  rw [hsha]
  simp only
  rcases InterestRefBase.split_first_digest obj.name.comps with h | ⟨pre, ph, post, h1, h2, h3⟩
  · have hf := InterestRefBase.findParamsDigest_none obj.name h
    have hs := substDigest_none digest obj.name.comps h
    rw [hs] at hlen hroom ⊢
    rw [hf, if_neg (by decide)]
    have hval : (Name.mk (obj.name.comps ++ [⟨TT.ParametersSha256DigestComponent, digest⟩])).value
        = List.flatten [obj.name.value,
            [toByte TT.ParametersSha256DigestComponent, toByte NDNPH_SHA256_LEN] ++ digest,
            []] := by
      rw [Name.value_append, Name.value_cons, Name.value_nil, digestComp_tlv digest hd]
      simp [Name.value]
    rw [hval] at hlen hroom ⊢
    have hw := Encoder.tlv_closure_writes_exact TT.Name
      [(Value.mk obj.name.value).item,
        (Value.mk ([toByte TT.ParametersSha256DigestComponent, toByte NDNPH_SHA256_LEN]
          ++ digest)).item,
        (Value.mk []).item] _
      (List.Forall₂.cons (Value.item_writes _) (List.Forall₂.cons (Value.item_writes _)
        (List.Forall₂.cons (Value.item_writes _) List.Forall₂.nil))) hlen
    exact hw enc hv hroom
  · have hf := InterestRefBase.findParamsDigest_some obj.name pre ph post h1 h2 h3
    have hs := substDigest_some digest pre ph post h2 h3
    rw [h1, hs] at hlen hroom
    rw [h1, hs]
    have hsl := slice_parts obj.name pre ph post h1
    rw [hf, if_pos (by omega), hsl.1, hsl.2]
    have hval : (Name.mk (pre ++ ⟨TT.ParametersSha256DigestComponent, digest⟩ :: post)).value
        = List.flatten [(Name.mk pre).value,
            [toByte TT.ParametersSha256DigestComponent, toByte NDNPH_SHA256_LEN] ++ digest,
            (Name.mk post).value] := by
      rw [Name.value_append, Name.value_cons, digestComp_tlv digest hd]
      simp
    rw [hval] at hlen hroom ⊢
    have hw := Encoder.tlv_closure_writes_exact TT.Name
      [(Value.mk (Name.mk pre).value).item,
        (Value.mk ([toByte TT.ParametersSha256DigestComponent, toByte NDNPH_SHA256_LEN]
          ++ digest)).item,
        (Value.mk (Name.mk post).value).item] _
      (List.Forall₂.cons (Value.item_writes _) (List.Forall₂.cons (Value.item_writes _)
        (List.Forall₂.cons (Value.item_writes _) List.Forall₂.nil))) hlen
    exact hw enc hv hroom

end detail.ParameterizedInterestRef

namespace detail.ParameterizedInterestRef

/-- The method `encodeImpl` on a live encoder with room, when `encodeParams` prepends the
octets `pbytes` there and their digest can be computed: the encoder gains the Interest TLV
around the Name with that digest, the middle fields, and `pbytes`. -/
theorem encodeImpl_at (P : Port) (obj : InterestObj) (encodeParams : Encoder → Encoder)
    (e : Encoder) (pbytes digest : List Byte) (hv : e.Valid)
    (hparams : encodeParams e = e.prepended pbytes)
    (hsha : P.sha256 pbytes = some digest) (hd : digest.length = NDNPH_SHA256_LEN)
    (hnni : (P.nni obj.lifetime).length < 2 ^ 32)
    (hval : (tlvBytes TT.Name (Name.mk (substDigest digest obj.name.comps)).value ++
      Interest.middleBytes P obj ++ pbytes).length < 2 ^ 32)
    (hroom : (wire P obj digest pbytes).length ≤ e.m_pos - e.m_buf) :
    encodeImpl P obj encodeParams e = e.prepended (wire P obj digest pbytes) := by
  have hv0 := hv
  unfold Encoder.Valid at hv0
  have hroom2 := hroom
  simp only [wire, tlvBytes_length, List.length_append] at hroom2
  have hval0 : (tlvBytes TT.Name (Name.mk (substDigest digest obj.name.comps)).value ++
      (Interest.middleBytes P obj ++ pbytes)).length < 2 ^ 32 := by
    simpa [List.append_assoc] using hval
  have hroom0 : (tlvBytes TT.Interest
      (tlvBytes TT.Name (Name.mk (substDigest digest obj.name.comps)).value ++
        (Interest.middleBytes P obj ++ pbytes))).length ≤ e.m_pos - e.m_buf := by
    simpa [wire, List.append_assoc] using hroom
  simp only [tlvBytes_length, List.length_append] at hval
  have hpos := tlv.sizeofVarNum_pos TT.Name
  -- the third closure, invoked first
  have hvp := Encoder.prepended_valid e pbytes hv (by omega)
  have hvp0 := hvp
  unfold Encoder.Valid at hvp0
  have hnot : (e.prepended pbytes).operatorNot = false := by
    simp only [Encoder.operatorNot, beq_eq_false_iff_ne, ne_eq]
    omega
  have hslice : (encodeImplParams encodeParams {} e).2
      = ⟨e.m_pos - pbytes.length, pbytes.length⟩ := by
    simp only [encodeImplParams, hparams, hnot, Bool.false_eq_true, if_false, Encoder.begin_,
      Encoder.measured_length e pbytes hv (by omega)]
    rfl
  have h1 : e.prepend [Item.func (fun enc => (encodeImplParams encodeParams {} enc).1)]
      = (true, e.prepended ([] ++ pbytes)) := by
    have h := Encoder.prepend_cons_at e
      (Item.func (fun enc => (encodeImplParams encodeParams {} enc).1)) [] [] pbytes hv
      (by simp [Encoder.prepend, Encoder.prepended_nil])
      (by
        simp only [Encoder.prependOne, encodeImplParams, Encoder.prepended_nil, hparams]
        split_ifs <;> rfl)
      (by simp; omega)
    simpa using h
  -- the second closure
  have h2 : e.prepend [Item.func (fun enc => InterestRefBase.encodeMiddle P obj enc),
        Item.func (fun enc => (encodeImplParams encodeParams {} enc).1)]
      = (true, e.prepended (Interest.middleBytes P obj ++ pbytes)) := by
    apply Encoder.prepend_cons_at e _ _ pbytes _ hv
    · rw [h1]; rfl
    · exact InterestRefBase.encodeMiddle_writes P obj hnni (e.prepended pbytes) hvp
        (by rw [Encoder.prepended_headroom]; omega)
    · omega
  -- the first closure, invoked last
  have hvm := Encoder.prepended_valid e (Interest.middleBytes P obj ++ pbytes) hv
    (by rw [List.length_append]; omega)
  have hread : (Slice.mk (e.m_pos - pbytes.length) pbytes.length).bytes
      (e.prepended (Interest.middleBytes P obj ++ pbytes)).mem = pbytes := by
    simp only [Slice.bytes]
    exact Encoder.read_prepended_append e _ _ (by omega)
  have h3 : e.prepend
      [Item.func (fun enc => encodeName P obj enc (encodeImplParams encodeParams {} e).2),
        Item.func (fun enc => InterestRefBase.encodeMiddle P obj enc),
        Item.func (fun enc => (encodeImplParams encodeParams {} enc).1)]
      = (true, e.prepended
          (tlvBytes TT.Name (Name.mk (substDigest digest obj.name.comps)).value ++
            (Interest.middleBytes P obj ++ pbytes))) := by
    apply Encoder.prepend_cons_at e _ _ _ _ hv
    · rw [h2]
    · simp only [Encoder.prependOne, hslice]
      apply encodeName_at P obj _ _ digest hvm
      · rw [hread]; exact hsha
      · exact hd
      · omega
      · rw [Encoder.prepended_headroom, tlvBytes_length, List.length_append]
        omega
    · rw [tlvBytes_length, List.length_append]
      omega
  unfold encodeImpl
  rw [Encoder.prependTlv_of_prepend e TT.Interest _ _ hv h3 hval0 hroom0]
  simp [wire, List.append_assoc]

theorem encodeAppParameters_writes (appParameters : Value)
    (hlen : appParameters.bytes.length < 2 ^ 32) :
    (Item.func (fun enc => encodeAppParameters appParameters enc)).Writes
      (tlvBytes TT.AppParameters appParameters.bytes) :=
  Encoder.tlv_value_writes TT.AppParameters appParameters.bytes hlen

end detail.ParameterizedInterestRef

namespace detail.ParameterizedInterestRef

theorem parameterized_encodeTo_prepended (P : Port) (obj : InterestObj) (appParameters : Value)
    (e : Encoder) (digest : List Byte) (hv : e.Valid)
    (hsha : P.sha256 (tlvBytes TT.AppParameters appParameters.bytes) = some digest)
    (hd : digest.length = NDNPH_SHA256_LEN)
    (hnni : (P.nni obj.lifetime).length < 2 ^ 32)
    (hval : (tlvBytes TT.Name (Name.mk (substDigest digest obj.name.comps)).value ++
      Interest.middleBytes P obj ++ tlvBytes TT.AppParameters appParameters.bytes).length
        < 2 ^ 32)
    (hroom : (wire P obj digest (tlvBytes TT.AppParameters appParameters.bytes)).length
      ≤ e.m_pos - e.m_buf) :
    encodeTo P obj appParameters e
      = e.prepended (wire P obj digest (tlvBytes TT.AppParameters appParameters.bytes)) := by
  have hap : appParameters.bytes.length < 2 ^ 32 := by
    simp only [List.length_append, tlvBytes_length] at hval
    omega
  have hroom2 : (tlvBytes TT.AppParameters appParameters.bytes).length ≤ e.m_pos - e.m_buf := by
    simp only [wire, List.length_append, tlvBytes_length] at hroom ⊢
    omega
  exact encodeImpl_at P obj _ e _ digest hv
    (encodeAppParameters_writes appParameters hap e hv hroom2) hsha hd hnni hval hroom

/-- Claim C13. For every Interest name with components c_0..c_{k-1} and every
appParameters, the Name emitted by a parameterized Interest is: the original components
followed by one appended component `02 20 digest` when no component has type
ParametersSha256DigestComponent (0x02); and c_0..c_{i-1}, `02 20 digest`, c_{i+1}..c_{k-1}
(same component count) when the first placeholder is at index i; the digest is that of the
AppParameters TLV, which follows the middle fields. For name /A and appParameters C0 01 FF
the Name TLV is 07 25 08 01 41 02 20 digest(24 03 C0 01 FF). -/
theorem encodeTo_name (P : Port) (obj : InterestObj) (appParameters : Value)
    (e : Encoder) (digest : List Byte) (hv : e.Valid)
    (hsha : P.sha256 (tlvBytes TT.AppParameters appParameters.bytes) = some digest)
    (hd : digest.length = NDNPH_SHA256_LEN)
    (hnni : (P.nni obj.lifetime).length < 2 ^ 32)
    (hval : (tlvBytes TT.Name (Name.mk (substDigest digest obj.name.comps)).value ++
      Interest.middleBytes P obj ++ tlvBytes TT.AppParameters appParameters.bytes).length
        < 2 ^ 32)
    (hroom : (wire P obj digest (tlvBytes TT.AppParameters appParameters.bytes)).length
      ≤ e.m_pos - e.m_buf) :
    (encodeTo P obj appParameters e).output
      = tlvBytes 0x05
          (tlvBytes 0x07 (Name.mk (substDigest digest obj.name.comps)).value ++
            Interest.middleBytes P obj ++ tlvBytes 0x24 appParameters.bytes) ++ e.output ∧
    ((∀ c ∈ obj.name.comps, c.type ≠ 0x02) →
      substDigest digest obj.name.comps = obj.name.comps ++ [⟨0x02, digest⟩]) ∧
    (∀ pre ph post, obj.name.comps = pre ++ ph :: post → (∀ c ∈ pre, c.type ≠ 0x02) →
      ph.type = 0x02 →
      substDigest digest obj.name.comps = pre ++ ⟨0x02, digest⟩ :: post ∧
      (substDigest digest obj.name.comps).length = obj.name.comps.length) ∧
    (Component.mk 0x02 digest).tlv = [0x02, 0x20] ++ digest ∧
    tlvBytes 0x07 (Name.mk (substDigest digest [⟨8, [0x41]⟩])).value
      = [0x07, 0x25, 0x08, 0x01, 0x41, 0x02, 0x20] ++ digest ∧
    tlvBytes 0x24 [0xC0, 0x01, 0xFF] = [0x24, 0x03, 0xC0, 0x01, 0xFF] := by
  have hcomp : (Component.mk 0x02 digest).tlv = [0x02, 0x20] ++ digest :=
    (digestComp_tlv digest hd).symm
  refine ⟨?_, ?_, ?_, hcomp, ?_, by decide⟩
  · rw [parameterized_encodeTo_prepended P obj appParameters e digest hv hsha hd hnni hval hroom]
    exact Encoder.output_prepended e _ hv hroom
  · intro h
    exact substDigest_none digest _ h
  · intro pre ph post h1 h2 h3
    have hs := substDigest_some digest pre ph post h2 h3
    rw [h1, hs]
    simp [TT.ParametersSha256DigestComponent]
  · have hs : substDigest digest [⟨8, [0x41]⟩] = [⟨8, [0x41]⟩, ⟨0x02, digest⟩] := by
      simp [substDigest, TT.ParametersSha256DigestComponent]
    rw [hs, Name.value_cons, Name.value_cons, Name.value_nil, hcomp]
    have hl : ((Component.mk 8 [0x41]).tlv ++ ([0x02, 0x20] ++ digest ++ [])).length = 37 := by
      simp [Component.tlv, tlvBytes, tlv.varNumBytes, hd, NDNPH_SHA256_LEN]
    have hb : (Component.mk 8 [0x41]).tlv = [0x08, 0x01, 0x41] := by decide
    simp only [tlvBytes, hl]
    rw [hb]
    have h7 : tlv.varNumBytes 0x07 = [0x07] := by decide
    have h37 : tlv.varNumBytes 37 = [0x25] := by decide
    rw [h7, h37]
    simp

/-- Witness of C13: name /A and appParameters C0 01 FF with the example port, into a
128-byte buffer. -/
theorem encodeTo_name_witness :
    (encodeTo examplePort { name := ⟨[⟨8, [0x41]⟩]⟩, nonce := 0x11223344 }
      ⟨[0xC0, 0x01, 0xFF]⟩ (Encoder.init (fun _ => 0) 0x1000 128)).output
      = tlvBytes 0x05
          (tlvBytes 0x07 (Name.mk (substDigest (List.replicate 32 0xEC) [⟨8, [0x41]⟩])).value ++
            Interest.middleBytes examplePort { name := ⟨[⟨8, [0x41]⟩]⟩, nonce := 0x11223344 } ++
            tlvBytes 0x24 [0xC0, 0x01, 0xFF]) ++
        (Encoder.init (fun _ => 0) 0x1000 128).output :=
  (encodeTo_name examplePort { name := ⟨[⟨8, [0x41]⟩]⟩, nonce := 0x11223344 }
    ⟨[0xC0, 0x01, 0xFF]⟩ (Encoder.init (fun _ => 0) 0x1000 128) (List.replicate 32 0xEC)
    (by decide) (by decide) (by decide) (by decide) (by decide) (by decide)).1

end detail.ParameterizedInterestRef

/-! ## Encoding a signed Interest -/

theorem Mem.copy_backward_apply (mem : Mem) (first n d_last a : Nat)
    (h : first + n ≤ d_last) :
    mem.copy_backward first n d_last a
      = if d_last - n ≤ a ∧ a < d_last then mem (first + (a - (d_last - n))) else mem a := by
  induction n generalizing mem d_last with
  | zero =>
    have hc : ¬ (d_last - 0 ≤ a ∧ a < d_last) := by omega
    rw [Mem.copy_backward, if_neg hc]
  | succ n ih =>
    rw [Mem.copy_backward, ih _ _ (by omega)]
    by_cases h1 : d_last - 1 - n ≤ a ∧ a < d_last - 1
    · have h2 : d_last - (n + 1) ≤ a ∧ a < d_last := by omega
      have h3 : first + (a - (d_last - 1 - n)) ≠ d_last - 1 := by omega
      have h4 : a - (d_last - 1 - n) = a - (d_last - (n + 1)) := by omega
      rw [if_pos h1, if_pos h2, Mem.set_other _ _ _ _ h3, h4]
    · rw [if_neg h1]
      by_cases h2 : a = d_last - 1
      · have h3 : d_last - (n + 1) ≤ a ∧ a < d_last := by omega
        have h4 : a - (d_last - (n + 1)) = n := by omega
        rw [if_pos h3, h4, h2, Mem.set_same]
      · have h3 : ¬ (d_last - (n + 1) ≤ a ∧ a < d_last) := by omega
        rw [if_neg h3, Mem.set_other _ _ _ _ h2]

theorem Mem.copy_of_read (mem : Mem) (p : Nat) (bs : List Byte)
    (h : mem.read p bs.length = bs) : mem.copy p bs = mem := by
  funext a
  rw [Mem.copy_apply]
  split_ifs with h1
  · by_cases h2 : a - p < bs.length
    · rw [List.getD_eq_getElem _ _ h2]
      have hb : a - p < (mem.read p bs.length).length := by rw [Mem.read_length]; exact h2
      have h3 : (mem.read p bs.length)[a - p] = mem a := by
        simp only [Mem.read, List.getElem_map, List.getElem_range]
        congr 1
        omega
      rw [← h3]
      congr 1
      exact h.symm
    · simp [List.getD_eq_getElem?_getD, List.getElem?_eq_none (Nat.le_of_not_lt h2)]
  · rfl

/-- The signature written through `sigBuf` and moved back so that it ends at `after`. -/
theorem signature_moved (mem : Mem) (sigBuf after maxSigLen : Nat) (sig : List Byte)
    (hbuf : sigBuf + maxSigLen = after) (hlen : sig.length ≤ maxSigLen) :
    (if sig.length ≠ maxSigLen then
        (mem.copy sigBuf sig).copy_backward sigBuf sig.length after
      else mem.copy sigBuf sig).read (after - sig.length) sig.length = sig ∧
    ∀ a, a < sigBuf ∨ after ≤ a →
      (if sig.length ≠ maxSigLen then
        (mem.copy sigBuf sig).copy_backward sigBuf sig.length after
      else mem.copy sigBuf sig) a = mem a := by
  by_cases hne : sig.length ≠ maxSigLen
  · simp only [hne, ne_eq, not_false_eq_true, if_true]
    constructor
    · apply List.ext_getElem
      · simp [Mem.read]
      · intro i h1 h2
        simp only [Mem.read, List.getElem_map, List.getElem_range]
        rw [Mem.copy_backward_apply _ _ _ _ _ (by omega), if_pos (by omega)]
        have h3 : after - sig.length + i - (after - sig.length) = i := by omega
        rw [h3, Mem.copy_inside _ _ _ _ h2, List.getD_eq_getElem _ _ h2]
    · intro a ha
      rw [Mem.copy_backward_apply _ _ _ _ _ (by omega), if_neg (by omega)]
      exact Mem.copy_outside _ _ _ _ (by omega)
  · have he : sig.length = maxSigLen := by omega
    simp only [he, ne_eq, not_true_eq_false, if_false]
    constructor
    · have h1 : after - maxSigLen = sigBuf := by omega
      rw [h1, ← he]
      exact Mem.read_copy_same _ _ _
    · intro a ha
      exact Mem.copy_outside _ _ _ _ (by omega)

namespace Encoder

theorem output_congr (e : Encoder) (mem2 : Mem) (hv : e.Valid)
    (h : ∀ a, e.m_pos ≤ a → mem2 a = e.mem a) :
    ({ e with mem := mem2 } : Encoder).output = e.output := by
  have hv2 : ({ e with mem := mem2 } : Encoder).Valid := hv
  unfold output begin_
  rw [size_valid _ hv2, size_valid _ hv]
  exact Mem.read_congr _ _ _ _ (fun a h1 _ => h a h1)

/-- The closure that puts the ISigValue header in front of the room that already holds the
signature. -/
theorem sigValue_closure_at (e : Encoder) (sig : List Byte) (hv : e.Valid)
    (hmem : e.mem.read (e.m_pos - sig.length) sig.length = sig)
    (hlen : sig.length < 2 ^ 32)
    (hroom : (tlvBytes TT.ISigValue sig).length ≤ e.m_pos - e.m_buf) :
    ((e.prependRoom sig.length).2.prependTypeLength TT.ISigValue sig.length).2
      = e.prepended (tlvBytes TT.ISigValue sig) := by
  rw [tlvBytes_length] at hroom
  have hr1 : sig.length ≤ e.m_pos - e.m_buf := by omega
  have hp : (e.prependRoom sig.length).2 = e.prepended sig := by
    rw [prependRoom_ok e _ hv hr1]
    simp only [prepended, Mem.copy_of_read _ _ _ hmem]
  have hv1 := prepended_valid e sig hv hr1
  have hm : sig.length % 2 ^ 32 = sig.length := Nat.mod_eq_of_lt hlen
  rw [hp, prependTypeLength_writes _ _ _ hv1 (by rw [prepended_headroom, hm]; omega), hm]
  unfold Valid at hv
  simp only
  rw [prepended_append _ _ _ (by
    rw [List.length_append, tlv.varNumBytes_length, tlv.varNumBytes_length]; omega)]
  simp [tlvBytes, List.append_assoc]

end Encoder

theorem SigInfo.sigInfo_encodeTo_writes (P : Port) (s : SigInfo)
    (hlen : (P.sigInfoValue s).length < 2 ^ 32) :
    (Item.encodable (fun enc => s.encodeTo P enc)).Writes
      (tlvBytes TT.ISigInfo (P.sigInfoValue s)) := by
  have h := Encoder.tlv_value_writes TT.ISigInfo (P.sigInfoValue s) hlen
  intro e hv hroom
  exact h e hv hroom

namespace detail.SignedInterestRef

/-- The closure handed to `encodeImpl` by the signed Interest, on a live encoder whose room
already ends with the signature. -/
theorem encodeSignedParams_at (P : Port) (appParameters : Value) (sigInfo : SigInfo)
    (sig : List Byte) (e : Encoder) (hv : e.Valid)
    (hmem : e.mem.read (e.m_pos - sig.length) sig.length = sig)
    (hlen : sig.length < 2 ^ 32)
    (hap : appParameters.bytes.length < 2 ^ 32)
    (hsi : (P.sigInfoValue sigInfo).length < 2 ^ 32)
    (hroom : (paramsBytes P appParameters sigInfo sig).length ≤ e.m_pos - e.m_buf) :
    encodeSignedParams P appParameters sigInfo sig.length e
      = e.prepended (paramsBytes P appParameters sigInfo sig) := by
  simp only [paramsBytes, signedPortion, List.length_append] at hroom
  have h1 : e.prepend [Item.func (fun enc =>
        ((enc.prependRoom sig.length).2.prependTypeLength TT.ISigValue sig.length).2)]
      = (true, e.prepended (tlvBytes TT.ISigValue sig ++ [])) := by
    apply Encoder.prepend_cons_at e _ [] [] _ hv
    · simp [Encoder.prepend, Encoder.prepended_nil]
    · simp only [Encoder.prependOne, Encoder.prepended_nil]
      exact Encoder.sigValue_closure_at e sig hv hmem hlen (by omega)
    · simp; omega
  rw [List.append_nil] at h1
  have hv1 := Encoder.prepended_valid e (tlvBytes TT.ISigValue sig) hv (by omega)
  have h2 : e.prepend [Item.encodable (fun enc => sigInfo.encodeTo P enc),
        Item.func (fun enc =>
          ((enc.prependRoom sig.length).2.prependTypeLength TT.ISigValue sig.length).2)]
      = (true, e.prepended (tlvBytes TT.ISigInfo (P.sigInfoValue sigInfo) ++
          tlvBytes TT.ISigValue sig)) := by
    apply Encoder.prepend_cons_at e _ _ _ _ hv
    · rw [h1]
    · exact SigInfo.sigInfo_encodeTo_writes P sigInfo hsi _ hv1
        (by rw [Encoder.prepended_headroom]; omega)
    · omega
  have hv2 := Encoder.prepended_valid e (tlvBytes TT.ISigInfo (P.sigInfoValue sigInfo) ++
    tlvBytes TT.ISigValue sig) hv (by rw [List.length_append]; omega)
  have h3 : e.prepend
      [Item.func (fun enc => ParameterizedInterestRef.encodeAppParameters appParameters enc),
        Item.encodable (fun enc => sigInfo.encodeTo P enc),
        Item.func (fun enc =>
          ((enc.prependRoom sig.length).2.prependTypeLength TT.ISigValue sig.length).2)]
      = (true, e.prepended (tlvBytes TT.AppParameters appParameters.bytes ++
          (tlvBytes TT.ISigInfo (P.sigInfoValue sigInfo) ++ tlvBytes TT.ISigValue sig))) := by
    apply Encoder.prepend_cons_at e _ _ _ _ hv
    · rw [h2]
    · exact ParameterizedInterestRef.encodeAppParameters_writes appParameters hap _ hv2
        (by rw [Encoder.prepended_headroom, List.length_append]; omega)
    · rw [List.length_append]; omega
  unfold encodeSignedParams
  rw [h3]
  simp [paramsBytes, signedPortion, List.append_assoc]

/-- The method `SignedInterestRef::encodeTo` on a live encoder with room, when the key
signs: the encoder gains the signed Interest, and memory from the old front on is as it
was. -/
theorem signed_encodeTo_at (P : Port) (obj : InterestObj) (appParameters : Value)
    (key : PrivateKey) (sigInfo : SigInfo) (e : Encoder) (sn sig digest : List Byte)
    (hv : e.Valid) (hname : signedName obj = some sn)
    (hsign : key.sign [sn, signedPortion P appParameters (key.updateSigInfo sigInfo)] = some sig)
    (hsl : sig.length ≤ key.getMaxSigLen)
    (hsha : P.sha256 (paramsBytes P appParameters (key.updateSigInfo sigInfo) sig)
      = some digest)
    (hd : digest.length = NDNPH_SHA256_LEN)
    (hnni : (P.nni obj.lifetime).length < 2 ^ 32)
    (hsi : (P.sigInfoValue (key.updateSigInfo sigInfo)).length < 2 ^ 32)
    (hval : (tlvBytes TT.Name (Name.mk
        (ParameterizedInterestRef.substDigest digest obj.name.comps)).value ++
      Interest.middleBytes P obj ++
      paramsBytes P appParameters (key.updateSigInfo sigInfo) sig).length < 2 ^ 32)
    (hroom1 : key.getMaxSigLen +
      (signedPortion P appParameters (key.updateSigInfo sigInfo)).length ≤ e.m_pos - e.m_buf)
    (hroom2 : (ParameterizedInterestRef.wire P obj digest
      (paramsBytes P appParameters (key.updateSigInfo sigInfo) sig)).length
        ≤ e.m_pos - e.m_buf) :
    ∃ mem2 : Mem, (∀ a, e.m_pos ≤ a → mem2 a = e.mem a) ∧
      encodeTo P obj appParameters key sigInfo e
        = ({ e with mem := mem2 } : Encoder).prepended
            (ParameterizedInterestRef.wire P obj digest
              (paramsBytes P appParameters (key.updateSigInfo sigInfo) sig)) := by
  have hv0 := hv
  unfold Encoder.Valid at hv0
  have hlens : sig.length < 2 ^ 32 ∧ appParameters.bytes.length < 2 ^ 32 := by
    simp only [paramsBytes, signedPortion, List.length_append, tlvBytes_length] at hval
    omega
  -- the first pass: room for the signature, then AppParameters and ISigInfo
  have hroomR : key.getMaxSigLen ≤ e.m_pos - e.m_buf := by omega
  have hR := Encoder.prependRoom_ok e key.getMaxSigLen hv hroomR
  have hvR : ({ e with m_pos := e.m_pos - key.getMaxSigLen } : Encoder).Valid := by
    unfold Encoder.Valid
    simp only
    omega
  have hitems : List.Forall₂ Item.Writes
      [Item.func (fun enc => ParameterizedInterestRef.encodeAppParameters appParameters enc),
        Item.encodable (fun enc => (key.updateSigInfo sigInfo).encodeTo P enc)]
      [tlvBytes TT.AppParameters appParameters.bytes,
        tlvBytes TT.ISigInfo (P.sigInfoValue (key.updateSigInfo sigInfo))] :=
    List.Forall₂.cons (ParameterizedInterestRef.encodeAppParameters_writes _ hlens.2)
      (List.Forall₂.cons (SigInfo.sigInfo_encodeTo_writes P _ hsi) List.Forall₂.nil)
  have hflat : List.flatten [tlvBytes TT.AppParameters appParameters.bytes,
        tlvBytes TT.ISigInfo (P.sigInfoValue (key.updateSigInfo sigInfo))]
      = signedPortion P appParameters (key.updateSigInfo sigInfo) := by
    simp [signedPortion]
  have h1 := Encoder.prepend_writes _ _ _ hitems hvR (by
    rw [hflat]
    simp only
    omega)
  rw [hflat] at h1
  have hv1 := Encoder.prepended_valid _
    (signedPortion P appParameters (key.updateSigInfo sigInfo)) hvR (by simp only; omega)
  have hv10 := hv1
  unfold Encoder.Valid at hv10
  simp only [Encoder.prepended] at hv10
  -- the signature in memory
  have hmoved := signature_moved
    (e.mem.copy (e.m_pos - key.getMaxSigLen -
      (signedPortion P appParameters (key.updateSigInfo sigInfo)).length)
      (signedPortion P appParameters (key.updateSigInfo sigInfo)))
    (e.m_pos - key.getMaxSigLen) e.m_pos key.getMaxSigLen sig (by omega) hsl
  refine ⟨(if sig.length ≠ key.getMaxSigLen then
        ((e.mem.copy (e.m_pos - key.getMaxSigLen -
            (signedPortion P appParameters (key.updateSigInfo sigInfo)).length)
          (signedPortion P appParameters (key.updateSigInfo sigInfo))).copy
            (e.m_pos - key.getMaxSigLen) sig).copy_backward
          (e.m_pos - key.getMaxSigLen) sig.length e.m_pos
      else (e.mem.copy (e.m_pos - key.getMaxSigLen -
            (signedPortion P appParameters (key.updateSigInfo sigInfo)).length)
          (signedPortion P appParameters (key.updateSigInfo sigInfo))).copy
            (e.m_pos - key.getMaxSigLen) sig), ?_, ?_⟩
  rotate_left
  · unfold encodeTo
    rw [hname]
    simp only [hR, h1]
    have hnot : (({ e with m_pos := e.m_pos - key.getMaxSigLen } : Encoder).prepended
        (signedPortion P appParameters (key.updateSigInfo sigInfo))).operatorNot = false := by
      simp only [Encoder.operatorNot, Encoder.prepended, beq_eq_false_iff_ne, ne_eq]
      omega
    rw [hnot]
    simp only [Bool.false_eq_true, if_false]
    have hmeasure : toSize (((e.m_pos - key.getMaxSigLen : Nat) : Int) -
        (((({ e with m_pos := e.m_pos - key.getMaxSigLen } : Encoder).prepended
          (signedPortion P appParameters (key.updateSigInfo sigInfo))).begin_ : Nat) : Int))
        = (signedPortion P appParameters (key.updateSigInfo sigInfo)).length := by
      simp only [Encoder.begin_, Encoder.prepended]
      rw [toSize_sub _ _ (by omega) (by omega)]
      omega
    rw [hmeasure]
    have hread : (({ e with m_pos := e.m_pos - key.getMaxSigLen } : Encoder).prepended
          (signedPortion P appParameters (key.updateSigInfo sigInfo))).mem.read
        (({ e with m_pos := e.m_pos - key.getMaxSigLen } : Encoder).prepended
          (signedPortion P appParameters (key.updateSigInfo sigInfo))).begin_
        (signedPortion P appParameters (key.updateSigInfo sigInfo)).length
        = signedPortion P appParameters (key.updateSigInfo sigInfo) :=
      Encoder.read_prepended _ _
    rw [hread, hsign]
    simp only [Encoder.resetFront, Encoder.begin_, Encoder.prepended]
    have hv2 : ({ e with mem :=
        (if sig.length ≠ key.getMaxSigLen then
          ((e.mem.copy (e.m_pos - key.getMaxSigLen -
              (signedPortion P appParameters (key.updateSigInfo sigInfo)).length)
            (signedPortion P appParameters (key.updateSigInfo sigInfo))).copy
              (e.m_pos - key.getMaxSigLen) sig).copy_backward
            (e.m_pos - key.getMaxSigLen) sig.length e.m_pos
        else (e.mem.copy (e.m_pos - key.getMaxSigLen -
              (signedPortion P appParameters (key.updateSigInfo sigInfo)).length)
            (signedPortion P appParameters (key.updateSigInfo sigInfo))).copy
              (e.m_pos - key.getMaxSigLen) sig) } : Encoder).Valid := hv
    have hp := encodeSignedParams_at P appParameters (key.updateSigInfo sigInfo) sig _ hv2
      hmoved.1 hlens.1 hlens.2 hsi (by
        simp only [ParameterizedInterestRef.wire, List.length_append, tlvBytes_length]
          at hroom2 ⊢
        omega)
    exact ParameterizedInterestRef.encodeImpl_at P obj _ _ _ digest hv2 hp hsha hd hnni hval
      hroom2
  · intro a ha
    rw [hmoved.2 a (by omega)]
    exact Mem.copy_outside _ _ _ _ (by omega)

end detail.SignedInterestRef

theorem toSize_natCast (n : Nat) (h : n < 2 ^ 64) : toSize (n : Int) = n := by
  have h1 := toSize_sub n 0 (Nat.zero_le _) h
  simpa using h1

namespace detail.SignedInterestRef

theorem signedName_none_digest (obj : InterestObj)
    (h : ∀ c ∈ obj.name.comps, c.type ≠ TT.ParametersSha256DigestComponent) :
    signedName obj = some obj.name.value := by
  unfold signedName
  rw [InterestRefBase.findParamsDigest_none obj.name h, if_pos (by decide)]

theorem getPrefix_last (name : Name) (pre : List Component) (ph : Component)
    (h : name.comps = pre ++ [ph]) : name.getPrefix (-1) = ⟨pre⟩ := by
  simp only [Name.getPrefix, Name.slice, Name.size, h]
  have h1 : ((-1 : Int) < 0) := by decide
  have h2 : ¬ ((0 : Int) < 0) := by decide
  have h3 : ((-1 : Int) + ((pre ++ [ph]).length : Int)).toNat = pre.length := by
    simp only [List.length_append, List.length_singleton]
    omega
  simp [h1, h3]

theorem signedName_last_digest (obj : InterestObj) (pre : List Component) (ph : Component)
    (hname : obj.name.comps = pre ++ [ph])
    (hpre : ∀ c ∈ pre, c.type ≠ TT.ParametersSha256DigestComponent)
    (hph : ph.type = TT.ParametersSha256DigestComponent) :
    signedName obj = some (Name.mk pre).value := by
  unfold signedName
  rw [InterestRefBase.findParamsDigest_some obj.name pre ph [] hname hpre hph,
    if_neg (by omega)]
  have hs : ((obj.name.size : Nat) : Int) - 1 = (pre.length : Int) := by
    simp only [Name.size, hname, List.length_append, List.length_singleton]
    omega
  rw [hs, if_pos rfl, getPrefix_last obj.name pre ph hname]

theorem signedName_inner_digest (obj : InterestObj) (hsize : obj.name.size < 2 ^ 31)
    (h : ∃ pre ph post, obj.name.comps = pre ++ ph :: post ∧
      ph.type = TT.ParametersSha256DigestComponent ∧ post ≠ []) :
    signedName obj = none := by
  obtain ⟨pre, ph, post, h1, h2, h3⟩ := h
  rcases InterestRefBase.split_first_digest obj.name.comps with hn | ⟨pre2, ph2, post2, g1, g2, g3⟩
  · exact absurd h2 (hn ph (by rw [h1]; simp))
  · have hle : pre2.length ≤ pre.length := by
      by_contra hgt
      have hlt : pre.length < pre2.length := by omega
      have e1 : obj.name.comps[pre.length]? = some ph := by
        rw [h1, List.getElem?_append_right (Nat.le_refl _)]
        simp
      have e2 : obj.name.comps[pre.length]? = pre2[pre.length]? := by
        rw [g1, List.getElem?_append_left hlt]
      rw [e1] at e2
      have hmem : ph ∈ pre2 := by
        have := e2.symm
        rw [List.getElem?_eq_some_iff] at this
        obtain ⟨hb, he⟩ := this
        rw [← he]
        exact List.getElem_mem hb
      exact g2 ph hmem h2
    have hpost : 1 ≤ post.length := by
      cases post with
      | nil => exact absurd rfl h3
      | cons _ _ => simp
    have hsz : obj.name.size = pre.length + 1 + post.length := by
      simp [Name.size, h1]
      omega
    unfold signedName
    rw [InterestRefBase.findParamsDigest_some obj.name pre2 ph2 post2 g1 g2 g3,
      if_neg (by omega)]
    have e3 : toSize ((pre2.length : Nat) : Int) = pre2.length :=
      toSize_natCast _ (by omega)
    have e4 : toSize (((obj.name.size : Nat) : Int) - 1) = obj.name.size - 1 := by
      have := toSize_sub obj.name.size 1 (by omega) (by omega)
      simpa using this
    rw [e3, e4, if_neg (by omega)]

end detail.SignedInterestRef

namespace detail.SignedInterestRef

/-- Claim C16. Signed-Interest layout: for every key whose sign returns `sigLen` octets with
`sigLen ≤ getMaxSigLen()` (also strictly fewer), the emitted Interest ends with
AppParameters TLV ++ ISigInfo TLV ++ ISigValue TLV (2E, VarNum(sigLen), sig), where `sig` is
what `key.sign({signedName, AppParameters TLV ++ ISigInfo TLV})` returned, signedName is the
name without the digest component, the signed octets are the AppParameters and ISigInfo
octets on the wire, and the packet ends at the encoder position held before the call, with
no signature room left inside or after it. -/
theorem signed_layout (P : Port) (obj : InterestObj) (appParameters : Value)
    (key : PrivateKey) (sigInfo : SigInfo) (e : Encoder) (sn sig digest : List Byte)
    (hv : e.Valid) (hname : signedName obj = some sn)
    (hsign : key.sign [sn, tlvBytes 0x24 appParameters.bytes ++
      tlvBytes 0x2C (P.sigInfoValue (key.updateSigInfo sigInfo))] = some sig)
    (hsl : sig.length ≤ key.getMaxSigLen)
    (hsha : P.sha256 (paramsBytes P appParameters (key.updateSigInfo sigInfo) sig)
      = some digest)
    (hd : digest.length = NDNPH_SHA256_LEN)
    (hnni : (P.nni obj.lifetime).length < 2 ^ 32)
    (hsi : (P.sigInfoValue (key.updateSigInfo sigInfo)).length < 2 ^ 32)
    (hval : (tlvBytes TT.Name (Name.mk
        (ParameterizedInterestRef.substDigest digest obj.name.comps)).value ++
      Interest.middleBytes P obj ++
      paramsBytes P appParameters (key.updateSigInfo sigInfo) sig).length < 2 ^ 32)
    (hroom1 : key.getMaxSigLen +
      (signedPortion P appParameters (key.updateSigInfo sigInfo)).length ≤ e.m_pos - e.m_buf)
    (hroom2 : (ParameterizedInterestRef.wire P obj digest
      (paramsBytes P appParameters (key.updateSigInfo sigInfo) sig)).length
        ≤ e.m_pos - e.m_buf) :
    (encodeTo P obj appParameters key sigInfo e).output
      = tlvBytes 0x05
          (tlvBytes 0x07 (Name.mk
              (ParameterizedInterestRef.substDigest digest obj.name.comps)).value ++
            Interest.middleBytes P obj ++
            (tlvBytes 0x24 appParameters.bytes ++
              tlvBytes 0x2C (P.sigInfoValue (key.updateSigInfo sigInfo)) ++
              ([0x2E] ++ tlv.varNumBytes sig.length ++ sig))) ++ e.output ∧
    (encodeTo P obj appParameters key sigInfo e).operatorNot = false ∧
    (encodeTo P obj appParameters key sigInfo e).begin_
        + ((encodeTo P obj appParameters key sigInfo e).output.length - e.output.length)
      = e.begin_ ∧
    (encodeTo P obj appParameters key sigInfo e).end_ = e.end_ ∧
    ((∀ c ∈ obj.name.comps, c.type ≠ 0x02) → sn = obj.name.value) ∧
    (∀ pre ph, obj.name.comps = pre ++ [ph] → (∀ c ∈ pre, c.type ≠ 0x02) → ph.type = 0x02 →
      sn = (Name.mk pre).value) := by
  obtain ⟨mem2, hmem, henc⟩ := signed_encodeTo_at P obj appParameters key sigInfo e sn sig
    digest hv hname hsign hsl hsha hd hnni hsi hval hroom1 hroom2
  have hv2 : ({ e with mem := mem2 } : Encoder).Valid := hv
  have hvp := Encoder.prepended_valid _ _ hv2 hroom2
  have hv0 := hv
  unfold Encoder.Valid at hv0 hvp
  have hout : (encodeTo P obj appParameters key sigInfo e).output
      = ParameterizedInterestRef.wire P obj digest
          (paramsBytes P appParameters (key.updateSigInfo sigInfo) sig) ++ e.output := by
    rw [henc, Encoder.output_prepended _ _ hv2 hroom2, Encoder.output_congr e mem2 hv hmem]
  have h2E : tlv.varNumBytes 0x2E = [0x2E] := by decide
  refine ⟨?_, ?_, ?_, ?_, ?_, ?_⟩
  · rw [hout]
    simp only [ParameterizedInterestRef.wire, paramsBytes, signedPortion, tlvBytes, TT.Interest,
      TT.Name, TT.AppParameters, TT.ISigInfo, TT.ISigValue, h2E, List.append_assoc]
  · rw [henc]
    simp only [Encoder.operatorNot, beq_eq_false_iff_ne, ne_eq]
    simp only [Encoder.prepended] at hvp ⊢
    omega
  · rw [hout, henc]
    simp only [Encoder.begin_, Encoder.prepended, List.length_append]
    omega
  · rw [henc]
    simp only [Encoder.end_, Encoder.prepended]
    simp only [Encoder.prepended] at hvp
    rw [if_neg (by omega), if_neg (by omega)]
  · intro h
    have := signedName_none_digest obj h
    rw [hname] at this
    exact Option.some.inj this
  · intro pre ph h1 h2 h3
    have := signedName_last_digest obj pre ph h1 h2 h3
    rw [hname] at this
    exact Option.some.inj this

/-- Witness of C16: name /A/<placeholder>, appParameters C0, and a key with room for 8
octets that signs with the 3 octets 01 02 03, into a 256-byte buffer. -/
theorem signed_layout_witness :
    (encodeTo examplePort { name := ⟨[⟨8, [0x41]⟩, ⟨2, []⟩]⟩, nonce := 0x11223344 }
      ⟨[0xC0]⟩ { updateSigInfo := id, getMaxSigLen := 8, sign := fun _ => some [1, 2, 3] } {}
      (Encoder.init (fun _ => 0) 0x1000 256)).output
      = tlvBytes 0x05
          (tlvBytes 0x07 (Name.mk (ParameterizedInterestRef.substDigest
              (List.replicate 32 0x74) [⟨8, [0x41]⟩, ⟨2, []⟩])).value ++
            Interest.middleBytes examplePort
              { name := ⟨[⟨8, [0x41]⟩, ⟨2, []⟩]⟩, nonce := 0x11223344 } ++
            (tlvBytes 0x24 [0xC0] ++ tlvBytes 0x2C (examplePort.sigInfoValue {}) ++
              ([0x2E] ++ tlv.varNumBytes 3 ++ [1, 2, 3]))) ++
        (Encoder.init (fun _ => 0) 0x1000 256).output :=
  (signed_layout examplePort { name := ⟨[⟨8, [0x41]⟩, ⟨2, []⟩]⟩, nonce := 0x11223344 }
    ⟨[0xC0]⟩ { updateSigInfo := id, getMaxSigLen := 8, sign := fun _ => some [1, 2, 3] } {}
    (Encoder.init (fun _ => 0) 0x1000 256) [8, 1, 0x41] [1, 2, 3] (List.replicate 32 0x74)
    (by decide) (by decide) rfl (by decide) (by decide) (by decide) (by decide) (by decide)
    (by decide) (by decide) (by decide)).1

end detail.SignedInterestRef

namespace detail.SignedInterestRef

/-- Claim C15. Signed-Interest digest position rule: encoding `interest.sign(key)` puts
the encoder into the error state, writing nothing, if the name contains a
ParametersSha256DigestComponent that is not its last component (as in /A/<placeholder>/B);
if the name has no placeholder, or the placeholder is its last component (as in
/A/<placeholder>), and the room suffices and the key signs, the encode succeeds and the
digest component is the last component of the emitted Name. The name has fewer than
`2 ^ 31` components (the index is an `int`). -/
theorem signed_digest_position (P : Port) (obj : InterestObj) (appParameters : Value)
    (key : PrivateKey) (sigInfo : SigInfo) (e : Encoder) (hsize : obj.name.size < 2 ^ 31) :
    ((∃ pre ph post, obj.name.comps = pre ++ ph :: post ∧ ph.type = 0x02 ∧ post ≠ []) →
      (encodeTo P obj appParameters key sigInfo e).operatorNot = true ∧
      (encodeTo P obj appParameters key sigInfo e).size = 0 ∧
      (encodeTo P obj appParameters key sigInfo e).mem = e.mem) ∧
    (((∀ c ∈ obj.name.comps, c.type ≠ 0x02) ∨
        (∃ pre ph, obj.name.comps = pre ++ [ph] ∧ (∀ c ∈ pre, c.type ≠ 0x02) ∧ ph.type = 0x02)) →
      ∃ sn, signedName obj = some sn ∧
        ∀ sig digest, e.Valid →
          key.sign [sn, signedPortion P appParameters (key.updateSigInfo sigInfo)] = some sig →
          sig.length ≤ key.getMaxSigLen →
          P.sha256 (paramsBytes P appParameters (key.updateSigInfo sigInfo) sig) = some digest →
          digest.length = NDNPH_SHA256_LEN →
          (P.nni obj.lifetime).length < 2 ^ 32 →
          (P.sigInfoValue (key.updateSigInfo sigInfo)).length < 2 ^ 32 →
          (tlvBytes TT.Name (Name.mk
              (ParameterizedInterestRef.substDigest digest obj.name.comps)).value ++
            Interest.middleBytes P obj ++
            paramsBytes P appParameters (key.updateSigInfo sigInfo) sig).length < 2 ^ 32 →
          key.getMaxSigLen +
            (signedPortion P appParameters (key.updateSigInfo sigInfo)).length
              ≤ e.m_pos - e.m_buf →
          (ParameterizedInterestRef.wire P obj digest
            (paramsBytes P appParameters (key.updateSigInfo sigInfo) sig)).length
              ≤ e.m_pos - e.m_buf →
          (encodeTo P obj appParameters key sigInfo e).operatorNot = false ∧
          (encodeTo P obj appParameters key sigInfo e).output
            = tlvBytes 0x05
                (tlvBytes 0x07 (Name.mk
                    (ParameterizedInterestRef.substDigest digest obj.name.comps)).value ++
                  Interest.middleBytes P obj ++
                  paramsBytes P appParameters (key.updateSigInfo sigInfo) sig) ++ e.output ∧
          ∃ front, ParameterizedInterestRef.substDigest digest obj.name.comps
            = front ++ [⟨0x02, digest⟩]) := by
  constructor
  · intro h
    have hn := signedName_inner_digest obj hsize h
    unfold encodeTo
    rw [hn]
    simp [Encoder.setError, Encoder.operatorNot, Encoder.size]
  · intro h
    have hsn : ∃ sn, signedName obj = some sn ∧
        ∃ front, ∀ digest, ParameterizedInterestRef.substDigest digest obj.name.comps
          = front ++ [⟨0x02, digest⟩] := by
      rcases h with h | ⟨pre, ph, h1, h2, h3⟩
      · exact ⟨_, signedName_none_digest obj h, obj.name.comps,
          fun digest => ParameterizedInterestRef.substDigest_none digest _ h⟩
      · refine ⟨_, signedName_last_digest obj pre ph h1 h2 h3, pre, fun digest => ?_⟩
        rw [h1]
        exact ParameterizedInterestRef.substDigest_some digest pre ph [] h2 h3
    obtain ⟨sn, hname, front, hfront⟩ := hsn
    refine ⟨sn, hname, ?_⟩
    intro sig digest hv hsign hsl hsha hd hnni hsi hval hroom1 hroom2
    obtain ⟨mem2, hmem, henc⟩ := signed_encodeTo_at P obj appParameters key sigInfo e sn sig
      digest hv hname hsign hsl hsha hd hnni hsi hval hroom1 hroom2
    have hv2 : ({ e with mem := mem2 } : Encoder).Valid := hv
    have hvp := Encoder.prepended_valid _ _ hv2 hroom2
    unfold Encoder.Valid at hvp
    refine ⟨?_, ?_, front, hfront digest⟩
    · rw [henc]
      simp only [Encoder.operatorNot, beq_eq_false_iff_ne, ne_eq]
      simp only [Encoder.prepended] at hvp ⊢
      omega
    · rw [henc, Encoder.output_prepended _ _ hv2 hroom2, Encoder.output_congr e mem2 hv hmem]
      rfl

/-- Witness of C15: signing /A/<placeholder>/B with the digest key fails the encode,
signing /A/<placeholder> succeeds. -/
theorem signed_digest_position_witness :
    (encodeTo examplePort
      { name := ⟨[⟨8, [0x41]⟩, ⟨2, []⟩, ⟨8, [0x42]⟩]⟩, nonce := 0x11223344 } ⟨[]⟩
      (BasicDigestKey.privateKey examplePort) {}
      (Encoder.init (fun _ => 0) 0x1000 256)).operatorNot = true ∧
    (encodeTo examplePort
      { name := ⟨[⟨8, [0x41]⟩, ⟨2, []⟩]⟩, nonce := 0x11223344 } ⟨[]⟩
      (BasicDigestKey.privateKey examplePort) {}
      (Encoder.init (fun _ => 0) 0x1000 256)).operatorNot = false := by
  constructor
  · exact ((signed_digest_position examplePort
      { name := ⟨[⟨8, [0x41]⟩, ⟨2, []⟩, ⟨8, [0x42]⟩]⟩, nonce := 0x11223344 } ⟨[]⟩
      (BasicDigestKey.privateKey examplePort) {}
      (Encoder.init (fun _ => 0) 0x1000 256) (by decide)).1
        ⟨[⟨8, [0x41]⟩], ⟨2, []⟩, [⟨8, [0x42]⟩], rfl, rfl, by decide⟩).1
  · obtain ⟨sn, hsn, h⟩ := (signed_digest_position examplePort
      { name := ⟨[⟨8, [0x41]⟩, ⟨2, []⟩]⟩, nonce := 0x11223344 } ⟨[]⟩
      (BasicDigestKey.privateKey examplePort) {}
      (Encoder.init (fun _ => 0) 0x1000 256) (by decide)).2
        (Or.inr ⟨[⟨8, [0x41]⟩], ⟨2, []⟩, rfl, by decide, rfl⟩)
    have hsn2 : signedName { name := ⟨[⟨8, [0x41]⟩, ⟨2, []⟩]⟩, nonce := 0x11223344 }
        = some [8, 1, 0x41] := by decide
    rw [hsn2] at hsn
    have hsn3 : sn = [8, 1, 0x41] := (Option.some.inj hsn).symm
    subst hsn3
    exact (h (List.replicate 32 0xC3) (List.replicate 32 0x46) (by decide) (by decide)
      (by decide) (by decide) (by decide) (by decide) (by decide) (by decide) (by decide)
      (by decide)).1

end detail.SignedInterestRef

/-! ## Decoding -/

namespace tlv

end tlv

namespace Decoder

end Decoder

namespace EvDecoder

/-- Decoding the children is reading them all and handing them to the rules in turn. -/
theorem decodeChildren_eq {σ : Type} (defs : List (Def σ)) (mem : Mem)
    (fuel pos end_ : Nat) (s : σ) :
    decodeChildren defs mem fuel pos end_ s =
      match Decoder.children mem fuel pos end_ with
      | none => none
      | some cs => cs.foldlM (fun s d => decodeElement defs mem d s) s := by
  induction fuel generalizing pos s with
  | zero => simp [decodeChildren, Decoder.children]
  | succ fuel ih =>
    unfold decodeChildren Decoder.children
    split_ifs with h1
    · simp
    · cases hr : Decoder.readTlv mem pos end_ with
      | none => simp
      | some d =>
        simp only
        cases he : decodeElement defs mem d s with
        | none =>
          cases hc : Decoder.children mem fuel (pos + d.size) end_ with
          | none => simp
          | some ds => simp [List.foldlM_cons, he]
        | some s2 =>
          simp only
          rw [ih]
          cases hc : Decoder.children mem fuel (pos + d.size) end_ with
          | none => simp
          | some ds => simp [List.foldlM_cons, he]

end EvDecoder

namespace EvDecoder

theorem decodeElement_cons {σ : Type} (df : Def σ) (defs : List (Def σ)) (mem : Mem)
    (d : Decoder.Tlv) (s : σ) :
    decodeElement (df :: defs) mem d s
      = if df.type = d.type then df.handler mem d s else decodeElement defs mem d s := by
  unfold decodeElement
  by_cases h : df.type = d.type
  · simp [List.find?, h]
  · have hb : (df.type == d.type) = false := by simpa using h
    simp [List.find?, hb, h]

theorem decodeElement_nil {σ : Type} (mem : Mem) (d : Decoder.Tlv) (s : σ) :
    decodeElement ([] : List (Def σ)) mem d s = if isCritical d.type then none else some s := by
  simp [decodeElement]

end EvDecoder

namespace Interest

/-- A child that is neither AppParameters nor ISigValue leaves the ranges `allParams` and
`signedParams` of the decoded parameters, if any, as they are. -/
theorem decodeElement_other (P : Port) (mk : Bool) (input : Decoder.Tlv) (mem : Mem)
    (d : Decoder.Tlv) (s s2 : detail.InterestObj)
    (h1 : d.type ≠ TT.AppParameters) (h2 : d.type ≠ TT.ISigValue)
    (h : EvDecoder.decodeElement (decodeDefs P mk input) mem d s = some s2) :
    s2.params.map (fun p => (p.allParams, p.signedParams))
      = s.params.map (fun p => (p.allParams, p.signedParams)) := by
  simp only [decodeDefs, EvDecoder.decodeElement_cons, EvDecoder.decodeElement_nil] at h
  have g1 : ¬ TT.AppParameters = d.type := fun e => h1 e.symm
  have g2 : ¬ TT.ISigValue = d.type := fun e => h2 e.symm
  simp only [g1, g2, if_false] at h
  split_ifs at h
  · cases hn : Name.decodeFrom mem d with
    | none => rw [hn] at h; simp at h
    | some n =>
      rw [hn] at h
      simp only [Option.some.injEq] at h
      subst h; rfl
  · simp only [Option.some.injEq] at h
    subst h; rfl
  · simp only [Option.some.injEq] at h
    subst h; rfl
  · cases hn : tlv.NNI4.decode (mem.read d.value d.length) with
    | none => rw [hn] at h; simp at h
    | some n =>
      rw [hn] at h
      simp only [Option.some.injEq] at h
      subst h; rfl
  · cases hn : P.nniDecode (mem.read d.value d.length) with
    | none => rw [hn] at h; simp at h
    | some n =>
      rw [hn] at h
      simp only at h
      split_ifs at h
      simp only [Option.some.injEq] at h
      subst h; rfl
  · cases hn : tlv.NNI1.decode (mem.read d.value d.length) with
    | none => rw [hn] at h; simp at h
    | some n =>
      rw [hn] at h
      simp only [Option.some.injEq] at h
      subst h; rfl
  · cases hp : s.params with
    | none => rw [hp] at h; simp at h
    | some p =>
      rw [hp] at h
      simp only at h
      cases hn : P.sigInfoDecode (mem.read d.value d.length) with
      | none => rw [hn] at h; simp at h
      | some si =>
        rw [hn] at h
        simp only [Option.some.injEq] at h
        subst h; rfl
  · simp only [Option.some.injEq] at h
    subst h; rfl

/-- An ISigValue child needs a record of parameters and sets its `signedParams` to the
range from the start of `allParams` up to the first octet of the child. -/
theorem decodeElement_sigValue (P : Port) (mk : Bool) (input : Decoder.Tlv) (mem : Mem)
    (d : Decoder.Tlv) (s s2 : detail.InterestObj) (h1 : d.type = TT.ISigValue)
    (h : EvDecoder.decodeElement (decodeDefs P mk input) mem d s = some s2) :
    ∃ a sp, s.params.map (fun p => (p.allParams, p.signedParams)) = some (a, sp) ∧
      s2.params.map (fun p => (p.allParams, p.signedParams))
        = some (a, ⟨a.begin_, toSize ((d.tlv : Int) - (a.begin_ : Int))⟩) := by
  simp only [decodeDefs, EvDecoder.decodeElement_cons, EvDecoder.decodeElement_nil, h1] at h
  have e1 : ¬ TT.Name = TT.ISigValue := by decide
  have e2 : ¬ TT.CanBePrefix = TT.ISigValue := by decide
  have e3 : ¬ TT.MustBeFresh = TT.ISigValue := by decide
  have e4 : ¬ TT.Nonce = TT.ISigValue := by decide
  have e5 : ¬ TT.InterestLifetime = TT.ISigValue := by decide
  have e6 : ¬ TT.HopLimit = TT.ISigValue := by decide
  have e7 : ¬ TT.AppParameters = TT.ISigValue := by decide
  have e8 : ¬ TT.ISigInfo = TT.ISigValue := by decide
  simp only [e1, e2, e3, e4, e5, e6, e7, e8, if_false, if_true] at h
  cases hp : s.params with
  | none => rw [hp] at h; simp at h
  | some p =>
    rw [hp] at h
    simp only [Option.some.injEq] at h
    subst h
    exact ⟨p.allParams, p.signedParams, rfl, rfl⟩

end Interest

namespace Interest

theorem foldlM_before_app (P : Port) (mk : Bool) (input : Decoder.Tlv) (mem : Mem)
    (cs : List Decoder.Tlv) (s s2 : detail.InterestObj) (hs : s.params = none)
    (h1 : ∀ c ∈ cs, c.type ≠ TT.AppParameters)
    (h : cs.foldlM (fun s d => EvDecoder.decodeElement (decodeDefs P mk input) mem d s) s
      = some s2) :
    (∀ c ∈ cs, c.type ≠ TT.ISigValue) ∧ s2.params = none := by
  induction cs generalizing s with
  | nil =>
    simp only [List.foldlM_nil, pure, Option.some.injEq] at h
    subst h
    exact ⟨by simp, hs⟩
  | cons c cs ih =>
    simp only [List.foldlM_cons, bind, Option.bind] at h
    cases he : EvDecoder.decodeElement (decodeDefs P mk input) mem c s with
    | none => rw [he] at h; simp at h
    | some s1 =>
      rw [he] at h
      simp only at h
      have hne : c.type ≠ TT.ISigValue := by
        intro hc
        obtain ⟨a, sp, h3, _⟩ := decodeElement_sigValue P mk input mem c s s1 hc he
        rw [hs] at h3
        simp at h3
      have hc := decodeElement_other P mk input mem c s s1 (h1 c (List.mem_cons_self _ _))
        hne he
      have hs1 : s1.params = none := by
        rw [hs] at hc
        simpa using hc
      have := ih s1 hs1 (fun x hx => h1 x (List.mem_cons_of_mem _ hx)) h
      refine ⟨?_, this.2⟩
      intro x hx
      rcases List.mem_cons.mp hx with rfl | hx
      · exact hne
      · exact this.1 x hx

end Interest

namespace Interest

end Interest

/-! ## Decoding what was encoded -/

theorem Mem.read_append_split (mem : Mem) (p : Nat) (xs ys : List Byte)
    (h : mem.read p (xs ++ ys).length = xs ++ ys) :
    mem.read p xs.length = xs ∧ mem.read (p + xs.length) ys.length = ys := by
  rw [List.length_append, Mem.read_add] at h
  have h1 := List.append_inj h (by simp [Mem.read_length])
  exact h1

theorem tlv.readVarNum_bytes (mem : Mem) (p n size n0 : Nat) (hn : n < 2 ^ 32)
    (hmem : mem.read p (sizeofVarNum n) = varNumBytes n) (hsz : sizeofVarNum n ≤ size) :
    readVarNum mem p size n0 = (sizeofVarNum n, n) := by
  have vFD : ((253 : Byte) : Nat) = 253 := rfl
  have vFE : ((254 : Byte) : Nat) = 254 := rfl
  unfold sizeofVarNum at hmem hsz ⊢
  unfold varNumBytes at hmem
  unfold readVarNum
  by_cases h1 : n < 0xFD
  · have hm : n % 256 = n := Nat.mod_eq_of_lt (by omega)
    simp only [h1, if_true] at hmem hsz ⊢
    simp only [Mem.read_succ, Mem.read_zero, List.cons.injEq, and_true] at hmem
    simp [hmem, toByte_val, hm, h1]
    omega
  · by_cases h2 : n ≤ 0xFFFF
    · simp only [h1, h2, if_true, if_false] at hmem hsz ⊢
      simp only [Mem.read_succ, Mem.read_zero, List.cons.injEq, and_true] at hmem
      obtain ⟨g0, g1, g2⟩ := hmem
      have e : ((((n / 256) % 256) <<< 8) ||| (n % 256)) % 2 ^ 32 = n := by
        rw [be16_or _ _ (Nat.mod_lt _ (by decide))]
        omega
      have g2b : mem (p + 2) = toByte n := by rw [← g2]
      simp [g0, g1, g2b, toByte_val, vFD, hsz]
      exact e
    · simp only [h1, h2, if_false] at hmem hsz ⊢
      simp only [Mem.read_succ, Mem.read_zero, List.cons.injEq, and_true] at hmem
      obtain ⟨g0, g1, g2, g3, g4⟩ := hmem
      have e : ((((n / 16777216) % 256) <<< 24) ||| (((n / 65536) % 256) <<< 16) |||
          (((n / 256) % 256) <<< 8) ||| (n % 256)) % 2 ^ 32 = n := by
        rw [be32_or _ _ _ _ (Nat.mod_lt _ (by decide)) (Nat.mod_lt _ (by decide))
          (Nat.mod_lt _ (by decide))]
        omega
      have g2b : mem (p + 2) = toByte (n / 65536) := by rw [← g2]
      have g3b : mem (p + 3) = toByte (n / 256) := by rw [← g3]
      have g4b : mem (p + 4) = toByte n := by rw [← g4]
      simp [g0, g1, g2b, g3b, g4b, toByte_val, vFE, hsz]
      exact e

theorem tlvSeq_cons (x : Nat × List Byte) (rest : List (Nat × List Byte)) :
    tlvSeq (x :: rest) = tlvBytes x.1 x.2 ++ tlvSeq rest := by
  simp [tlvSeq]

theorem tlvSeq_nil : tlvSeq [] = [] := rfl

theorem tlvSeq_append (xs ys : List (Nat × List Byte)) :
    tlvSeq (xs ++ ys) = tlvSeq xs ++ tlvSeq ys := by
  simp [tlvSeq]

theorem tlvSeq_length_ge (items : List (Nat × List Byte)) :
    items.length ≤ (tlvSeq items).length := by
  induction items with
  | nil => simp
  | cons x rest ih =>
    have h1 := tlv.sizeofVarNum_pos x.1
    rw [tlvSeq_cons, List.length_append, tlvBytes_length, List.length_cons]
    omega

/-- Memory that holds the octets of one TLV holds its header and then its value. -/
theorem Mem.read_tlvBytes (mem : Mem) (p t : Nat) (v : List Byte)
    (h : mem.read p (tlvBytes t v).length = tlvBytes t v) :
    mem.read p (tlv.sizeofVarNum t) = tlv.varNumBytes t ∧
    mem.read (p + tlv.sizeofVarNum t) (tlv.sizeofVarNum v.length) = tlv.varNumBytes v.length ∧
    mem.read (p + tlv.sizeofVarNum t + tlv.sizeofVarNum v.length) v.length = v := by
  unfold tlvBytes at h
  obtain ⟨h1, h2⟩ := Mem.read_append_split mem p _ _ h
  obtain ⟨h3, h4⟩ := Mem.read_append_split mem p _ _ h1
  rw [tlv.varNumBytes_length] at h3 h4
  rw [tlv.varNumBytes_length] at h4
  rw [List.length_append, tlv.varNumBytes_length, tlv.varNumBytes_length, ← Nat.add_assoc] at h2
  exact ⟨h3, h4, h2⟩

theorem Decoder.readTlv_bytes (mem : Mem) (p end_ t : Nat) (v : List Byte)
    (ht : t < 2 ^ 32) (hv : v.length < 2 ^ 32)
    (h : mem.read p (tlvBytes t v).length = tlvBytes t v)
    (hend : p + (tlvBytes t v).length ≤ end_) :
    readTlv mem p end_ = some
      { type := t, length := v.length,
        value := p + tlv.sizeofVarNum t + tlv.sizeofVarNum v.length, tlv := p,
        size := tlv.sizeofVarNum t + tlv.sizeofVarNum v.length + v.length } := by
  obtain ⟨h1, h2, _⟩ := Mem.read_tlvBytes mem p t v h
  rw [tlvBytes_length] at hend
  have p1 := tlv.sizeofVarNum_pos t
  have p2 := tlv.sizeofVarNum_pos v.length
  unfold readTlv
  rw [tlv.readVarNum_bytes mem p t _ 0 ht h1 (by omega)]
  simp only
  rw [if_neg (by omega), tlv.readVarNum_bytes mem _ v.length _ 0 hv h2 (by omega)]
  simp only
  rw [if_neg (by omega), if_neg (by omega)]

theorem Decoder.children_layout (mem : Mem) (items : List (Nat × List Byte)) :
    ∀ (fuel pos : Nat), items.length < fuel →
      (∀ x ∈ items, x.1 < 2 ^ 32 ∧ x.2.length < 2 ^ 32) →
      mem.read pos (tlvSeq items).length = tlvSeq items →
      children mem fuel pos (pos + (tlvSeq items).length) = some (layout pos items) := by
  induction items with
  | nil =>
    intro fuel pos hf _ _
    cases fuel with
    | zero => omega
    | succ k => simp [children, layout, tlvSeq_nil]
  | cons x rest ih =>
    intro fuel pos hf hok hmem
    cases fuel with
    | zero => omega
    | succ k =>
      rw [tlvSeq_cons] at hmem
      obtain ⟨h1, h2⟩ := Mem.read_append_split mem pos _ _ hmem
      have hx := hok x (by simp)
      have p1 := tlv.sizeofVarNum_pos x.1
      have hlen := tlvBytes_length x.1 x.2
      rw [hlen] at h2
      have hr := readTlv_bytes mem pos (pos + (tlvSeq (x :: rest)).length) x.1 x.2 hx.1 hx.2 h1
        (by rw [tlvSeq_cons, List.length_append]; omega)
      have hi := ih k (pos + (tlv.sizeofVarNum x.1 + tlv.sizeofVarNum x.2.length + x.2.length))
        (by simp at hf; omega) (fun y hy => hok y (by simp [hy])) h2
      have hend : pos + (tlv.sizeofVarNum x.1 + tlv.sizeofVarNum x.2.length + x.2.length)
          + (tlvSeq rest).length = pos + (tlvSeq (x :: rest)).length := by
        rw [tlvSeq_cons, List.length_append, hlen]; omega
      rw [hend] at hi
      unfold children
      rw [if_neg (by rw [tlvSeq_cons, List.length_append, hlen]; omega), hr]
      simp only
      rw [hi]
      rfl

theorem Decoder.layout_append (xs ys : List (Nat × List Byte)) :
    ∀ pos, layout pos (xs ++ ys) = layout pos xs ++ layout (pos + (tlvSeq xs).length) ys := by
  induction xs with
  | nil => intro pos; simp [layout, tlvSeq_nil]
  | cons x rest ih =>
    intro pos
    rw [List.cons_append, layout, layout, ih, tlvSeq_cons, List.length_append, tlvBytes_length,
      List.cons_append, Nat.add_assoc pos _ (tlvSeq rest).length]

theorem Decoder.layout_read_map (mem : Mem) (items : List (Nat × List Byte)) :
    ∀ pos, mem.read pos (tlvSeq items).length = tlvSeq items →
      (layout pos items).map (fun c => (⟨c.type, mem.read c.value c.length⟩ : Component))
        = items.map (fun x => (⟨x.1, x.2⟩ : Component)) := by
  induction items with
  | nil => intro pos _; rfl
  | cons x rest ih =>
    intro pos hmem
    rw [tlvSeq_cons] at hmem
    obtain ⟨h1, h2⟩ := Mem.read_append_split mem pos _ _ hmem
    obtain ⟨_, _, h3⟩ := Mem.read_tlvBytes mem pos x.1 x.2 h1
    rw [tlvBytes_length] at h2
    rw [layout, List.map_cons, List.map_cons, ih _ h2]
    simp only [h3]

theorem Name.value_items (comps : List Component) :
    (Name.mk comps).value = tlvSeq (comps.map (fun c => (c.type, c.value))) := by
  unfold Name.value tlvSeq
  rw [List.map_map]
  rfl

/-- A Name element whose TLV-VALUE holds the components `comps` decodes to them. -/
theorem Name.decodeFrom_bytes (mem : Mem) (d : Decoder.Tlv) (comps : List Component)
    (hlen : d.length = (Name.mk comps).value.length)
    (hmem : mem.read d.value d.length = (Name.mk comps).value)
    (hok : ∀ c ∈ comps, c.type < 2 ^ 32 ∧ c.value.length < 2 ^ 32) :
    Name.decodeFrom mem d = some ⟨comps⟩ := by
  rw [hlen, Name.value_items] at hmem
  rw [Name.value_items] at hlen
  have hf : (comps.map (fun c => (c.type, c.value))).length < d.length + 1 := by
    have := tlvSeq_length_ge (comps.map (fun c => (c.type, c.value)))
    omega
  have hch := Decoder.children_layout mem _ (d.length + 1) d.value hf
    (by
      intro x hx
      obtain ⟨c, hc, rfl⟩ := List.mem_map.mp hx
      exact hok c hc)
    hmem
  rw [← hlen] at hch
  unfold Name.decodeFrom
  rw [hch]
  simp only
  rw [Decoder.layout_read_map mem _ _ hmem]
  simp [Function.comp_def]

namespace Interest

theorem decodeElement_name (P : Port) (mk : Bool) (input : Decoder.Tlv) (mem : Mem)
    (d : Decoder.Tlv) (s : detail.InterestObj) (n : Name) (h1 : d.type = TT.Name)
    (hn : Name.decodeFrom mem d = some n) :
    EvDecoder.decodeElement (decodeDefs P mk input) mem d s = some { s with name := n } := by
  simp only [decodeDefs, EvDecoder.decodeElement_cons, h1, if_true, hn]

theorem decodeElement_app_exact (P : Port) (input : Decoder.Tlv) (mem : Mem)
    (d : Decoder.Tlv) (s : detail.InterestObj) (h1 : d.type = TT.AppParameters) :
    EvDecoder.decodeElement (decodeDefs P true input) mem d s
      = some { s with params := some (
          { allParams := ⟨d.tlv, toSize (((input.tlv + input.size : Nat) : Int) - (d.tlv : Int))⟩,
            appParameters := ⟨d.value, d.length⟩ } : detail.InterestParams) } := by
  simp only [decodeDefs, EvDecoder.decodeElement_cons, h1]
  have e1 : ¬ TT.Name = TT.AppParameters := by decide
  have e2 : ¬ TT.CanBePrefix = TT.AppParameters := by decide
  have e3 : ¬ TT.MustBeFresh = TT.AppParameters := by decide
  have e4 : ¬ TT.Nonce = TT.AppParameters := by decide
  have e5 : ¬ TT.InterestLifetime = TT.AppParameters := by decide
  have e6 : ¬ TT.HopLimit = TT.AppParameters := by decide
  simp only [e1, e2, e3, e4, e5, e6, if_false, if_true]

theorem decodeElement_sigInfo_exact (P : Port) (mk : Bool) (input : Decoder.Tlv) (mem : Mem)
    (d : Decoder.Tlv) (s : detail.InterestObj) (p : detail.InterestParams) (si : SigInfo)
    (h1 : d.type = TT.ISigInfo) (hp : s.params = some p)
    (hsi : P.sigInfoDecode (mem.read d.value d.length) = some si) :
    EvDecoder.decodeElement (decodeDefs P mk input) mem d s
      = some { s with params := some { p with sigInfo := si } } := by
  simp only [decodeDefs, EvDecoder.decodeElement_cons, h1]
  have e1 : ¬ TT.Name = TT.ISigInfo := by decide
  have e2 : ¬ TT.CanBePrefix = TT.ISigInfo := by decide
  have e3 : ¬ TT.MustBeFresh = TT.ISigInfo := by decide
  have e4 : ¬ TT.Nonce = TT.ISigInfo := by decide
  have e5 : ¬ TT.InterestLifetime = TT.ISigInfo := by decide
  have e6 : ¬ TT.HopLimit = TT.ISigInfo := by decide
  have e7 : ¬ TT.AppParameters = TT.ISigInfo := by decide
  simp only [e1, e2, e3, e4, e5, e6, e7, if_false, if_true, hp, hsi]

theorem decodeElement_sigValue_exact (P : Port) (mk : Bool) (input : Decoder.Tlv) (mem : Mem)
    (d : Decoder.Tlv) (s : detail.InterestObj) (p : detail.InterestParams)
    (h1 : d.type = TT.ISigValue) (hp : s.params = some p) :
    EvDecoder.decodeElement (decodeDefs P mk input) mem d s
      = some { s with params := some (
          { p with
            signedParams := ⟨p.allParams.begin_,
              toSize ((d.tlv : Int) - (p.allParams.begin_ : Int))⟩,
            sigValue := ⟨d.value, d.length⟩ } : detail.InterestParams) } := by
  simp only [decodeDefs, EvDecoder.decodeElement_cons, h1]
  have e1 : ¬ TT.Name = TT.ISigValue := by decide
  have e2 : ¬ TT.CanBePrefix = TT.ISigValue := by decide
  have e3 : ¬ TT.MustBeFresh = TT.ISigValue := by decide
  have e4 : ¬ TT.Nonce = TT.ISigValue := by decide
  have e5 : ¬ TT.InterestLifetime = TT.ISigValue := by decide
  have e6 : ¬ TT.HopLimit = TT.ISigValue := by decide
  have e7 : ¬ TT.AppParameters = TT.ISigValue := by decide
  have e8 : ¬ TT.ISigInfo = TT.ISigValue := by decide
  simp only [e1, e2, e3, e4, e5, e6, e7, e8, if_false, if_true, hp]

/-- A middle element that its rule accepts is decoded and leaves the name and the
parameters of the Interest as they are. -/
theorem decodeElement_middle (P : Port) (mk : Bool) (input : Decoder.Tlv) (mem : Mem)
    (d : Decoder.Tlv) (s : detail.InterestObj)
    (h : d.type = TT.CanBePrefix ∨ d.type = TT.MustBeFresh ∨
      (d.type = TT.Nonce ∧ d.length = 4) ∨
      (d.type = TT.InterestLifetime ∧
        ∃ n, P.nniDecode (mem.read d.value d.length) = some n ∧ n < 2 ^ 16) ∨
      (d.type = TT.HopLimit ∧ d.length = 1)) :
    ∃ s2, EvDecoder.decodeElement (decodeDefs P mk input) mem d s = some s2 ∧
      s2.name = s.name ∧ s2.params = s.params := by
  have e1 : ¬ TT.Name = TT.CanBePrefix := by decide
  have e2 : ¬ TT.Name = TT.MustBeFresh := by decide
  have e3 : ¬ TT.CanBePrefix = TT.MustBeFresh := by decide
  have e4 : ¬ TT.Name = TT.Nonce := by decide
  have e5 : ¬ TT.CanBePrefix = TT.Nonce := by decide
  have e6 : ¬ TT.MustBeFresh = TT.Nonce := by decide
  have e7 : ¬ TT.Name = TT.InterestLifetime := by decide
  have e8 : ¬ TT.CanBePrefix = TT.InterestLifetime := by decide
  have e9 : ¬ TT.MustBeFresh = TT.InterestLifetime := by decide
  have e10 : ¬ TT.Nonce = TT.InterestLifetime := by decide
  have e11 : ¬ TT.Name = TT.HopLimit := by decide
  have e12 : ¬ TT.CanBePrefix = TT.HopLimit := by decide
  have e13 : ¬ TT.MustBeFresh = TT.HopLimit := by decide
  have e14 : ¬ TT.Nonce = TT.HopLimit := by decide
  have e15 : ¬ TT.InterestLifetime = TT.HopLimit := by decide
  simp only [decodeDefs, EvDecoder.decodeElement_cons]
  rcases h with h | h | ⟨h, hl⟩ | ⟨h, n, hn, hlt⟩ | ⟨h, hl⟩
  · simp only [h, e1, if_false, if_true]
    exact ⟨_, rfl, rfl, rfl⟩
  · simp only [h, e2, e3, if_false, if_true]
    exact ⟨_, rfl, rfl, rfl⟩
  · simp only [h, e4, e5, e6, if_false, if_true, tlv.NNI4.decode, Mem.read_length, hl]
    exact ⟨_, rfl, rfl, rfl⟩
  · simp only [h, e7, e8, e9, e10, if_false, if_true, hn, hlt]
    exact ⟨_, rfl, rfl, rfl⟩
  · simp only [h, e11, e12, e13, e14, e15, if_false, if_true, tlv.NNI1.decode,
      Mem.read_length, hl]
    exact ⟨_, rfl, rfl, rfl⟩

/-- Middle elements that their rules accept are decoded one after another and leave the name
and the parameters of the Interest as they are. -/
theorem foldlM_middle (P : Port) (mk : Bool) (input : Decoder.Tlv) (mem : Mem)
    (items : List (Nat × List Byte)) :
    ∀ (pos : Nat) (s : detail.InterestObj),
      (∀ x ∈ items, x.1 = TT.CanBePrefix ∨ x.1 = TT.MustBeFresh ∨
        (x.1 = TT.Nonce ∧ x.2.length = 4) ∨
        (x.1 = TT.InterestLifetime ∧ ∃ n, P.nniDecode x.2 = some n ∧ n < 2 ^ 16) ∨
        (x.1 = TT.HopLimit ∧ x.2.length = 1)) →
      mem.read pos (tlvSeq items).length = tlvSeq items →
      ∃ s2, (Decoder.layout pos items).foldlM
          (fun s d => EvDecoder.decodeElement (decodeDefs P mk input) mem d s) s = some s2 ∧
        s2.name = s.name ∧ s2.params = s.params := by
  induction items with
  | nil => intro pos s _ _; exact ⟨s, rfl, rfl, rfl⟩
  | cons x rest ih =>
    intro pos s hok hmem
    rw [tlvSeq_cons] at hmem
    obtain ⟨h1, h2⟩ := Mem.read_append_split mem pos _ _ hmem
    obtain ⟨_, _, h3⟩ := Mem.read_tlvBytes mem pos x.1 x.2 h1
    rw [tlvBytes_length] at h2
    have hx := hok x (by simp)
    obtain ⟨s1, g1, g2, g3⟩ := decodeElement_middle P mk input mem
      { type := x.1, length := x.2.length,
        value := pos + tlv.sizeofVarNum x.1 + tlv.sizeofVarNum x.2.length, tlv := pos,
        size := tlv.sizeofVarNum x.1 + tlv.sizeofVarNum x.2.length + x.2.length } s
      (by simpa only [h3] using hx)
    obtain ⟨s2, k1, k2, k3⟩ := ih _ s1 (fun y hy => hok y (by simp [hy])) h2
    refine ⟨s2, ?_, k2.trans g2, k3.trans g3⟩
    rw [Decoder.layout, List.foldlM_cons, g1]
    exact k1

theorem middleItems_bytes (P : Port) (obj : detail.InterestObj) :
    tlvSeq (middleItems P obj) = middleBytes P obj := by
  unfold middleItems middleBytes
  simp only [tlvSeq_append]
  split_ifs <;> simp [tlvSeq]

theorem middleItems_ok (P : Port) (obj : detail.InterestObj)
    (hl : P.nniDecode (P.nni obj.lifetime) = some obj.lifetime) (hlt : obj.lifetime < 2 ^ 16) :
    ∀ x ∈ middleItems P obj, x.1 = TT.CanBePrefix ∨ x.1 = TT.MustBeFresh ∨
      (x.1 = TT.Nonce ∧ x.2.length = 4) ∨
      (x.1 = TT.InterestLifetime ∧ ∃ n, P.nniDecode x.2 = some n ∧ n < 2 ^ 16) ∨
      (x.1 = TT.HopLimit ∧ x.2.length = 1) := by
  intro x hx
  unfold middleItems at hx
  simp only [List.mem_append, List.mem_singleton] at hx
  rcases hx with (((hx | hx) | hx) | hx) | hx
  · split_ifs at hx
    · simp only [List.mem_singleton] at hx; subst hx; exact Or.inl rfl
    · simp at hx
  · split_ifs at hx
    · simp only [List.mem_singleton] at hx; subst hx; exact Or.inr (Or.inl rfl)
    · simp at hx
  · subst hx; exact Or.inr (Or.inr (Or.inl ⟨rfl, by simp [tlv.NNI4]⟩))
  · split_ifs at hx
    · simp only [List.mem_singleton] at hx; subst hx
      exact Or.inr (Or.inr (Or.inr (Or.inl ⟨rfl, _, hl, hlt⟩)))
    · simp at hx
  · split_ifs at hx
    · simp only [List.mem_singleton] at hx; subst hx
      exact Or.inr (Or.inr (Or.inr (Or.inr ⟨rfl, by simp [tlv.NNI1]⟩)))
    · simp at hx

theorem middleItems_small (P : Port) (obj : detail.InterestObj)
    (hnni : (P.nni obj.lifetime).length < 2 ^ 32) :
    ∀ x ∈ middleItems P obj, x.1 < 2 ^ 32 ∧ x.2.length < 2 ^ 32 := by
  intro x hx
  unfold middleItems at hx
  simp only [List.mem_append, List.mem_singleton] at hx
  rcases hx with (((hx | hx) | hx) | hx) | hx
  · split_ifs at hx
    · simp only [List.mem_singleton] at hx; subst hx; exact ⟨by decide, by decide⟩
    · simp at hx
  · split_ifs at hx
    · simp only [List.mem_singleton] at hx; subst hx; exact ⟨by decide, by decide⟩
    · simp at hx
  · subst hx; exact ⟨(by decide : TT.Nonce < 2 ^ 32), by simp [tlv.NNI4]⟩
  · split_ifs at hx
    · simp only [List.mem_singleton] at hx; subst hx; exact ⟨(by decide : TT.InterestLifetime < 2 ^ 32), hnni⟩
    · simp at hx
  · split_ifs at hx
    · simp only [List.mem_singleton] at hx; subst hx; exact ⟨(by decide : TT.HopLimit < 2 ^ 32), by simp [tlv.NNI1]⟩
    · simp at hx

end Interest

namespace Interest

/-- Decoding an Interest TLV that holds a Name, the middle fields of `obj` and then the
elements `pitems`: the outer TLV is read, Name and middle fields are decoded, and what is left
is the decoding of `pitems` on an Interest that has the name `comps`. -/
theorem decodeFrom_head (P : Port) (mk : Bool) (mem : Mem) (a end_ : Nat)
    (obj s0 : detail.InterestObj) (comps : List Component) (pitems : List (Nat × List Byte))
    (hmem : mem.read a (tlvBytes TT.Interest (tlvBytes TT.Name (Name.mk comps).value ++
        middleBytes P obj ++ tlvSeq pitems)).length
      = tlvBytes TT.Interest (tlvBytes TT.Name (Name.mk comps).value ++
        middleBytes P obj ++ tlvSeq pitems))
    (hend : a + (tlvBytes TT.Interest (tlvBytes TT.Name (Name.mk comps).value ++
        middleBytes P obj ++ tlvSeq pitems)).length ≤ end_)
    (hval : (tlvBytes TT.Name (Name.mk comps).value ++
        middleBytes P obj ++ tlvSeq pitems).length < 2 ^ 32)
    (hcomps : ∀ c ∈ comps, c.type < 2 ^ 32 ∧ c.value.length < 2 ^ 32)
    (hitems : ∀ x ∈ pitems, x.1 < 2 ^ 32 ∧ x.2.length < 2 ^ 32)
    (hnni : (P.nni obj.lifetime).length < 2 ^ 32)
    (hl : P.nniDecode (P.nni obj.lifetime) = some obj.lifetime)
    (hlt : obj.lifetime < 2 ^ 16) :
    ∃ input s2 posP,
      Decoder.readTlv mem a end_ = some input ∧
      input.tlv = a ∧
      input.size = (tlvBytes TT.Interest (tlvBytes TT.Name (Name.mk comps).value ++
        middleBytes P obj ++ tlvSeq pitems)).length ∧
      posP + (tlvSeq pitems).length = a + input.size ∧
      mem.read posP (tlvSeq pitems).length = tlvSeq pitems ∧
      s2.name = ⟨comps⟩ ∧ s2.params = s0.params ∧
      decodeFrom P mk mem s0 input
        = (Decoder.layout posP pitems).foldlM
            (fun s d => EvDecoder.decodeElement (decodeDefs P mk input) mem d s) s2 := by
  have hV : tlvBytes TT.Name (Name.mk comps).value ++ middleBytes P obj ++ tlvSeq pitems
      = tlvSeq (((TT.Name, (Name.mk comps).value) :: middleItems P obj) ++ pitems) := by
    rw [tlvSeq_append, tlvSeq_cons, middleItems_bytes]
  rw [hV] at hmem hend hval
  rw [hV]
  have hsplit : (tlvSeq (((TT.Name, (Name.mk comps).value) :: middleItems P obj) ++ pitems)).length
      = tlv.sizeofVarNum TT.Name + tlv.sizeofVarNum (Name.mk comps).value.length
        + (Name.mk comps).value.length + (tlvSeq (middleItems P obj)).length
        + (tlvSeq pitems).length := by
    rw [tlvSeq_append, tlvSeq_cons, List.length_append, List.length_append, tlvBytes_length]
  generalize hitemsAll : ((TT.Name, (Name.mk comps).value) :: middleItems P obj) ++ pitems
    = items at hmem hend hval hsplit
  have hnv : (Name.mk comps).value.length < 2 ^ 32 := by omega
  have hr := Decoder.readTlv_bytes mem a end_ TT.Interest (tlvSeq items) (by decide) hval
    hmem hend
  obtain ⟨_, _, hvmem⟩ := Mem.read_tlvBytes mem a TT.Interest (tlvSeq items) hmem
  have hok : ∀ x ∈ items, x.1 < 2 ^ 32 ∧ x.2.length < 2 ^ 32 := by
    intro x hx
    rw [← hitemsAll] at hx
    simp only [List.cons_append, List.mem_cons, List.mem_append] at hx
    rcases hx with hx | hx | hx
    · subst hx; exact ⟨(by decide : TT.Name < 2 ^ 32), hnv⟩
    · exact middleItems_small P obj hnni x hx
    · exact hitems x hx
  obtain ⟨base, hbase⟩ : ∃ base, base
      = a + tlv.sizeofVarNum TT.Interest + tlv.sizeofVarNum (tlvSeq items).length := ⟨_, rfl⟩
  rw [← hbase] at hvmem
  have hch := Decoder.children_layout mem items ((tlvSeq items).length + 1) base
    (by have := tlvSeq_length_ge items; omega) hok hvmem
  -- the memory of the three parts
  have hvmem2 := hvmem
  rw [← hitemsAll, tlvSeq_append] at hvmem2
  obtain ⟨hm1, hmP⟩ := Mem.read_append_split mem _ _ _ hvmem2
  rw [tlvSeq_cons] at hm1
  obtain ⟨hmN, hmM⟩ := Mem.read_append_split mem _ _ _ hm1
  obtain ⟨_, _, hmNv⟩ := Mem.read_tlvBytes mem _ TT.Name (Name.mk comps).value hmN
  rw [tlvBytes_length] at hmM
  simp only at hmNv hmM
  obtain ⟨input, hinput⟩ : ∃ input : Decoder.Tlv, input =
    { type := TT.Interest, length := (tlvSeq items).length,
      value := a + tlv.sizeofVarNum TT.Interest + tlv.sizeofVarNum (tlvSeq items).length,
      tlv := a,
      size := tlv.sizeofVarNum TT.Interest + tlv.sizeofVarNum (tlvSeq items).length
        + (tlvSeq items).length } := ⟨_, rfl⟩
  have hi1 : input.tlv = a := by rw [hinput]
  have hi2 : input.size = tlv.sizeofVarNum TT.Interest + tlv.sizeofVarNum (tlvSeq items).length
        + (tlvSeq items).length := by rw [hinput]
  have hi3 : input.value = base := by rw [hinput, hbase]
  have hi4 : input.length = (tlvSeq items).length := by rw [hinput]
  have hi5 : input.type = TT.Interest := by rw [hinput]
  rw [← hinput] at hr
  obtain ⟨dn, hdn⟩ : ∃ dn : Decoder.Tlv, dn =
    { type := TT.Name, length := (Name.mk comps).value.length,
      value := base + tlv.sizeofVarNum TT.Name + tlv.sizeofVarNum (Name.mk comps).value.length,
      tlv := base,
      size := tlv.sizeofVarNum TT.Name + tlv.sizeofVarNum (Name.mk comps).value.length
        + (Name.mk comps).value.length } := ⟨_, rfl⟩
  have hname : Name.decodeFrom mem dn = some ⟨comps⟩ :=
    Name.decodeFrom_bytes mem dn comps (by rw [hdn]) (by rw [hdn]; exact hmNv) hcomps
  have hdnt : dn.type = TT.Name := by rw [hdn]
  obtain ⟨s2, k1, k2, k3⟩ := foldlM_middle P mk input mem (middleItems P obj) _
    { s0 with name := ⟨comps⟩ } (middleItems_ok P obj hl hlt) hmM
  have hlay : Decoder.layout base items
      = dn :: (Decoder.layout (base
            + (tlv.sizeofVarNum TT.Name + tlv.sizeofVarNum (Name.mk comps).value.length
              + (Name.mk comps).value.length)) (middleItems P obj)
          ++ Decoder.layout (base
            + (tlv.sizeofVarNum TT.Name + tlv.sizeofVarNum (Name.mk comps).value.length
              + (Name.mk comps).value.length) + (tlvSeq (middleItems P obj)).length)
            pitems) := by
    rw [← hitemsAll, List.cons_append, Decoder.layout, Decoder.layout_append, hdn]
  refine ⟨input, s2, base + (tlv.sizeofVarNum TT.Name
      + tlv.sizeofVarNum (Name.mk comps).value.length
      + (Name.mk comps).value.length) + (tlvSeq (middleItems P obj)).length,
    hr, hi1, ?_, ?_, ?_, k2, k3, ?_⟩
  · rw [hi2, tlvBytes_length]
  · rw [hi2]
    omega
  · rw [tlvSeq_cons, List.length_append, tlvBytes_length] at hmP
    simp only at hmP
    rw [← Nat.add_assoc] at hmP
    exact hmP
  · unfold decodeFrom EvDecoder.decode
    rw [if_neg (by simp [hi5]), EvDecoder.decodeChildren_eq, hi3, hi4, hch]
    simp only
    rw [hlay, List.foldlM_cons, decodeElement_name P mk input mem dn s0 ⟨comps⟩ hdnt hname]
    simp only [Option.bind_eq_bind, Option.some_bind, List.foldlM_append]
    rw [k1]
    simp only [Option.some_bind]

end Interest

theorem tlvSeq_singleton (t : Nat) (v : List Byte) : tlvSeq [(t, v)] = tlvBytes t v := by
  simp [tlvSeq]

theorem Name.get_mid (pre : List Component) (c : Component) (post : List Component) :
    (Name.mk (pre ++ c :: post)).get (pre.length : Int) = c := by
  have h1 : ¬ ((pre.length : Int) < 0) := by omega
  have h2 : (0 : Int) ≤ (pre.length : Int) ∧
      (pre.length : Int) < ((Name.mk (pre ++ c :: post)).size : Int) := by
    constructor
    · omega
    · simp [Name.size]
  unfold Name.get
  simp only [h1, if_false, h2, and_self, if_true, Int.toNat_ofNat]
  rw [List.getD_eq_getElem?_getD, List.getElem?_append_right (Nat.le_refl _)]
  simp

namespace detail.ParameterizedInterestRef

theorem substDigest_split (digest : List Byte) (cs : List Component) :
    ∃ pre post, substDigest digest cs
        = pre ++ ⟨TT.ParametersSha256DigestComponent, digest⟩ :: post ∧
      ∀ c ∈ pre, c.type ≠ TT.ParametersSha256DigestComponent := by
  induction cs with
  | nil => exact ⟨[], [], rfl, by simp⟩
  | cons c rest ih =>
    by_cases hc : c.type = TT.ParametersSha256DigestComponent
    · exact ⟨[], rest, by simp [substDigest, hc], by simp⟩
    · obtain ⟨pre, post, h1, h2⟩ := ih
      refine ⟨c :: pre, post, by simp [substDigest, hc, h1], ?_⟩
      intro x hx
      rcases List.mem_cons.mp hx with hx | hx
      · rw [hx]; exact hc
      · exact h2 x hx

theorem substDigest_small (digest : List Byte) (cs : List Component)
    (hd : digest.length = NDNPH_SHA256_LEN)
    (h : ∀ c ∈ cs, c.type < 2 ^ 32 ∧ c.value.length < 2 ^ 32) :
    ∀ c ∈ substDigest digest cs, c.type < 2 ^ 32 ∧ c.value.length < 2 ^ 32 := by
  have h0 : (Component.mk TT.ParametersSha256DigestComponent digest).type < 2 ^ 32 ∧
      (Component.mk TT.ParametersSha256DigestComponent digest).value.length < 2 ^ 32 := by
    refine ⟨(by decide : TT.ParametersSha256DigestComponent < 2 ^ 32), ?_⟩
    simp only [hd]
    decide
  induction cs with
  | nil =>
    intro c hc
    simp only [substDigest, List.mem_singleton] at hc
    rw [hc]; exact h0
  | cons x rest ih =>
    intro c hc
    by_cases hx : x.type = TT.ParametersSha256DigestComponent
    · simp only [substDigest, hx, if_true, List.mem_cons] at hc
      rcases hc with hc | hc
      · rw [hc]; exact h0
      · exact h c (by simp [hc])
    · simp only [substDigest, hx, if_false, List.mem_cons] at hc
      rcases hc with hc | hc
      · rw [hc]; exact h x (by simp)
      · exact ih (fun y hy => h y (by simp [hy])) c hc

end detail.ParameterizedInterestRef

namespace Interest

/-- An Interest whose name carries `digest` at the place `encodeName` puts it and whose
`allParams` hash to `digest` passes `checkDigest`. -/
theorem checkDigest_subst (P : Port) (mem : Mem) (obj2 : detail.InterestObj)
    (p : detail.InterestParams) (digest : List Byte) (comps : List Component)
    (hp : obj2.params = some p)
    (hn : obj2.name = ⟨detail.ParameterizedInterestRef.substDigest digest comps⟩)
    (hs : P.sha256 (p.allParams.bytes mem) = some digest) :
    checkDigest P mem obj2 = true := by
  obtain ⟨pre, post, h1, h2⟩ := detail.ParameterizedInterestRef.substDigest_split digest comps
  have hf := detail.InterestRefBase.findParamsDigest_some obj2.name pre
    ⟨TT.ParametersSha256DigestComponent, digest⟩ post (by rw [hn, h1]) h2 rfl
  have hneg : ¬ ((pre.length : Int) < 0) := by omega
  unfold checkDigest
  rw [hp]
  simp only
  rw [hf, if_neg hneg, hs]
  simp only
  rw [hn, h1, Name.get_mid]
  simp [TimingSafeEqual]

end Interest

namespace detail.ParameterizedInterestRef

/-- Claim C14. Parameters digest round trip: for every Interest, every appParameters and a
sufficiently large buffer, the encoding of `interest.parameterize(appParameters)` is read
back as one TLV and decodes into a fresh Interest; the decoded name carries `digest` in the
place of the ParametersSha256DigestComponent; `allParams` of the decoded Interest is the
emitted AppParameters TLV, reaching to the end of the Interest, whose SHA-256 is `digest`;
and `checkDigest()` on the decoded Interest returns true. -/
theorem encodeTo_checkDigest (P : Port) (obj : InterestObj) (appParameters : Value)
    (e : Encoder) (digest : List Byte) (hv : e.Valid)
    (hsha : P.sha256 (tlvBytes TT.AppParameters appParameters.bytes) = some digest)
    (hd : digest.length = NDNPH_SHA256_LEN)
    (hnni : (P.nni obj.lifetime).length < 2 ^ 32)
    (hval : (tlvBytes TT.Name (Name.mk (substDigest digest obj.name.comps)).value ++
      Interest.middleBytes P obj ++ tlvBytes TT.AppParameters appParameters.bytes).length
        < 2 ^ 32)
    (hroom : (wire P obj digest (tlvBytes TT.AppParameters appParameters.bytes)).length
      ≤ e.m_pos - e.m_buf)
    (hcomps : ∀ c ∈ obj.name.comps, c.type < 2 ^ 32 ∧ c.value.length < 2 ^ 32)
    (hl : P.nniDecode (P.nni obj.lifetime) = some obj.lifetime)
    (hlt : obj.lifetime < 2 ^ 16) :
    ∃ input obj2 p,
      Decoder.readTlv (encodeTo P obj appParameters e).mem
        (encodeTo P obj appParameters e).m_pos (encodeTo P obj appParameters e).m_end
        = some input ∧
      input.size = (wire P obj digest (tlvBytes TT.AppParameters appParameters.bytes)).length ∧
      Interest.decodeFrom P true (encodeTo P obj appParameters e).mem {} input = some obj2 ∧
      obj2.name = ⟨substDigest digest obj.name.comps⟩ ∧
      obj2.params = some p ∧
      p.allParams.begin_ + p.allParams.size = input.tlv + input.size ∧
      p.allParams.bytes (encodeTo P obj appParameters e).mem
        = tlvBytes TT.AppParameters appParameters.bytes ∧
      P.sha256 (p.allParams.bytes (encodeTo P obj appParameters e).mem) = some digest ∧
      Interest.checkDigest P (encodeTo P obj appParameters e).mem obj2 = true := by
  rw [parameterized_encodeTo_prepended P obj appParameters e digest hv hsha hd hnni hval hroom]
  have hap : appParameters.bytes.length < 2 ^ 32 := by
    rw [List.length_append, tlvBytes_length TT.AppParameters] at hval
    omega
  have hread := Encoder.read_prepended e
    (wire P obj digest (tlvBytes TT.AppParameters appParameters.bytes))
  have hpos : (e.prepended (wire P obj digest
        (tlvBytes TT.AppParameters appParameters.bytes))).m_pos
      + (wire P obj digest (tlvBytes TT.AppParameters appParameters.bytes)).length
      = e.m_pos := by
    simp only [Encoder.prepended]
    omega
  have hme : (e.prepended (wire P obj digest
      (tlvBytes TT.AppParameters appParameters.bytes))).m_end = e.m_end := rfl
  generalize (e.prepended (wire P obj digest
      (tlvBytes TT.AppParameters appParameters.bytes))).mem = mem at hread ⊢
  generalize (e.prepended (wire P obj digest
      (tlvBytes TT.AppParameters appParameters.bytes))).m_pos = a at hread hpos ⊢
  rw [hme]
  unfold wire at hread hpos ⊢
  rw [← tlvSeq_singleton TT.AppParameters appParameters.bytes] at hread hpos hval hsha ⊢
  obtain ⟨hv1, hv2, hv3, hv4, hv5⟩ := hv
  obtain ⟨input, s2, posP, hr, hi1, hi2, hpp, hmP, hn, hp0, hdec⟩ :=
    Interest.decodeFrom_head P true mem a e.m_end obj {} (substDigest digest obj.name.comps)
      [(TT.AppParameters, appParameters.bytes)] hread (by omega) hval
      (substDigest_small digest obj.name.comps hd hcomps)
      (by
        intro x hx
        rw [List.mem_singleton] at hx
        rw [hx]
        exact ⟨(by decide : TT.AppParameters < 2 ^ 32), hap⟩)
      hnni hl hlt
  have hsz : toSize (((input.tlv + input.size : Nat) : Int) - (posP : Int))
      = (tlvSeq [(TT.AppParameters, appParameters.bytes)]).length := by
    rw [toSize_sub _ _ (by omega) (by omega)]
    omega
  rw [Decoder.layout, Decoder.layout, List.foldlM_cons,
    Interest.decodeElement_app_exact P input mem _ s2 rfl] at hdec
  simp only [Option.bind_eq_bind, Option.some_bind, List.foldlM_nil, hsz] at hdec
  have hbytes : (Slice.mk posP (tlvSeq [(TT.AppParameters, appParameters.bytes)]).length).bytes
      mem = tlvSeq [(TT.AppParameters, appParameters.bytes)] := hmP
  refine ⟨input, _, _, hr, hi2, hdec, hn, rfl, ?_, hbytes, ?_, ?_⟩
  · simp only
    omega
  · rw [hbytes]; exact hsha
  · exact Interest.checkDigest_subst P mem _ _ digest obj.name.comps rfl hn
      (by rw [hbytes]; exact hsha)

/-- Witness of C14: name /A and appParameters C0 01 FF with the example port, into a
128-byte buffer. -/
theorem encodeTo_checkDigest_witness :
    ∃ input obj2 p,
      Decoder.readTlv
        (encodeTo examplePort { name := ⟨[⟨8, [0x41]⟩]⟩, nonce := 0x11223344 }
          ⟨[0xC0, 0x01, 0xFF]⟩ (Encoder.init (fun _ => 0) 0x1000 128)).mem
        (encodeTo examplePort { name := ⟨[⟨8, [0x41]⟩]⟩, nonce := 0x11223344 }
          ⟨[0xC0, 0x01, 0xFF]⟩ (Encoder.init (fun _ => 0) 0x1000 128)).m_pos
        (encodeTo examplePort { name := ⟨[⟨8, [0x41]⟩]⟩, nonce := 0x11223344 }
          ⟨[0xC0, 0x01, 0xFF]⟩ (Encoder.init (fun _ => 0) 0x1000 128)).m_end
        = some input ∧
      input.size = (wire examplePort { name := ⟨[⟨8, [0x41]⟩]⟩, nonce := 0x11223344 }
        (List.replicate 32 0xEC) (tlvBytes TT.AppParameters [0xC0, 0x01, 0xFF])).length ∧
      Interest.decodeFrom examplePort true
        (encodeTo examplePort { name := ⟨[⟨8, [0x41]⟩]⟩, nonce := 0x11223344 }
          ⟨[0xC0, 0x01, 0xFF]⟩ (Encoder.init (fun _ => 0) 0x1000 128)).mem {} input
        = some obj2 ∧
      obj2.name = ⟨substDigest (List.replicate 32 0xEC) [⟨8, [0x41]⟩]⟩ ∧
      obj2.params = some p ∧
      p.allParams.begin_ + p.allParams.size = input.tlv + input.size ∧
      p.allParams.bytes
        (encodeTo examplePort { name := ⟨[⟨8, [0x41]⟩]⟩, nonce := 0x11223344 }
          ⟨[0xC0, 0x01, 0xFF]⟩ (Encoder.init (fun _ => 0) 0x1000 128)).mem
        = tlvBytes TT.AppParameters [0xC0, 0x01, 0xFF] ∧
      examplePort.sha256 (p.allParams.bytes
        (encodeTo examplePort { name := ⟨[⟨8, [0x41]⟩]⟩, nonce := 0x11223344 }
          ⟨[0xC0, 0x01, 0xFF]⟩ (Encoder.init (fun _ => 0) 0x1000 128)).mem)
        = some (List.replicate 32 0xEC) ∧
      Interest.checkDigest examplePort
        (encodeTo examplePort { name := ⟨[⟨8, [0x41]⟩]⟩, nonce := 0x11223344 }
          ⟨[0xC0, 0x01, 0xFF]⟩ (Encoder.init (fun _ => 0) 0x1000 128)).mem obj2 = true :=
  encodeTo_checkDigest examplePort { name := ⟨[⟨8, [0x41]⟩]⟩, nonce := 0x11223344 }
    ⟨[0xC0, 0x01, 0xFF]⟩ (Encoder.init (fun _ => 0) 0x1000 128) (List.replicate 32 0xEC)
    (by decide) (by decide) (by decide) (by decide) (by decide) (by decide) (by decide)
    (by decide) (by decide)

end detail.ParameterizedInterestRef

namespace Interest

/-- Decoding AppParameters, ISigInfo and ISigValue found one after another at `posP`, the
end of the Interest: the parameters record covers all three as `allParams`, the first two as
`signedParams`, and the value of the third as `sigValue`. -/
theorem foldlM_signed_params (P : Port) (mem : Mem) (input : Decoder.Tlv)
    (s2 : detail.InterestObj) (posP : Nat) (ap siv sig : List Byte) (si : SigInfo)
    (hmP : mem.read posP
        (tlvSeq [(TT.AppParameters, ap), (TT.ISigInfo, siv), (TT.ISigValue, sig)]).length
      = tlvSeq [(TT.AppParameters, ap), (TT.ISigInfo, siv), (TT.ISigValue, sig)])
    (hpp : posP + (tlvSeq [(TT.AppParameters, ap), (TT.ISigInfo, siv),
        (TT.ISigValue, sig)]).length = input.tlv + input.size)
    (hbound : input.tlv + input.size < 2 ^ 64)
    (hsi : P.sigInfoDecode siv = some si) :
    ∃ p, (Decoder.layout posP [(TT.AppParameters, ap), (TT.ISigInfo, siv),
          (TT.ISigValue, sig)]).foldlM
        (fun s d => EvDecoder.decodeElement (decodeDefs P true input) mem d s) s2
        = some { s2 with params := some p } ∧
      p.allParams.begin_ + p.allParams.size = input.tlv + input.size ∧
      p.allParams.bytes mem
        = tlvSeq [(TT.AppParameters, ap), (TT.ISigInfo, siv), (TT.ISigValue, sig)] ∧
      p.signedParams.bytes mem = tlvBytes TT.AppParameters ap ++ tlvBytes TT.ISigInfo siv ∧
      p.sigValue.bytes mem = sig ∧ p.sigInfo = si := by
  have hm := hmP
  rw [tlvSeq_cons] at hm
  obtain ⟨hm1, hm23⟩ := Mem.read_append_split mem posP _ _ hm
  rw [tlvSeq_cons] at hm23
  obtain ⟨hm2, hm3⟩ := Mem.read_append_split mem _ _ _ hm23
  rw [tlvSeq_singleton] at hm3
  obtain ⟨_, _, hv2⟩ := Mem.read_tlvBytes mem _ _ _ hm2
  obtain ⟨_, _, hv3⟩ := Mem.read_tlvBytes mem _ _ _ hm3
  simp only at hm1 hm2 hm3 hv2 hv3
  have hm12 : mem.read posP ((tlvBytes TT.AppParameters ap).length
      + (tlvBytes TT.ISigInfo siv).length)
      = tlvBytes TT.AppParameters ap ++ tlvBytes TT.ISigInfo siv := by
    rw [Mem.read_add, hm1, hm2]
  have hlen : (tlvSeq [(TT.AppParameters, ap), (TT.ISigInfo, siv), (TT.ISigValue, sig)]).length
      = (tlvBytes TT.AppParameters ap).length + (tlvBytes TT.ISigInfo siv).length
        + (tlvBytes TT.ISigValue sig).length := by
    rw [tlvSeq_cons, tlvSeq_cons, tlvSeq_singleton, List.length_append, List.length_append]
    simp only
    omega
  have hsz : toSize (((input.tlv + input.size : Nat) : Int) - (posP : Int))
      = (tlvSeq [(TT.AppParameters, ap), (TT.ISigInfo, siv), (TT.ISigValue, sig)]).length := by
    rw [toSize_sub _ _ (by omega) hbound]
    omega
  have hsz2 : toSize (((posP + (tlv.sizeofVarNum TT.AppParameters + tlv.sizeofVarNum ap.length
        + ap.length) + (tlv.sizeofVarNum TT.ISigInfo + tlv.sizeofVarNum siv.length
        + siv.length) : Nat) : Int) - (posP : Int))
      = (tlvBytes TT.AppParameters ap).length + (tlvBytes TT.ISigInfo siv).length := by
    rw [tlvBytes_length, tlvBytes_length] at hlen ⊢
    rw [toSize_sub _ _ (by omega) (by omega)]
    omega
  rw [tlvBytes_length] at hv2 hv3
  rw [tlvBytes_length TT.ISigInfo] at hv3
  simp only [Decoder.layout, List.foldlM_cons, List.foldlM_nil]
  rw [decodeElement_app_exact P input mem _ s2 rfl]
  simp only [Option.bind_eq_bind, Option.some_bind]
  rw [decodeElement_sigInfo_exact P true input mem _ _ _ si rfl rfl (by simp only; rw [hv2]; exact hsi)]
  simp only [Option.some_bind]
  rw [decodeElement_sigValue_exact P true input mem _ _ _ rfl rfl]
  simp only [Option.some_bind, hsz, hsz2]
  refine ⟨_, rfl, ?_, hmP, hm12, ?_, rfl⟩
  · simp only
    omega
  · simp only [Slice.bytes]
    convert hv3 using 2

end Interest

namespace detail.SignedInterestRef

/-- Under the precondition of `sign()` the digest component is the last component of the
emitted name, and `signedName` is the name without it. -/
theorem signedName_subst (obj : InterestObj) (digest sn : List Byte)
    (hprec : (∀ c ∈ obj.name.comps, c.type ≠ 0x02) ∨
      ∃ pre ph, obj.name.comps = pre ++ [ph] ∧ (∀ c ∈ pre, c.type ≠ 0x02) ∧ ph.type = 0x02)
    (hname : signedName obj = some sn) :
    ∃ pre, ParameterizedInterestRef.substDigest digest obj.name.comps
        = pre ++ [⟨TT.ParametersSha256DigestComponent, digest⟩] ∧
      (∀ c ∈ pre, c.type ≠ TT.ParametersSha256DigestComponent) ∧
      sn = (Name.mk pre).value := by
  rcases hprec with h | ⟨pre, ph, hc, hpre, hph⟩
  · rw [signedName_none_digest obj h] at hname
    exact ⟨obj.name.comps, ParameterizedInterestRef.substDigest_none digest _ h, h,
      (Option.some.inj hname).symm⟩
  · rw [signedName_last_digest obj pre ph hc hpre hph] at hname
    refine ⟨pre, ?_, hpre, (Option.some.inj hname).symm⟩
    rw [hc]
    exact ParameterizedInterestRef.substDigest_some digest pre ph [] hpre hph

end detail.SignedInterestRef

namespace Interest

/-- A decoded Interest whose name ends with the digest of its `allParams` and whose
`sigValue` is the digest of the name before it and of `signedParams` verifies under the
digest key. -/
theorem verify_digest_key (P : Port) (mem : Mem) (obj2 : detail.InterestObj)
    (p : detail.InterestParams) (digest : List Byte) (pre : List Component)
    (hp : obj2.params = some p)
    (hn : obj2.name = ⟨pre ++ [⟨TT.ParametersSha256DigestComponent, digest⟩]⟩)
    (hpre : ∀ c ∈ pre, c.type ≠ TT.ParametersSha256DigestComponent)
    (hs : P.sha256 (p.allParams.bytes mem) = some digest)
    (hsig : detail.computeDigest P [(Name.mk pre).value, p.signedParams.bytes mem]
      = some (p.sigValue.bytes mem)) :
    checkDigest P mem obj2 = true ∧
    verify P mem obj2 (BasicDigestKey.publicKey P) = true := by
  have hcd : checkDigest P mem obj2 = true :=
    checkDigest_subst P mem obj2 p digest pre hp
      (by rw [hn, detail.ParameterizedInterestRef.substDigest_none digest pre hpre]) hs
  have hf := detail.InterestRefBase.findParamsDigest_some obj2.name pre
    ⟨TT.ParametersSha256DigestComponent, digest⟩ [] (by rw [hn]) hpre rfl
  have hsize : ((obj2.name.size : Nat) : Int) - 1 = (pre.length : Int) := by
    rw [hn]
    simp [Name.size]
  have hpx := detail.SignedInterestRef.getPrefix_last obj2.name pre ⟨TT.ParametersSha256DigestComponent, digest⟩
    (by rw [hn])
  refine ⟨hcd, ?_⟩
  unfold verify
  rw [hcd, hf, hsize, hp, hpx]
  simp only [Bool.not_true, Bool.false_eq_true, if_false, ne_eq, not_true_eq_false]
  simp only [BasicDigestKey.publicKey, BasicDigestKey.verify, hsig, TimingSafeEqual,
    decide_True]

end Interest

namespace detail.SignedInterestRef

theorem paramsBytes_items (P : Port) (appParameters : Value) (sigInfo : SigInfo)
    (sig : List Byte) :
    paramsBytes P appParameters sigInfo sig
      = tlvSeq [(TT.AppParameters, appParameters.bytes), (TT.ISigInfo, P.sigInfoValue sigInfo),
          (TT.ISigValue, sig)] := by
  simp [paramsBytes, signedPortion, tlvSeq]

/-- Claim C17. Sign/verify round trip on packets: for every Interest whose name satisfies
the precondition of `sign()` (no ParametersSha256DigestComponent, or one that is the last
component), every appParameters and SigInfo, the digest key and a sufficiently large buffer,
the encoding of `interest.sign(key)` is read back as one TLV, decodes into a fresh Interest,
and both `checkDigest()` and `verify(key)` on the decoded Interest return true. -/
theorem encodeTo_verify (P : Port) (obj : InterestObj) (appParameters : Value)
    (sigInfo : SigInfo) (e : Encoder) (sn sig digest : List Byte)
    (hv : e.Valid)
    (hprec : (∀ c ∈ obj.name.comps, c.type ≠ 0x02) ∨
      ∃ pre ph, obj.name.comps = pre ++ [ph] ∧ (∀ c ∈ pre, c.type ≠ 0x02) ∧ ph.type = 0x02)
    (hname : signedName obj = some sn)
    (hsign : (BasicDigestKey.privateKey P).sign
      [sn, signedPortion P appParameters ((BasicDigestKey.privateKey P).updateSigInfo sigInfo)]
        = some sig)
    (hsl : sig.length ≤ (BasicDigestKey.privateKey P).getMaxSigLen)
    (hsha : P.sha256 (paramsBytes P appParameters
      ((BasicDigestKey.privateKey P).updateSigInfo sigInfo) sig) = some digest)
    (hd : digest.length = NDNPH_SHA256_LEN)
    (hnni : (P.nni obj.lifetime).length < 2 ^ 32)
    (hsi : (P.sigInfoValue ((BasicDigestKey.privateKey P).updateSigInfo sigInfo)).length
      < 2 ^ 32)
    (hval : (tlvBytes TT.Name (Name.mk
        (ParameterizedInterestRef.substDigest digest obj.name.comps)).value ++
      Interest.middleBytes P obj ++
      paramsBytes P appParameters ((BasicDigestKey.privateKey P).updateSigInfo sigInfo)
        sig).length < 2 ^ 32)
    (hroom1 : (BasicDigestKey.privateKey P).getMaxSigLen +
      (signedPortion P appParameters
        ((BasicDigestKey.privateKey P).updateSigInfo sigInfo)).length ≤ e.m_pos - e.m_buf)
    (hroom2 : (ParameterizedInterestRef.wire P obj digest
      (paramsBytes P appParameters ((BasicDigestKey.privateKey P).updateSigInfo sigInfo)
        sig)).length ≤ e.m_pos - e.m_buf)
    (hcomps : ∀ c ∈ obj.name.comps, c.type < 2 ^ 32 ∧ c.value.length < 2 ^ 32)
    (hl : P.nniDecode (P.nni obj.lifetime) = some obj.lifetime)
    (hlt : obj.lifetime < 2 ^ 16)
    (hsid : ∃ si, P.sigInfoDecode
      (P.sigInfoValue ((BasicDigestKey.privateKey P).updateSigInfo sigInfo)) = some si) :
    ∃ input obj2,
      Decoder.readTlv
        (encodeTo P obj appParameters (BasicDigestKey.privateKey P) sigInfo e).mem
        (encodeTo P obj appParameters (BasicDigestKey.privateKey P) sigInfo e).m_pos
        (encodeTo P obj appParameters (BasicDigestKey.privateKey P) sigInfo e).m_end
        = some input ∧
      Interest.decodeFrom P true
        (encodeTo P obj appParameters (BasicDigestKey.privateKey P) sigInfo e).mem {} input
        = some obj2 ∧
      Interest.checkDigest P
        (encodeTo P obj appParameters (BasicDigestKey.privateKey P) sigInfo e).mem obj2
        = true ∧
      Interest.verify P
        (encodeTo P obj appParameters (BasicDigestKey.privateKey P) sigInfo e).mem obj2
        (BasicDigestKey.publicKey P) = true := by
  obtain ⟨mem2, _, henc⟩ := signed_encodeTo_at P obj appParameters
    (BasicDigestKey.privateKey P) sigInfo e sn sig digest hv hname hsign hsl hsha hd hnni hsi
    hval hroom1 hroom2
  rw [henc]
  obtain ⟨pre, hsub, hpre, hsn⟩ := signedName_subst obj digest sn hprec hname
  obtain ⟨si, hsi2⟩ := hsid
  generalize (BasicDigestKey.privateKey P).updateSigInfo sigInfo = sinfo at *
  have hlens : sig.length < 2 ^ 32 ∧ appParameters.bytes.length < 2 ^ 32 := by
    simp only [paramsBytes, signedPortion, List.length_append, tlvBytes_length] at hval
    omega
  have hread := Encoder.read_prepended ({ e with mem := mem2 } : Encoder)
    (ParameterizedInterestRef.wire P obj digest (paramsBytes P appParameters sinfo sig))
  have hpos : (({ e with mem := mem2 } : Encoder).prepended (ParameterizedInterestRef.wire P
        obj digest (paramsBytes P appParameters sinfo sig))).m_pos
      + (ParameterizedInterestRef.wire P obj digest
          (paramsBytes P appParameters sinfo sig)).length = e.m_pos := by
    simp only [Encoder.prepended]
    omega
  have hme : (({ e with mem := mem2 } : Encoder).prepended (ParameterizedInterestRef.wire P
      obj digest (paramsBytes P appParameters sinfo sig))).m_end = e.m_end := rfl
  generalize (({ e with mem := mem2 } : Encoder).prepended (ParameterizedInterestRef.wire P
      obj digest (paramsBytes P appParameters sinfo sig))).mem = mem at hread ⊢
  generalize (({ e with mem := mem2 } : Encoder).prepended (ParameterizedInterestRef.wire P
      obj digest (paramsBytes P appParameters sinfo sig))).m_pos = a at hread hpos ⊢
  rw [hme]
  unfold ParameterizedInterestRef.wire at hread hpos
  rw [paramsBytes_items] at hread hpos hval hsha
  obtain ⟨hv1, hv2, hv3, hv4, hv5⟩ := hv
  obtain ⟨input, s2, posP, hr, hi1, hi2, hpp, hmP, hn, hp0, hdec⟩ :=
    Interest.decodeFrom_head P true mem a e.m_end obj {}
      (ParameterizedInterestRef.substDigest digest obj.name.comps)
      [(TT.AppParameters, appParameters.bytes), (TT.ISigInfo, P.sigInfoValue sinfo),
        (TT.ISigValue, sig)] hread (by omega) hval
      (ParameterizedInterestRef.substDigest_small digest obj.name.comps hd hcomps)
      (by
        intro x hx
        simp only [List.mem_cons, List.mem_singleton, List.not_mem_nil, or_false] at hx
        rcases hx with hx | hx | hx
        · rw [hx]; exact ⟨(by decide : TT.AppParameters < 2 ^ 32), hlens.2⟩
        · rw [hx]; exact ⟨(by decide : TT.ISigInfo < 2 ^ 32), hsi⟩
        · rw [hx]; exact ⟨(by decide : TT.ISigValue < 2 ^ 32), hlens.1⟩)
      hnni hl hlt
  obtain ⟨p, hfold, _, hall, hsp, hsv, _⟩ := Interest.foldlM_signed_params P mem input s2 posP
    appParameters.bytes (P.sigInfoValue sinfo) sig si hmP (by omega) (by omega) hsi2
  rw [hfold] at hdec
  have hver := Interest.verify_digest_key P mem { s2 with params := some p } p digest pre rfl
    (by rw [← hsub]; exact hn) hpre (by rw [hall]; exact hsha)
    (by rw [hsp, hsv, ← hsn]; exact hsign)
  exact ⟨input, _, hr, hdec, hver.1, hver.2⟩

/-- Witness of C17: /A/<placeholder> signed with the digest key of the example port, into
a 256-byte buffer. -/
theorem encodeTo_verify_witness :
    ∃ input obj2,
      Decoder.readTlv
        (encodeTo examplePort { name := ⟨[⟨8, [0x41]⟩, ⟨2, []⟩]⟩, nonce := 0x11223344 } ⟨[]⟩
          (BasicDigestKey.privateKey examplePort) {} (Encoder.init (fun _ => 0) 0x1000 256)).mem
        (encodeTo examplePort { name := ⟨[⟨8, [0x41]⟩, ⟨2, []⟩]⟩, nonce := 0x11223344 } ⟨[]⟩
          (BasicDigestKey.privateKey examplePort) {} (Encoder.init (fun _ => 0) 0x1000 256)).m_pos
        (encodeTo examplePort { name := ⟨[⟨8, [0x41]⟩, ⟨2, []⟩]⟩, nonce := 0x11223344 } ⟨[]⟩
          (BasicDigestKey.privateKey examplePort) {} (Encoder.init (fun _ => 0) 0x1000 256)).m_end
        = some input ∧
      Interest.decodeFrom examplePort true
        (encodeTo examplePort { name := ⟨[⟨8, [0x41]⟩, ⟨2, []⟩]⟩, nonce := 0x11223344 } ⟨[]⟩
          (BasicDigestKey.privateKey examplePort) {} (Encoder.init (fun _ => 0) 0x1000 256)).mem {} input
        = some obj2 ∧
      Interest.checkDigest examplePort
        (encodeTo examplePort { name := ⟨[⟨8, [0x41]⟩, ⟨2, []⟩]⟩, nonce := 0x11223344 } ⟨[]⟩
          (BasicDigestKey.privateKey examplePort) {} (Encoder.init (fun _ => 0) 0x1000 256)).mem obj2
        = true ∧
      Interest.verify examplePort
        (encodeTo examplePort { name := ⟨[⟨8, [0x41]⟩, ⟨2, []⟩]⟩, nonce := 0x11223344 } ⟨[]⟩
          (BasicDigestKey.privateKey examplePort) {} (Encoder.init (fun _ => 0) 0x1000 256)).mem obj2
        (BasicDigestKey.publicKey examplePort) = true :=
  encodeTo_verify examplePort { name := ⟨[⟨8, [0x41]⟩, ⟨2, []⟩]⟩, nonce := 0x11223344 } ⟨[]⟩
    {} (Encoder.init (fun _ => 0) 0x1000 256) [8, 1, 0x41] (List.replicate 32 0xC3)
    (List.replicate 32 0x46) (by decide)
    (Or.inr ⟨[⟨8, [0x41]⟩], ⟨2, []⟩, rfl, by decide, rfl⟩)
    (by decide) (by decide) (by decide) (by decide) (by decide) (by decide) (by decide)
    (by decide) (by decide) (by decide) (by decide) (by decide) (by decide) ⟨{}, rfl⟩

end detail.SignedInterestRef

/-! ## Big-endian octets -/

theorem beBytes_length (w n : Nat) : (beBytes w n).length = w := by
  induction w generalizing n with
  | zero => rfl
  | succ k ih => simp [beBytes, ih]

theorem tlv.beValue_append_singleton (bs : List Byte) (b : Byte) :
    tlv.beValue (bs ++ [b]) = tlv.beValue bs * 256 + b.val := by
  simp [tlv.beValue, List.foldl_append]

theorem tlv.beValue_beBytes (w n : Nat) : tlv.beValue (beBytes w n) = n % 256 ^ w := by
  induction w generalizing n with
  | zero => simp [beBytes, tlv.beValue, Nat.mod_one]
  | succ k ih =>
    rw [beBytes, tlv.beValue_append_singleton, ih, toByte_val, Nat.pow_succ]
    have h1 : n % (256 ^ k * 256) = n % 256 + 256 * (n / 256 % 256 ^ k) := by
      rw [Nat.mul_comm (256 ^ k) 256, Nat.mod_mul]
    omega

theorem tlv.beValue_lt (bs : List Byte) : tlv.beValue bs < 256 ^ bs.length := by
  induction bs using List.reverseRecOn with
  | nil => simp [tlv.beValue]
  | append_singleton xs b ih =>
    rw [tlv.beValue_append_singleton, List.length_append, List.length_singleton, Nat.pow_succ]
    have hb := b.isLt
    omega

theorem Mem.read_ofList (p : Nat) (bs : List Byte) : (Mem.ofList p bs).read p bs.length = bs := by
  apply List.ext_getElem
  · simp [Mem.read_length]
  · intro i h1 h2
    simp only [Mem.read, List.getElem_map, List.getElem_range, Mem.ofList]
    rw [if_pos (by omega)]
    have : p + i - p = i := by omega
    rw [this, List.getD_eq_getElem?_getD, List.getElem?_eq_getElem h2]
    rfl

/-! ## The IV helper -/

namespace detail.IvHelper

theorem blocks_eq (n : Nat) : blocks n = n / 16 + (if n % 16 ≠ 0 then 1 else 0) := by
  unfold blocks
  split_ifs <;> omega

theorem advance_eq (h : IvHelper) (n : Nat) (hc : h.counter < 2 ^ 32) :
    h.advance n = (h.m_ok,
      { h with counter := ((h.counter + blocks n % 2 ^ 64) % 2 ^ 64) % 2 ^ 32 }) := by
  have hno : ¬ h.counter > 0xFFFFFFFF := by omega
  unfold advance
  simp only [hno, if_false, BlockSize, ← blocks_eq]

/-- Claim C27. For every IV-helper state with 32-bit counter `c` and every message size
`n` (a `size_t`), `advance(n)` sets the counter to `(c + ceil(n / 16)) mod 2 ^ 32`, where
`ceil(n / 16)` is `n / 16` rounded up (0 for `n = 0`), and does not change `random`. -/
theorem advance_counter (h : IvHelper) (n : Nat) (hc : h.counter < 2 ^ 32) (hn : n < 2 ^ 64) :
    (h.advance n).2.counter = (h.counter + blocks n) % 2 ^ 32 ∧
    (h.advance n).2.random = h.random ∧
    blocks n = n / 16 + (if n % 16 = 0 then 0 else 1) ∧
    blocks 0 = 0 := by
  rw [advance_eq h n hc]
  have hb : blocks n < 2 ^ 61 := by unfold blocks; omega
  refine ⟨?_, rfl, ?_, rfl⟩
  · simp only
    rw [Nat.mod_eq_of_lt (by omega : blocks n < 2 ^ 64),
      Nat.mod_eq_of_lt (by omega : h.counter + blocks n < 2 ^ 64)]
  · unfold blocks
    split_ifs <;> omega

theorem advance_counter_witness :
    (0xFFFFFFF0 : Nat) < 2 ^ 32 ∧ (257 : Nat) < 2 ^ 64 ∧
    (IvHelper.advance { random := 7, counter := 0xFFFFFFF0 } 257).2.counter
      = (0xFFFFFFF0 + blocks 257) % 2 ^ 32 ∧
    (IvHelper.advance { random := 7, counter := 0xFFFFFFF0 } 257).2.random = 7 ∧
    blocks 257 = 257 / 16 + (if 257 % 16 = 0 then 0 else 1) ∧
    blocks 0 = 0 :=
  ⟨by decide, by decide,
    advance_counter { random := 7, counter := 0xFFFFFFF0 } 257 (by decide) (by decide)⟩

/-- Claim C28, on the code: with the counter at `0xFFFFFFFF`, `advance(16)` wraps the counter
to 0, leaves `m_ok` true and returns true, and the next `advance` returns true as well. -/
theorem advance_overflow_keeps_ok :
    IvHelper.advance { random := 0, counter := 0xFFFFFFFF, m_ok := true } 16
      = (true, { random := 0, counter := 0, m_ok := true }) ∧
    (IvHelper.advance
      (IvHelper.advance { random := 0, counter := 0xFFFFFFFF, m_ok := true } 16).2 16).1
      = true := by
  decide

/-- On every helper whose counter is a `uint32_t`, `advance` returns `m_ok` as it found it
and leaves it so. -/
theorem advance_ok (h : IvHelper) (n : Nat) (hc : h.counter < 2 ^ 32) :
    (h.advance n).1 = h.m_ok ∧ (h.advance n).2.m_ok = h.m_ok := by
  rw [advance_eq h n hc]
  exact ⟨rfl, rfl⟩

end detail.IvHelper

namespace detail.IvHelper

/-- The method `write` stores `random` in eight and `counter` in four big-endian octets. -/
theorem write_read (h : IvHelper) (mem : Mem) (room : Nat) :
    (h.write mem room).2.read room 12 = beBytes 8 h.random ++ beBytes 4 h.counter := by
  have h1 : (h.write mem room).2 = mem.copy room (beBytes 8 h.random ++ beBytes 4 h.counter) := by
    rw [Mem.copy_append, beBytes_length]
    rfl
  have h2 : (beBytes 8 h.random ++ beBytes 4 h.counter).length = 12 := by
    rw [List.length_append, beBytes_length, beBytes_length]
  rw [h1, ← h2, Mem.read_copy_same]

theorem ivBytes_eq (h : IvHelper) : h.ivBytes = beBytes 8 h.random ++ beBytes 4 h.counter :=
  write_read h _ 0

/-- What `check` reads from a buffer that holds the IV written for `random` and `counter`. -/
theorem readValue_iv (mem : Mem) (iv r c : Nat)
    (hmem : mem.read iv 12 = beBytes 8 r ++ beBytes 4 c) :
    tlv.NNI8.readValue mem iv = r % 2 ^ 64 ∧ tlv.NNI4.readValue mem (iv + 8) = c % 2 ^ 32 := by
  have h12 : (12 : Nat) = 8 + 4 := rfl
  rw [h12, Mem.read_add] at hmem
  have hs := List.append_inj hmem (by rw [Mem.read_length, beBytes_length])
  unfold tlv.NNI8.readValue tlv.NNI4.readValue
  rw [hs.1, hs.2, tlv.beValue_beBytes, tlv.beValue_beBytes]
  exact ⟨rfl, rfl⟩

/-- The decrypt side accepts the IV that the encrypt side wrote when both hold the same
counter, and both hold the same counter afterwards. -/
theorem check_ivBytes (e d : IvHelper) (n : Nat) (he : e.random < 2 ^ 64)
    (hec : e.counter < 2 ^ 32) (hd : d.counter = e.counter)
    (hdr : d.counter = 0 ∨ d.random = e.random) (hok : d.m_ok = true) :
    d.check (Mem.ofList 1 e.ivBytes) 1 n
      = (true, { random := e.random, counter := (e.advance n).2.counter, m_ok := true }) := by
  have hlen : e.ivBytes.length = 12 := by
    rw [ivBytes_eq, List.length_append, beBytes_length, beBytes_length]
  have hmem : (Mem.ofList 1 e.ivBytes).read 1 12 = beBytes 8 e.random ++ beBytes 4 e.counter := by
    rw [← hlen, Mem.read_ofList, ivBytes_eq]
  obtain ⟨h1, h2⟩ := readValue_iv _ 1 _ _ hmem
  rw [Nat.mod_eq_of_lt he] at h1
  rw [Nat.mod_eq_of_lt hec] at h2
  unfold check
  simp only [h1, h2]
  have hc1 : ¬ (d.counter ≠ 0 ∧ d.random ≠ e.random) := by
    rintro ⟨c1, c2⟩
    rcases hdr with h | h
    · exact c1 h
    · exact c2 h
  rw [if_neg hc1]
  by_cases h0 : d.counter = 0
  · have hc2 : ¬ (e.counter < d.counter) := by omega
    simp only [h0, if_true]
    rw [if_neg (by omega), advance_eq _ n (by simpa using hec), advance_eq e n hec]
    simp [hok]
  · have hr : d.random = e.random := by
      rcases hdr with h | h
      · exact absurd h h0
      · exact h
    simp only [h0, if_false]
    rw [if_neg (by omega), advance_eq _ n (by simpa using hec), advance_eq e n hec]
    simp [hok, hr]

theorem produce_length (e : IvHelper) (sizes : List Nat) :
    (produce e sizes).length = sizes.length := by
  induction sizes generalizing e with
  | nil => rfl
  | cons n ns ih => simp [produce, ih]

theorem consume_produce (sizes : List Nat) :
    ∀ (e d : IvHelper), e.random < 2 ^ 64 → e.counter < 2 ^ 32 → d.counter = e.counter →
      (d.counter = 0 ∨ d.random = e.random) → d.m_ok = true →
      (consume d (produce e sizes)).1 = List.replicate sizes.length true ∧
      (consume d (produce e sizes)).2.counter = (advances e sizes).counter ∧
      (sizes ≠ [] → (consume d (produce e sizes)).2.random = e.random) := by
  induction sizes with
  | nil => intro e d _ _ hd _ _; exact ⟨rfl, hd, fun h => absurd rfl h⟩
  | cons n ns ih =>
    intro e d he hec hd hdr hok
    have hck := check_ivBytes e d n he hec hd hdr hok
    have hadv : (e.advance n).2.counter < 2 ^ 32 := by
      rw [advance_eq e n hec]
      exact Nat.mod_lt _ (by decide)
    have hrand : (e.advance n).2.random = e.random := by rw [advance_eq e n hec]
    obtain ⟨i1, i2, i3⟩ := ih (e.advance n).2
      { random := e.random, counter := (e.advance n).2.counter, m_ok := true }
      (by rw [hrand]; exact he) hadv rfl (Or.inr hrand.symm) rfl
    simp only [produce, consume, hck, List.length_cons, List.replicate_succ, advances,
      List.foldl_cons]
    refine ⟨by rw [i1], i2, fun _ => ?_⟩
    by_cases hns : ns = []
    · subst hns; rfl
    · rw [i3 hns, hrand]

end detail.IvHelper

namespace detail.IvHelper

/-- Claim C30. In-order acceptance: for every random value and every finite sequence of
message sizes, the 12-octet IVs that the encrypt-side helper produces from counter 0
(`write`, giving `random` as 8 big-endian octets and then `counter` as 4 big-endian octets,
followed by `advance(size)`) are all accepted, in the same order and with the same sizes, by
`check` on a fresh decrypt-side helper, and after each message both helpers hold the same
counter. -/
theorem produce_accepted (r : Nat) (sizes : List Nat) (hr : r < 2 ^ 64) :
    (∀ (h : IvHelper) (mem : Mem) (room : Nat),
      (h.write mem room).2.read room 12 = beBytes 8 h.random ++ beBytes 4 h.counter) ∧
    (consume {} (produce { random := r } sizes)).1 = List.replicate sizes.length true ∧
    ∀ k, (consume {} (produce { random := r } (sizes.take k))).2.counter
      = (advances { random := r } (sizes.take k)).counter := by
  refine ⟨write_read, ?_, ?_⟩
  · exact (consume_produce sizes { random := r } {} hr (by simp) rfl (Or.inl rfl) rfl).1
  · intro k
    exact (consume_produce (sizes.take k) { random := r } {} hr (by simp) rfl
      (Or.inl rfl) rfl).2.1

theorem produce_accepted_witness :
    (0x0102030405060708 : Nat) < 2 ^ 64 ∧
    (consume {} (produce { random := 0x0102030405060708 } [0, 1, 16, 17, 0, 3])).1
      = List.replicate 6 true ∧
    (consume {} (produce { random := 0x0102030405060708 } [0, 1, 16, 17, 0, 3])).2.counter
      = 5 :=
  ⟨by decide,
    (produce_accepted 0x0102030405060708 [0, 1, 16, 17, 0, 3] (by decide)).2.1,
    ((produce_accepted 0x0102030405060708 [0, 1, 16, 17, 0, 3] (by decide)).2.2 6).trans
      (by decide)⟩

end detail.IvHelper

namespace detail.IvHelper

theorem readValue4_lt (mem : Mem) (p : Nat) : tlv.NNI4.readValue mem p < 2 ^ 32 := by
  have h := tlv.beValue_lt (mem.read p 4)
  rw [Mem.read_length] at h
  exact h

theorem blocks_pos (n : Nat) (hn : 1 ≤ n) : 1 ≤ blocks n := by
  unfold blocks
  omega

/-- What `check` does when the counter of the IV
and the blocks of the message stay within 32 bits: it rejects an IV with another random
(counter not 0) or a smaller counter and changes nothing then, and else takes the random of
the IV and sets the counter to the counter of the IV plus the blocks. -/
theorem check_eq (h : IvHelper) (mem : Mem) (iv n : Nat)
    (hfit : tlv.NNI4.readValue mem (iv + 8) + blocks n < 2 ^ 32) :
    h.check mem iv n =
      if (h.counter ≠ 0 ∧ h.random ≠ tlv.NNI8.readValue mem iv) ∨
          tlv.NNI4.readValue mem (iv + 8) < h.counter then (false, h)
      else (h.m_ok, { random := tlv.NNI8.readValue mem iv,
                      counter := tlv.NNI4.readValue mem (iv + 8) + blocks n,
                      m_ok := h.m_ok }) := by
  have hlt := readValue4_lt mem (iv + 8)
  have hmod : ((tlv.NNI4.readValue mem (iv + 8) + blocks n % 2 ^ 64) % 2 ^ 64) % 2 ^ 32
      = tlv.NNI4.readValue mem (iv + 8) + blocks n := by
    rw [Nat.mod_eq_of_lt (by omega : blocks n < 2 ^ 64),
      Nat.mod_eq_of_lt (by omega : tlv.NNI4.readValue mem (iv + 8) + blocks n < 2 ^ 64),
      Nat.mod_eq_of_lt hfit]
  unfold check
  simp only
  by_cases h1 : h.counter ≠ 0 ∧ h.random ≠ tlv.NNI8.readValue mem iv
  · rw [if_pos h1, if_pos (Or.inl h1)]
  · rw [if_neg h1]
    by_cases h0 : h.counter = 0
    · simp only [h0, if_true]
      rw [if_neg (by omega), advance_eq _ n (by simpa using hlt)]
      simp only [hmod]
      rw [if_neg (by
        rintro (⟨c1, _⟩ | c2)
        · exact c1 rfl
        · omega)]
    · have hr : h.random = tlv.NNI8.readValue mem iv := by
        by_contra hne
        exact h1 ⟨h0, hne⟩
      simp only [h0, if_false]
      by_cases h2 : tlv.NNI4.readValue mem (iv + 8) < h.counter
      · rw [if_pos h2, if_pos (Or.inr h2)]
      · rw [if_neg h2, advance_eq _ n (by simpa using hlt), if_neg (by
          rintro (⟨_, c2⟩ | c2)
          · exact c2 hr
          · exact h2 c2)]
        simp only [hmod, hr]

/-- After `check` has accepted an IV with random `r` and counter `c` for a message of at
least one octet, the helper holds random `r`, a counter above `c`, and is ok. -/
theorem check_first (h0 : IvHelper) (mem : Mem) (iv n : Nat)
    (hn : 1 ≤ n) (hfit : tlv.NNI4.readValue mem (iv + 8) + blocks n < 2 ^ 32)
    (hacc : (h0.check mem iv n).1 = true) :
    tlv.NNI4.readValue mem (iv + 8) < (h0.check mem iv n).2.counter ∧
    (h0.check mem iv n).2.counter < 2 ^ 32 ∧
    (h0.check mem iv n).2.random = tlv.NNI8.readValue mem iv ∧
    (h0.check mem iv n).2.m_ok = true := by
  have hb := blocks_pos n hn
  rw [check_eq h0 mem iv n hfit] at hacc ⊢
  split_ifs at hacc ⊢ with hcond
  simp only at hacc ⊢
  exact ⟨by omega, hfit, trivial, hacc⟩

/-- A later `check` keeps that state: random `r`, a counter above `c`, ok. -/
theorem check_inv (s : IvHelper) (mem : Mem) (c r iv n : Nat)
    (hfit : tlv.NNI4.readValue mem (iv + 8) + blocks n < 2 ^ 32)
    (hinv : c < s.counter ∧ s.counter < 2 ^ 32 ∧ s.random = r ∧ s.m_ok = true) :
    c < (s.check mem iv n).2.counter ∧ (s.check mem iv n).2.counter < 2 ^ 32 ∧
    (s.check mem iv n).2.random = r ∧ (s.check mem iv n).2.m_ok = true := by
  obtain ⟨i1, i2, i3, i4⟩ := hinv
  rw [check_eq s mem iv n hfit]
  split_ifs with hcond
  · exact ⟨i1, i2, i3, i4⟩
  · simp only
    have hne : s.counter ≠ 0 := by omega
    have h1 : ¬ tlv.NNI4.readValue mem (iv + 8) < s.counter := fun h => hcond (Or.inr h)
    have h2 : s.random = tlv.NNI8.readValue mem iv := by
      by_contra hne2
      exact hcond (Or.inl ⟨hne, hne2⟩)
    exact ⟨by omega, hfit, by rw [← h2, i3], i4⟩

theorem checks_inv (mem : Mem) (c r : Nat) (later : List (Nat × Nat)) :
    ∀ s : IvHelper, (∀ m ∈ later, tlv.NNI4.readValue mem (m.1 + 8) + blocks m.2 < 2 ^ 32) →
      (c < s.counter ∧ s.counter < 2 ^ 32 ∧ s.random = r ∧ s.m_ok = true) →
      c < (checks s mem later).counter ∧ (checks s mem later).counter < 2 ^ 32 ∧
      (checks s mem later).random = r ∧ (checks s mem later).m_ok = true := by
  induction later with
  | nil => intro s _ h; exact h
  | cons m ms ih =>
    intro s hfit h
    simp only [checks, List.foldl_cons]
    exact ih _ (fun x hx => hfit x (by simp [hx]))
      (check_inv s mem c r m.1 m.2 (hfit m (by simp)) h)

/-- A helper that holds random `r` and a counter above `c` rejects an IV whose counter is
at most `c` or whose random is not `r`, and stays as it is. -/
theorem check_bad (s : IvHelper) (mem : Mem) (c r iv2 n2 : Nat)
    (hinv : c < s.counter ∧ s.counter < 2 ^ 32 ∧ s.random = r ∧ s.m_ok = true)
    (hbad : tlv.NNI4.readValue mem (iv2 + 8) ≤ c ∨ tlv.NNI8.readValue mem iv2 ≠ r) :
    s.check mem iv2 n2 = (false, s) := by
  obtain ⟨i1, i2, i3, i4⟩ := hinv
  unfold check
  simp only
  by_cases h1 : s.counter ≠ 0 ∧ s.random ≠ tlv.NNI8.readValue mem iv2
  · rw [if_pos h1]
  · rw [if_neg h1]
    have hne : s.counter ≠ 0 := by omega
    have hr : s.random = tlv.NNI8.readValue mem iv2 := by
      by_contra hne2
      exact h1 ⟨hne, hne2⟩
    have hlt : tlv.NNI4.readValue mem (iv2 + 8) < s.counter := by
      rcases hbad with h | h
      · omega
      · exact absurd (hr.symm.trans i3) h
    simp only [hne, if_false]
    rw [if_pos hlt]

/-- After an accepted IV for a message of at least one octet, and any later checks that stay
within 32 bits, an IV with a counter that is not larger or with another random is
rejected. -/
theorem check_rejects_later (h0 : IvHelper) (mem : Mem) (iv n : Nat)
    (later : List (Nat × Nat)) (iv2 n2 : Nat)
    (hn : 1 ≤ n)
    (hfit : tlv.NNI4.readValue mem (iv + 8) + blocks n < 2 ^ 32)
    (hacc : (h0.check mem iv n).1 = true)
    (hlater : ∀ m ∈ later, tlv.NNI4.readValue mem (m.1 + 8) + blocks m.2 < 2 ^ 32)
    (hbad : tlv.NNI4.readValue mem (iv2 + 8) ≤ tlv.NNI4.readValue mem (iv + 8) ∨
      tlv.NNI8.readValue mem iv2 ≠ tlv.NNI8.readValue mem iv) :
    ((checks (h0.check mem iv n).2 mem later).check mem iv2 n2).1 = false := by
  have h1 := check_first h0 mem iv n hn hfit hacc
  have h2 := checks_inv mem _ _ later _ hlater h1
  rw [check_bad _ mem _ _ iv2 n2 h2 hbad]

end detail.IvHelper

namespace detail.IvHelper

/-- Claim C29, the failing input. A message with a ciphertext of length zero and the IV
with random 1 and counter 5: a fresh helper accepts the IV, and accepts the same IV again;
a key that is ok decrypts the message, and decrypts the same message a second time, with
no `clearDecryptIvChecker` in between. -/
theorem check_accepts_empty_replay :
    (IvHelper.check {} exampleIvMem 1 0).1 = true ∧
    (IvHelper.check (IvHelper.check {} exampleIvMem 1 0).2 exampleIvMem 1 0).1 = true ∧
    (mbedtls.AesGcm.decrypt { m_ok := true } exampleIvMem 1 0 true true).1 = true ∧
    (mbedtls.AesGcm.decrypt
      (mbedtls.AesGcm.decrypt { m_ok := true } exampleIvMem 1 0 true true).2
      exampleIvMem 1 0 true true).1 = true := by
  decide

/-- Replay and out-of-order rejection for a message of at least one octet: once `check` has
accepted its IV, with random `r` and counter `c`, every later `check`, without an
intervening `clearDecryptIvChecker` and as long as the counter of each IV plus the blocks
of its message stays within 32 bits, of an IV whose counter is at most `c` (the same IV
again, or an earlier message of the same sender) or whose random differs from `r` returns
false, and `AesGcm::decrypt` of such a message fails. -/
theorem check_rejects_replay (h0 : IvHelper) (mem : Mem) (iv n : Nat)
    (later : List (Nat × Nat)) (iv2 n2 : Nat)
    (hn : 1 ≤ n)
    (hfit : tlv.NNI4.readValue mem (iv + 8) + blocks n < 2 ^ 32)
    (hacc : (h0.check mem iv n).1 = true)
    (hlater : ∀ m ∈ later, tlv.NNI4.readValue mem (m.1 + 8) + blocks m.2 < 2 ^ 32)
    (hbad : tlv.NNI4.readValue mem (iv2 + 8) ≤ tlv.NNI4.readValue mem (iv + 8) ∨
      tlv.NNI8.readValue mem iv2 ≠ tlv.NNI8.readValue mem iv) :
    ((checks (h0.check mem iv n).2 mem later).check mem iv2 n2).1 = false ∧
    ∀ (g : mbedtls.AesGcm) (allocated authentic : Bool),
      g.m_ivDecrypt = checks (h0.check mem iv n).2 mem later →
      (g.decrypt mem iv2 n2 allocated authentic).1 = false := by
  have h := check_rejects_later h0 mem iv n later iv2 n2 hn hfit hacc hlater hbad
  refine ⟨h, ?_⟩
  intro g allocated authentic hg
  unfold mbedtls.AesGcm.decrypt
  split_ifs
  · rfl
  · rw [hg]
    generalize hck : (checks (h0.check mem iv n).2 mem later).check mem iv2 n2 = res at h
    obtain ⟨b, d⟩ := res
    simp only at h
    subst h
    rfl

/-- An example of the rejection: after the IV with counter 5 for a message of 20 octets and
the IV with counter 7 for a message of one octet, the IV with counter 5 is rejected. -/
theorem check_rejects_replay_witness :
    ((checks (IvHelper.check {} exampleIvMem 1 20).2 exampleIvMem [(13, 1)]).check
      exampleIvMem 1 20).1 = false ∧
    ∀ (g : mbedtls.AesGcm) (allocated authentic : Bool),
      g.m_ivDecrypt = checks (IvHelper.check {} exampleIvMem 1 20).2 exampleIvMem [(13, 1)] →
      (g.decrypt exampleIvMem 1 20 allocated authentic).1 = false :=
  check_rejects_replay {} exampleIvMem 1 20 [(13, 1)] 1 20 (by decide) (by decide) (by decide)
    (by decide) (by decide)

end detail.IvHelper

/-! ## Checking a decoded Interest -/

namespace Interest

theorem name_eq_mk (n : Name) (cs : List Component) (h : n.comps = cs) : n = ⟨cs⟩ := by
  cases n
  simp only at h
  rw [h]

/-- Claim C21. For every Interest, `checkDigest()` returns true if and only if the Interest
has a params record (it was decoded from a wire with AppParameters), its name contains a
ParametersSha256DigestComponent, the SHA-256 computation succeeds, and the value of the
first such component is 32 octets equal to SHA256(allParams); in particular it returns false
on every Interest without a params record (constructed rather than decoded) and on every
name without a digest component. -/
theorem checkDigest_iff (P : Port) (mem : Mem) (obj : detail.InterestObj)
    (hlen : ∀ m d, P.sha256 m = some d → d.length = NDNPH_SHA256_LEN) :
    (checkDigest P mem obj = true ↔
      ∃ p pre ph post digest, obj.params = some p ∧ obj.name.comps = pre ++ ph :: post ∧
        (∀ c ∈ pre, c.type ≠ 0x02) ∧ ph.type = 0x02 ∧
        P.sha256 (p.allParams.bytes mem) = some digest ∧
        ph.value.length = 32 ∧ ph.value = digest) ∧
    (obj.params = none → checkDigest P mem obj = false) ∧
    ((∀ c ∈ obj.name.comps, c.type ≠ 0x02) → checkDigest P mem obj = false) := by
  have hnone : (∀ c ∈ obj.name.comps, c.type ≠ 0x02) → checkDigest P mem obj = false := by
    intro h
    unfold checkDigest
    cases obj.params with
    | none => rfl
    | some p =>
      simp only
      rw [detail.InterestRefBase.findParamsDigest_none obj.name h]
      rfl
  refine ⟨⟨?_, ?_⟩, ?_, hnone⟩
  · intro hcd
    rcases detail.InterestRefBase.split_first_digest obj.name.comps with h | ⟨pre, ph, post, h1, h2, h3⟩
    · rw [hnone h] at hcd
      exact absurd hcd (by decide)
    · have hf := detail.InterestRefBase.findParamsDigest_some obj.name pre ph post h1 h2 h3
      have hneg : ¬ ((pre.length : Int) < 0) := by omega
      unfold checkDigest at hcd
      cases hp : obj.params with
      | none => rw [hp] at hcd; simp at hcd
      | some p =>
        rw [hp] at hcd
        simp only at hcd
        rw [hf, if_neg hneg] at hcd
        cases hs : P.sha256 (p.allParams.bytes mem) with
        | none => rw [hs] at hcd; simp at hcd
        | some digest =>
          rw [hs, name_eq_mk obj.name _ h1, Name.get_mid] at hcd
          simp only [TimingSafeEqual, decide_eq_true_eq] at hcd
          have hl := hlen _ _ hs
          exact ⟨p, pre, ph, post, digest, rfl, h1, h2, h3, hs, by rw [← hcd, hl]; rfl,
            hcd.symm⟩
  · rintro ⟨p, pre, ph, post, digest, hp, h1, h2, h3, hs, _, hv⟩
    have hf := detail.InterestRefBase.findParamsDigest_some obj.name pre ph post h1 h2 h3
    have hneg : ¬ ((pre.length : Int) < 0) := by omega
    unfold checkDigest
    rw [hp]
    simp only
    rw [hf, if_neg hneg, hs, name_eq_mk obj.name _ h1, Name.get_mid]
    simp [TimingSafeEqual, hv]
  · intro hp
    unfold checkDigest
    rw [hp]

/-- Witness of C21: the example port and the decoded Interest `exampleDigestInterest`. -/
theorem checkDigest_iff_witness :
    checkDigest examplePort (Mem.ofList 16 [0x24, 0x00]) exampleDigestInterest = true ∧
    (checkDigest examplePort (Mem.ofList 16 [0x24, 0x00]) exampleDigestInterest = true ↔
      ∃ p pre ph post digest, exampleDigestInterest.params = some p ∧
        exampleDigestInterest.name.comps = pre ++ ph :: post ∧
        (∀ c ∈ pre, c.type ≠ 0x02) ∧ ph.type = 0x02 ∧
        examplePort.sha256 (p.allParams.bytes (Mem.ofList 16 [0x24, 0x00])) = some digest ∧
        ph.value.length = 32 ∧ ph.value = digest) :=
  ⟨by decide,
    (checkDigest_iff examplePort (Mem.ofList 16 [0x24, 0x00]) exampleDigestInterest
      (by
        intro m d h
        simp only [examplePort, Option.some.injEq] at h
        rw [← h]
        simp [NDNPH_SHA256_LEN])).1⟩

end Interest

namespace Interest

/-- Claim C22. For every Interest (with fewer than `2 ^ 31` name components, the index
being an `int`) and every public key, `verify(key)` returns false, whatever the key,
whenever `checkDigest()` is false or the parameters digest component is not the last name
component; otherwise it returns exactly
`key.verify({name without its last component, signedParams}, sigValue)`. -/
theorem verify_decision (P : Port) (mem : Mem) (obj : detail.InterestObj) (key : PublicKey)
    (hsize : obj.name.size < 2 ^ 31) :
    (checkDigest P mem obj = false → verify P mem obj key = false) ∧
    (∀ pre ph post, obj.name.comps = pre ++ ph :: post → (∀ c ∈ pre, c.type ≠ 0x02) →
      ph.type = 0x02 → post ≠ [] → verify P mem obj key = false) ∧
    (∀ pre ph, obj.name.comps = pre ++ [ph] → (∀ c ∈ pre, c.type ≠ 0x02) → ph.type = 0x02 →
      checkDigest P mem obj = true →
      ∃ p, obj.params = some p ∧
        (obj.name.getPrefix (-1)).value = (Name.mk pre).value ∧
        verify P mem obj key
          = key.verify [(Name.mk pre).value, p.signedParams.bytes mem]
              (p.sigValue.bytes mem)) := by
  refine ⟨?_, ?_, ?_⟩
  · intro h
    unfold verify
    rw [h]
    rfl
  · intro pre ph post h1 h2 h3 hpost
    have hf := detail.InterestRefBase.findParamsDigest_some obj.name pre ph post h1 h2 h3
    have hlen : obj.name.size = pre.length + (post.length + 1) := by
      unfold Name.size
      rw [h1, List.length_append, List.length_cons]
    have hpl : 1 ≤ post.length := by
      cases post with
      | nil => exact absurd rfl hpost
      | cons x xs => simp
    have hne : toSize (pre.length : Int) ≠ toSize ((obj.name.size : Int) - 1) := by
      have e1 : ((obj.name.size : Int) - 1) = ((pre.length + post.length : Nat) : Int) := by
        rw [hlen]; push_cast; omega
      rw [e1, toSize_natCast _ (by omega),
        toSize_natCast _ (by omega)]
      omega
    unfold verify
    by_cases hcd : checkDigest P mem obj = true
    · rw [hcd, hf]
      simp only [Bool.not_true, Bool.false_eq_true, if_false]
      rw [if_pos hne]
    · have hcd2 : checkDigest P mem obj = false := by simpa using hcd
      rw [hcd2]
      rfl
  · intro pre ph h1 h2 h3 hcd
    have hf := detail.InterestRefBase.findParamsDigest_some obj.name pre ph [] h1 h2 h3
    have hsz : ((obj.name.size : Nat) : Int) - 1 = (pre.length : Int) := by
      unfold Name.size
      rw [h1]
      simp
    have hpx := detail.SignedInterestRef.getPrefix_last obj.name pre ph h1
    cases hp : obj.params with
    | none =>
      unfold checkDigest at hcd
      rw [hp] at hcd
      simp at hcd
    | some p =>
      refine ⟨p, rfl, by rw [hpx], ?_⟩
      unfold verify
      rw [hcd, hf, hsz, hp, hpx]
      simp only [Bool.not_true, Bool.false_eq_true, if_false, ne_eq, not_true_eq_false]

/-- Witness of C22: the decoded Interest `exampleDigestInterest`, whose digest component
is the last one, and the digest key of the example port. -/
theorem verify_decision_witness :
    ∃ p, exampleDigestInterest.params = some p ∧
      (exampleDigestInterest.name.getPrefix (-1)).value = (Name.mk [⟨8, [0x41]⟩]).value ∧
      verify examplePort (Mem.ofList 16 [0x24, 0x00]) exampleDigestInterest
          (BasicDigestKey.publicKey examplePort)
        = (BasicDigestKey.publicKey examplePort).verify
            [(Name.mk [⟨8, [0x41]⟩]).value, p.signedParams.bytes (Mem.ofList 16 [0x24, 0x00])]
            (p.sigValue.bytes (Mem.ofList 16 [0x24, 0x00])) :=
  (verify_decision examplePort (Mem.ofList 16 [0x24, 0x00]) exampleDigestInterest
    (BasicDigestKey.publicKey examplePort) (by decide)).2.2
    [⟨8, [0x41]⟩] ⟨2, List.replicate 32 0x26⟩ rfl (by decide) rfl (by decide)

end Interest

/-! ## The DigestSha256 key -/

namespace BasicDigestKey

/-- Claim C25. DigestSha256 key: for every list of chunks, `sign` writes the SHA-256 of the
chunks concatenated in order and returns 32 (or -1 if hashing fails), and
`verify(chunks, sig, sigLen)` returns true if and only if hashing succeeds, `sigLen` is 32
and `sig` equals that digest; hence `verify(chunks, sign(chunks))` is true for every message
that is hashed, and the results depend only on the concatenation of the chunks. The port
SHA-256 gives digests of 32 octets. -/
theorem sign_verify_digest (P : Port) (chunks : List (List Byte)) (sig : List Byte)
    (hlen : ∀ m d, P.sha256 m = some d → d.length = NDNPH_SHA256_LEN) :
    sign P chunks = P.sha256 chunks.flatten ∧
    (signReturn P chunks = 32 ↔ ∃ d, P.sha256 chunks.flatten = some d) ∧
    (signReturn P chunks = -1 ↔ P.sha256 chunks.flatten = none) ∧
    (verify P chunks sig = true ↔
      ∃ d, P.sha256 chunks.flatten = some d ∧ sig.length = 32 ∧ sig = d) ∧
    (∀ d, sign P chunks = some d → verify P chunks d = true) ∧
    (∀ chunks2 : List (List Byte), chunks2.flatten = chunks.flatten →
      sign P chunks2 = sign P chunks ∧ signReturn P chunks2 = signReturn P chunks ∧
      verify P chunks2 sig = verify P chunks sig) := by
  refine ⟨rfl, ?_, ?_, ?_, ?_, ?_⟩
  · unfold signReturn detail.computeDigest
    cases P.sha256 chunks.flatten with
    | none => simp
    | some d => simp [NDNPH_SHA256_LEN]
  · unfold signReturn detail.computeDigest
    cases P.sha256 chunks.flatten with
    | none => simp
    | some d => simp [NDNPH_SHA256_LEN]
  · unfold verify detail.computeDigest
    cases hs : P.sha256 chunks.flatten with
    | none => simp
    | some d =>
      have hl := hlen _ _ hs
      simp only [TimingSafeEqual, decide_eq_true_eq, Option.some.injEq, exists_eq_left']
      constructor
      · intro h
        exact ⟨by rw [← h, hl]; rfl, h.symm⟩
      · intro h
        exact h.2.symm
  · intro d hd
    unfold verify
    unfold sign at hd
    rw [hd]
    simp [TimingSafeEqual]
  · intro chunks2 h
    unfold sign signReturn verify detail.computeDigest
    rw [h]
    exact ⟨rfl, rfl, rfl⟩

/-- Witness of C25: the example port, the chunks `08 01 41` and `24 00`, and the signature
the key gives for them. -/
theorem sign_verify_digest_witness :
    sign examplePort [[8, 1, 0x41], [0x24, 0]] = some (List.replicate 32 0x73) ∧
    signReturn examplePort [[8, 1, 0x41], [0x24, 0]] = 32 ∧
    verify examplePort [[8, 1, 0x41], [0x24, 0]] (List.replicate 32 0x73) = true ∧
    verify examplePort [[8, 1], [0x41, 0x24, 0]] (List.replicate 32 0x73) = true :=
  ⟨by decide, by decide,
    (sign_verify_digest examplePort [[8, 1, 0x41], [0x24, 0]] (List.replicate 32 0x73)
      (by
        intro m d h
        simp only [examplePort, Option.some.injEq] at h
        rw [← h]
        simp [NDNPH_SHA256_LEN])).2.2.2.2.1 _ (by decide),
    ((sign_verify_digest examplePort [[8, 1, 0x41], [0x24, 0]] (List.replicate 32 0x73)
      (by
        intro m d h
        simp only [examplePort, Option.some.injEq] at h
        rw [← h]
        simp [NDNPH_SHA256_LEN])).2.2.2.2.2 [[8, 1], [0x41, 0x24, 0]] (by decide)).2.2.trans
      (by decide)⟩

end BasicDigestKey

/-! ## Round trip of a plain Interest -/

namespace Interest

/-- A middle element that its rule accepts is decoded to what `applyItem` gives. -/
theorem decodeElement_apply (P : Port) (mk : Bool) (input : Decoder.Tlv) (mem : Mem)
    (d : Decoder.Tlv) (s : detail.InterestObj) (x : Nat × List Byte)
    (ht : d.type = x.1) (hmem : mem.read d.value d.length = x.2)
    (h : x.1 = TT.CanBePrefix ∨ x.1 = TT.MustBeFresh ∨
      (x.1 = TT.Nonce ∧ x.2.length = 4) ∨
      (x.1 = TT.InterestLifetime ∧ ∃ n, P.nniDecode x.2 = some n ∧ n < 2 ^ 16) ∨
      (x.1 = TT.HopLimit ∧ x.2.length = 1)) :
    EvDecoder.decodeElement (decodeDefs P mk input) mem d s = some (applyItem P s x) := by
  have e1 : ¬ TT.Name = TT.CanBePrefix := by decide
  have e2 : ¬ TT.Name = TT.MustBeFresh := by decide
  have e3 : ¬ TT.CanBePrefix = TT.MustBeFresh := by decide
  have e4 : ¬ TT.Name = TT.Nonce := by decide
  have e5 : ¬ TT.CanBePrefix = TT.Nonce := by decide
  have e6 : ¬ TT.MustBeFresh = TT.Nonce := by decide
  have e7 : ¬ TT.Name = TT.InterestLifetime := by decide
  have e8 : ¬ TT.CanBePrefix = TT.InterestLifetime := by decide
  have e9 : ¬ TT.MustBeFresh = TT.InterestLifetime := by decide
  have e10 : ¬ TT.Nonce = TT.InterestLifetime := by decide
  have e11 : ¬ TT.Name = TT.HopLimit := by decide
  have e12 : ¬ TT.CanBePrefix = TT.HopLimit := by decide
  have e13 : ¬ TT.MustBeFresh = TT.HopLimit := by decide
  have e14 : ¬ TT.Nonce = TT.HopLimit := by decide
  have e15 : ¬ TT.InterestLifetime = TT.HopLimit := by decide
  have e3b : ¬ TT.MustBeFresh = TT.CanBePrefix := by decide
  have e5b : ¬ TT.Nonce = TT.CanBePrefix := by decide
  have e6b : ¬ TT.Nonce = TT.MustBeFresh := by decide
  have e8b : ¬ TT.InterestLifetime = TT.CanBePrefix := by decide
  have e9b : ¬ TT.InterestLifetime = TT.MustBeFresh := by decide
  have e10b : ¬ TT.InterestLifetime = TT.Nonce := by decide
  have e12b : ¬ TT.HopLimit = TT.CanBePrefix := by decide
  have e13b : ¬ TT.HopLimit = TT.MustBeFresh := by decide
  have e14b : ¬ TT.HopLimit = TT.Nonce := by decide
  have e15b : ¬ TT.HopLimit = TT.InterestLifetime := by decide
  have hl : d.length = x.2.length := by rw [← hmem, Mem.read_length]
  simp only [decodeDefs, EvDecoder.decodeElement_cons, applyItem, hmem, ht]
  rcases h with h | h | ⟨h, hl4⟩ | ⟨h, n, hn, hlt⟩ | ⟨h, hl1⟩
  · simp only [h, e1, if_false, if_true]
  · simp only [h, e2, e3, e3b, if_false, if_true]
  · simp only [h, e4, e5, e6, e5b, e6b, if_false, if_true, tlv.NNI4.decode, hl4]
  · simp only [h, e7, e8, e9, e10, e8b, e9b, e10b, if_false, if_true, hn, hlt,
      Option.getD_some]
  · simp only [h, e11, e12, e13, e14, e15, e12b, e13b, e14b, e15b, if_false, if_true,
      tlv.NNI1.decode, hl1]

/-- Middle elements that their rules accept are decoded one after another to what
`applyItem` gives for each in turn. -/
theorem foldlM_middle_apply (P : Port) (mk : Bool) (input : Decoder.Tlv) (mem : Mem)
    (items : List (Nat × List Byte)) :
    ∀ (pos : Nat) (s : detail.InterestObj),
      (∀ x ∈ items, x.1 = TT.CanBePrefix ∨ x.1 = TT.MustBeFresh ∨
        (x.1 = TT.Nonce ∧ x.2.length = 4) ∨
        (x.1 = TT.InterestLifetime ∧ ∃ n, P.nniDecode x.2 = some n ∧ n < 2 ^ 16) ∨
        (x.1 = TT.HopLimit ∧ x.2.length = 1)) →
      mem.read pos (tlvSeq items).length = tlvSeq items →
      (Decoder.layout pos items).foldlM
          (fun s d => EvDecoder.decodeElement (decodeDefs P mk input) mem d s) s
        = some (items.foldl (applyItem P) s) := by
  induction items with
  | nil => intro pos s _ _; rfl
  | cons x rest ih =>
    intro pos s hok hmem
    rw [tlvSeq_cons] at hmem
    obtain ⟨h1, h2⟩ := Mem.read_append_split mem pos _ _ hmem
    obtain ⟨_, _, h3⟩ := Mem.read_tlvBytes mem pos x.1 x.2 h1
    rw [tlvBytes_length] at h2
    have g1 := decodeElement_apply P mk input mem
      { type := x.1, length := x.2.length,
        value := pos + tlv.sizeofVarNum x.1 + tlv.sizeofVarNum x.2.length, tlv := pos,
        size := tlv.sizeofVarNum x.1 + tlv.sizeofVarNum x.2.length + x.2.length } s x rfl h3
      (hok x (by simp))
    rw [Decoder.layout, List.foldlM_cons, g1, List.foldl_cons]
    exact ih _ _ (fun y hy => hok y (by simp [hy])) h2

end Interest

namespace Interest

theorem beValue_NNI4 (n : Nat) (h : n < 2 ^ 32) : tlv.beValue (tlv.NNI4 n).bytes = n := by
  simp only [tlv.NNI4, tlv.beValue, List.foldl_cons, List.foldl_nil, toByte_val]
  omega

theorem beValue_NNI1 (n : Nat) (h : n < 2 ^ 8) : tlv.beValue (tlv.NNI1 n).bytes = n := by
  simp only [tlv.NNI1, tlv.beValue, List.foldl_cons, List.foldl_nil, toByte_val]
  omega

/-- The middle elements of `obj`, decoded one after another into `s`: the flags are set when
`obj` has them, the nonce is that of `obj`, and lifetime and hop limit are those of `obj`
when they are on the wire. -/
theorem middle_foldl (P : Port) (obj s : detail.InterestObj)
    (hl : P.nniDecode (P.nni obj.lifetime) = some obj.lifetime)
    (hn : obj.nonce < 2 ^ 32) (hh : obj.hopLimit < 2 ^ 8) :
    (middleItems P obj).foldl (applyItem P) s
      = { s with
          canBePrefix := if obj.canBePrefix then true else s.canBePrefix,
          mustBeFresh := if obj.mustBeFresh then true else s.mustBeFresh,
          nonce := obj.nonce,
          lifetime := if obj.lifetime ≠ 4000 then obj.lifetime else s.lifetime,
          hopLimit := if obj.hopLimit ≠ 255 then obj.hopLimit else s.hopLimit } := by
  have e1 : ¬ TT.MustBeFresh = TT.CanBePrefix := by decide
  have e2 : ¬ TT.Nonce = TT.CanBePrefix := by decide
  have e3 : ¬ TT.Nonce = TT.MustBeFresh := by decide
  have e4 : ¬ TT.InterestLifetime = TT.CanBePrefix := by decide
  have e5 : ¬ TT.InterestLifetime = TT.MustBeFresh := by decide
  have e6 : ¬ TT.InterestLifetime = TT.Nonce := by decide
  have e7 : ¬ TT.HopLimit = TT.CanBePrefix := by decide
  have e8 : ¬ TT.HopLimit = TT.MustBeFresh := by decide
  have e9 : ¬ TT.HopLimit = TT.Nonce := by decide
  have e10 : ¬ TT.HopLimit = TT.InterestLifetime := by decide
  unfold middleItems
  simp only [List.foldl_append, List.foldl_cons, List.foldl_nil]
  by_cases c1 : obj.canBePrefix = true <;> by_cases c2 : obj.mustBeFresh = true <;>
    by_cases c3 : obj.lifetime = 4000 <;> by_cases c4 : obj.hopLimit = 255 <;>
    simp only [c1, c2, c3, c4, if_true, if_false, ne_eq, not_true_eq_false, not_false_eq_true,
      List.foldl_cons, List.foldl_nil, applyItem, e1, e2, e3, e4, e5, e6, e7, e8, e9, e10,
      beValue_NNI4 _ hn, beValue_NNI1 _ hh, hl, Option.getD_some, Bool.false_eq_true]

end Interest

namespace Interest

/-- Decoding an Interest TLV that holds a Name, the middle fields of `obj` and then the
elements `pitems`: the outer TLV is read, and what is left is the decoding of `pitems` on
the Interest that has the name `comps` and what `applyItem` makes of the middle fields. -/
theorem decodeFrom_head_exact (P : Port) (mk : Bool) (mem : Mem) (a end_ : Nat)
    (obj s0 : detail.InterestObj) (comps : List Component) (pitems : List (Nat × List Byte))
    (hmem : mem.read a (tlvBytes TT.Interest (tlvBytes TT.Name (Name.mk comps).value ++
        middleBytes P obj ++ tlvSeq pitems)).length
      = tlvBytes TT.Interest (tlvBytes TT.Name (Name.mk comps).value ++
        middleBytes P obj ++ tlvSeq pitems))
    (hend : a + (tlvBytes TT.Interest (tlvBytes TT.Name (Name.mk comps).value ++
        middleBytes P obj ++ tlvSeq pitems)).length ≤ end_)
    (hval : (tlvBytes TT.Name (Name.mk comps).value ++
        middleBytes P obj ++ tlvSeq pitems).length < 2 ^ 32)
    (hcomps : ∀ c ∈ comps, c.type < 2 ^ 32 ∧ c.value.length < 2 ^ 32)
    (hitems : ∀ x ∈ pitems, x.1 < 2 ^ 32 ∧ x.2.length < 2 ^ 32)
    (hnni : (P.nni obj.lifetime).length < 2 ^ 32)
    (hl : P.nniDecode (P.nni obj.lifetime) = some obj.lifetime)
    (hlt : obj.lifetime < 2 ^ 16) :
    ∃ input posP,
      Decoder.readTlv mem a end_ = some input ∧
      input.tlv = a ∧
      input.size = (tlvBytes TT.Interest (tlvBytes TT.Name (Name.mk comps).value ++
        middleBytes P obj ++ tlvSeq pitems)).length ∧
      posP + (tlvSeq pitems).length = a + input.size ∧
      mem.read posP (tlvSeq pitems).length = tlvSeq pitems ∧
      decodeFrom P mk mem s0 input
        = (Decoder.layout posP pitems).foldlM
            (fun s d => EvDecoder.decodeElement (decodeDefs P mk input) mem d s)
            ((middleItems P obj).foldl (applyItem P) { s0 with name := ⟨comps⟩ }) := by
  have hV : tlvBytes TT.Name (Name.mk comps).value ++ middleBytes P obj ++ tlvSeq pitems
      = tlvSeq (((TT.Name, (Name.mk comps).value) :: middleItems P obj) ++ pitems) := by
    rw [tlvSeq_append, tlvSeq_cons, middleItems_bytes]
  rw [hV] at hmem hend hval
  rw [hV]
  have hsplit : (tlvSeq (((TT.Name, (Name.mk comps).value) :: middleItems P obj) ++ pitems)).length
      = tlv.sizeofVarNum TT.Name + tlv.sizeofVarNum (Name.mk comps).value.length
        + (Name.mk comps).value.length + (tlvSeq (middleItems P obj)).length
        + (tlvSeq pitems).length := by
    rw [tlvSeq_append, tlvSeq_cons, List.length_append, List.length_append, tlvBytes_length]
  generalize hitemsAll : ((TT.Name, (Name.mk comps).value) :: middleItems P obj) ++ pitems
    = items at hmem hend hval hsplit
  have hnv : (Name.mk comps).value.length < 2 ^ 32 := by omega
  have hr := Decoder.readTlv_bytes mem a end_ TT.Interest (tlvSeq items) (by decide) hval
    hmem hend
  obtain ⟨_, _, hvmem⟩ := Mem.read_tlvBytes mem a TT.Interest (tlvSeq items) hmem
  have hok : ∀ x ∈ items, x.1 < 2 ^ 32 ∧ x.2.length < 2 ^ 32 := by
    intro x hx
    rw [← hitemsAll] at hx
    simp only [List.cons_append, List.mem_cons, List.mem_append] at hx
    rcases hx with hx | hx | hx
    · subst hx; exact ⟨(by decide : TT.Name < 2 ^ 32), hnv⟩
    · exact middleItems_small P obj hnni x hx
    · exact hitems x hx
  obtain ⟨base, hbase⟩ : ∃ base, base
      = a + tlv.sizeofVarNum TT.Interest + tlv.sizeofVarNum (tlvSeq items).length := ⟨_, rfl⟩
  rw [← hbase] at hvmem
  have hch := Decoder.children_layout mem items ((tlvSeq items).length + 1) base
    (by have := tlvSeq_length_ge items; omega) hok hvmem
  -- the memory of the three parts
  have hvmem2 := hvmem
  rw [← hitemsAll, tlvSeq_append] at hvmem2
  obtain ⟨hm1, hmP⟩ := Mem.read_append_split mem _ _ _ hvmem2
  rw [tlvSeq_cons] at hm1
  obtain ⟨hmN, hmM⟩ := Mem.read_append_split mem _ _ _ hm1
  obtain ⟨_, _, hmNv⟩ := Mem.read_tlvBytes mem _ TT.Name (Name.mk comps).value hmN
  rw [tlvBytes_length] at hmM
  simp only at hmNv hmM
  obtain ⟨input, hinput⟩ : ∃ input : Decoder.Tlv, input =
    { type := TT.Interest, length := (tlvSeq items).length,
      value := a + tlv.sizeofVarNum TT.Interest + tlv.sizeofVarNum (tlvSeq items).length,
      tlv := a,
      size := tlv.sizeofVarNum TT.Interest + tlv.sizeofVarNum (tlvSeq items).length
        + (tlvSeq items).length } := ⟨_, rfl⟩
  have hi1 : input.tlv = a := by rw [hinput]
  have hi2 : input.size = tlv.sizeofVarNum TT.Interest + tlv.sizeofVarNum (tlvSeq items).length
        + (tlvSeq items).length := by rw [hinput]
  have hi3 : input.value = base := by rw [hinput, hbase]
  have hi4 : input.length = (tlvSeq items).length := by rw [hinput]
  have hi5 : input.type = TT.Interest := by rw [hinput]
  rw [← hinput] at hr
  obtain ⟨dn, hdn⟩ : ∃ dn : Decoder.Tlv, dn =
    { type := TT.Name, length := (Name.mk comps).value.length,
      value := base + tlv.sizeofVarNum TT.Name + tlv.sizeofVarNum (Name.mk comps).value.length,
      tlv := base,
      size := tlv.sizeofVarNum TT.Name + tlv.sizeofVarNum (Name.mk comps).value.length
        + (Name.mk comps).value.length } := ⟨_, rfl⟩
  have hname : Name.decodeFrom mem dn = some ⟨comps⟩ :=
    Name.decodeFrom_bytes mem dn comps (by rw [hdn]) (by rw [hdn]; exact hmNv) hcomps
  have hdnt : dn.type = TT.Name := by rw [hdn]
  have k1 := foldlM_middle_apply P mk input mem (middleItems P obj) _
    { s0 with name := ⟨comps⟩ } (middleItems_ok P obj hl hlt) hmM
  have hlay : Decoder.layout base items
      = dn :: (Decoder.layout (base
            + (tlv.sizeofVarNum TT.Name + tlv.sizeofVarNum (Name.mk comps).value.length
              + (Name.mk comps).value.length)) (middleItems P obj)
          ++ Decoder.layout (base
            + (tlv.sizeofVarNum TT.Name + tlv.sizeofVarNum (Name.mk comps).value.length
              + (Name.mk comps).value.length) + (tlvSeq (middleItems P obj)).length)
            pitems) := by
    rw [← hitemsAll, List.cons_append, Decoder.layout, Decoder.layout_append, hdn]
  refine ⟨input, base + (tlv.sizeofVarNum TT.Name
      + tlv.sizeofVarNum (Name.mk comps).value.length
      + (Name.mk comps).value.length) + (tlvSeq (middleItems P obj)).length,
    hr, hi1, ?_, ?_, ?_, ?_⟩
  · rw [hi2, tlvBytes_length]
  · rw [hi2]
    omega
  · rw [tlvSeq_cons, List.length_append, tlvBytes_length] at hmP
    simp only at hmP
    rw [← Nat.add_assoc] at hmP
    exact hmP
  · unfold decodeFrom EvDecoder.decode
    rw [if_neg (by simp [hi5]), EvDecoder.decodeChildren_eq, hi3, hi4, hch]
    simp only
    rw [hlay, List.foldlM_cons, decodeElement_name P mk input mem dn s0 ⟨comps⟩ hdnt hname]
    simp only [Option.bind_eq_bind, Option.some_bind, List.foldlM_append]
    rw [k1]
    simp only [Option.some_bind]

end Interest

namespace Interest

/-- Claim C23. Plain Interest round trip: for every Interest (any name, canBePrefix,
mustBeFresh, 32-bit nonce, 16-bit lifetime, 8-bit hopLimit) and a sufficiently large buffer,
the octets that `encodeTo` produces are read back as one TLV, and decoding it into a fresh
Interest succeeds and yields the same name, canBePrefix, mustBeFresh, nonce, lifetime and
hopLimit, with no params record. -/
theorem encodeTo_decodeFrom (P : Port) (mk : Bool) (obj : detail.InterestObj) (e : Encoder)
    (n0 : Nat) (hv : e.Valid)
    (hnonce : obj.nonce < 2 ^ 32) (hlt : obj.lifetime < 2 ^ 16) (hhop : obj.hopLimit < 2 ^ 8)
    (hcomps : ∀ c ∈ obj.name.comps, c.type < 2 ^ 32 ∧ c.value.length < 2 ^ 32)
    (hnni : (P.nni obj.lifetime).length < 2 ^ 32)
    (hl : P.nniDecode (P.nni obj.lifetime) = some obj.lifetime)
    (hval : (tlvBytes TT.Name obj.name.value ++ middleBytes P obj).length < 2 ^ 32)
    (hroom : (wire P obj).length ≤ e.m_pos - e.m_buf) :
    ∃ input obj2,
      Decoder.readTlv (encodeTo P obj e).mem (encodeTo P obj e).m_pos (encodeTo P obj e).m_end
        = some input ∧
      decodeFrom P mk (encodeTo P obj e).mem { nonce := n0 } input = some obj2 ∧
      obj2.name = obj.name ∧ obj2.canBePrefix = obj.canBePrefix ∧
      obj2.mustBeFresh = obj.mustBeFresh ∧ obj2.nonce = obj.nonce ∧
      obj2.lifetime = obj.lifetime ∧ obj2.hopLimit = obj.hopLimit ∧ obj2.params = none := by
  rw [plain_encodeTo_prepended P obj e hv hnni hval hroom]
  have hread := Encoder.read_prepended e (wire P obj)
  have hpos : (e.prepended (wire P obj)).m_pos + (wire P obj).length = e.m_pos := by
    simp only [Encoder.prepended]
    omega
  have hme : (e.prepended (wire P obj)).m_end = e.m_end := rfl
  generalize (e.prepended (wire P obj)).mem = mem at hread ⊢
  generalize (e.prepended (wire P obj)).m_pos = a at hread hpos ⊢
  rw [hme]
  have hw : wire P obj = tlvBytes TT.Interest (tlvBytes TT.Name (Name.mk obj.name.comps).value
      ++ middleBytes P obj ++ tlvSeq []) := by
    rw [tlvSeq_nil, List.append_nil]
    rfl
  have hval2 : (tlvBytes TT.Name (Name.mk obj.name.comps).value
      ++ middleBytes P obj ++ tlvSeq []).length < 2 ^ 32 := by
    rw [tlvSeq_nil, List.append_nil]
    exact hval
  rw [hw] at hread hpos
  obtain ⟨hv1, hv2, hv3, hv4, hv5⟩ := hv
  obtain ⟨input, posP, hr, _, _, _, _, hdec⟩ :=
    decodeFrom_head_exact P mk mem a e.m_end obj { nonce := n0 } obj.name.comps [] hread
      (by omega) hval2 hcomps (by simp) hnni hl hlt
  rw [middle_foldl P obj _ hl hnonce hhop] at hdec
  refine ⟨input, _, hr, hdec, rfl, ?_, ?_, rfl, ?_, ?_, rfl⟩
  · simp
  · simp
  · simp only
    split_ifs with h
    · rfl
    · simp only [ne_eq, not_not] at h
      exact h.symm
  · simp only
    split_ifs with h
    · rfl
    · simp only [ne_eq, not_not] at h
      exact h.symm

/-- Witness of C23: name /A with canBePrefix, lifetime 1000 and hop limit 7 with the example
port, into a 128-byte buffer. -/
theorem encodeTo_decodeFrom_witness :
    ∃ input obj2,
      Decoder.readTlv
        (encodeTo examplePort
          { name := ⟨[⟨8, [0x41]⟩]⟩, nonce := 0x11223344, canBePrefix := true,
            lifetime := 1000, hopLimit := 7 } (Encoder.init (fun _ => 0) 0x1000 128)).mem
        (encodeTo examplePort
          { name := ⟨[⟨8, [0x41]⟩]⟩, nonce := 0x11223344, canBePrefix := true,
            lifetime := 1000, hopLimit := 7 } (Encoder.init (fun _ => 0) 0x1000 128)).m_pos
        (encodeTo examplePort
          { name := ⟨[⟨8, [0x41]⟩]⟩, nonce := 0x11223344, canBePrefix := true,
            lifetime := 1000, hopLimit := 7 } (Encoder.init (fun _ => 0) 0x1000 128)).m_end
        = some input ∧
      decodeFrom examplePort true
        (encodeTo examplePort
          { name := ⟨[⟨8, [0x41]⟩]⟩, nonce := 0x11223344, canBePrefix := true,
            lifetime := 1000, hopLimit := 7 } (Encoder.init (fun _ => 0) 0x1000 128)).mem
        { nonce := 0xDEADBEEF } input = some obj2 ∧
      obj2.name = ⟨[⟨8, [0x41]⟩]⟩ ∧ obj2.canBePrefix = true ∧
      obj2.mustBeFresh = false ∧ obj2.nonce = 0x11223344 ∧
      obj2.lifetime = 1000 ∧ obj2.hopLimit = 7 ∧ obj2.params = none :=
  encodeTo_decodeFrom examplePort true
    { name := ⟨[⟨8, [0x41]⟩]⟩, nonce := 0x11223344, canBePrefix := true,
      lifetime := 1000, hopLimit := 7 } (Encoder.init (fun _ => 0) 0x1000 128) 0xDEADBEEF
    (by decide) (by decide) (by decide) (by decide) (by decide) (by decide) (by decide)
    (by decide) (by decide)

end Interest

/-! ## SigInfo of a signed Interest -/

namespace detail.SignedInterestRef

/-- The encoding of a signed Interest is read back as one TLV and decodes into a fresh
Interest whose SigInfo is what the port decodes from the emitted ISigInfo value. -/
theorem signed_decode_sigInfo (P : Port) (obj : InterestObj) (appParameters : Value)
    (key : PrivateKey) (sigInfo : SigInfo) (e : Encoder) (sn sig digest : List Byte)
    (si : SigInfo) (hv : e.Valid) (hname : signedName obj = some sn)
    (hsign : key.sign [sn, signedPortion P appParameters (key.updateSigInfo sigInfo)] = some sig)
    (hsl : sig.length ≤ key.getMaxSigLen)
    (hsha : P.sha256 (paramsBytes P appParameters (key.updateSigInfo sigInfo) sig)
      = some digest)
    (hd : digest.length = NDNPH_SHA256_LEN)
    (hnni : (P.nni obj.lifetime).length < 2 ^ 32)
    (hsi : (P.sigInfoValue (key.updateSigInfo sigInfo)).length < 2 ^ 32)
    (hval : (tlvBytes TT.Name (Name.mk
        (ParameterizedInterestRef.substDigest digest obj.name.comps)).value ++
      Interest.middleBytes P obj ++
      paramsBytes P appParameters (key.updateSigInfo sigInfo) sig).length < 2 ^ 32)
    (hroom1 : key.getMaxSigLen +
      (signedPortion P appParameters (key.updateSigInfo sigInfo)).length ≤ e.m_pos - e.m_buf)
    (hroom2 : (ParameterizedInterestRef.wire P obj digest
      (paramsBytes P appParameters (key.updateSigInfo sigInfo) sig)).length
        ≤ e.m_pos - e.m_buf)
    (hcomps : ∀ c ∈ obj.name.comps, c.type < 2 ^ 32 ∧ c.value.length < 2 ^ 32)
    (hl : P.nniDecode (P.nni obj.lifetime) = some obj.lifetime)
    (hlt : obj.lifetime < 2 ^ 16)
    (hsid : P.sigInfoDecode (P.sigInfoValue (key.updateSigInfo sigInfo)) = some si) :
    ∃ input obj2,
      Decoder.readTlv (encodeTo P obj appParameters key sigInfo e).mem
        (encodeTo P obj appParameters key sigInfo e).m_pos
        (encodeTo P obj appParameters key sigInfo e).m_end = some input ∧
      Interest.decodeFrom P true (encodeTo P obj appParameters key sigInfo e).mem {} input
        = some obj2 ∧
      Interest.getSigInfo obj2 = some si := by
  obtain ⟨mem2, _, henc⟩ := signed_encodeTo_at P obj appParameters key sigInfo e sn sig digest
    hv hname hsign hsl hsha hd hnni hsi hval hroom1 hroom2
  rw [henc]
  generalize key.updateSigInfo sigInfo = sinfo at *
  have hlens : sig.length < 2 ^ 32 ∧ appParameters.bytes.length < 2 ^ 32 := by
    simp only [paramsBytes, signedPortion, List.length_append, tlvBytes_length] at hval
    omega
  have hread := Encoder.read_prepended ({ e with mem := mem2 } : Encoder)
    (ParameterizedInterestRef.wire P obj digest (paramsBytes P appParameters sinfo sig))
  have hpos : (({ e with mem := mem2 } : Encoder).prepended (ParameterizedInterestRef.wire P
        obj digest (paramsBytes P appParameters sinfo sig))).m_pos
      + (ParameterizedInterestRef.wire P obj digest
          (paramsBytes P appParameters sinfo sig)).length = e.m_pos := by
    simp only [Encoder.prepended]
    omega
  have hme : (({ e with mem := mem2 } : Encoder).prepended (ParameterizedInterestRef.wire P
      obj digest (paramsBytes P appParameters sinfo sig))).m_end = e.m_end := rfl
  generalize (({ e with mem := mem2 } : Encoder).prepended (ParameterizedInterestRef.wire P
      obj digest (paramsBytes P appParameters sinfo sig))).mem = mem at hread ⊢
  generalize (({ e with mem := mem2 } : Encoder).prepended (ParameterizedInterestRef.wire P
      obj digest (paramsBytes P appParameters sinfo sig))).m_pos = a at hread hpos ⊢
  rw [hme]
  unfold ParameterizedInterestRef.wire at hread hpos
  rw [paramsBytes_items] at hread hpos hval
  obtain ⟨hv1, hv2, hv3, hv4, hv5⟩ := hv
  obtain ⟨input, s2, posP, hr, hi1, hi2, hpp, hmP, hn, hp0, hdec⟩ :=
    Interest.decodeFrom_head P true mem a e.m_end obj {}
      (ParameterizedInterestRef.substDigest digest obj.name.comps)
      [(TT.AppParameters, appParameters.bytes), (TT.ISigInfo, P.sigInfoValue sinfo),
        (TT.ISigValue, sig)] hread (by omega) hval
      (ParameterizedInterestRef.substDigest_small digest obj.name.comps hd hcomps)
      (by
        intro x hx
        simp only [List.mem_cons, List.mem_singleton, List.not_mem_nil, or_false] at hx
        rcases hx with hx | hx | hx
        · rw [hx]; exact ⟨(by decide : TT.AppParameters < 2 ^ 32), hlens.2⟩
        · rw [hx]; exact ⟨(by decide : TT.ISigInfo < 2 ^ 32), hsi⟩
        · rw [hx]; exact ⟨(by decide : TT.ISigValue < 2 ^ 32), hlens.1⟩)
      hnni hl hlt
  obtain ⟨p, hfold, _, _, _, _, hsig⟩ := Interest.foldlM_signed_params P mem input s2 posP
    appParameters.bytes (P.sigInfoValue sinfo) sig si hmP (by omega) (by omega) hsid
  rw [hfold] at hdec
  refine ⟨input, _, hr, hdec, ?_⟩
  simp only [Interest.getSigInfo, hsig]

end detail.SignedInterestRef

namespace BasicDigestKey

/-- Claim C26. For every SigInfo `s`, `BasicDigestKey::updateSigInfo` sets `s.sigType` to 0
(DigestSha256) and `s.name` (the key name) to the empty name and leaves the extensions
unchanged; so, when the SigInfo codec of the port reads back what it wrote, the SigInfo
extensions supplied to `sign()` are the extensions found in the SigInfo of the decoded
packet. -/
theorem updateSigInfo_frame (s : SigInfo) :
    (updateSigInfo s).sigType = 0 ∧ (updateSigInfo s).name = ⟨[]⟩ ∧
    (updateSigInfo s).extensions = s.extensions ∧
    ∀ (P : Port) (obj : detail.InterestObj) (appParameters : Value) (e : Encoder)
      (sn sig digest : List Byte),
      e.Valid → detail.SignedInterestRef.signedName obj = some sn →
      (privateKey P).sign
        [sn, detail.SignedInterestRef.signedPortion P appParameters (updateSigInfo s)]
          = some sig →
      sig.length ≤ MaxSigLen →
      P.sha256 (detail.SignedInterestRef.paramsBytes P appParameters (updateSigInfo s) sig)
        = some digest →
      digest.length = NDNPH_SHA256_LEN →
      (P.nni obj.lifetime).length < 2 ^ 32 →
      (P.sigInfoValue (updateSigInfo s)).length < 2 ^ 32 →
      (tlvBytes TT.Name (Name.mk
          (detail.ParameterizedInterestRef.substDigest digest obj.name.comps)).value ++
        Interest.middleBytes P obj ++
        detail.SignedInterestRef.paramsBytes P appParameters (updateSigInfo s)
          sig).length < 2 ^ 32 →
      MaxSigLen + (detail.SignedInterestRef.signedPortion P appParameters
        (updateSigInfo s)).length ≤ e.m_pos - e.m_buf →
      (detail.ParameterizedInterestRef.wire P obj digest
        (detail.SignedInterestRef.paramsBytes P appParameters (updateSigInfo s)
          sig)).length ≤ e.m_pos - e.m_buf →
      (∀ c ∈ obj.name.comps, c.type < 2 ^ 32 ∧ c.value.length < 2 ^ 32) →
      P.nniDecode (P.nni obj.lifetime) = some obj.lifetime →
      obj.lifetime < 2 ^ 16 →
      P.sigInfoDecode (P.sigInfoValue (updateSigInfo s)) = some (updateSigInfo s) →
      ∃ input obj2 si,
        Decoder.readTlv
          (detail.SignedInterestRef.encodeTo P obj appParameters (privateKey P) s e).mem
          (detail.SignedInterestRef.encodeTo P obj appParameters (privateKey P) s e).m_pos
          (detail.SignedInterestRef.encodeTo P obj appParameters (privateKey P) s e).m_end
          = some input ∧
        Interest.decodeFrom P true
          (detail.SignedInterestRef.encodeTo P obj appParameters (privateKey P) s e).mem {}
          input = some obj2 ∧
        Interest.getSigInfo obj2 = some si ∧
        si.extensions = s.extensions ∧ si.sigType = 0 ∧ si.name = ⟨[]⟩ := by
  refine ⟨rfl, rfl, rfl, ?_⟩
  intro P obj appParameters e sn sig digest hv hname hsign hsl hsha hd hnni hsi hval hroom1
    hroom2 hcomps hl hlt hcodec
  obtain ⟨input, obj2, h1, h2, h3⟩ := detail.SignedInterestRef.signed_decode_sigInfo P obj
    appParameters (privateKey P) s e sn sig digest (updateSigInfo s) hv hname hsign hsl hsha hd
    hnni hsi hval hroom1 hroom2 hcomps hl hlt hcodec
  exact ⟨input, obj2, updateSigInfo s, h1, h2, h3, rfl, rfl, rfl⟩

/-- Witness of C26: name /B signed with the digest key and a SigInfo with the extensions
20 00 and another signature type and key name, with the example codec port. -/
theorem updateSigInfo_frame_witness :
    ∃ input obj2 si,
      Decoder.readTlv
        (detail.SignedInterestRef.encodeTo exampleCodecPort
          { name := ⟨[⟨8, [0x42]⟩]⟩, nonce := 0x11223344 } ⟨[]⟩ (privateKey exampleCodecPort)
          { sigType := 3, name := ⟨[⟨8, [0x4B]⟩]⟩, extensions := [0x20, 0x00] }
          (Encoder.init (fun _ => 0) 0x1000 256)).mem
        (detail.SignedInterestRef.encodeTo exampleCodecPort
          { name := ⟨[⟨8, [0x42]⟩]⟩, nonce := 0x11223344 } ⟨[]⟩ (privateKey exampleCodecPort)
          { sigType := 3, name := ⟨[⟨8, [0x4B]⟩]⟩, extensions := [0x20, 0x00] }
          (Encoder.init (fun _ => 0) 0x1000 256)).m_pos
        (detail.SignedInterestRef.encodeTo exampleCodecPort
          { name := ⟨[⟨8, [0x42]⟩]⟩, nonce := 0x11223344 } ⟨[]⟩ (privateKey exampleCodecPort)
          { sigType := 3, name := ⟨[⟨8, [0x4B]⟩]⟩, extensions := [0x20, 0x00] }
          (Encoder.init (fun _ => 0) 0x1000 256)).m_end
        = some input ∧
      Interest.decodeFrom exampleCodecPort true
        (detail.SignedInterestRef.encodeTo exampleCodecPort
          { name := ⟨[⟨8, [0x42]⟩]⟩, nonce := 0x11223344 } ⟨[]⟩ (privateKey exampleCodecPort)
          { sigType := 3, name := ⟨[⟨8, [0x4B]⟩]⟩, extensions := [0x20, 0x00] }
          (Encoder.init (fun _ => 0) 0x1000 256)).mem {} input = some obj2 ∧
      Interest.getSigInfo obj2 = some si ∧
      si.extensions = [0x20, 0x00] ∧ si.sigType = 0 ∧ si.name = ⟨[]⟩ :=
  (updateSigInfo_frame
    { sigType := 3, name := ⟨[⟨8, [0x4B]⟩]⟩, extensions := [0x20, 0x00] }).2.2.2
    exampleCodecPort { name := ⟨[⟨8, [0x42]⟩]⟩, nonce := 0x11223344 } ⟨[]⟩
    (Encoder.init (fun _ => 0) 0x1000 256) [8, 1, 0x42]
    (List.replicate 32 0xE8) (List.replicate 32 0x0A)
    (by decide) (by decide) (by decide) (by decide) (by decide) (by decide) (by decide)
    (by decide) (by decide) (by decide) (by decide) (by decide) (by decide) (by decide)
    (by decide)

end BasicDigestKey

/-! ## Encoding a Data -/

theorem tlvSeq_eq_nil (items : List (Nat × List Byte)) : tlvSeq items = [] ↔ items = [] := by
  constructor
  · intro h
    cases items with
    | nil => rfl
    | cons x rest =>
      have h1 := congrArg List.length h
      have h2 := tlv.sizeofVarNum_pos x.1
      rw [tlvSeq_cons, List.length_append, tlvBytes_length, List.length_nil] at h1
      omega
  · intro h
    rw [h]
    rfl

namespace Encoder

/-- A closure that prepends one TLV unless its value is empty. -/
theorem omit_closure_writes (t : Nat) (arg : List Item) (bss : List (List Byte))
    (hitems : List.Forall₂ Item.Writes arg bss) (hlen : bss.flatten.length < 2 ^ 32) :
    (Item.func (fun encoder => (encoder.prependTlv t OmitEmptyTag.OmitEmpty arg).2)).Writes
      (if bss.flatten = [] then [] else tlvBytes t bss.flatten) := by
  by_cases hempty : bss.flatten = []
  · rw [if_pos hempty]
    intro e hv _
    simp only [prependOne, prependTlv_omitted e t arg bss hitems hv hempty, prepended_nil]
  · rw [if_neg hempty]
    have h := tlv_closure_writes t OmitEmptyTag.OmitEmpty arg bss hitems (Or.inr hempty)
    rw [Nat.mod_eq_of_lt hlen] at h
    exact h

end Encoder

namespace Data

theorem metaItems_bytes (P : Port) (obj : detail.DataObj) :
    tlvSeq (metaItems P obj) = List.flatten
      [(if obj.contentType ≠ 0 then tlvBytes TT.ContentType (P.nni obj.contentType) else []),
        (if obj.freshnessPeriod ≠ 0 then tlvBytes TT.FreshnessPeriod (P.nni obj.freshnessPeriod)
          else []),
        (if obj.isFinalBlock then tlvBytes TT.FinalBlockId (obj.name.get (-1)).tlv else [])] := by
  unfold metaItems
  simp only [tlvSeq_append]
  split_ifs <;> simp [tlvSeq]

/-- The closure of `Data::encodeTo` that prepends MetaInfo. -/
theorem meta_writes (P : Port) (obj : detail.DataObj)
    (hct : (P.nni obj.contentType).length < 2 ^ 32)
    (hfp : (P.nni obj.freshnessPeriod).length < 2 ^ 32)
    (hfb : (obj.name.get (-1)).tlv.length < 2 ^ 32)
    (hlen : (tlvSeq (metaItems P obj)).length < 2 ^ 32) :
    (Item.func (fun encoder =>
        (encoder.prependTlv TT.MetaInfo OmitEmptyTag.OmitEmpty
          [Item.func (fun encoder =>
              if obj.contentType ≠ detail.DataObj.DefaultContentType then
                (encoder.prependTlv TT.ContentType OmitEmptyTag.NoOmitEmpty
                  [(Value.mk (P.nni obj.contentType)).item]).2
              else encoder),
            Item.func (fun encoder =>
              if obj.freshnessPeriod ≠ detail.DataObj.DefaultFreshnessPeriod then
                (encoder.prependTlv TT.FreshnessPeriod OmitEmptyTag.NoOmitEmpty
                  [(Value.mk (P.nni obj.freshnessPeriod)).item]).2
              else encoder),
            Item.func (fun encoder =>
              if obj.isFinalBlock then
                (encoder.prependTlv TT.FinalBlockId OmitEmptyTag.NoOmitEmpty
                  [(Value.mk (obj.name.get (-1)).tlv).item]).2
              else encoder)]).2)).Writes
      (if metaItems P obj = [] then [] else tlvBytes TT.MetaInfo (tlvSeq (metaItems P obj))) := by
  have hitems : List.Forall₂ Item.Writes
      [Item.func (fun encoder =>
          if obj.contentType ≠ detail.DataObj.DefaultContentType then
            (encoder.prependTlv TT.ContentType OmitEmptyTag.NoOmitEmpty
              [(Value.mk (P.nni obj.contentType)).item]).2
          else encoder),
        Item.func (fun encoder =>
          if obj.freshnessPeriod ≠ detail.DataObj.DefaultFreshnessPeriod then
            (encoder.prependTlv TT.FreshnessPeriod OmitEmptyTag.NoOmitEmpty
              [(Value.mk (P.nni obj.freshnessPeriod)).item]).2
          else encoder),
        Item.func (fun encoder =>
          if obj.isFinalBlock then
            (encoder.prependTlv TT.FinalBlockId OmitEmptyTag.NoOmitEmpty
              [(Value.mk (obj.name.get (-1)).tlv).item]).2
          else encoder)]
      [(if obj.contentType ≠ 0 then tlvBytes TT.ContentType (P.nni obj.contentType) else []),
        (if obj.freshnessPeriod ≠ 0 then tlvBytes TT.FreshnessPeriod (P.nni obj.freshnessPeriod)
          else []),
        (if obj.isFinalBlock then tlvBytes TT.FinalBlockId (obj.name.get (-1)).tlv else [])] := by
    refine List.Forall₂.cons ?_ (List.Forall₂.cons ?_ (List.Forall₂.cons ?_ List.Forall₂.nil))
    · exact Encoder.cond_closure_writes _ _ _ (Encoder.tlv_value_writes _ _ hct)
    · exact Encoder.cond_closure_writes _ _ _ (Encoder.tlv_value_writes _ _ hfp)
    · exact Encoder.cond_closure_writes _ _ _ (Encoder.tlv_value_writes _ _ hfb)
  have h := Encoder.omit_closure_writes TT.MetaInfo _ _ hitems
    (by rw [← metaItems_bytes]; exact hlen)
  rw [← metaItems_bytes] at h
  have hc : (tlvSeq (metaItems P obj) = []) = (metaItems P obj = []) :=
    propext (tlvSeq_eq_nil _)
  simp only [hc] at h
  exact h

theorem dataItems_bytes (P : Port) (obj : detail.DataObj) :
    tlvSeq (dataItems P obj) = List.flatten
      [tlvBytes TT.Name obj.name.value,
        (if metaItems P obj = [] then [] else tlvBytes TT.MetaInfo (tlvSeq (metaItems P obj))),
        (if [obj.content.bytes].flatten = [] then []
          else tlvBytes TT.Content [obj.content.bytes].flatten)] := by
  unfold dataItems
  simp only [tlvSeq_append]
  split_ifs <;> simp_all [tlvSeq]

/-- The method `Data::encodeTo` on a live encoder with room prepends the wire of the Data. -/
theorem data_encodeTo_prepended (P : Port) (obj : detail.DataObj) (e : Encoder) (hv : e.Valid)
    (hct : (P.nni obj.contentType).length < 2 ^ 32)
    (hfp : (P.nni obj.freshnessPeriod).length < 2 ^ 32)
    (hval : (tlvSeq (dataItems P obj)).length < 2 ^ 32)
    (hfb : (obj.name.get (-1)).tlv.length < 2 ^ 32)
    (hmeta : (tlvSeq (metaItems P obj)).length < 2 ^ 32)
    (hname : obj.name.value.length < 2 ^ 32)
    (hcontent : obj.content.bytes.length < 2 ^ 32)
    (hroom : (wire P obj).length ≤ e.m_pos - e.m_buf) :
    encodeTo P obj e = e.prepended (wire P obj) := by
  have hitems : List.Forall₂ Item.Writes
      [Item.encodable (fun enc => obj.name.encodeTo enc),
        Item.func (fun encoder =>
          (encoder.prependTlv TT.MetaInfo OmitEmptyTag.OmitEmpty
            [Item.func (fun encoder =>
                if obj.contentType ≠ detail.DataObj.DefaultContentType then
                  (encoder.prependTlv TT.ContentType OmitEmptyTag.NoOmitEmpty
                    [(Value.mk (P.nni obj.contentType)).item]).2
                else encoder),
              Item.func (fun encoder =>
                if obj.freshnessPeriod ≠ detail.DataObj.DefaultFreshnessPeriod then
                  (encoder.prependTlv TT.FreshnessPeriod OmitEmptyTag.NoOmitEmpty
                    [(Value.mk (P.nni obj.freshnessPeriod)).item]).2
                else encoder),
              Item.func (fun encoder =>
                if obj.isFinalBlock then
                  (encoder.prependTlv TT.FinalBlockId OmitEmptyTag.NoOmitEmpty
                    [(Value.mk (obj.name.get (-1)).tlv).item]).2
                else encoder)]).2),
        Item.func (fun encoder =>
          (encoder.prependTlv TT.Content OmitEmptyTag.OmitEmpty [obj.content.item]).2)]
      [tlvBytes TT.Name obj.name.value,
        (if metaItems P obj = [] then [] else tlvBytes TT.MetaInfo (tlvSeq (metaItems P obj))),
        (if [obj.content.bytes].flatten = [] then []
          else tlvBytes TT.Content [obj.content.bytes].flatten)] := by
    refine List.Forall₂.cons ?_ (List.Forall₂.cons ?_ (List.Forall₂.cons ?_ List.Forall₂.nil))
    · exact Name.name_encodeTo_writes _ hname
    · exact meta_writes P obj hct hfp hfb hmeta
    · exact Encoder.omit_closure_writes TT.Content [obj.content.item] [obj.content.bytes]
        (List.Forall₂.cons (Value.item_writes _) List.Forall₂.nil) (by simpa using hcontent)
  have h := Encoder.tlv_closure_writes_exact TT.Data _ _ hitems
    (by rw [← dataItems_bytes]; exact hval)
  rw [← dataItems_bytes] at h
  have h2 := h e hv hroom
  simp only [Encoder.prependOne] at h2
  unfold encodeTo
  rw [h2]
  rfl

end Data

/-! ## Decoding a Data -/

namespace Data

/-- An element of MetaInfo that its rule accepts is decoded to what `applyMeta` gives. -/
theorem decodeElement_meta (P : Port) (mem : Mem) (d : Decoder.Tlv) (s : detail.DataObj)
    (x : Nat × List Byte) (ht : d.type = x.1) (hmem : mem.read d.value d.length = x.2)
    (h : (x.1 = TT.ContentType ∧ ∃ n, P.nniDecode x.2 = some n ∧ n < 2 ^ 8) ∨
      (x.1 = TT.FreshnessPeriod ∧ ∃ n, P.nniDecode x.2 = some n ∧ n < 2 ^ 32) ∨
      x.1 = TT.FinalBlockId) :
    EvDecoder.decodeElement (metaDefs P) mem d s = some (applyMeta P s x) := by
  have e1 : ¬ TT.ContentType = TT.FreshnessPeriod := by decide
  have e2 : ¬ TT.ContentType = TT.FinalBlockId := by decide
  have e3 : ¬ TT.FreshnessPeriod = TT.FinalBlockId := by decide
  have e1b : ¬ TT.FreshnessPeriod = TT.ContentType := by decide
  have e2b : ¬ TT.FinalBlockId = TT.ContentType := by decide
  have e3b : ¬ TT.FinalBlockId = TT.FreshnessPeriod := by decide
  have hl : d.length = x.2.length := by rw [← hmem, Mem.read_length]
  have hmem2 : mem.read d.value x.2.length = x.2 := by rw [← hl, hmem]
  simp only [metaDefs, EvDecoder.decodeElement_cons, applyMeta, ht, hl, hmem2]
  rcases h with ⟨h, n, hn, hlt⟩ | ⟨h, n, hn, hlt⟩ | h
  · simp only [h, if_true, hn, hlt, Option.getD_some]
  · simp only [h, e1, e1b, if_false, if_true, hn, hlt, Option.getD_some]
  · simp only [h, e2, e3, e2b, e3b, if_false, if_true]

theorem foldlM_meta_apply (P : Port) (mem : Mem) (items : List (Nat × List Byte)) :
    ∀ (pos : Nat) (s : detail.DataObj),
      (∀ x ∈ items, (x.1 = TT.ContentType ∧ ∃ n, P.nniDecode x.2 = some n ∧ n < 2 ^ 8) ∨
        (x.1 = TT.FreshnessPeriod ∧ ∃ n, P.nniDecode x.2 = some n ∧ n < 2 ^ 32) ∨
        x.1 = TT.FinalBlockId) →
      mem.read pos (tlvSeq items).length = tlvSeq items →
      (Decoder.layout pos items).foldlM
          (fun s d => EvDecoder.decodeElement (metaDefs P) mem d s) s
        = some (items.foldl (applyMeta P) s) := by
  induction items with
  | nil => intro pos s _ _; rfl
  | cons x rest ih =>
    intro pos s hok hmem
    rw [tlvSeq_cons] at hmem
    obtain ⟨h1, h2⟩ := Mem.read_append_split mem pos _ _ hmem
    obtain ⟨_, _, h3⟩ := Mem.read_tlvBytes mem pos x.1 x.2 h1
    rw [tlvBytes_length] at h2
    have g1 := decodeElement_meta P mem
      { type := x.1, length := x.2.length,
        value := pos + tlv.sizeofVarNum x.1 + tlv.sizeofVarNum x.2.length, tlv := pos,
        size := tlv.sizeofVarNum x.1 + tlv.sizeofVarNum x.2.length + x.2.length } s x rfl h3
      (hok x (by simp))
    rw [Decoder.layout, List.foldlM_cons, g1, List.foldl_cons]
    exact ih _ _ (fun y hy => hok y (by simp [hy])) h2

theorem metaItems_ok (P : Port) (obj : detail.DataObj)
    (hct : P.nniDecode (P.nni obj.contentType) = some obj.contentType)
    (hctlt : obj.contentType < 2 ^ 8)
    (hfp : P.nniDecode (P.nni obj.freshnessPeriod) = some obj.freshnessPeriod)
    (hfplt : obj.freshnessPeriod < 2 ^ 32) :
    ∀ x ∈ metaItems P obj,
      (x.1 = TT.ContentType ∧ ∃ n, P.nniDecode x.2 = some n ∧ n < 2 ^ 8) ∨
      (x.1 = TT.FreshnessPeriod ∧ ∃ n, P.nniDecode x.2 = some n ∧ n < 2 ^ 32) ∨
      x.1 = TT.FinalBlockId := by
  intro x hx
  unfold metaItems at hx
  simp only [List.mem_append] at hx
  rcases hx with (hx | hx) | hx
  · split_ifs at hx
    · simp only [List.mem_singleton] at hx; subst hx
      exact Or.inl ⟨rfl, _, hct, hctlt⟩
    · simp at hx
  · split_ifs at hx
    · simp only [List.mem_singleton] at hx; subst hx
      exact Or.inr (Or.inl ⟨rfl, _, hfp, hfplt⟩)
    · simp at hx
  · split_ifs at hx
    · simp only [List.mem_singleton] at hx; subst hx
      exact Or.inr (Or.inr rfl)
    · simp at hx

theorem metaItems_small (P : Port) (obj : detail.DataObj)
    (hct : (P.nni obj.contentType).length < 2 ^ 32)
    (hfp : (P.nni obj.freshnessPeriod).length < 2 ^ 32)
    (hfb : (obj.name.get (-1)).tlv.length < 2 ^ 32) :
    ∀ x ∈ metaItems P obj, x.1 < 2 ^ 32 ∧ x.2.length < 2 ^ 32 := by
  intro x hx
  unfold metaItems at hx
  simp only [List.mem_append] at hx
  rcases hx with (hx | hx) | hx
  · split_ifs at hx
    · simp only [List.mem_singleton] at hx; subst hx
      exact ⟨(by decide : TT.ContentType < 2 ^ 32), hct⟩
    · simp at hx
  · split_ifs at hx
    · simp only [List.mem_singleton] at hx; subst hx
      exact ⟨(by decide : TT.FreshnessPeriod < 2 ^ 32), hfp⟩
    · simp at hx
  · split_ifs at hx
    · simp only [List.mem_singleton] at hx; subst hx
      exact ⟨(by decide : TT.FinalBlockId < 2 ^ 32), hfb⟩
    · simp at hx

/-- The elements of MetaInfo of `obj`, decoded one after another into a fresh Data that
has the name of `obj`, give the content type, freshness period and final-block flag of
`obj`. -/
theorem meta_foldl (P : Port) (obj : detail.DataObj) (content : Value)
    (hct : P.nniDecode (P.nni obj.contentType) = some obj.contentType)
    (hfp : P.nniDecode (P.nni obj.freshnessPeriod) = some obj.freshnessPeriod) :
    (metaItems P obj).foldl (applyMeta P) { name := obj.name, content := content }
      = { obj with content := content } := by
  have e1 : ¬ TT.FreshnessPeriod = TT.ContentType := by decide
  have e2 : ¬ TT.FinalBlockId = TT.ContentType := by decide
  have e3 : ¬ TT.FinalBlockId = TT.FreshnessPeriod := by decide
  unfold metaItems
  simp only [List.foldl_append]
  by_cases c1 : obj.contentType = 0 <;> by_cases c2 : obj.freshnessPeriod = 0 <;>
    by_cases c3 : obj.isFinalBlock = true <;>
    simp only [c1, c2, c3, if_true, if_false, ne_eq, not_true_eq_false, not_false_eq_true,
      List.foldl_cons, List.foldl_nil, applyMeta, e1, e2, e3, hct, hfp, Option.getD_some,
      Bool.false_eq_true, Component.size, decide_True, Bool.and_self]

end Data

namespace Data

theorem decodeElement_dataName (P : Port) (mem : Mem) (d : Decoder.Tlv) (s : detail.DataObj)
    (n : Name) (h1 : d.type = TT.Name) (hn : Name.decodeFrom mem d = some n) :
    EvDecoder.decodeElement (decodeDefs P) mem d s = some { s with name := n } := by
  simp only [decodeDefs, EvDecoder.decodeElement_cons, h1, if_true, hn]

theorem decodeElement_dataMeta (P : Port) (mem : Mem) (d : Decoder.Tlv) (s : detail.DataObj)
    (h1 : d.type = TT.MetaInfo) :
    EvDecoder.decodeElement (decodeDefs P) mem d s
      = EvDecoder.decode mem d [] (metaDefs P) s := by
  have e1 : ¬ TT.Name = TT.MetaInfo := by decide
  simp only [decodeDefs, EvDecoder.decodeElement_cons, h1, e1, if_false, if_true]

theorem decodeElement_dataContent (P : Port) (mem : Mem) (d : Decoder.Tlv)
    (s : detail.DataObj) (h1 : d.type = TT.Content) :
    EvDecoder.decodeElement (decodeDefs P) mem d s
      = some { s with content := ⟨mem.read d.value d.length⟩ } := by
  have e1 : ¬ TT.Name = TT.Content := by decide
  have e2 : ¬ TT.MetaInfo = TT.Content := by decide
  simp only [decodeDefs, EvDecoder.decodeElement_cons, h1, e1, e2, if_false, if_true]

/-- The MetaInfo element of `obj`, when it is on the wire, decoded into a fresh Data that
has the name of `obj`: content type, freshness period and final-block flag are those of
`obj`. -/
theorem foldlM_metaOpt (P : Port) (mem : Mem) (obj : detail.DataObj) (pos : Nat)
    (hmem : mem.read pos (tlvSeq (if metaItems P obj = [] then []
        else [(TT.MetaInfo, tlvSeq (metaItems P obj))])).length
      = tlvSeq (if metaItems P obj = [] then [] else [(TT.MetaInfo, tlvSeq (metaItems P obj))]))
    (hct : P.nniDecode (P.nni obj.contentType) = some obj.contentType)
    (hctlt : obj.contentType < 2 ^ 8)
    (hfp : P.nniDecode (P.nni obj.freshnessPeriod) = some obj.freshnessPeriod)
    (hfplt : obj.freshnessPeriod < 2 ^ 32)
    (hsmall : ∀ x ∈ metaItems P obj, x.1 < 2 ^ 32 ∧ x.2.length < 2 ^ 32) :
    (Decoder.layout pos (if metaItems P obj = [] then []
        else [(TT.MetaInfo, tlvSeq (metaItems P obj))])).foldlM
        (fun s d => EvDecoder.decodeElement (decodeDefs P) mem d s) { name := obj.name }
      = some { obj with content := ⟨[]⟩ } := by
  have hfold := meta_foldl P obj ⟨[]⟩ hct hfp
  by_cases hm : metaItems P obj = []
  · rw [hm] at hfold
    simp only [hm, if_true, Decoder.layout, List.foldlM_nil]
    rw [← hfold]
    rfl
  · simp only [hm, if_false] at hmem ⊢
    rw [tlvSeq_singleton] at hmem
    obtain ⟨_, _, hv⟩ := Mem.read_tlvBytes mem pos _ _ hmem
    have hch := Decoder.children_layout mem (metaItems P obj)
      ((tlvSeq (metaItems P obj)).length + 1)
      (pos + tlv.sizeofVarNum TT.MetaInfo + tlv.sizeofVarNum (tlvSeq (metaItems P obj)).length)
      (by have := tlvSeq_length_ge (metaItems P obj); omega) hsmall hv
    rw [Decoder.layout, Decoder.layout, List.foldlM_cons,
      decodeElement_dataMeta P mem _ _ rfl]
    simp only [List.foldlM_nil]
    unfold EvDecoder.decode
    rw [if_neg (by simp), EvDecoder.decodeChildren_eq]
    simp only
    rw [hch]
    simp only
    rw [foldlM_meta_apply P mem _ _ _ (metaItems_ok P obj hct hctlt hfp hfplt) hv, hfold]
    rfl

/-- The Content element of `obj`, when it is on the wire, decoded into a Data without
content: the content is that of `obj`. -/
theorem foldlM_contentOpt (P : Port) (mem : Mem) (obj : detail.DataObj) (pos : Nat)
    (hmem : mem.read pos (tlvSeq (if obj.content.bytes = [] then []
        else [(TT.Content, obj.content.bytes)])).length
      = tlvSeq (if obj.content.bytes = [] then [] else [(TT.Content, obj.content.bytes)])) :
    (Decoder.layout pos (if obj.content.bytes = [] then []
        else [(TT.Content, obj.content.bytes)])).foldlM
        (fun s d => EvDecoder.decodeElement (decodeDefs P) mem d s) { obj with content := ⟨[]⟩ }
      = some obj := by
  by_cases hc : obj.content.bytes = []
  · simp only [hc, if_true, Decoder.layout, List.foldlM_nil]
    cases obj with
    | mk name content fp ct fb =>
      cases content with
      | mk bytes =>
        simp only at hc
        subst hc
        rfl
  · simp only [hc, if_false] at hmem ⊢
    rw [tlvSeq_singleton] at hmem
    obtain ⟨_, _, hv⟩ := Mem.read_tlvBytes mem pos _ _ hmem
    rw [Decoder.layout, Decoder.layout, List.foldlM_cons,
      decodeElement_dataContent P mem _ _ rfl]
    simp only [List.foldlM_nil, hv]
    rfl

end Data

namespace Data

/-- Memory that holds the wire of `obj` is read as one TLV that decodes into a fresh Data
to `obj`. -/
theorem decodeFrom_wire (P : Port) (mem : Mem) (a end_ : Nat) (obj : detail.DataObj)
    (hmem : mem.read a (wire P obj).length = wire P obj)
    (hend : a + (wire P obj).length ≤ end_)
    (hval : (tlvSeq (dataItems P obj)).length < 2 ^ 32)
    (hcomps : ∀ c ∈ obj.name.comps, c.type < 2 ^ 32 ∧ c.value.length < 2 ^ 32)
    (hsmall : ∀ x ∈ metaItems P obj, x.1 < 2 ^ 32 ∧ x.2.length < 2 ^ 32)
    (hct : P.nniDecode (P.nni obj.contentType) = some obj.contentType)
    (hctlt : obj.contentType < 2 ^ 8)
    (hfp : P.nniDecode (P.nni obj.freshnessPeriod) = some obj.freshnessPeriod)
    (hfplt : obj.freshnessPeriod < 2 ^ 32) :
    ∃ input, Decoder.readTlv mem a end_ = some input ∧ input.tlv = a ∧
      input.size = (wire P obj).length ∧
      decodeFrom P mem {} input = some obj := by
  unfold wire at hmem hend
  have hr := Decoder.readTlv_bytes mem a end_ TT.Data (tlvSeq (dataItems P obj)) (by decide)
    hval hmem hend
  obtain ⟨_, _, hvmem⟩ := Mem.read_tlvBytes mem a TT.Data (tlvSeq (dataItems P obj)) hmem
  obtain ⟨base, hbase⟩ : ∃ base, base
      = a + tlv.sizeofVarNum TT.Data + tlv.sizeofVarNum (tlvSeq (dataItems P obj)).length :=
    ⟨_, rfl⟩
  rw [← hbase] at hvmem
  -- the three parts of the value
  have hsplit : dataItems P obj = (TT.Name, obj.name.value) ::
      ((if metaItems P obj = [] then [] else [(TT.MetaInfo, tlvSeq (metaItems P obj))]) ++
        (if obj.content.bytes = [] then [] else [(TT.Content, obj.content.bytes)])) := by
    unfold dataItems
    simp only [List.singleton_append, List.cons_append, List.nil_append, List.append_assoc]
  generalize hM : (if metaItems P obj = [] then []
      else [(TT.MetaInfo, tlvSeq (metaItems P obj))]) = mOpt at hsplit
  generalize hC : (if obj.content.bytes = [] then []
      else [(TT.Content, obj.content.bytes)]) = cOpt at hsplit
  have hlenAll : (tlvSeq (dataItems P obj)).length
      = tlv.sizeofVarNum TT.Name + tlv.sizeofVarNum obj.name.value.length
        + obj.name.value.length + (tlvSeq mOpt).length + (tlvSeq cOpt).length := by
    rw [hsplit, tlvSeq_cons, tlvSeq_append, List.length_append, List.length_append,
      tlvBytes_length]
    simp only
    omega
  have hnv : obj.name.value.length < 2 ^ 32 := by omega
  have hmM : mOpt = [] ∨ mOpt = [(TT.MetaInfo, tlvSeq (metaItems P obj))] := by
    rw [← hM]; split_ifs
    · exact Or.inl rfl
    · exact Or.inr rfl
  have hmC : cOpt = [] ∨ cOpt = [(TT.Content, obj.content.bytes)] := by
    rw [← hC]; split_ifs
    · exact Or.inl rfl
    · exact Or.inr rfl
  have hok : ∀ x ∈ dataItems P obj, x.1 < 2 ^ 32 ∧ x.2.length < 2 ^ 32 := by
    intro x hx
    rw [hsplit] at hx
    simp only [List.mem_cons, List.mem_append] at hx
    rcases hx with hx | hx | hx
    · subst hx; exact ⟨(by decide : TT.Name < 2 ^ 32), hnv⟩
    · rcases hmM with h | h
      · rw [h] at hx; simp at hx
      · rw [h, List.mem_singleton] at hx
        subst hx
        refine ⟨(by decide : TT.MetaInfo < 2 ^ 32), ?_⟩
        rw [h, tlvSeq_singleton, tlvBytes_length] at hlenAll
        simp only
        omega
    · rcases hmC with h | h
      · rw [h] at hx; simp at hx
      · rw [h, List.mem_singleton] at hx
        subst hx
        refine ⟨(by decide : TT.Content < 2 ^ 32), ?_⟩
        rw [h, tlvSeq_singleton, tlvBytes_length] at hlenAll
        simp only
        omega
  have hch := Decoder.children_layout mem (dataItems P obj)
    ((tlvSeq (dataItems P obj)).length + 1) base
    (by have := tlvSeq_length_ge (dataItems P obj); omega) hok hvmem
  have hvmem2 := hvmem
  rw [hsplit, tlvSeq_cons] at hvmem2
  obtain ⟨hmN, hmRest⟩ := Mem.read_append_split mem _ _ _ hvmem2
  obtain ⟨_, _, hmNv⟩ := Mem.read_tlvBytes mem _ TT.Name obj.name.value hmN
  rw [tlvBytes_length, tlvSeq_append] at hmRest
  obtain ⟨hmMeta, hmContent⟩ := Mem.read_append_split mem _ _ _ hmRest
  simp only at hmNv hmMeta hmContent
  obtain ⟨input, hinput⟩ : ∃ input : Decoder.Tlv, input =
    { type := TT.Data, length := (tlvSeq (dataItems P obj)).length,
      value := a + tlv.sizeofVarNum TT.Data
        + tlv.sizeofVarNum (tlvSeq (dataItems P obj)).length,
      tlv := a,
      size := tlv.sizeofVarNum TT.Data + tlv.sizeofVarNum (tlvSeq (dataItems P obj)).length
        + (tlvSeq (dataItems P obj)).length } := ⟨_, rfl⟩
  have hi1 : input.tlv = a := by rw [hinput]
  have hi2 : input.size = (tlvBytes TT.Data (tlvSeq (dataItems P obj))).length := by
    rw [hinput, tlvBytes_length]
  have hi3 : input.value = base := by rw [hinput, hbase]
  have hi4 : input.length = (tlvSeq (dataItems P obj)).length := by rw [hinput]
  have hi5 : input.type = TT.Data := by rw [hinput]
  rw [← hinput] at hr
  obtain ⟨dn, hdn⟩ : ∃ dn : Decoder.Tlv, dn =
    { type := TT.Name, length := obj.name.value.length,
      value := base + tlv.sizeofVarNum TT.Name + tlv.sizeofVarNum obj.name.value.length,
      tlv := base,
      size := tlv.sizeofVarNum TT.Name + tlv.sizeofVarNum obj.name.value.length
        + obj.name.value.length } := ⟨_, rfl⟩
  have hname : Name.decodeFrom mem dn = some ⟨obj.name.comps⟩ :=
    Name.decodeFrom_bytes mem dn obj.name.comps (by rw [hdn]) (by rw [hdn]; exact hmNv) hcomps
  have hdnt : dn.type = TT.Name := by rw [hdn]
  have hlay : Decoder.layout base (dataItems P obj)
      = dn :: (Decoder.layout (base
            + (tlv.sizeofVarNum TT.Name + tlv.sizeofVarNum obj.name.value.length
              + obj.name.value.length)) mOpt
          ++ Decoder.layout (base
            + (tlv.sizeofVarNum TT.Name + tlv.sizeofVarNum obj.name.value.length
              + obj.name.value.length) + (tlvSeq mOpt).length) cOpt) := by
    rw [hsplit, Decoder.layout, Decoder.layout_append, hdn]
  have k1 := foldlM_metaOpt P mem obj _ (by rw [hM]; exact hmMeta) hct hctlt hfp hfplt hsmall
  have k2 := foldlM_contentOpt P mem obj _ (by rw [hC]; exact hmContent)
  rw [hM] at k1
  rw [hC] at k2
  refine ⟨input, hr, hi1, hi2, ?_⟩
  unfold decodeFrom EvDecoder.decode
  rw [if_neg (by simp [hi5]), EvDecoder.decodeChildren_eq, hi3, hi4, hch]
  simp only
  rw [hlay, List.foldlM_cons, decodeElement_dataName P mem dn {} ⟨obj.name.comps⟩ hdnt hname]
  simp only [Option.bind_eq_bind, Option.some_bind, List.foldlM_append]
  rw [k1]
  simp only [Option.some_bind]
  exact k2

end Data

namespace Data

theorem last_tlv_le (n : Name) :
    (n.get (-1)).tlv.length = 2 ∨ (n.get (-1)).tlv.length ≤ n.value.length := by
  rcases List.eq_nil_or_concat n.comps with h | ⟨pre, c, h⟩
  · have hg : n.get (-1) = Component.falsy := by
      unfold Name.get Name.size
      rw [h]
      simp
    rw [hg]
    exact Or.inl (by simp [Component.falsy, Component.tlv, tlvBytes_length, tlv.sizeofVarNum])
  · rw [List.concat_eq_append] at h
    rw [Name.get_last n c pre h, Interest.name_eq_mk n _ h, Name.value_append,
      List.length_append]
    have hc : (Name.mk [c]).value = c.tlv := by simp [Name.value]
    rw [hc]
    exact Or.inr (by omega)

theorem dataItems_bounds (P : Port) (obj : detail.DataObj) :
    obj.name.value.length ≤ (tlvSeq (dataItems P obj)).length ∧
    (tlvSeq (metaItems P obj)).length ≤ (tlvSeq (dataItems P obj)).length ∧
    obj.content.bytes.length ≤ (tlvSeq (dataItems P obj)).length := by
  have hm0 : metaItems P obj = [] → (tlvSeq (metaItems P obj)).length = 0 := by
    intro h; rw [h]; rfl
  unfold dataItems
  simp only [tlvSeq_append, tlvSeq_singleton, List.length_append, tlvBytes_length]
  split_ifs with h1 h2 h2
  · simp only [tlvSeq_nil, List.length_nil, hm0 h1, h2]
    omega
  · simp only [tlvSeq_nil, tlvSeq_singleton, List.length_nil, hm0 h1, tlvBytes_length]
    omega
  · simp only [tlvSeq_nil, tlvSeq_singleton, List.length_nil, tlvBytes_length, h2]
    omega
  · simp only [tlvSeq_singleton, tlvBytes_length]
    omega

/-- Claim C24. Data round trip: for every Data (any name, content octets, 32-bit
freshnessPeriod, 8-bit contentType, isFinalBlock flag) and a sufficiently large buffer, the
octets that `Data::encodeTo` produces are read back as one TLV, and decoding it into a fresh
Data succeeds and yields the same name, content, freshnessPeriod, contentType and
isFinalBlock; this includes the cases where MetaInfo and Content are omitted from the wire
because all their fields are default or empty. -/
theorem data_round_trip (P : Port) (obj : detail.DataObj) (e : Encoder) (hv : e.Valid)
    (hctlt : obj.contentType < 2 ^ 8) (hfplt : obj.freshnessPeriod < 2 ^ 32)
    (hcomps : ∀ c ∈ obj.name.comps, c.type < 2 ^ 32 ∧ c.value.length < 2 ^ 32)
    (hctn : (P.nni obj.contentType).length < 2 ^ 32)
    (hct : P.nniDecode (P.nni obj.contentType) = some obj.contentType)
    (hfpn : (P.nni obj.freshnessPeriod).length < 2 ^ 32)
    (hfp : P.nniDecode (P.nni obj.freshnessPeriod) = some obj.freshnessPeriod)
    (hval : (tlvSeq (dataItems P obj)).length < 2 ^ 32)
    (hroom : (wire P obj).length ≤ e.m_pos - e.m_buf) :
    (encodeTo P obj e).output = wire P obj ++ e.output ∧
    (metaItems P obj = [] ↔
      obj.contentType = 0 ∧ obj.freshnessPeriod = 0 ∧ obj.isFinalBlock = false) ∧
    ∃ input,
      Decoder.readTlv (encodeTo P obj e).mem (encodeTo P obj e).m_pos (encodeTo P obj e).m_end
        = some input ∧
      decodeFrom P (encodeTo P obj e).mem {} input = some obj := by
  obtain ⟨b1, b2, b3⟩ := dataItems_bounds P obj
  have hfb : (obj.name.get (-1)).tlv.length < 2 ^ 32 := by
    rcases last_tlv_le obj.name with h | h
    · rw [h]; decide
    · omega
  have henc := data_encodeTo_prepended P obj e hv hctn hfpn (by omega) hfb (by omega) (by omega)
    (by omega) hroom
  rw [henc]
  refine ⟨Encoder.output_prepended e _ hv hroom, ?_, ?_⟩
  · unfold metaItems
    by_cases c1 : obj.contentType = 0 <;> by_cases c2 : obj.freshnessPeriod = 0 <;>
      cases c3 : obj.isFinalBlock <;> simp [c1, c2, c3]
  · have hread := Encoder.read_prepended e (wire P obj)
    have hpos : (e.prepended (wire P obj)).m_pos + (wire P obj).length = e.m_pos := by
      simp only [Encoder.prepended]
      omega
    have hme : (e.prepended (wire P obj)).m_end = e.m_end := rfl
    generalize (e.prepended (wire P obj)).mem = mem at hread ⊢
    generalize (e.prepended (wire P obj)).m_pos = a at hread hpos ⊢
    rw [hme]
    obtain ⟨hv1, hv2, hv3, hv4, hv5⟩ := hv
    obtain ⟨input, hr, _, _, hdec⟩ := decodeFrom_wire P mem a e.m_end obj hread (by omega)
      (by omega) hcomps (metaItems_small P obj hctn hfpn hfb) hct hctlt hfp hfplt
    exact ⟨input, hr, hdec⟩

/-- Witness of C24: the Data /A/1 with content C0 C1, freshness period 1000, content type 3
and the final-block flag, with the example port, into a 64-byte buffer. -/
theorem data_round_trip_witness :
    ∃ input,
      Decoder.readTlv
        (encodeTo examplePort
        { name := ⟨[⟨8, [0x41]⟩, ⟨8, [0x31]⟩]⟩, content := ⟨[0xC0, 0xC1]⟩,
          freshnessPeriod := 1000, contentType := 3, isFinalBlock := true }
        (Encoder.init (fun _ => 0) 0x1000 64)).mem
        (encodeTo examplePort
        { name := ⟨[⟨8, [0x41]⟩, ⟨8, [0x31]⟩]⟩, content := ⟨[0xC0, 0xC1]⟩,
          freshnessPeriod := 1000, contentType := 3, isFinalBlock := true }
        (Encoder.init (fun _ => 0) 0x1000 64)).m_pos
        (encodeTo examplePort
        { name := ⟨[⟨8, [0x41]⟩, ⟨8, [0x31]⟩]⟩, content := ⟨[0xC0, 0xC1]⟩,
          freshnessPeriod := 1000, contentType := 3, isFinalBlock := true }
        (Encoder.init (fun _ => 0) 0x1000 64)).m_end
        = some input ∧
      decodeFrom examplePort
        (encodeTo examplePort
        { name := ⟨[⟨8, [0x41]⟩, ⟨8, [0x31]⟩]⟩, content := ⟨[0xC0, 0xC1]⟩,
          freshnessPeriod := 1000, contentType := 3, isFinalBlock := true }
        (Encoder.init (fun _ => 0) 0x1000 64)).mem
        {} input
        = some
        { name := ⟨[⟨8, [0x41]⟩, ⟨8, [0x31]⟩]⟩, content := ⟨[0xC0, 0xC1]⟩,
          freshnessPeriod := 1000, contentType := 3, isFinalBlock := true } :=
  (data_round_trip examplePort
    { name := ⟨[⟨8, [0x41]⟩, ⟨8, [0x31]⟩]⟩, content := ⟨[0xC0, 0xC1]⟩,
          freshnessPeriod := 1000, contentType := 3, isFinalBlock := true }
    (Encoder.init (fun _ => 0) 0x1000 64)
    (by decide) (by decide) (by decide) (by decide) (by decide) (by decide) (by decide)
    (by decide) (by decide) (by decide)).2.2

end Data

/-! ## Rejection by the IV checker -/

namespace detail.IvHelper

/-- A helper that is ok and rejects an IV stays as it is. -/
theorem check_rejected_same (h : IvHelper) (mem : Mem) (iv size : Nat)
    (hok : h.m_ok = true) (hf : (h.check mem iv size).1 = false) :
    (h.check mem iv size).2 = h := by
  have hlt := readValue4_lt mem (iv + 8)
  unfold check at hf ⊢
  simp only at hf ⊢
  by_cases h1 : h.counter ≠ 0 ∧ h.random ≠ tlv.NNI8.readValue mem iv
  · rw [if_pos h1]
  · rw [if_neg h1] at hf ⊢
    by_cases h0 : h.counter = 0
    · simp only [h0, if_true] at hf ⊢
      rw [if_neg (by omega)] at hf
      rw [(advance_ok _ size (by simpa using hlt)).1] at hf
      simp only [hok] at hf
      exact absurd hf (by decide)
    · simp only [h0, if_false] at hf ⊢
      by_cases h2 : tlv.NNI4.readValue mem (iv + 8) < h.counter
      · rw [if_pos h2]
      · rw [if_neg h2] at hf
        rw [(advance_ok _ size (by simpa using hlt)).1] at hf
        simp only [hok] at hf
        exact absurd hf (by decide)

/-- Claim C31. IV rejection is atomic: for every decrypt-side helper that is not poisoned
(`m_ok` true) and every IV and size, if `check` returns false then `random`, `counter` and
`m_ok` are exactly what they were before the call. -/
theorem check_false_unchanged (h : IvHelper) (mem : Mem) (iv size : Nat)
    (hok : h.m_ok = true) (hf : (h.check mem iv size).1 = false) :
    (h.check mem iv size).2.random = h.random ∧
    (h.check mem iv size).2.counter = h.counter ∧
    (h.check mem iv size).2.m_ok = h.m_ok := by
  have hsame := check_rejected_same h mem iv size hok hf
  rw [hsame]
  exact ⟨rfl, rfl, rfl⟩

/-- Witness of C31: a helper with random 1 and counter 9 rejects the IV with counter 5. -/
theorem check_false_unchanged_witness :
    (IvHelper.check { random := 1, counter := 9 } exampleIvMem 1 20).1 = false ∧
    (IvHelper.check { random := 1, counter := 9 } exampleIvMem 1 20).2.random = 1 ∧
    (IvHelper.check { random := 1, counter := 9 } exampleIvMem 1 20).2.counter = 9 ∧
    (IvHelper.check { random := 1, counter := 9 } exampleIvMem 1 20).2.m_ok = true :=
  ⟨by decide,
    check_false_unchanged { random := 1, counter := 9 } exampleIvMem 1 20 rfl (by decide)⟩

end detail.IvHelper

namespace mbedtls.AesGcm

end mbedtls.AesGcm

/-! ## The KeyChain ID check of the command line programs -/

namespace cli_common

/-- The test of `checkKeyChainId` on one character is the character class `[a-z0-9]`. -/
theorem islower_or_isdigit (ch : Byte) :
    (islower ch || isdigit ch) = true
      ↔ (0x61 ≤ ch.val ∧ ch.val ≤ 0x7A) ∨ (0x30 ≤ ch.val ∧ ch.val ≤ 0x39) := by
  simp [islower, isdigit]

/-- The function `checkKeyChainId` returns exactly on the IDs that match `[a-z0-9]+`. -/
theorem checkKeyChainId_ok (id : List Byte) (h : MatchesId id) :
    checkKeyChainId id = Except.ok id := by
  obtain ⟨hne, hall⟩ := h
  have hall2 : id.all (fun ch => islower ch || isdigit ch) = true := by
    rw [List.all_eq_true]
    intro ch hch
    exact (islower_or_isdigit ch).2 (hall ch hch)
  have hemp : id.isEmpty = false := by
    cases id with
    | nil => exact absurd rfl hne
    | cons a t => rfl
  simp only [checkKeyChainId, hall2, hemp]
  rfl

/-- The function `checkKeyChainId` exits with status 1 on every other string. -/
theorem checkKeyChainId_exit (id : List Byte) (h : ¬ MatchesId id) :
    checkKeyChainId id = Except.error 1 := by
  by_cases hemp : id.isEmpty = true
  · simp only [checkKeyChainId, hemp]
    rfl
  · have hne : id ≠ [] := by
      intro h0
      rw [h0] at hemp
      exact hemp rfl
    have hall2 : id.all (fun ch => islower ch || isdigit ch) = false := by
      rw [Bool.eq_false_iff]
      intro hall
      apply h
      refine ⟨hne, ?_⟩
      intro ch hch
      rw [List.all_eq_true] at hall
      exact (islower_or_isdigit ch).1 (hall ch hch)
    simp only [checkKeyChainId, hall2]
    simp

/-- Claim C33. For every string `id`, `checkKeyChainId` returns `id` unchanged if and only
if `id` is non-empty and every character is a lower-case letter a-z or a digit 0-9 (it
matches `[a-z0-9]+`), and it returns nothing but `id`; on every other string it does not
return and ends the program by `exit(1)`, a failure status: so on the empty string and on
every string that holds an upper-case letter, an underscore, a dot or a slash. -/
theorem checkKeyChainId_iff (id : List Byte) :
    (checkKeyChainId id = Except.ok id ↔ MatchesId id) ∧
    (∀ r, checkKeyChainId id = Except.ok r → r = id) ∧
    (¬ MatchesId id → checkKeyChainId id = Except.error 1) ∧
    (id = [] → checkKeyChainId id = Except.error 1) ∧
    (∀ ch ∈ id, (0x41 ≤ ch.val ∧ ch.val ≤ 0x5A) ∨ ch = 0x5F ∨ ch = 0x2E ∨ ch = 0x2F →
      checkKeyChainId id = Except.error 1) := by
  refine ⟨⟨?_, checkKeyChainId_ok id⟩, ?_, checkKeyChainId_exit id, ?_, ?_⟩
  · intro h
    by_contra hn
    rw [checkKeyChainId_exit id hn] at h
    cases h
  · intro r h
    by_cases hm : MatchesId id
    · rw [checkKeyChainId_ok id hm] at h
      cases h
      rfl
    · rw [checkKeyChainId_exit id hm] at h
      cases h
  · intro h
    rw [h]
    rfl
  · intro ch hch hbad
    apply checkKeyChainId_exit
    intro hm
    have hc := hm.2 ch hch
    rcases hbad with h | h | h | h
    · omega
    · rw [h] at hc
      revert hc
      decide
    · rw [h] at hc
      revert hc
      decide
    · rw [h] at hc
      revert hc
      decide

/-- Witness of C33: the ID `a1` is returned, and the ID `a_` ends the program. -/
theorem checkKeyChainId_iff_witness :
    MatchesId [0x61, 0x31] ∧ checkKeyChainId [0x61, 0x31] = Except.ok [0x61, 0x31] ∧
    ¬ MatchesId [0x61, 0x5F] ∧ checkKeyChainId [0x61, 0x5F] = Except.error 1 :=
  ⟨by decide, (checkKeyChainId_iff [0x61, 0x31]).1.2 (by decide), by decide,
    (checkKeyChainId_iff [0x61, 0x5F]).2.2.1 (by decide)⟩

end cli_common

/-! ## The subcommands of `ndnph-keychain` -/

namespace keychain

open cli_common

/-- The subcommand `keygen` on an ID that does not match `[a-z0-9]+`: no call on the
KeyChain names a slot, and the subcommand exits with 1 unless the argument count is
wrong. -/
theorem keygen_bad_id (env : Env) (argv : List (List Byte))
    (h : ¬ MatchesId (argv.getD 2 [])) :
    (keygen env argv).accesses = [] ∧
    (argv.length = 4 → (keygen env argv).result = Except.error 1) := by
  unfold keygen
  rw [checkKeyChainId_exit _ h]
  by_cases ha : argv.length = 4 <;> simp [ha]

/-- The subcommand `certinfo` on an ID that does not match `[a-z0-9]+`. -/
theorem certinfo_bad_id (env : Env) (argv : List (List Byte))
    (h : ¬ MatchesId (argv.getD 2 [])) :
    (certinfo env argv).accesses = [] ∧
    (argv.length = 3 → (certinfo env argv).result = Except.error 1) := by
  unfold certinfo
  rw [checkKeyChainId_exit _ h]
  by_cases ha : argv.length = 3 <;> simp [ha]

/-- The subcommand `certexport` on an ID that does not match `[a-z0-9]+`. -/
theorem certexport_bad_id (env : Env) (argv : List (List Byte))
    (h : ¬ MatchesId (argv.getD 2 [])) :
    (certexport env argv).accesses = [] ∧
    (argv.length = 3 → (certexport env argv).result = Except.error 1) := by
  unfold certexport
  rw [checkKeyChainId_exit _ h]
  by_cases ha : argv.length = 3 <;> simp [ha]

/-- The subcommand `certsign` on an ID that does not match `[a-z0-9]+`. -/
theorem certsign_bad_id (env : Env) (argv : List (List Byte))
    (h : ¬ MatchesId (argv.getD 2 [])) :
    (certsign env argv).accesses = [] ∧
    (argv.length = 3 → (certsign env argv).result = Except.error 1) := by
  unfold certsign
  rw [checkKeyChainId_exit _ h]
  by_cases ha : argv.length = 3 <;> simp [ha]

/-- The subcommand `certimport` on any ID at all, once stdin holds a certificate: the
certificate store is asked to set the slot `ID_cert`, and the subcommand returns true
when the store does. -/
theorem certimport_any_id (env : Env) (prog cmd id : List Byte)
    (hin : env.inputCertificate true = true) :
    (certimport env [prog, cmd, id]).accesses = [Access.certWrite (id ++ certSuffix)] ∧
    (env.certsSet (id ++ certSuffix) = true →
      (certimport env [prog, cmd, id]).result = Except.ok true) := by
  unfold certimport
  by_cases hs : env.certsSet (id ++ certSuffix) = true <;> simp [hin, hs]

/-- Claim C34, the failing input. The command `ndnph-keychain certimport A1`, with a
certificate on stdin, has an ID that holds an upper-case letter, and it writes the
certificate slot `A1_cert` and ends with status 0; the same ID given to `certinfo` ends
the program with status 1 before any slot is named. -/
theorem certimport_unchecked_id :
    ¬ MatchesId [0x41, 0x31] ∧
    main exampleEnv [[0x6B], [0x63, 0x65, 0x72, 0x74, 0x69, 0x6D, 0x70, 0x6F, 0x72, 0x74],
        [0x41, 0x31]]
      = ([Access.certWrite [0x41, 0x31, 0x5F, 0x63, 0x65, 0x72, 0x74]], 0) ∧
    main exampleEnv [[0x6B], [0x63, 0x65, 0x72, 0x74, 0x69, 0x6E, 0x66, 0x6F], [0x41, 0x31]]
      = ([], 1) := by
  refine ⟨by decide, ?_, ?_⟩ <;> rfl

end keychain

/-! ## Bridge peering -/

namespace BasicBridgeTransport

/-- The method `begin` keeps peering symmetric. -/
theorem begin_symmetric (s : Peers) (t p : Nat) (ht : t ≠ 0) (hp : p ≠ 0)
    (hs : Symmetric s) : Symmetric (begin s t p).2 := by
  unfold begin
  split_ifs with h
  · exact hs
  · push_neg at h
    obtain ⟨h1, h2⟩ := h
    intro a b ha hb
    have hab := hs a b ha hb
    have hat := hs a t ha ht
    have hap := hs a p ha hp
    have hbt := hs b t hb ht
    have hbp := hs b p hb hp
    simp only [Peers.set]
    split_ifs <;> (try subst_vars) <;> omega

/-- The method `end` keeps peering symmetric. -/
theorem end_symmetric (s : Peers) (t : Nat) (ht : t ≠ 0)
    (hs : Symmetric s) : Symmetric (end_ s t).2 := by
  unfold end_
  split_ifs with h
  · exact hs
  · push_neg at h
    obtain ⟨h1, h2⟩ := h
    intro a b ha hb
    have hab := hs a b ha hb
    have hat := hs a t ha ht
    have hap := hs a (s t) ha h1
    have hbt := hs b t hb ht
    have hbp := hs b (s t) hb h1
    simp only [Peers.set]
    split_ifs <;> (try subst_vars) <;> omega

/-- Peering is symmetric after every sequence of calls on existing transports, from any
symmetric start. -/
theorem runCalls_symmetric (calls : List Call) :
    ∀ s : Peers, Symmetric s → (∀ c ∈ calls, c.Valid) → Symmetric (runCalls s calls) := by
  induction calls with
  | nil => intro s hs _; exact hs
  | cons c cs ih =>
    intro s hs hv
    have hc := hv c (List.mem_cons_self _ _)
    have hcs : ∀ c2 ∈ cs, c2.Valid := fun c2 h2 => hv c2 (List.mem_cons_of_mem _ h2)
    show Symmetric (runCalls (Call.run s c) cs)
    apply ih _ _ hcs
    cases c with
    | begin t p => exact begin_symmetric s t p hc.1 hc.2 hs
    | end_ t => exact end_symmetric s t hc hs

/-- The transports as constructed are symmetric: none has a peer. -/
theorem init_symmetric : Symmetric Peers.init := by
  intro a b ha hb
  simp only [Peers.init]
  omega

/-- The method `begin` in any state: true exactly when both transports are unconnected, and
then each is the peer of the other and no other transport changes; otherwise false and no
change. -/
theorem begin_spec (s : Peers) (t p : Nat) :
    ((begin s t p).1 = true ↔ s t = 0 ∧ s p = 0) ∧
    ((begin s t p).1 = true →
      (begin s t p).2 t = p ∧ (begin s t p).2 p = t ∧
      ∀ x, x ≠ t → x ≠ p → (begin s t p).2 x = s x) ∧
    ((begin s t p).1 = false → (begin s t p).2 = s) := by
  unfold begin
  split_ifs with h
  · refine ⟨⟨fun h0 => absurd h0 (by simp), fun h0 => ?_⟩, fun h0 => absurd h0 (by simp),
      fun _ => rfl⟩
    omega
  · push_neg at h
    refine ⟨⟨fun _ => h, fun _ => rfl⟩, fun _ => ⟨?_, ?_, ?_⟩, fun h0 => absurd h0 (by simp)⟩
    · simp only [Peers.set]
      split_ifs with e
      · exact e
      · rfl
    · simp only [Peers.set, if_true]
    · intro x h1 h2
      simp only [Peers.set, if_neg h1, if_neg h2]

/-- The method `end` in a symmetric state: true exactly when the transport is connected,
and then it and its former peer are unconnected and no other transport changes; otherwise
false and no change. -/
theorem end_spec (s : Peers) (t : Nat) (ht : t ≠ 0) (hs : Symmetric s) :
    ((end_ s t).1 = true ↔ s t ≠ 0) ∧
    ((end_ s t).1 = true →
      (end_ s t).2 t = 0 ∧ (end_ s t).2 (s t) = 0 ∧
      ∀ x, x ≠ t → x ≠ s t → (end_ s t).2 x = s x) ∧
    ((end_ s t).1 = false → (end_ s t).2 = s) := by
  unfold end_
  split_ifs with h
  · refine ⟨⟨fun h0 => absurd h0 (by simp), fun h0 => ?_⟩, fun h0 => absurd h0 (by simp),
      fun _ => rfl⟩
    rcases h with h | h
    · exact absurd h h0
    · exact absurd ((hs t (s t) ht h0).1 rfl) h
  · push_neg at h
    refine ⟨⟨fun _ => h.1, fun _ => rfl⟩, fun _ => ⟨?_, ?_, ?_⟩, fun h0 => absurd h0 (by simp)⟩
    · simp only [Peers.set, if_true]
    · simp only [Peers.set]
      split_ifs <;> rfl
    · intro x h1 h2
      simp only [Peers.set, if_neg h1, if_neg h2]

/-- Claim C35. Bridge peering is a symmetric relation in every reachable state: starting
from transports that are all unconnected, after any sequence of `begin(peer)` and `end()`
calls on existing transports, a's peer is b if and only if b's peer is a; `begin` returns
true exactly when both transports were unconnected and then links both, otherwise returns
false and changes nothing; `end` returns true exactly when the transport is connected and
then unlinks both sides, otherwise returns false and changes nothing. -/
theorem peering_symmetric (calls : List Call) (hvalid : ∀ c ∈ calls, c.Valid) :
    (∀ a b, a ≠ 0 → b ≠ 0 →
      (runCalls Peers.init calls a = b ↔ runCalls Peers.init calls b = a)) ∧
    (∀ t p, t ≠ 0 → p ≠ 0 →
      ((begin (runCalls Peers.init calls) t p).1 = true
        ↔ runCalls Peers.init calls t = 0 ∧ runCalls Peers.init calls p = 0) ∧
      ((begin (runCalls Peers.init calls) t p).1 = true →
        (begin (runCalls Peers.init calls) t p).2 t = p ∧
        (begin (runCalls Peers.init calls) t p).2 p = t ∧
        ∀ x, x ≠ t → x ≠ p →
          (begin (runCalls Peers.init calls) t p).2 x = runCalls Peers.init calls x) ∧
      ((begin (runCalls Peers.init calls) t p).1 = false →
        (begin (runCalls Peers.init calls) t p).2 = runCalls Peers.init calls)) ∧
    (∀ t, t ≠ 0 →
      ((end_ (runCalls Peers.init calls) t).1 = true ↔ runCalls Peers.init calls t ≠ 0) ∧
      ((end_ (runCalls Peers.init calls) t).1 = true →
        (end_ (runCalls Peers.init calls) t).2 t = 0 ∧
        (end_ (runCalls Peers.init calls) t).2 (runCalls Peers.init calls t) = 0 ∧
        ∀ x, x ≠ t → x ≠ runCalls Peers.init calls t →
          (end_ (runCalls Peers.init calls) t).2 x = runCalls Peers.init calls x) ∧
      ((end_ (runCalls Peers.init calls) t).1 = false →
        (end_ (runCalls Peers.init calls) t).2 = runCalls Peers.init calls)) :=
  ⟨runCalls_symmetric calls Peers.init init_symmetric hvalid,
    fun t p _ _ => begin_spec (runCalls Peers.init calls) t p,
    fun t ht => end_spec (runCalls Peers.init calls) t ht
      (runCalls_symmetric calls Peers.init init_symmetric hvalid)⟩

/-- Witness of C35: transports at 1, 2 and 3; 1 connects to 2, 2 disconnects, 2 connects to
3, and 1 fails to connect to 3. Then 3 is connected, so its `end` returns true. -/
theorem peering_symmetric_witness :
    (∀ c ∈ [Call.begin 1 2, Call.end_ 2, Call.begin 2 3, Call.begin 1 3], c.Valid) ∧
    (end_ (runCalls Peers.init [Call.begin 1 2, Call.end_ 2, Call.begin 2 3, Call.begin 1 3])
      3).1 = true :=
  ⟨by simp [Call.Valid],
    ((peering_symmetric [Call.begin 1 2, Call.end_ 2, Call.begin 2 3, Call.begin 1 3]
      (by simp [Call.Valid])).2.2 3 (by decide)).1.2 (by decide)⟩

end BasicBridgeTransport

/-! ## Signing an Interest that was not parameterized -/

namespace Interest

/-- The signed portion when the AppParameters is the empty `tlv::Value()`: the octets 24 00
and the ISigInfo TLV. -/
theorem signedPortion_empty (P : Port) (sigInfo : SigInfo) :
    detail.SignedInterestRef.signedPortion P ⟨[]⟩ sigInfo
      = [0x24, 0x00] ++ tlvBytes 0x2C (P.sigInfoValue sigInfo) := by
  have h : tlvBytes TT.AppParameters [] = [0x24, 0x00] := by decide
  simp only [detail.SignedInterestRef.signedPortion, h, TT.ISigInfo]

/-- The parameters when the AppParameters is the empty `tlv::Value()`. -/
theorem paramsBytes_empty (P : Port) (sigInfo : SigInfo) (sig : List Byte) :
    detail.SignedInterestRef.paramsBytes P ⟨[]⟩ sigInfo sig
      = [0x24, 0x00] ++ tlvBytes 0x2C (P.sigInfoValue sigInfo) ++ tlvBytes 0x2E sig := by
  simp only [detail.SignedInterestRef.paramsBytes, signedPortion_empty, TT.ISigValue]

/-- Claim C36. For every Interest and key, `interest.sign(key)` called directly (without
`parameterize`) still emits an AppParameters TLV, with zero length (octets 24 00),
immediately before ISigInfo; that empty TLV is part of the signed portion, the second chunk
given to `key.sign`, and of the octets hashed into the parameters digest component. The
encoder is live with room, the name obeys the digest position rule, the key signs within
`getMaxSigLen()` and the hash gives 32 octets. -/
theorem sign_empty_appParameters (P : Port) (obj : detail.InterestObj) (key : PrivateKey)
    (sigInfo : SigInfo) (e : Encoder) (sn sig digest : List Byte)
    (hv : e.Valid) (hname : detail.SignedInterestRef.signedName obj = some sn)
    (hsign : key.sign [sn, [0x24, 0x00] ++
      tlvBytes 0x2C (P.sigInfoValue (key.updateSigInfo sigInfo))] = some sig)
    (hsl : sig.length ≤ key.getMaxSigLen)
    (hsha : P.sha256 ([0x24, 0x00] ++
      tlvBytes 0x2C (P.sigInfoValue (key.updateSigInfo sigInfo)) ++ tlvBytes 0x2E sig)
      = some digest)
    (hd : digest.length = NDNPH_SHA256_LEN)
    (hnni : (P.nni obj.lifetime).length < 2 ^ 32)
    (hsi : (P.sigInfoValue (key.updateSigInfo sigInfo)).length < 2 ^ 32)
    (hval : (tlvBytes 0x07 (Name.mk
        (detail.ParameterizedInterestRef.substDigest digest obj.name.comps)).value ++
      Interest.middleBytes P obj ++
      ([0x24, 0x00] ++ tlvBytes 0x2C (P.sigInfoValue (key.updateSigInfo sigInfo)) ++
        tlvBytes 0x2E sig)).length < 2 ^ 32)
    (hroom1 : key.getMaxSigLen +
      ([0x24, 0x00] ++ tlvBytes 0x2C (P.sigInfoValue (key.updateSigInfo sigInfo))).length
        ≤ e.m_pos - e.m_buf)
    (hroom2 : (tlvBytes 0x05
      (tlvBytes 0x07 (Name.mk
          (detail.ParameterizedInterestRef.substDigest digest obj.name.comps)).value ++
        Interest.middleBytes P obj ++
        ([0x24, 0x00] ++ tlvBytes 0x2C (P.sigInfoValue (key.updateSigInfo sigInfo)) ++
          tlvBytes 0x2E sig))).length ≤ e.m_pos - e.m_buf) :
    (sign P obj key sigInfo e).output
      = tlvBytes 0x05
          (tlvBytes 0x07 (Name.mk
              (detail.ParameterizedInterestRef.substDigest digest obj.name.comps)).value ++
            Interest.middleBytes P obj ++
            ([0x24, 0x00] ++ tlvBytes 0x2C (P.sigInfoValue (key.updateSigInfo sigInfo)) ++
              tlvBytes 0x2E sig)) ++ e.output ∧
    (sign P obj key sigInfo e).operatorNot = false := by
  have hw : detail.ParameterizedInterestRef.wire P obj digest
      (detail.SignedInterestRef.paramsBytes P ⟨[]⟩ (key.updateSigInfo sigInfo) sig)
      = tlvBytes 0x05
          (tlvBytes 0x07 (Name.mk
              (detail.ParameterizedInterestRef.substDigest digest obj.name.comps)).value ++
            Interest.middleBytes P obj ++
            ([0x24, 0x00] ++ tlvBytes 0x2C (P.sigInfoValue (key.updateSigInfo sigInfo)) ++
              tlvBytes 0x2E sig)) := by
    simp only [detail.ParameterizedInterestRef.wire, paramsBytes_empty, TT.Interest, TT.Name]
  obtain ⟨mem2, hmem, henc⟩ := detail.SignedInterestRef.signed_encodeTo_at P obj ⟨[]⟩ key
    sigInfo e sn sig digest hv hname (by rw [signedPortion_empty]; exact hsign) hsl
    (by rw [paramsBytes_empty]; exact hsha) hd hnni hsi
    (by rw [paramsBytes_empty]; exact hval)
    (by rw [signedPortion_empty]; exact hroom1)
    (by rw [hw]; exact hroom2)
  rw [hw] at henc
  have hv2 : ({ e with mem := mem2 } : Encoder).Valid := hv
  have hvp := Encoder.prepended_valid _ _ hv2 hroom2
  have hv0 := hv
  unfold Encoder.Valid at hv0 hvp
  refine ⟨?_, ?_⟩
  · unfold sign
    rw [henc, Encoder.output_prepended _ _ hv2 hroom2, Encoder.output_congr e mem2 hv hmem]
  · unfold sign
    rw [henc]
    simp only [Encoder.operatorNot, beq_eq_false_iff_ne, ne_eq]
    simp only [Encoder.prepended] at hvp ⊢
    omega

/-- Witness of C36: name /A/<placeholder>, a port and a key that signs only the chunks
08 01 41 and 24 00 2C 03 1B 01 00, with the 3 octets 01 02 03, into a 256-byte buffer. -/
theorem sign_empty_appParameters_witness :
    (sign examplePort { name := ⟨[⟨8, [0x41]⟩, ⟨2, []⟩]⟩, nonce := 0x11223344 }
      { updateSigInfo := id, getMaxSigLen := 8,
        sign := fun chunks =>
          if chunks = [[8, 1, 0x41], [0x24, 0x00, 0x2C, 0x03, 0x1B, 0x01, 0x00]]
          then some [1, 2, 3] else none } {}
      (Encoder.init (fun _ => 0) 0x1000 256)).output
      = tlvBytes 0x05
          (tlvBytes 0x07 (Name.mk (detail.ParameterizedInterestRef.substDigest
              (List.replicate 32 0xB2) [⟨8, [0x41]⟩, ⟨2, []⟩])).value ++
            Interest.middleBytes examplePort
              { name := ⟨[⟨8, [0x41]⟩, ⟨2, []⟩]⟩, nonce := 0x11223344 } ++
            ([0x24, 0x00] ++ tlvBytes 0x2C (examplePort.sigInfoValue {}) ++
              tlvBytes 0x2E [1, 2, 3])) ++
        (Encoder.init (fun _ => 0) 0x1000 256).output :=
  (sign_empty_appParameters examplePort
    { name := ⟨[⟨8, [0x41]⟩, ⟨2, []⟩]⟩, nonce := 0x11223344 }
    { updateSigInfo := id, getMaxSigLen := 8,
      sign := fun chunks =>
        if chunks = [[8, 1, 0x41], [0x24, 0x00, 0x2C, 0x03, 0x1B, 0x01, 0x00]]
        then some [1, 2, 3] else none } {}
    (Encoder.init (fun _ => 0) 0x1000 256) [8, 1, 0x41] [1, 2, 3] (List.replicate 32 0xB2)
    (by decide) (by decide) (by decide) (by decide) (by decide) (by decide) (by decide)
    (by decide) (by decide) (by decide) (by decide)).1

end Interest

end ndnph
